import Mathlib

/-! Smart pointers, big integers and strings of the MIPT OOP projects

A shallow embedding of `smart_pointers.h` (namespace `SmartPointers`),
`biginteger.h` (namespace `BigArith`) and `String::find` of `string.h`
(namespace `CppString`).  The definitions of the three parts come first, the
theorems about them after.

Reference-counted handles: `BaseControlBlock`, `ControlBlockRegular`,
`ControlBlockMakeShared`, `SharedPtr<T>` and `WeakPtr<T>`.

* A pointer is `Option`: `none` is `nullptr`.  Control blocks live in a heap
  (`Heap.blocks`), the address of a block is its index, and an allocation
  appends a block, so that a new block never aliases an older one.
* `size_t` counters are natural numbers below `2^64`; `++` and `--` wrap
  (`sizeInc`, `sizeDec`).
* The virtual calls `useDeleter()` and `destroy()` and what their bodies do
  (`del(ptr)`, `allocator_traits::destroy`, `allocator_traits::deallocate`)
  are appended to `Heap.log`, in the order in which the code performs them.
* Dereferencing a null pointer, or a control-block address that was never
  allocated, has no defined result: such an operation returns `none`.
* The payload type `T` is `Nat`, built from one constructor argument; deleters
  and allocators are identified by a number.
* There are two levels of detail.  In `Heap`, `step` and `run` a deleter and a
  payload destructor run no handle operation, and `swap` exchanges two handles
  of one class.  `State`, `call` and `execInstr` follow deleters that execute
  statements over the handle objects, payloads that own handle objects (the
  destructor of the payload destroys them), the release of the storage of a
  block and every access to it afterwards, and `swap` between a `SharedPtr`
  and a `WeakPtr`.
* Assignment and `reset` are the steps the source writes: a temporary is
  constructed, `swap` exchanges it with the object, and the temporary is
  destroyed at the end of the statement.
* Where a claim is about a payload constructor that throws, the constructor is
  a parameter `construct : Nat → Option Nat`, with `none` for a throw.

Big integers: `BigInteger` and `Rational`.

* `data_` is the list of limbs, least significant first; a `long long` is an
  integer in `[-2^63, 2^63)`, `/` and `%` on it truncate (`Int.tdiv`,
  `Int.tmod`), and `number *= -1` at the least `long long` wraps
  (`wrapLongLong`).
* `+=`, `-=` and `/=` call one another and themselves; each embedding takes a
  bound on the depth of calls and returns `none` when the bound is used up.
  The theorems give a bound that suffices.
* A `std::string` is a list of characters; `std::stoi` is modelled on strings
  of decimal digits.
-/

namespace SmartPointers

/-! ## Machine integers -/

/-- The number of values of a 64-bit `size_t`. -/
def SIZE_MOD : Nat := 18446744073709551616

/-- The value of a `size_t` after `++c`. -/
def sizeInc (c : Nat) : Nat := (c + 1) % SIZE_MOD

/-- The value of a `size_t` after `--c`. -/
def sizeDec (c : Nat) : Nat := (c + SIZE_MOD - 1) % SIZE_MOD

/-! ## Control blocks -/

/-- A non-null `T*`: an object the caller allocated, or the member `ptr` of type
`T` stored inline in the `ControlBlockMakeShared` at address `block`. -/
inductive Loc where
  | raw (a : Nat)
  | inlinePayload (block : Nat)
deriving DecidableEq

/-- A `T*`; `none` is `nullptr`. -/
abbrev Ptr := Option Loc

/-- The members a derived control block adds to `BaseControlBlock`:
`ControlBlockRegular` has `T* ptr; Alloc alloc; Deleter del`,
`ControlBlockMakeShared` has `Alloc alloc; T ptr`. -/
inductive Derived where
  | ControlBlockRegular (ptr : Ptr) (alloc : Nat) (del : Nat)
  | ControlBlockMakeShared (alloc : Nat) (ptr : Nat)
deriving DecidableEq

/-- A control block: the two counters of `BaseControlBlock` and the members
of the derived class it was constructed as. -/
structure BaseControlBlock where
  countShared : Nat
  countWeak : Nat
  derived : Derived
deriving DecidableEq

/-- What the code does to the world outside the counters. -/
inductive Event where
  | allocate (alloc block : Nat)
  | useDeleter (block : Nat)
  | destroy (block : Nat)
  | del (d : Nat) (p : Ptr)
  | destroyPayload (alloc block : Nat)
  | deallocate (alloc block : Nat)
deriving DecidableEq

/-- The control blocks allocated so far and the trace of effects. -/
structure Heap where
  blocks : List BaseControlBlock
  log : List Event
deriving DecidableEq

/-- The heap before anything was allocated. -/
def Heap.init : Heap := { blocks := [], log := [] }

/-- The constructor `ControlBlockRegular(T* p, Deleter d, Alloc al)`. -/
def ControlBlockRegular (p : Ptr) (d al : Nat) : BaseControlBlock :=
  { countShared := 1, countWeak := 0, derived := Derived.ControlBlockRegular p al d }

/-- The constructor `ControlBlockMakeShared(Alloc al, Args&&... args)`. -/
def ControlBlockMakeShared (al args : Nat) : BaseControlBlock :=
  { countShared := 1, countWeak := 0, derived := Derived.ControlBlockMakeShared al args }

/-- The body of the virtual `useDeleter()` of the block at address `b`. -/
def BaseControlBlock.useDeleter (blk : BaseControlBlock) (b : Nat) : List Event :=
  match blk.derived with
  | Derived.ControlBlockRegular p _ d => [Event.del d p]
  | Derived.ControlBlockMakeShared al _ => [Event.destroyPayload al b]

/-- The body of the virtual `destroy()` of the block at address `b`. -/
def BaseControlBlock.destroy (blk : BaseControlBlock) (b : Nat) : List Event :=
  match blk.derived with
  | Derived.ControlBlockRegular _ al _ => [Event.deallocate al b]
  | Derived.ControlBlockMakeShared al _ => [Event.deallocate al b]

/-- The statement `++data->countShared`. -/
def Heap.incShared (h : Heap) (b : Nat) : Option Heap :=
  match h.blocks[b]? with
  | none => none
  | some blk =>
    some { h with blocks := h.blocks.set b { blk with countShared := sizeInc blk.countShared } }

/-- The statement `--data->countShared`. -/
def Heap.decShared (h : Heap) (b : Nat) : Option Heap :=
  match h.blocks[b]? with
  | none => none
  | some blk =>
    some { h with blocks := h.blocks.set b { blk with countShared := sizeDec blk.countShared } }

/-- The statement `++data->countWeak`. -/
def Heap.incWeak (h : Heap) (b : Nat) : Option Heap :=
  match h.blocks[b]? with
  | none => none
  | some blk =>
    some { h with blocks := h.blocks.set b { blk with countWeak := sizeInc blk.countWeak } }

/-- The statement `--data->countWeak`. -/
def Heap.decWeak (h : Heap) (b : Nat) : Option Heap :=
  match h.blocks[b]? with
  | none => none
  | some blk =>
    some { h with blocks := h.blocks.set b { blk with countWeak := sizeDec blk.countWeak } }

/-- The call `data->useDeleter()`, with a deleter and a payload destructor that
run no handle operation: the call and what its body does are recorded.  A
payload that owns handle objects is followed by `call`. -/
def Heap.useDeleter (h : Heap) (b : Nat) : Option Heap :=
  match h.blocks[b]? with
  | none => none
  | some blk => some { h with log := h.log ++ Event.useDeleter b :: blk.useDeleter b }

/-- The call `data->destroy()`: the call and what its body does are recorded,
and the block stays in the heap.  `State.destroy` marks the storage as released
and records the counters at the call. -/
def Heap.destroy (h : Heap) (b : Nat) : Option Heap :=
  match h.blocks[b]? with
  | none => none
  | some blk => some { h with log := h.log ++ Event.destroy b :: blk.destroy b }

/-- The value read by `data->countShared`. -/
def Heap.countShared (h : Heap) (b : Nat) : Option Nat :=
  (h.blocks[b]?).map BaseControlBlock.countShared

/-- The value read by `data->countWeak`. -/
def Heap.countWeak (h : Heap) (b : Nat) : Option Nat :=
  (h.blocks[b]?).map BaseControlBlock.countWeak

/-- How often `useDeleter()` was called on the block at `b`. -/
def Heap.useDeleterCalls (h : Heap) (b : Nat) : Nat := h.log.count (Event.useDeleter b)

/-- How often `destroy()` was called on the block at `b`. -/
def Heap.destroyCalls (h : Heap) (b : Nat) : Nat := h.log.count (Event.destroy b)

/-! ## SharedPtr -/

/-- The members `BaseControlBlock* data; T* ptr` of `SharedPtr<T>`. -/
structure SharedPtr where
  data : Option Nat
  ptr : Ptr
deriving DecidableEq

/-- The members `BaseControlBlock* data; T* ptr` of `WeakPtr<T>`. -/
structure WeakPtr where
  data : Option Nat
  ptr : Ptr
deriving DecidableEq

/-- The deleter `std::default_delete<U>()`. -/
def default_delete : Nat := 0

/-- The allocator `std::allocator<U>()`. -/
def std_allocator : Nat := 0

/-- The constructor `SharedPtr()`. -/
def SharedPtr.empty : SharedPtr := { data := none, ptr := none }

/-- The constructor `SharedPtr(U* p, Deleter d, Alloc alloc)`: `data` is the
block the rebound allocator hands out, `ptr` is `p`, and the body constructs a
`ControlBlockRegular` from `ptr`, `d`, `alloc` in that block. -/
def SharedPtr.fromRaw (p : Ptr) (d alloc : Nat) (h : Heap) : SharedPtr × Heap :=
  let self : SharedPtr := { data := some h.blocks.length, ptr := p }
  (self, { blocks := h.blocks ++ [ControlBlockRegular self.ptr d alloc],
           log := h.log ++ [Event.allocate alloc h.blocks.length] })

/-- The constructor `SharedPtr(U* p)`. -/
def SharedPtr.fromRaw1 (p : Ptr) (h : Heap) : SharedPtr × Heap :=
  SharedPtr.fromRaw p default_delete std_allocator h

/-- The constructor `SharedPtr(U* p, Deleter d)`. -/
def SharedPtr.fromRaw2 (p : Ptr) (d : Nat) (h : Heap) : SharedPtr × Heap :=
  SharedPtr.fromRaw p d std_allocator h

/-- The copy constructors `SharedPtr(const SharedPtr& other)` and
`SharedPtr(const SharedPtr<U>& other)`. -/
def SharedPtr.copy (other : SharedPtr) (h : Heap) : Option (SharedPtr × Heap) :=
  let self : SharedPtr := { data := other.data, ptr := other.ptr }
  match self.data with
  | none => some (self, h)
  | some b =>
    match h.incShared b with
    | none => none
    | some h1 => some (self, h1)

/-- The move constructors `SharedPtr(SharedPtr&& other)` and
`SharedPtr(SharedPtr<U>&& other)`: the new handle and `other` afterwards. -/
def SharedPtr.move (other : SharedPtr) : SharedPtr × SharedPtr :=
  let self : SharedPtr := { data := other.data, ptr := other.ptr }
  let other1 : SharedPtr := { other with ptr := none }
  let other2 : SharedPtr := { other1 with data := none }
  (self, other2)

/-- The destructor `~SharedPtr()`, for a payload that owns no handle object, so
that `useDeleter()` leaves the counters as they are.  `call` is the destructor
for payloads that own handle objects. -/
def SharedPtr.destructor (self : SharedPtr) (h : Heap) : Option Heap :=
  match self.data with
  | none => some h
  | some b =>
    match h.decShared b with
    | none => none
    | some h1 =>
      match h1.countShared b with
      | none => none
      | some c =>
        if c > 0 then some h1
        else
          match h1.useDeleter b with
          | none => none
          | some h2 =>
            match h2.countWeak b with
            | none => none
            | some cw => if cw = 0 then h2.destroy b else some h2

/-- The member `use_count()` of `SharedPtr`. -/
def SharedPtr.use_count (self : SharedPtr) (h : Heap) : Option Nat :=
  match self.data with
  | none => some 0
  | some b => h.countShared b

/-- The member `get()` of `SharedPtr`. -/
def SharedPtr.get (self : SharedPtr) : Ptr := self.ptr

/-- The member `operator*()` of `SharedPtr`: the object `*ptr`, and no result
when `ptr` is null. -/
def SharedPtr.deref (self : SharedPtr) : Option Loc := self.ptr

/-- The member `swap(U&& other)`: `this` and `other` afterwards. -/
def SharedPtr.swap (self other : SharedPtr) : SharedPtr × SharedPtr :=
  ({ data := other.data, ptr := other.ptr }, { data := self.data, ptr := self.ptr })

/-- The private constructor `SharedPtr(Alloc alloc, Args&&... args)`. -/
def SharedPtr.allocateCtor (alloc args : Nat) (h : Heap) : SharedPtr × Heap :=
  let pAllocMakeShared := h.blocks.length
  let h1 : Heap := { blocks := h.blocks ++ [ControlBlockMakeShared alloc args],
                     log := h.log ++ [Event.allocate alloc pAllocMakeShared] }
  ({ data := some pAllocMakeShared, ptr := none }, h1)

/-- The private constructor `SharedPtr(T* p, BaseControlBlock* counter)`. -/
def SharedPtr.fromBlock (p : Ptr) (counter : Option Nat) (h : Heap) :
    Option (SharedPtr × Heap) :=
  match counter with
  | none => none
  | some b =>
    match h.incShared b with
    | none => none
    | some h1 => some ({ data := counter, ptr := p }, h1)

/-- The function `makeShared<T>(args...)`. -/
def makeShared (args : Nat) (h : Heap) : SharedPtr × Heap :=
  SharedPtr.allocateCtor std_allocator args h

/-- The function `allocateShared<T>(alloc, args...)`. -/
def allocateShared (alloc args : Nat) (h : Heap) : SharedPtr × Heap :=
  SharedPtr.allocateCtor alloc args h

/-- The value of the `T` stored at a location: the inline member of a
`ControlBlockMakeShared`; objects outside the control blocks are not part of
the heap. -/
def Heap.load (h : Heap) (l : Loc) : Option Nat :=
  match l with
  | Loc.raw _ => none
  | Loc.inlinePayload b =>
    match h.blocks[b]? with
    | some blk =>
      match blk.derived with
      | Derived.ControlBlockMakeShared _ v => some v
      | Derived.ControlBlockRegular _ _ _ => none
    | none => none

/-! ## WeakPtr -/

/-- The constructor `WeakPtr()`. -/
def WeakPtr.empty : WeakPtr := { data := none, ptr := none }

/-- The copy constructors `WeakPtr(const WeakPtr& other)` and
`WeakPtr(const WeakPtr<U>& other)`. -/
def WeakPtr.copy (other : WeakPtr) (h : Heap) : Option (WeakPtr × Heap) :=
  let self : WeakPtr := { data := other.data, ptr := other.ptr }
  match self.data with
  | none => some (self, h)
  | some b =>
    match h.incWeak b with
    | none => none
    | some h1 => some (self, h1)

/-- The move constructors `WeakPtr(WeakPtr&& other)` and
`WeakPtr(WeakPtr<U>&& other)`: the new handle and `other` afterwards. -/
def WeakPtr.move (other : WeakPtr) : WeakPtr × WeakPtr :=
  let self : WeakPtr := { data := other.data, ptr := other.ptr }
  let other1 : WeakPtr := { other with ptr := none }
  let other2 : WeakPtr := { other1 with data := none }
  (self, other2)

/-- The constructor `WeakPtr(const SharedPtr<U>& other)`. -/
def WeakPtr.fromShared (other : SharedPtr) (h : Heap) : Option (WeakPtr × Heap) :=
  let self : WeakPtr := { data := other.data, ptr := other.ptr }
  match self.data with
  | none => some (self, h)
  | some b =>
    match h.incWeak b with
    | none => none
    | some h1 => some (self, h1)

/-- The destructor `~WeakPtr()`. -/
def WeakPtr.destructor (self : WeakPtr) (h : Heap) : Option Heap :=
  match self.data with
  | none => some h
  | some b =>
    match h.decWeak b with
    | none => none
    | some h1 =>
      match h1.countWeak b, h1.countShared b with
      | some cw, some cs => if cw = 0 ∧ cs = 0 then h1.destroy b else some h1
      | _, _ => none

/-- The member `use_count()` of `WeakPtr`. -/
def WeakPtr.use_count (self : WeakPtr) (h : Heap) : Option Nat :=
  match self.data with
  | none => some 0
  | some b => h.countShared b

/-- The member `swap(U&& other)` of `WeakPtr`. -/
def WeakPtr.swap (self other : WeakPtr) : WeakPtr × WeakPtr :=
  ({ data := other.data, ptr := other.ptr }, { data := self.data, ptr := self.ptr })

/-- The member `get()` of `WeakPtr`. -/
def WeakPtr.get (self : WeakPtr) : Ptr := self.ptr

/-- The member `expired()`: `data->countShared == 0`, with `data`
dereferenced whether or not it is null. -/
def WeakPtr.expired (self : WeakPtr) (h : Heap) : Option Bool :=
  match self.data with
  | none => none
  | some b =>
    match h.countShared b with
    | none => none
    | some c => some (c == 0)

/-- The member `lock()`: `expired() ? SharedPtr<T>() : SharedPtr<T>(ptr, data)`. -/
def WeakPtr.lock (self : WeakPtr) (h : Heap) : Option (SharedPtr × Heap) :=
  match self.expired h with
  | none => none
  | some true => some (SharedPtr.empty, h)
  | some false => SharedPtr.fromBlock self.ptr self.data h

/-! ## Programs: live handle objects and the operations applied to them -/

/-- A program state: the heap and the handle objects declared so far, each
`SharedPtr` and `WeakPtr` object named by its position.  An object whose
lifetime has ended is `none`. -/
structure World where
  heap : Heap
  shared : List (Option SharedPtr)
  weak : List (Option WeakPtr)
deriving DecidableEq

/-- The state of a program that has declared nothing yet. -/
def World.init : World := { heap := Heap.init, shared := [], weak := [] }

/-- The live `SharedPtr` object number `i`. -/
def World.getShared (w : World) (i : Nat) : Option SharedPtr := (w.shared[i]?).join

/-- The live `WeakPtr` object number `i`. -/
def World.getWeak (w : World) (i : Nat) : Option WeakPtr := (w.weak[i]?).join

/-- Whether a `SharedPtr` slot holds a live object bound to block `b`. -/
def sharedBound (b : Nat) (o : Option SharedPtr) : Bool :=
  match o with
  | some s => s.data == some b
  | none => false

/-- Whether a `WeakPtr` slot holds a live object bound to block `b`. -/
def weakBound (b : Nat) (o : Option WeakPtr) : Bool :=
  match o with
  | some s => s.data == some b
  | none => false

/-- The number of live `SharedPtr` objects bound to block `b`. -/
def liveShared (w : World) (b : Nat) : Nat := w.shared.countP (sharedBound b)

/-- The number of live `WeakPtr` objects bound to block `b`. -/
def liveWeak (w : World) (b : Nat) : Nat := w.weak.countP (weakBound b)

/-- One statement of a program over the handle objects. -/
inductive Op where
  /-- The declaration `SharedPtr<T> s;`. -/
  | sharedEmpty
  /-- The declaration `SharedPtr<T> s(p, d, alloc);`. -/
  | sharedFromRaw (p : Ptr) (d alloc : Nat)
  /-- The declaration `SharedPtr<T> s = allocateShared<T>(alloc, args);`. -/
  | sharedAllocate (alloc args : Nat)
  /-- The declaration `SharedPtr<T> s(a);` for the object `a` number `i`. -/
  | sharedCopy (i : Nat)
  /-- The declaration `SharedPtr<T> s(std::move(a));`. -/
  | sharedMove (i : Nat)
  /-- The end of the lifetime of the `SharedPtr` object number `i`. -/
  | sharedDestroy (i : Nat)
  /-- The call `a.swap(b)` for the `SharedPtr` objects number `i` and `j`. -/
  | sharedSwap (i j : Nat)
  /-- The declaration `WeakPtr<T> w;`. -/
  | weakEmpty
  /-- The declaration `WeakPtr<T> w(s);` for the `SharedPtr` object number `i`. -/
  | weakFromShared (i : Nat)
  /-- The declaration `WeakPtr<T> w(v);` for the `WeakPtr` object number `i`. -/
  | weakCopy (i : Nat)
  /-- The declaration `WeakPtr<T> w(std::move(v));`. -/
  | weakMove (i : Nat)
  /-- The end of the lifetime of the `WeakPtr` object number `i`. -/
  | weakDestroy (i : Nat)
  /-- The call `v.swap(w)` for the `WeakPtr` objects number `i` and `j`. -/
  | weakSwap (i j : Nat)
  /-- The declaration `SharedPtr<T> s = w.lock();` for the `WeakPtr` number `i`. -/
  | lock (i : Nat)
deriving DecidableEq

/-- One statement executed: `none` when the statement names an object that is
not live, or when the code dereferences a null pointer.  The statements `swap`
exchange two objects of one class, and the payloads own no handle objects;
`execInstr` has `swap` between the classes and such payloads. -/
def step (op : Op) (w : World) : Option World :=
  match op with
  | Op.sharedEmpty => some { w with shared := w.shared ++ [some SharedPtr.empty] }
  | Op.sharedFromRaw p d alloc =>
    let r := SharedPtr.fromRaw p d alloc w.heap
    some { w with heap := r.2, shared := w.shared ++ [some r.1] }
  | Op.sharedAllocate alloc args =>
    let r := allocateShared alloc args w.heap
    some { w with heap := r.2, shared := w.shared ++ [some r.1] }
  | Op.sharedCopy i =>
    match w.getShared i with
    | none => none
    | some a =>
      match a.copy w.heap with
      | none => none
      | some r => some { w with heap := r.2, shared := w.shared ++ [some r.1] }
  | Op.sharedMove i =>
    match w.getShared i with
    | none => none
    | some a => some { w with shared := w.shared.set i (some a.move.2) ++ [some a.move.1] }
  | Op.sharedDestroy i =>
    match w.getShared i with
    | none => none
    | some a =>
      match a.destructor w.heap with
      | none => none
      | some h => some { w with heap := h, shared := w.shared.set i none }
  | Op.sharedSwap i j =>
    match w.getShared i, w.getShared j with
    | some a, some b =>
      some { w with shared := (w.shared.set i (some (a.swap b).1)).set j (some (a.swap b).2) }
    | _, _ => none
  | Op.weakEmpty => some { w with weak := w.weak ++ [some WeakPtr.empty] }
  | Op.weakFromShared i =>
    match w.getShared i with
    | none => none
    | some a =>
      match WeakPtr.fromShared a w.heap with
      | none => none
      | some r => some { w with heap := r.2, weak := w.weak ++ [some r.1] }
  | Op.weakCopy i =>
    match w.getWeak i with
    | none => none
    | some a =>
      match a.copy w.heap with
      | none => none
      | some r => some { w with heap := r.2, weak := w.weak ++ [some r.1] }
  | Op.weakMove i =>
    match w.getWeak i with
    | none => none
    | some a => some { w with weak := w.weak.set i (some a.move.2) ++ [some a.move.1] }
  | Op.weakDestroy i =>
    match w.getWeak i with
    | none => none
    | some a =>
      match a.destructor w.heap with
      | none => none
      | some h => some { w with heap := h, weak := w.weak.set i none }
  | Op.weakSwap i j =>
    match w.getWeak i, w.getWeak j with
    | some a, some b =>
      some { w with weak := (w.weak.set i (some (a.swap b).1)).set j (some (a.swap b).2) }
    | _, _ => none
  | Op.lock i =>
    match w.getWeak i with
    | none => none
    | some a =>
      match a.lock w.heap with
      | none => none
      | some r => some { w with heap := r.2, shared := w.shared ++ [some r.1] }

/-- A sequence of statements executed in order. -/
def run : List Op → World → Option World
  | [], w => some w
  | op :: ops, w => (step op w).bind (run ops)

/-! ## Notions used in the statements and proofs -/

/-- The strong count of block `b`, and `0` where no block was allocated. -/
def Heap.cS (h : Heap) (b : Nat) : Nat := (h.countShared b).getD 0

/-- The weak count of block `b`, and `0` where no block was allocated. -/
def Heap.cW (h : Heap) (b : Nat) : Nat := (h.countWeak b).getD 0

/-- How one operation changed the heap: the counters of block `b` became `s`
and `k`, `useDeleter()` was called on it `d` times and `destroy()` `f` times,
and nothing else changed. -/
structure Heap.Changed (h h1 : Heap) (b s k d f : Nat) : Prop where
  lt : b < h.blocks.length
  len : h1.blocks.length = h.blocks.length
  cS : ∀ c, h1.cS c = if c = b then s else h.cS c
  cW : ∀ c, h1.cW c = if c = b then k else h.cW c
  del : ∀ c, h1.useDeleterCalls c = h.useDeleterCalls c + if c = b then d else 0
  des : ∀ c, h1.destroyCalls c = h.destroyCalls c + if c = b then f else 0

/-- The counters of every block count the live handles bound to it, the calls
of `useDeleter()` and `destroy()` on a block are those its counters account
for, and a handle without a block has no payload pointer. -/
structure Inv (w : World) : Prop where
  cS : ∀ b, w.heap.cS b = liveShared w b
  cW : ∀ b, w.heap.cW b = liveWeak w b
  del : ∀ b, w.heap.useDeleterCalls b
    = if b < w.heap.blocks.length ∧ w.heap.cS b = 0 then 1 else 0
  des : ∀ b, w.heap.destroyCalls b
    = if b < w.heap.blocks.length ∧ w.heap.cS b = 0 ∧ w.heap.cW b = 0 then 1 else 0
  nul : ∀ s, some s ∈ w.shared → s.data = none → s.ptr = none
  nulW : ∀ s, some s ∈ w.weak → s.data = none → s.ptr = none

/-- The number of handle objects a program has declared. -/
def World.size (w : World) : Nat := w.shared.length + w.weak.length

/-- The ways in which one statement changes the heap: not at all; by
allocating a block; by one more strong or weak reference to a block `b`; by
the destructor of a `SharedPtr` or of a `WeakPtr` bound to `b`. -/
inductive Effect (op : Op) (w w1 : World) : Prop where
  | same (h : w1.heap = w.heap) (hop : (∀ i, op ≠ Op.sharedDestroy i) ∧ (∀ i, op ≠ Op.weakDestroy i)
      ∨ (∃ i a, op = Op.sharedDestroy i ∧ w.getShared i = some a ∧ a.data = none)
      ∨ (∃ i a, op = Op.weakDestroy i ∧ w.getWeak i = some a ∧ a.data = none))
  | alloc (blk : BaseControlBlock) (al : Nat)
      (h : w1.heap = { blocks := w.heap.blocks ++ [blk],
                       log := w.heap.log ++ [Event.allocate al w.heap.blocks.length] })
      (hop : (∀ i, op ≠ Op.sharedDestroy i) ∧ (∀ i, op ≠ Op.weakDestroy i))
  | strongInc (b : Nat) (hpos : 0 < w.heap.cS b)
      (h : Heap.Changed w.heap w1.heap b (w.heap.cS b + 1) (w.heap.cW b) 0 0)
      (hop : (∀ i, op ≠ Op.sharedDestroy i) ∧ (∀ i, op ≠ Op.weakDestroy i))
  | weakInc (b : Nat)
      (h : Heap.Changed w.heap w1.heap b (w.heap.cS b) (w.heap.cW b + 1) 0 0)
      (hop : (∀ i, op ≠ Op.sharedDestroy i) ∧ (∀ i, op ≠ Op.weakDestroy i))
  | strongDec (i : Nat) (a : SharedPtr) (b : Nat) (hop : op = Op.sharedDestroy i)
      (ha : w.getShared i = some a) (hd : a.data = some b) (hpos : 0 < w.heap.cS b)
      (h : Heap.Changed w.heap w1.heap b (w.heap.cS b - 1) (w.heap.cW b)
        (if w.heap.cS b = 1 then 1 else 0)
        (if w.heap.cS b = 1 ∧ w.heap.cW b = 0 then 1 else 0))
  | weakDec (i : Nat) (a : WeakPtr) (b : Nat) (hop : op = Op.weakDestroy i)
      (ha : w.getWeak i = some a) (hd : a.data = some b) (hpos : 0 < w.heap.cW b)
      (h : Heap.Changed w.heap w1.heap b (w.heap.cS b) (w.heap.cW b - 1) 0
        (if w.heap.cW b = 1 ∧ w.heap.cS b = 0 then 1 else 0))

/-- The statement ends the lifetime of a `SharedPtr` bound to block `b` while
the block has `countShared == 1`: the destruction that takes `countShared`
from 1 to 0. -/
def takesSharedToZero (op : Op) (w : World) (b : Nat) : Bool :=
  match op with
  | Op.sharedDestroy i =>
    match w.getShared i with
    | some a => a.data == some b && w.heap.countShared b == some 1
    | none => false
  | _ => false

/-- The statement is the last destruction of a handle bound to block `b`: of
a `SharedPtr` that takes `countShared` from 1 to 0 and sees `countWeak == 0`,
or of a `WeakPtr` that takes `countWeak` from 1 to 0 and sees
`countShared == 0`. -/
def isLastDestruction (op : Op) (w : World) (b : Nat) : Bool :=
  match op with
  | Op.sharedDestroy i =>
    match w.getShared i with
    | some a =>
      a.data == some b && w.heap.countShared b == some 1 && w.heap.countWeak b == some 0
    | none => false
  | Op.weakDestroy i =>
    match w.getWeak i with
    | some a =>
      a.data == some b && w.heap.countWeak b == some 1 && w.heap.countShared b == some 0
    | none => false
  | _ => false

/-- Whether the operands of a statement are live objects and, for `lock()`,
the `WeakPtr` has a block. -/
def enabled (op : Op) (w : World) : Bool :=
  match op with
  | Op.sharedEmpty => true
  | Op.sharedFromRaw _ _ _ => true
  | Op.sharedAllocate _ _ => true
  | Op.sharedCopy i => (w.getShared i).isSome
  | Op.sharedMove i => (w.getShared i).isSome
  | Op.sharedDestroy i => (w.getShared i).isSome
  | Op.sharedSwap i j => (w.getShared i).isSome && (w.getShared j).isSome
  | Op.weakEmpty => true
  | Op.weakFromShared i => (w.getShared i).isSome
  | Op.weakCopy i => (w.getWeak i).isSome
  | Op.weakMove i => (w.getWeak i).isSome
  | Op.weakDestroy i => (w.getWeak i).isSome
  | Op.weakSwap i j => (w.getWeak i).isSome && (w.getWeak j).isSome
  | Op.lock i =>
    match w.getWeak i with
    | some a => a.data.isSome
    | none => false

/-! ## Example programs -/

/-- A program that builds a handle from a raw pointer, copies it, takes a
weak reference, moves the copy and destroys the first handle. -/
def progShare : List Op :=
  [Op.sharedFromRaw (some (Loc.raw 7)) 3 4, Op.sharedCopy 0, Op.weakFromShared 0,
   Op.sharedMove 1, Op.sharedDestroy 0]

/-- The state `progShare` ends in: one `SharedPtr` and one `WeakPtr` are bound
to block 0. -/
def worldShare : World :=
  { heap := { blocks := [{ countShared := 1, countWeak := 1,
                           derived := Derived.ControlBlockRegular (some (Loc.raw 7)) 4 3 }],
              log := [Event.allocate 4 0] },
    shared := [none, some { data := none, ptr := none },
               some { data := some 0, ptr := some (Loc.raw 7) }],
    weak := [some { data := some 0, ptr := some (Loc.raw 7) }] }

/-- The program `progShare` followed by the destruction of the last
`SharedPtr`. -/
def progExpire : List Op := progShare ++ [Op.sharedDestroy 2]

/-- The state `progExpire` ends in: only the `WeakPtr` is bound to block 0. -/
def worldExpire : World :=
  { heap := { blocks := [{ countShared := 0, countWeak := 1,
                           derived := Derived.ControlBlockRegular (some (Loc.raw 7)) 4 3 }],
              log := [Event.allocate 4 0, Event.useDeleter 0,
                      Event.del 3 (some (Loc.raw 7))] },
    shared := [none, some { data := none, ptr := none }, none],
    weak := [some { data := some 0, ptr := some (Loc.raw 7) }] }

/-- The program `progExpire` followed by the destruction of the `WeakPtr`. -/
def progRelease : List Op := progExpire ++ [Op.weakDestroy 0]

/-- The state `progRelease` ends in: no handle is bound to block 0. -/
def worldRelease : World :=
  { heap := { blocks := [{ countShared := 0, countWeak := 0,
                           derived := Derived.ControlBlockRegular (some (Loc.raw 7)) 4 3 }],
              log := [Event.allocate 4 0, Event.useDeleter 0,
                      Event.del 3 (some (Loc.raw 7)), Event.destroy 0,
                      Event.deallocate 4 0] },
    shared := [none, some { data := none, ptr := none }, none],
    weak := [none] }

/-- A program in which the `WeakPtr` is destroyed before the `SharedPtr`. -/
def progWeakFirst : List Op :=
  [Op.sharedAllocate 5 42, Op.weakFromShared 0, Op.weakDestroy 0, Op.sharedDestroy 0]

/-- The state `progWeakFirst` ends in. -/
def worldWeakFirst : World :=
  { heap := { blocks := [{ countShared := 0, countWeak := 0,
                           derived := Derived.ControlBlockMakeShared 5 42 }],
              log := [Event.allocate 5 0, Event.useDeleter 0, Event.destroyPayload 5 0,
                      Event.destroy 0, Event.deallocate 5 0] },
    shared := [none],
    weak := [none] }

/-! ## Assignment and reset -/

/-- The member `SharedPtr<T>& operator=(U&& other)` called as `a = b` with
`b` an lvalue, for the objects number `i` and `j`: the temporary
`SharedPtr<T>(other)` is copy-constructed, `this->swap` exchanges it with
`*this`, and the temporary is destroyed at the end of the statement. -/
def sharedAssignCopy (i j : Nat) (w : World) : Option World :=
  run [Op.sharedCopy j, Op.sharedSwap i w.shared.length, Op.sharedDestroy w.shared.length] w

/-- The member `SharedPtr<T>& operator=(U&& other)` called as
`a = std::move(b)`: the temporary is move-constructed. -/
def sharedAssignMove (i j : Nat) (w : World) : Option World :=
  run [Op.sharedMove j, Op.sharedSwap i w.shared.length, Op.sharedDestroy w.shared.length] w

/-- The member `reset()`: `this->swap(SharedPtr<T>())`. -/
def sharedReset (i : Nat) (w : World) : Option World :=
  run [Op.sharedEmpty, Op.sharedSwap i w.shared.length, Op.sharedDestroy w.shared.length] w

/-- The member `reset(U* other)`:
`(other == nullptr) ? reset() : this->swap(SharedPtr<T>(other))`. -/
def sharedResetPtr (i : Nat) (other : Ptr) (w : World) : Option World :=
  match other with
  | none => sharedReset i w
  | some _ =>
    run [Op.sharedFromRaw other default_delete std_allocator,
         Op.sharedSwap i w.shared.length, Op.sharedDestroy w.shared.length] w

/-- The member `WeakPtr<T>& operator=(const SharedPtr<U>& other)`:
`this->swap(WeakPtr<T>(other))`, for the `WeakPtr` number `i` and the
`SharedPtr` number `j`. -/
def weakAssignShared (i j : Nat) (w : World) : Option World :=
  run [Op.weakFromShared j, Op.weakSwap i w.weak.length, Op.weakDestroy w.weak.length] w

/-- The member `WeakPtr<T>& operator=(Other&& other)` called as `v = u` with
`u` an lvalue `WeakPtr`. -/
def weakAssignCopy (i j : Nat) (w : World) : Option World :=
  run [Op.weakCopy j, Op.weakSwap i w.weak.length, Op.weakDestroy w.weak.length] w

/-- The member `WeakPtr<T>& operator=(Other&& other)` called as
`v = std::move(u)`. -/
def weakAssignMove (i j : Nat) (w : World) : Option World :=
  run [Op.weakMove j, Op.weakSwap i w.weak.length, Op.weakDestroy w.weak.length] w

/-- One statement of a program that also assigns and resets. -/
inductive Stmt where
  /-- A declaration, a destruction, a `swap` or a `lock`. -/
  | op (o : Op)
  /-- The statement `a = b;` for the `SharedPtr` objects number `i` and `j`. -/
  | sharedAssignCopy (i j : Nat)
  /-- The statement `a = std::move(b);`. -/
  | sharedAssignMove (i j : Nat)
  /-- The statement `a.reset();`. -/
  | sharedReset (i : Nat)
  /-- The statement `a.reset(p);`. -/
  | sharedResetPtr (i : Nat) (p : Ptr)
  /-- The statement `v = a;` for the `WeakPtr` `i` and the `SharedPtr` `j`. -/
  | weakAssignShared (i j : Nat)
  /-- The statement `v = u;` for the `WeakPtr` objects number `i` and `j`. -/
  | weakAssignCopy (i j : Nat)
  /-- The statement `v = std::move(u);`. -/
  | weakAssignMove (i j : Nat)
deriving DecidableEq

/-- One statement executed. -/
def exec (s : Stmt) (w : World) : Option World :=
  match s with
  | Stmt.op o => step o w
  | Stmt.sharedAssignCopy i j => sharedAssignCopy i j w
  | Stmt.sharedAssignMove i j => sharedAssignMove i j w
  | Stmt.sharedReset i => sharedReset i w
  | Stmt.sharedResetPtr i p => sharedResetPtr i p w
  | Stmt.weakAssignShared i j => weakAssignShared i j w
  | Stmt.weakAssignCopy i j => weakAssignCopy i j w
  | Stmt.weakAssignMove i j => weakAssignMove i j w

/-- A sequence of statements executed in order. -/
def execAll : List Stmt → World → Option World
  | [], w => some w
  | s :: ss, w => (exec s w).bind (execAll ss)

/-! ## A payload constructor that throws -/

/-- How a constructor call ends: it returns, or an exception leaves it with
the heap as it is at that point. -/
inductive Outcome (α : Type) where
  | returned (a : α)
  | thrown (h : Heap)
deriving DecidableEq

/-- The private constructor `SharedPtr(Alloc alloc, Args&&... args)` for a
payload type whose constructor may throw: `construct args` is the `T` built
from `args`, and `none` when `T(args...)` throws.  The statements are
`allocMakeShared.allocate(1)`, then `allocator_traits::construct`, then the
two assignments; no handler stands between `construct` and the caller. -/
def SharedPtr.allocateCtorThrowing (construct : Nat → Option Nat) (alloc args : Nat)
    (h : Heap) : Outcome (SharedPtr × Heap) :=
  let pAllocMakeShared := h.blocks.length
  let h1 : Heap := { h with log := h.log ++ [Event.allocate alloc pAllocMakeShared] }
  match construct args with
  | none => Outcome.thrown h1
  | some v =>
    Outcome.returned ({ data := some pAllocMakeShared, ptr := none },
      { h1 with blocks := h1.blocks ++ [ControlBlockMakeShared alloc v] })

/-- The function `allocateShared<T>(alloc, args...)` for a payload type whose
constructor may throw. -/
def allocateSharedThrowing (construct : Nat → Option Nat) (alloc args : Nat) (h : Heap) :
    Outcome (SharedPtr × Heap) :=
  SharedPtr.allocateCtorThrowing construct alloc args h

/-- The function `makeShared<T>(args...)` for a payload type whose constructor
may throw. -/
def makeSharedThrowing (construct : Nat → Option Nat) (args : Nat) (h : Heap) :
    Outcome (SharedPtr × Heap) :=
  SharedPtr.allocateCtorThrowing construct std_allocator args h

/-- How often the block storage at address `b` has been deallocated. -/
def Heap.deallocations (h : Heap) (alloc b : Nat) : Nat :=
  h.log.count (Event.deallocate alloc b)

/-- A program that declares a `SharedPtr`, a `WeakPtr` from it and an empty
`WeakPtr`, and then assigns to the empty one from the `WeakPtr`, from the
`SharedPtr` and by move, and at last destroys the first `WeakPtr`. -/
def progWeakAssign : List Stmt :=
  [Stmt.op (Op.sharedFromRaw (some (Loc.raw 7)) 3 4), Stmt.op (Op.weakFromShared 0),
   Stmt.op Op.weakEmpty, Stmt.weakAssignCopy 1 0, Stmt.weakAssignShared 1 0,
   Stmt.op (Op.weakCopy 1), Stmt.weakAssignMove 1 4, Stmt.op (Op.weakDestroy 0)]

/-- The state `progWeakAssign` ends in: one `WeakPtr` is bound to block 0. -/
def worldWeakAssign : World :=
  { heap := { blocks := [{ countShared := 1, countWeak := 1,
                           derived := Derived.ControlBlockRegular (some (Loc.raw 7)) 4 3 }],
              log := [Event.allocate 4 0] },
    shared := [some { data := some 0, ptr := some (Loc.raw 7) }],
    weak := [none, some { data := some 0, ptr := some (Loc.raw 7) }, none, none,
             some { data := none, ptr := none }, none] }

/-! ## Member access -/

/-- The member `operator->()` of `SharedPtr`: `return ptr;`. -/
def SharedPtr.arrow (self : SharedPtr) : Ptr := self.ptr

/-- The member `operator*()` of `WeakPtr`: the object `*ptr`, and no result
when `ptr` is null. -/
def WeakPtr.deref (self : WeakPtr) : Option Loc := self.ptr

/-- The member `operator->()` of `WeakPtr`: `return ptr;`. -/
def WeakPtr.arrow (self : WeakPtr) : Ptr := self.ptr

/-- A program that ends with a handle from `allocateShared` and an empty
handle that was assigned, reset and swapped. -/
def progNull : List Stmt :=
  [Stmt.op (Op.sharedAllocate 5 42), Stmt.op Op.sharedEmpty, Stmt.sharedAssignCopy 1 0,
   Stmt.sharedReset 1, Stmt.op (Op.sharedSwap 0 1)]

/-- The state `progNull` ends in. -/
def worldNull : World :=
  { heap := { blocks := [{ countShared := 1, countWeak := 0,
                           derived := Derived.ControlBlockMakeShared 5 42 }],
              log := [Event.allocate 5 0] },
    shared := [some { data := none, ptr := none }, some { data := some 0, ptr := none },
               none, none],
    weak := [] }

/-! ## Deleters that use handles, storage that is released, and `swap` between the classes

The definitions above treat what a deleter does as an effect outside the
handles, and exchange handles of one class only.  The definitions of this
section follow the calls further.

* `del(ptr)` runs the deleter, and the deleter or `allocator_traits::destroy`
  runs the destructor of the payload.  Both are code of the program: they may
  declare, copy, swap and destroy handle objects, also handle objects bound to
  the block that is being released.  A deleter is identified by a number, and
  `State.code` holds the statements each deleter executes before it destroys
  the payload.  The destructor of the payload destroys the members of the
  payload; a member may be a `SharedPtr` or a `WeakPtr`, bound to any block,
  also to the block of the payload itself.  The handle objects inside the
  payload of a block are `State.members`.  Destructors call deleters and
  deleters call destructors, so `call` takes a bound on the depth of calls and
  has no result when the bound is used up.
* `destroy()` deallocates the block.  The block is marked (`Cell.freed`), its
  bytes stay as they are, and no later allocation takes its address; a later
  read or write of a counter through `data->` proceeds on these bytes and is
  recorded (`Call.useAfterFree`).
  The record of a call of `destroy()` holds the destructor that made the call,
  the two counters as they are at the call, and the number of handle objects
  that are alive and bound to the block at the call.
* `swap(U&& other)` has no constraint on `U`, and both classes are friends of
  one another: `Instr.swap` exchanges `data` and `ptr` of any two handle
  objects, of one class or of both.
* The objects of a program are named by their position; an object whose
  lifetime has ended is `none`.  The lifetime of an object ends when its
  destructor starts.  Assignment and `reset` are the statements the source
  writes: the declaration of a temporary, `swap`, and the end of the lifetime
  of the temporary. -/

/-- An object of one of the two handle classes. -/
inductive Handle where
  | shared (s : SharedPtr)
  | weak (w : WeakPtr)
deriving DecidableEq

/-- The member `data` of a handle object. -/
def Handle.data : Handle → Option Nat
  | Handle.shared s => s.data
  | Handle.weak w => w.data

/-- The member `ptr` of a handle object. -/
def Handle.ptr : Handle → Ptr
  | Handle.shared s => s.ptr
  | Handle.weak w => w.ptr

/-- The handle object with `data` and `ptr` overwritten. -/
def Handle.assign : Handle → Option Nat → Ptr → Handle
  | Handle.shared _, d, p => Handle.shared { data := d, ptr := p }
  | Handle.weak _, d, p => Handle.weak { data := d, ptr := p }

/-- The storage of a control block: the counters of `BaseControlBlock`, whether
`destroy()` has deallocated the storage, and the member `del` of a
`ControlBlockRegular` (`none` for `std::default_delete`, and for a
`ControlBlockMakeShared`, which has no deleter). -/
structure Cell where
  countShared : Nat
  countWeak : Nat
  freed : Bool
  deleter : Option Nat
deriving DecidableEq

/-- What the destructors call and what they do to released storage. -/
inductive Call where
  /-- The call `data->useDeleter()` on the block at `b`. -/
  | useDeleter (b : Nat)
  /-- The call `data->destroy()` on the block at `b`, made by `~SharedPtr()`
  or by `~WeakPtr()`, with the counters of the block and the number of live
  handle objects bound to it at the call. -/
  | destroy (b : Nat) (bySharedPtr : Bool) (countShared countWeak live : Nat)
  /-- A read or write of a counter of the block at `b` after its storage was
  deallocated. -/
  | useAfterFree (b : Nat)
deriving DecidableEq

/-- One statement of a program over handle objects of both classes. -/
inductive Instr where
  /-- The declaration `SharedPtr<T> s;`. -/
  | sharedEmpty
  /-- The declaration `WeakPtr<T> w;`. -/
  | weakEmpty
  /-- The declaration `SharedPtr<T> s(p);` (`d` is `none`) or
  `SharedPtr<T> s(p, d);`, also with an allocator. -/
  | sharedFromRaw (p : Ptr) (d : Option Nat)
  /-- The declaration `SharedPtr<T> s = makeShared<T>(args);`, also with
  `allocateShared`. -/
  | sharedAllocate
  /-- The declaration `SharedPtr<T> s(a);` for the `SharedPtr` object number `i`. -/
  | sharedCopy (i : Nat)
  /-- The declaration `WeakPtr<T> w(s);` for the `SharedPtr` object number `i`. -/
  | weakFromShared (i : Nat)
  /-- The declaration `WeakPtr<T> w(v);` for the `WeakPtr` object number `i`. -/
  | weakCopy (i : Nat)
  /-- The declaration `H x(std::move(a));` of an object of the class `H` of
  the object `a` number `i`. -/
  | move (i : Nat)
  /-- The declaration `SharedPtr<T> s = w.lock();` for the `WeakPtr` number `i`. -/
  | lock (i : Nat)
  /-- The call `a.swap(b)` for the objects number `i` and `j`, of any classes. -/
  | swap (i j : Nat)
  /-- The object number `i` is a member of the payload of block `b`: its
  lifetime ends when that payload is destroyed. -/
  | member (i b : Nat)
  /-- The end of the lifetime of the object number `i`. -/
  | destroy (i : Nat)
deriving DecidableEq

/-- A program state: the control blocks, the handle objects the program
declared, the handle objects inside payloads (with the block of the payload),
the calls made so far, and the statements that the deleters of the program
execute (deleter number `d` executes `code[d]` and then destroys the
payload). -/
structure State where
  cells : List Cell
  objects : List (Option Handle)
  members : List (Nat × Handle)
  calls : List Call
  code : List (List Instr)
deriving DecidableEq

/-- The state of a program with the given deleters that has declared nothing
yet. -/
def State.start (code : List (List Instr)) : State :=
  { cells := [], objects := [], members := [], calls := [], code := code }

/-- The state of a program without deleters of its own that has declared
nothing yet. -/
def State.init : State := State.start []

/-- The statements the deleter of a block executes. -/
def State.deleterCode (st : State) (d : Option Nat) : List Instr :=
  match d with
  | none => []
  | some n => (st.code[n]?).getD []

/-- Whether a handle is of the given class (`true` is `SharedPtr`) and bound to
block `b`. -/
def Handle.boundTo (isShared : Bool) (b : Nat) : Handle → Bool
  | Handle.shared s => isShared && s.data == some b
  | Handle.weak w => !isShared && w.data == some b

/-- Whether an object is alive, of the given class, and bound to block `b`. -/
def objBound (isShared : Bool) (b : Nat) (o : Option Handle) : Bool :=
  match o with
  | some h => h.boundTo isShared b
  | none => false

/-- Whether a member of a payload is of the given class and bound to block `b`. -/
def memBound (isShared : Bool) (b : Nat) (m : Nat × Handle) : Bool :=
  m.2.boundTo isShared b

/-- The number of live handle objects of the given class bound to block `b`. -/
def State.holders (st : State) (isShared : Bool) (b : Nat) : Nat :=
  st.objects.countP (objBound isShared b) + st.members.countP (memBound isShared b)

/-- The number of live handle objects bound to block `b`. -/
def State.live (st : State) (b : Nat) : Nat := st.holders true b + st.holders false b

/-- A write to the block at `b` through `data->`: no result where no block was
allocated, and recorded when the storage was deallocated. -/
def State.write (st : State) (b : Nat) (f : Cell → Cell) : Option State :=
  match st.cells[b]? with
  | none => none
  | some c =>
    some { st with cells := st.cells.set b (f c),
                   calls := if c.freed then st.calls ++ [Call.useAfterFree b] else st.calls }

/-- A read of the block at `b` through `data->`: the block as it is, and the
state, in which the read is recorded when the storage was deallocated. -/
def State.read (st : State) (b : Nat) : Option (Cell × State) :=
  match st.cells[b]? with
  | none => none
  | some c =>
    some (c, { st with calls := if c.freed then st.calls ++ [Call.useAfterFree b]
                                else st.calls })

/-- The statement `++data->countShared`. -/
def State.incShared (st : State) (b : Nat) : Option State :=
  st.write b (fun c => { c with countShared := sizeInc c.countShared })

/-- The statement `--data->countShared`. -/
def State.decShared (st : State) (b : Nat) : Option State :=
  st.write b (fun c => { c with countShared := sizeDec c.countShared })

/-- The statement `++data->countWeak`. -/
def State.incWeak (st : State) (b : Nat) : Option State :=
  st.write b (fun c => { c with countWeak := sizeInc c.countWeak })

/-- The statement `--data->countWeak`. -/
def State.decWeak (st : State) (b : Nat) : Option State :=
  st.write b (fun c => { c with countWeak := sizeDec c.countWeak })

/-- The call `data->destroy()`, made by `~SharedPtr()` (`bySharedPtr`) or by
`~WeakPtr()`: the storage of the block is deallocated, whether or not it was
deallocated before. -/
def State.destroy (st : State) (bySharedPtr : Bool) (b : Nat) : Option State :=
  match st.cells[b]? with
  | none => none
  | some c =>
    some { st with cells := st.cells.set b { c with freed := true },
                   calls := st.calls
                     ++ [Call.destroy b bySharedPtr c.countShared c.countWeak (st.live b)] }

/-- The first handle object inside the payload of block `b`, and the other
members. -/
def popMember : List (Nat × Handle) → Nat → Option (Handle × List (Nat × Handle))
  | [], _ => none
  | m :: ms, b =>
    if m.1 = b then some (m.2, ms)
    else
      match popMember ms b with
      | none => none
      | some r => some (r.1, m :: r.2)

/-- The live object number `i`. -/
def State.getObject (st : State) (i : Nat) : Option Handle := (st.objects[i]?).join

/-- The member `use_count()` of both classes:
`data != nullptr ? data->countShared : 0`. -/
def State.use_count (st : State) (self : Handle) : Option Nat :=
  match self.data with
  | none => some 0
  | some b => (st.cells[b]?).map Cell.countShared

/-- The member `get()` of both classes: `return ptr;`. -/
def Handle.get (self : Handle) : Ptr := self.ptr

/-- One statement executed, with `destructor` for the destructor of a handle
object: `none` when the statement names an object that is not alive or not of
the class the statement needs, or a block that was never allocated, or when
the code dereferences a null pointer. -/
def execWith (destructor : Handle → State → Option State) (ins : Instr) (st : State) :
    Option State :=
  match ins with
  | Instr.sharedEmpty =>
    some { st with objects := st.objects ++ [some (Handle.shared SharedPtr.empty)] }
  | Instr.weakEmpty =>
    some { st with objects := st.objects ++ [some (Handle.weak WeakPtr.empty)] }
  | Instr.sharedFromRaw p d =>
    some { st with
      cells := st.cells ++ [{ countShared := 1, countWeak := 0, freed := false, deleter := d }],
      objects := st.objects ++ [some (Handle.shared { data := some st.cells.length, ptr := p })] }
  | Instr.sharedAllocate =>
    some { st with
      cells := st.cells
        ++ [{ countShared := 1, countWeak := 0, freed := false, deleter := none }],
      objects := st.objects
        ++ [some (Handle.shared { data := some st.cells.length, ptr := none })] }
  | Instr.sharedCopy i =>
    match st.getObject i with
    | some (Handle.shared other) =>
      match other.data with
      | none => some { st with objects := st.objects
                         ++ [some (Handle.shared { data := other.data, ptr := other.ptr })] }
      | some b =>
        match st.incShared b with
        | none => none
        | some st1 => some { st1 with objects := st1.objects
                               ++ [some (Handle.shared { data := other.data, ptr := other.ptr })] }
    | _ => none
  | Instr.weakFromShared i =>
    match st.getObject i with
    | some (Handle.shared other) =>
      match other.data with
      | none => some { st with objects := st.objects
                         ++ [some (Handle.weak { data := other.data, ptr := other.ptr })] }
      | some b =>
        match st.incWeak b with
        | none => none
        | some st1 => some { st1 with objects := st1.objects
                               ++ [some (Handle.weak { data := other.data, ptr := other.ptr })] }
    | _ => none
  | Instr.weakCopy i =>
    match st.getObject i with
    | some (Handle.weak other) =>
      match other.data with
      | none => some { st with objects := st.objects
                         ++ [some (Handle.weak { data := other.data, ptr := other.ptr })] }
      | some b =>
        match st.incWeak b with
        | none => none
        | some st1 => some { st1 with objects := st1.objects
                               ++ [some (Handle.weak { data := other.data, ptr := other.ptr })] }
    | _ => none
  | Instr.move i =>
    match st.getObject i with
    | none => none
    | some other =>
      some { st with objects := st.objects.set i (some (other.assign none none))
                       ++ [some (other.assign other.data other.ptr)] }
  | Instr.lock i =>
    match st.getObject i with
    | some (Handle.weak self) =>
      match self.data with
      | none => none
      | some b =>
        match st.read b with
        | none => none
        | some (c, st1) =>
          if c.countShared = 0 then
            some { st1 with objects := st1.objects ++ [some (Handle.shared SharedPtr.empty)] }
          else
            match st1.incShared b with
            | none => none
            | some st2 => some { st2 with objects := st2.objects
                                   ++ [some (Handle.shared { data := self.data, ptr := self.ptr })] }
    | _ => none
  | Instr.swap i j =>
    match st.getObject i, st.getObject j with
    | some a, some b =>
      some { st with objects := (st.objects.set i (some (a.assign b.data b.ptr))).set j
                       (some (b.assign a.data a.ptr)) }
    | _, _ => none
  | Instr.member i b =>
    match st.getObject i with
    | none => none
    | some h =>
      if b < st.cells.length then
        some { st with objects := st.objects.set i none, members := st.members ++ [(b, h)] }
      else none
  | Instr.destroy i =>
    match st.getObject i with
    | none => none
    | some h => destructor h { st with objects := st.objects.set i none }

/-- A sequence of statements executed in order, with `destructor` for the
destructor of a handle object. -/
def runWith (destructor : Handle → State → Option State) : List Instr → State → Option State
  | [], st => some st
  | ins :: rest, st =>
    match execWith destructor ins st with
    | none => none
    | some st1 => runWith destructor rest st1

/-- The calls that run other destructors: the destructor of a handle object;
`del(ptr)` (for a `ControlBlockMakeShared`, `allocator_traits::destroy`) on
block `b`, which executes the statements of the deleter and destroys the
payload; and the destructor of the payload of block `b`, which destroys the
handle objects that are its members. -/
inductive Routine where
  | destructor (self : Handle)
  | del (b : Nat)
  | payload (b : Nat)
deriving DecidableEq

/-- A call executed, with a bound on the depth of calls.

`~SharedPtr()`: `if (data == nullptr) return; --data->countShared;
if (data->countShared > 0) return; data->useDeleter();
if (data->countWeak == 0) data->destroy();`.

`~WeakPtr()`: `if (data == nullptr) return; --data->countWeak;
if (data->countWeak == 0 && data->countShared == 0) data->destroy();`.

`del(ptr)`: the statements of the deleter, then the destructor of the payload.

The destructor of the payload: the lifetime of each member of the payload ends
and its destructor runs, in the order of `State.members`. -/
def call : Nat → Routine → State → Option State
  | 0, _, _ => none
  | fuel + 1, Routine.destructor (Handle.shared self), st =>
    match self.data with
    | none => some st
    | some b =>
      match st.decShared b with
      | none => none
      | some st1 =>
        match st1.read b with
        | none => none
        | some (c, st2) =>
          if c.countShared > 0 then some st2
          else
            match call fuel (Routine.del b)
                { st2 with calls := st2.calls ++ [Call.useDeleter b] } with
            | none => none
            | some st3 =>
              match st3.read b with
              | none => none
              | some (c3, st4) => if c3.countWeak = 0 then st4.destroy true b else some st4
  | _ + 1, Routine.destructor (Handle.weak self), st =>
    match self.data with
    | none => some st
    | some b =>
      match st.decWeak b with
      | none => none
      | some st1 =>
        match st1.read b with
        | none => none
        | some (c, st2) =>
          if c.countWeak = 0 ∧ c.countShared = 0 then st2.destroy false b else some st2
  | fuel + 1, Routine.del b, st =>
    match st.cells[b]? with
    | none => none
    | some c =>
      match runWith (fun h s => call fuel (Routine.destructor h) s)
          (st.deleterCode c.deleter) st with
      | none => none
      | some st1 => call fuel (Routine.payload b) st1
  | fuel + 1, Routine.payload b, st =>
    match popMember st.members b with
    | none => some st
    | some (m, ms) =>
      match call fuel (Routine.destructor m) { st with members := ms } with
      | none => none
      | some st1 => call fuel (Routine.payload b) st1

/-- One statement executed, with a bound on the depth of calls of a
destructor. -/
def execInstr (fuel : Nat) (ins : Instr) (st : State) : Option State :=
  execWith (fun h s => call fuel (Routine.destructor h) s) ins st

/-- A sequence of statements executed in order, with a bound on the depth of
calls of a destructor. -/
def runInstrs (fuel : Nat) (prog : List Instr) (st : State) : Option State :=
  runWith (fun h s => call fuel (Routine.destructor h) s) prog st

/-- The records of the calls of `destroy()` on block `b`. -/
def State.destroyCallsOn (st : State) (b : Nat) : List Call :=
  st.calls.filter (fun c => match c with
    | Call.destroy b1 _ _ _ _ => b1 == b
    | _ => false)

/-- The program `SharedPtr<Node> s(p);` for `struct Node { WeakPtr<Node> self; }`
with the member `self` of the payload bound to the block of `s`, as after
`s->self = s;`. -/
def progSelfWeak : List Instr :=
  [Instr.sharedFromRaw (some (Loc.raw 7)) none, Instr.weakFromShared 0, Instr.member 1 0]

/-- The state `progSelfWeak` ends in: `countShared == 1`, `countWeak == 1`, and
the `WeakPtr` inside the payload. -/
def stateSelfWeak : State :=
  { cells := [{ countShared := 1, countWeak := 1, freed := false, deleter := none }],
    objects := [some (Handle.shared { data := some 0, ptr := some (Loc.raw 7) }), none],
    members := [(0, Handle.weak { data := some 0, ptr := some (Loc.raw 7) })],
    calls := [],
    code := [] }

/-- The state after the end of the lifetime of the `SharedPtr` in
`stateSelfWeak`: two calls of `destroy()`, with a read of the released block
between them. -/
def stateSelfWeakReleased : State :=
  { cells := [{ countShared := 0, countWeak := 0, freed := true, deleter := none }],
    objects := [none, none],
    members := [],
    calls := [Call.useDeleter 0, Call.destroy 0 false 0 0 0, Call.useAfterFree 0,
              Call.destroy 0 true 0 0 0],
    code := [] }

/-- The program `SharedPtr<T> s(p); WeakPtr<T> w; s.swap(w);`. -/
def progSwapIntoWeak : List Instr :=
  [Instr.sharedFromRaw (some (Loc.raw 7)) none, Instr.weakEmpty, Instr.swap 0 1]

/-- The state `progSwapIntoWeak` ends in: the `WeakPtr` number 1 is bound to a
block with `countWeak == 0`. -/
def stateSwapIntoWeak : State :=
  { cells := [{ countShared := 1, countWeak := 0, freed := false, deleter := none }],
    objects := [some (Handle.shared { data := none, ptr := none }),
                some (Handle.weak { data := some 0, ptr := some (Loc.raw 7) })],
    members := [],
    calls := [],
    code := [] }

/-- The state after the end of the lifetime of the `WeakPtr` in
`stateSwapIntoWeak`: `countWeak` is `2^64 - 1`. -/
def stateSwapIntoWeakDestroyed : State :=
  { cells := [{ countShared := 1, countWeak := 18446744073709551615, freed := false,
                deleter := none }],
    objects := [some (Handle.shared { data := none, ptr := none }), none],
    members := [],
    calls := [],
    code := [] }

/-- The program `SharedPtr<T> s(p); WeakPtr<T> w(s);`, the end of the lifetime
of `s`, and `SharedPtr<T> e; e.swap(w);`. -/
def progSwapExpired : List Instr :=
  [Instr.sharedFromRaw (some (Loc.raw 7)) none, Instr.weakFromShared 0, Instr.destroy 0,
   Instr.sharedEmpty, Instr.swap 2 1]

/-- The state `progSwapExpired` ends in. -/
def stateSwapExpired : State :=
  { cells := [{ countShared := 0, countWeak := 1, freed := false, deleter := none }],
    objects := [none, some (Handle.weak { data := none, ptr := none }),
                some (Handle.shared { data := some 0, ptr := some (Loc.raw 7) })],
    members := [],
    calls := [Call.useDeleter 0],
    code := [] }

/-- The program `SharedPtr<T> s(p); WeakPtr<T> w(s); SharedPtr<T> t(s);` and the
ends of the lifetimes of `s`, `t` and `w`, in this order. -/
def progWeakLast : List Instr :=
  [Instr.sharedFromRaw (some (Loc.raw 7)) none, Instr.weakFromShared 0, Instr.sharedCopy 0,
   Instr.destroy 0, Instr.destroy 2, Instr.destroy 1]

/-- The state `progWeakLast` ends in. -/
def stateWeakLast : State :=
  { cells := [{ countShared := 0, countWeak := 0, freed := true, deleter := none }],
    objects := [none, none, none],
    members := [],
    calls := [Call.useDeleter 0, Call.destroy 0 false 0 0 0],
    code := [] }

/-- The statements of the deleter
`[&](T* p) { g = new SharedPtr<T>(e); WeakPtr<T> w2; e.swap(w2); delete p; }`,
where `e` is the object number 0 of `progKeepInDeleter`: the copy `*g` is the
object number 3, `w2` the object number 4, and the lifetime of `w2` ends when
the deleter returns. -/
def codeKeepInDeleter : List Instr :=
  [Instr.sharedCopy 0, Instr.weakEmpty, Instr.swap 0 4, Instr.destroy 4]

/-- The program `SharedPtr<T> e; SharedPtr<T> s(p, d); WeakPtr<T> w(s);
e.swap(w);` and the end of the lifetime of `s`, where `d` is the deleter
number 0. -/
def progKeepInDeleter : List Instr :=
  [Instr.sharedEmpty, Instr.sharedFromRaw (some (Loc.raw 7)) (some 0), Instr.weakFromShared 1,
   Instr.swap 0 2, Instr.destroy 1]

/-- The state `progKeepInDeleter` ends in, with the deleter `codeKeepInDeleter`:
the block was released at `countShared == 1`, and the `SharedPtr` object
number 3 is alive and bound to it. -/
def stateKeepInDeleter : State :=
  { cells := [{ countShared := 1, countWeak := 0, freed := true, deleter := some 0 }],
    objects := [some (Handle.shared { data := none, ptr := none }), none,
                some (Handle.weak { data := none, ptr := none }),
                some (Handle.shared { data := some 0, ptr := some (Loc.raw 7) }), none],
    members := [],
    calls := [Call.useDeleter 0, Call.destroy 0 true 1 0 1],
    code := [codeKeepInDeleter] }

/-- The handle object whose lifetime has ended and whose destructor a call is
about to run. -/
def Routine.handle : Routine → Option Handle
  | Routine.destructor self => some self
  | Routine.del _ => none
  | Routine.payload _ => none

/-- The depth of calls a call reaches at most in a state in which no deleter
executes statements of its own: three calls for every handle object inside a
payload, and up to three more. -/
def Routine.depth (r : Routine) (st : State) : Nat :=
  match r with
  | Routine.destructor _ => 3 * st.members.length + 3
  | Routine.del _ => 3 * st.members.length + 2
  | Routine.payload _ => 3 * st.members.length + 1

/-- The number of handle objects of the given class that are bound to block
`b`: the live ones, and the object `e` whose destructor has not decremented the
counter yet. -/
def State.holdersX (st : State) (e : Option Handle) (isShared : Bool) (b : Nat) : Nat :=
  st.holders isShared b + if objBound isShared b e then 1 else 0

/-- The counters account for the handle objects.  On a block that was not
deallocated, `countShared` is the number of `SharedPtr` objects bound to it
less `k`, and `countWeak` the number of `WeakPtr` objects plus `k`, modulo
`2^64`, where `k` is the number of references that `swap` moved from `WeakPtr`
to `SharedPtr` objects less the number it moved the other way.  A deallocated
block has no handle object bound to it and both counters at zero; the blocks
handle objects are bound to were allocated; and every call of `destroy()` was
made at `countShared == 0` and `countWeak == 0` with no live handle object
bound to the block.  `N` bounds the number of objects and the size of `k`, and
no deleter executes statements of its own. -/
structure Sound (k : Nat → Int) (N : Nat) (e : Option Handle) (st : State) : Prop where
  kb : ∀ b, -(N : Int) ≤ k b ∧ k b ≤ N
  tot : ∀ isShared b, st.holdersX e isShared b ≤ N
  cS : ∀ b c, st.cells[b]? = some c → c.freed = false →
    (c.countShared : Int) = ((st.holdersX e true b : Int) - k b) % 18446744073709551616
  cW : ∀ b c, st.cells[b]? = some c → c.freed = false →
    (c.countWeak : Int) = ((st.holdersX e false b : Int) + k b) % 18446744073709551616
  fr : ∀ b c, st.cells[b]? = some c → c.freed = true →
    st.holdersX e true b = 0 ∧ st.holdersX e false b = 0 ∧ c.countShared = 0 ∧ c.countWeak = 0
  un : ∀ isShared b, st.cells.length ≤ b → st.holdersX e isShared b = 0
  des : ∀ b caller s w l, Call.destroy b caller s w l ∈ st.calls → s = 0 ∧ w = 0 ∧ l = 0
  mem : st.members.length ≤ N
  code : st.code = []

end SmartPointers

namespace BigArith

/-! ## The class BigInteger of `biginteger.h`

A `long long` is an integer in `[-2^63, 2^63)`.  The one place where the code
leaves that range is `number *= -1` in `BigInteger(long long)` at the least
`long long`; the overflow is undefined in C++, and the embedding takes the
two's complement value (`wrapLongLong`), which is what the unoptimised build
computes.  The limbs the arithmetic computes stay far below `2^63` when the
limbs of its arguments are below `BASE`.  A loop over the indices of `data_`
is a recursion over the list of limbs.  The operators `+=`, `-=` and `/=` call
one another; their embeddings count the depth of calls and return `none` when
it is used up. -/

/-- The value a 64-bit `long long` holds after an arithmetic result `x`: `x`
reduced to `[-2^63, 2^63)`. -/
def wrapLongLong (x : Int) : Int :=
  (x + 9223372036854775808) % 18446744073709551616 - 9223372036854775808

/-- The constant `BASE = 1e4`. -/
def BASE : Int := 10000

/-- The constant `BASE_LENGTH = 4`. -/
def BASE_LENGTH : Nat := 4

/-- The members `std::vector<long long> data_` (least significant limb first)
and `bool isPositive` of `BigInteger`. -/
structure BigInteger where
  data_ : List Int
  isPositive : Bool
deriving DecidableEq

/-- The member `size()`. -/
def BigInteger.size (a : BigInteger) : Nat := a.data_.length

/-- The member `sign_number()`. -/
def BigInteger.sign_number (a : BigInteger) : Bool := a.isPositive

/-- The constructor `BigInteger()`: `data_(1, 0), isPositive(true)`. -/
def BigInteger.new : BigInteger := { data_ := [0], isPositive := true }

/-- The loop `while (number > 0)` of `BigInteger(long long)`: it pushes
`number % BASE` and divides `number` by `BASE`; `number` bounds the number of
rounds. -/
def ofLongLongLoop : Nat → Int → List Int
  | 0, _ => []
  | fuel + 1, number =>
    if number > 0 then number.tmod BASE :: ofLongLongLoop fuel (number.tdiv BASE) else []

/-- The constructor `BigInteger(long long number)`, for `number` in
`[-2^63, 2^63)`.  At the least `long long`
the product `number * -1` wraps to `number` itself, which is negative: the
loop does not run and `data_` stays empty. -/
def BigInteger.ofLongLong (number : Int) : BigInteger :=
  let isPositive : Bool := !decide (number < 0)
  let number1 : Int := if number < 0 then wrapLongLong (number * -1) else number
  if number1 = 0 then { data_ := [0], isPositive := isPositive }
  else { data_ := ofLongLongLoop number1.toNat number1, isPositive := isPositive }

/-- The loop of `operator<`, from the most significant limb down: at the
first index where the limbs differ it returns
`(!same_sign) ^ (first.data_[i] < second.data_[i])`, and `false` after the
last. -/
def ltLoop : List Int → List Int → Bool → Bool
  | x :: xs, y :: ys, same_sign =>
    if x ≠ y then xor (!same_sign) (decide (x < y)) else ltLoop xs ys same_sign
  | _, _, _ => false

/-- The function `operator<(const BigInteger&, const BigInteger&)`. -/
def BigInteger.lt (first second : BigInteger) : Bool :=
  if first.sign_number ≠ second.sign_number then !first.sign_number
  else
    if first.size ≠ second.size then
      xor (!first.sign_number) (decide (first.size < second.size))
    else ltLoop first.data_.reverse second.data_.reverse first.sign_number

/-- The function `operator>`: `second < first`. -/
def BigInteger.gt (first second : BigInteger) : Bool := second.lt first

/-- The function `operator<=`: `!(first > second)`. -/
def BigInteger.le (first second : BigInteger) : Bool := !first.gt second

/-- The function `operator>=`: `!(first < second)`. -/
def BigInteger.ge (first second : BigInteger) : Bool := !first.lt second

/-- The function `operator==`: `!((first < second) || (first > second))`. -/
def BigInteger.eq (first second : BigInteger) : Bool :=
  !(first.lt second || first.gt second)

/-- The function `operator!=`: `!(first == second)`. -/
def BigInteger.ne (first second : BigInteger) : Bool := !first.eq second

/-- The conversion `operator bool()`: `*this != 0`. -/
def BigInteger.toBool (a : BigInteger) : Bool := a.ne (BigInteger.ofLongLong 0)

/-- The member `operator-()`. -/
def BigInteger.neg (a : BigInteger) : BigInteger :=
  if a.toBool then { a with isPositive := !a.isPositive } else a

/-- The loop of `operator+=` from an index at or past `size()`: every round
pushes a limb `0`, adds `carry` and the limb of `other`, and reduces by
`BASE`.  After the last limb of `other` a carry makes one more limb,
`0 + 1 + 0`. -/
def addLoopTail : List Int → Bool → List Int
  | [], carry =>
    if carry then [if (0 : Int) + (1 + 0) ≥ BASE then 0 + (1 + 0) - BASE else 0 + (1 + 0)]
    else []
  | y :: ys, carry =>
    (if 0 + ((if carry then 1 else 0) + y) ≥ BASE
      then 0 + ((if carry then 1 else 0) + y) - BASE
      else 0 + ((if carry then 1 else 0) + y))
      :: addLoopTail ys (decide (0 + ((if carry then 1 else 0) + y) ≥ BASE))

/-- The loop of `operator+=`,
`for (i = 0; i < max(size(), other.size()) || carry; ++i)`, from an index on:
the limbs of `data_` and of `other` from that index, and `carry`. -/
def addLoop : List Int → List Int → Bool → List Int
  | [], other, carry => addLoopTail other carry
  | x :: xs, other, carry =>
    (if x + ((if carry then 1 else 0) + other.headD 0) ≥ BASE
      then x + ((if carry then 1 else 0) + other.headD 0) - BASE
      else x + ((if carry then 1 else 0) + other.headD 0))
      :: addLoop xs other.tail (decide (x + ((if carry then 1 else 0) + other.headD 0) ≥ BASE))

/-- The loop of `operator-=`, `for (i = 0; i < other.size() || carry; ++i)`,
from an index on.  It stops at the end of `data_`; the code would index past
the vector there, which it does not reach when `*this >= other`. -/
def subLoop : List Int → List Int → Bool → List Int
  | [], _, _ => []
  | x :: xs, other, carry =>
    if other ≠ [] ∨ carry = true then
      (if x - ((if carry then 1 else 0) + other.headD 0) < 0
        then x - ((if carry then 1 else 0) + other.headD 0) + BASE
        else x - ((if carry then 1 else 0) + other.headD 0))
        :: subLoop xs other.tail (decide (x - ((if carry then 1 else 0) + other.headD 0) < 0))
    else x :: xs

/-- The loop `while (size() > 1 && data_.back() == 0) data_.pop_back();` on
the limbs in reverse order. -/
def stripRev : List Int → List Int
  | [] => []
  | [x] => [x]
  | x :: y :: r => if x = 0 then stripRev (y :: r) else x :: y :: r

/-- The loop `while (size() > 1 && data_.back() == 0) data_.pop_back();`. -/
def strip (data : List Int) : List Int := (stripRev data.reverse).reverse

mutual

/-- The member `operator+=`. -/
def BigInteger.addAssign : Nat → BigInteger → BigInteger → Option BigInteger
  | 0, _, _ => none
  | fuel + 1, self, other =>
    if self.isPositive ≠ other.isPositive then
      if !self.isPositive then BigInteger.subAssign fuel other self.neg
      else BigInteger.subAssign fuel self other.neg
    else some { self with data_ := addLoop self.data_ other.data_ false }

/-- The member `operator-=`; `other - *this` is `operator-=` on a copy of
`other`. -/
def BigInteger.subAssign : Nat → BigInteger → BigInteger → Option BigInteger
  | 0, _, _ => none
  | fuel + 1, self, other =>
    if !other.isPositive then BigInteger.addAssign fuel self other.neg
    else if self.lt other then
      match BigInteger.subAssign fuel other self with
      | none => none
      | some r => some { r with isPositive := false }
    else
      some { data_ := strip (subLoop self.data_ other.data_ false),
             isPositive :=
               if (strip (subLoop self.data_ other.data_ false)).getLast? = some 0 then true
               else self.isPositive }

end

/-- The function `operator+(first, second)`: `+=` on a copy of `first`. -/
def BigInteger.add (fuel : Nat) (first second : BigInteger) : Option BigInteger :=
  BigInteger.addAssign fuel first second

/-- The function `operator-(first, second)`: `-=` on a copy of `first`. -/
def BigInteger.sub (fuel : Nat) (first second : BigInteger) : Option BigInteger :=
  BigInteger.subAssign fuel first second

/-- The inner loop of `operator*=`,
`for (j = 0; j < other.size() || carry; ++j)`, from an index `j` on, for the
limb `d = data_[i]`: the limbs of `result.data_` from `i + j`, the limbs of
`other` from `j`, and `carry`.  It stops at the end of `result.data_`, which
the code does not run past. -/
def mulRow (d : Int) : List Int → List Int → Int → List Int
  | [], _, _ => []
  | r :: rs, [], carry =>
    if carry ≠ 0 then
      (r + carry + 0).tmod BASE :: mulRow d rs [] ((r + carry + 0).tdiv BASE)
    else r :: rs
  | r :: rs, o :: os, carry =>
    (r + carry + d * o).tmod BASE :: mulRow d rs os ((r + carry + d * o).tdiv BASE)

/-- The outer loop of `operator*=`, `for (i = 0; i < size(); ++i)`, from an
index `i` on: the limbs of `data_` from `i` and the limbs of `result.data_`
from `i`. -/
def mulLoop : List Int → List Int → List Int → List Int
  | [], _, result => result
  | d :: ds, other, result =>
    match mulRow d result other 0 with
    | [] => []
    | r :: rs => r :: mulLoop ds other rs

/-- The member `operator*=`. -/
def BigInteger.mulAssign (self other : BigInteger) : BigInteger :=
  if !self.toBool || !other.toBool then
    { BigInteger.ofLongLong 0 with isPositive := true }
  else
    { data_ := strip (mulLoop self.data_ other.data_
        (List.replicate (self.size + other.size) 0)),
      isPositive := decide (self.isPositive = other.sign_number) }

/-- The function `operator*(first, second)`: `*=` on a copy of `first`. -/
def BigInteger.mul (first second : BigInteger) : BigInteger := first.mulAssign second

/-- The loop `while (left < right - 1)` of `operator/=`; `right - left`
bounds the number of rounds. -/
def bsearch (other x : BigInteger) : Nat → Int → Int → Int
  | 0, left, _ => left
  | fuel + 1, left, right =>
    if left < right - 1 then
      if ((BigInteger.ofLongLong ((right + left).tdiv 2)).mul other).le x then
        bsearch other x fuel ((right + left).tdiv 2) right
      else bsearch other x fuel left ((right + left).tdiv 2)
    else left

/-- The loop `for (int i = size() - 1; i >= 0; --i)` of `operator/=`: the
limbs of `data_` from the most significant down, `result` and `x`. -/
def divLoop (fuel : Nat) (other : BigInteger) :
    List Int → BigInteger → BigInteger → Option (BigInteger × BigInteger)
  | [], result, x => some (result, x)
  | d :: ds, result, x =>
    match BigInteger.addAssign fuel (x.mulAssign (BigInteger.ofLongLong BASE))
        (BigInteger.ofLongLong d) with
    | none => none
    | some x2 =>
      if x2.ge other then
        match BigInteger.addAssign fuel (result.mulAssign (BigInteger.ofLongLong BASE))
            (BigInteger.ofLongLong (bsearch other x2 BASE.toNat 0 BASE)) with
        | none => none
        | some result2 =>
          match BigInteger.subAssign fuel x2
              ((BigInteger.ofLongLong (bsearch other x2 BASE.toNat 0 BASE)).mul other) with
          | none => none
          | some x3 => divLoop fuel other ds result2 x3
      else divLoop fuel other ds (result.mulAssign (BigInteger.ofLongLong BASE)) x2

/-- The member `operator/=`; `-*this / other` is `operator/=` on a copy. -/
def BigInteger.divAssign : Nat → BigInteger → BigInteger → Option BigInteger
  | 0, _, _ => none
  | fuel + 1, self, other =>
    if !other.isPositive then
      match BigInteger.divAssign fuel self other.neg with
      | none => none
      | some r => some { r with isPositive := false }
    else if !self.isPositive then
      match BigInteger.divAssign fuel self.neg other with
      | none => none
      | some r => some (if r.toBool then { r with isPositive := false } else r)
    else if self.lt other then some (BigInteger.ofLongLong 0)
    else
      match divLoop fuel other self.data_.reverse
          { BigInteger.new with isPositive := decide (self.isPositive = other.isPositive) }
          BigInteger.new with
      | none => none
      | some r => some r.1

/-- The function `operator/(first, second)`: `/=` on a copy of `first`. -/
def BigInteger.div (fuel : Nat) (first second : BigInteger) : Option BigInteger :=
  BigInteger.divAssign fuel first second

/-- The member `operator%=`. -/
def BigInteger.modAssign (fuel : Nat) (self other : BigInteger) : Option BigInteger :=
  match BigInteger.div fuel self { other with isPositive := true } with
  | none => none
  | some q => BigInteger.subAssign fuel self (q.mul { other with isPositive := true })

/-- The function `operator%(first, second)`: `%=` on a copy of `first`. -/
def BigInteger.mod (fuel : Nat) (first second : BigInteger) : Option BigInteger :=
  BigInteger.modAssign fuel first second

/-! ## The class Rational -/

/-- The members `numerator` and `denominator` of `Rational`. -/
structure Rational where
  numerator : BigInteger
  denominator : BigInteger
deriving DecidableEq

/-- The constructor `Rational(long long number)`. -/
def Rational.ofLongLong (number : Int) : Rational :=
  { numerator := BigInteger.ofLongLong number, denominator := BigInteger.ofLongLong 1 }

/-- The constructor `Rational(const BigInteger& number)`. -/
def Rational.ofBigInteger (number : BigInteger) : Rational :=
  { numerator := number, denominator := BigInteger.ofLongLong 1 }

/-- The constructor `Rational()`. -/
def Rational.new : Rational :=
  { numerator := BigInteger.ofLongLong 0, denominator := BigInteger.ofLongLong 1 }

/-- The member `gcd`. -/
def Rational.gcd : Nat → BigInteger → BigInteger → Option BigInteger
  | 0, _, _ => none
  | fuel + 1, first, second =>
    if second.eq (BigInteger.ofLongLong 0) then some first
    else
      match BigInteger.mod fuel first second with
      | none => none
      | some r => Rational.gcd fuel second r

/-- The member `change_fraction()`. -/
def Rational.change_fraction (fuel : Nat) (self : Rational) : Option Rational :=
  if self.numerator.eq (BigInteger.ofLongLong 0) then
    some { self with denominator := BigInteger.ofLongLong 1 }
  else
    match (if self.numerator.ge (BigInteger.ofLongLong 0)
        then Rational.gcd fuel self.numerator self.denominator
        else Rational.gcd fuel self.numerator.neg self.denominator) with
    | none => none
    | some multiply =>
      match BigInteger.divAssign fuel self.numerator multiply,
          BigInteger.divAssign fuel self.denominator multiply with
      | some n, some d => some { numerator := n, denominator := d }
      | _, _ => none

/-- The member `result_rational_sign()`. -/
def Rational.result_rational_sign (self : Rational) : Rational :=
  if self.denominator.lt (BigInteger.ofLongLong 0) then
    { numerator := self.numerator.neg, denominator := self.denominator.neg }
  else self

/-- The member `operator+=`. -/
def Rational.addAssign (fuel : Nat) (self other : Rational) : Option Rational :=
  match BigInteger.add fuel (self.numerator.mul other.denominator)
      (self.denominator.mul other.numerator) with
  | none => none
  | some n =>
    Rational.change_fraction fuel (Rational.result_rational_sign
      { numerator := n, denominator := self.denominator.mulAssign other.denominator })

/-- The member `operator-=`. -/
def Rational.subAssign (fuel : Nat) (self other : Rational) : Option Rational :=
  match BigInteger.sub fuel (self.numerator.mul other.denominator)
      (self.denominator.mul other.numerator) with
  | none => none
  | some n =>
    Rational.change_fraction fuel (Rational.result_rational_sign
      { numerator := n, denominator := self.denominator.mulAssign other.denominator })

/-- The member `operator*=`. -/
def Rational.mulAssign (fuel : Nat) (self other : Rational) : Option Rational :=
  Rational.change_fraction fuel (Rational.result_rational_sign
    { numerator := self.numerator.mulAssign other.numerator,
      denominator := self.denominator.mulAssign other.denominator })

/-- The member `operator/=`. -/
def Rational.divAssign (fuel : Nat) (self other : Rational) : Option Rational :=
  Rational.change_fraction fuel (Rational.result_rational_sign
    { numerator := self.numerator.mulAssign other.denominator,
      denominator := self.denominator.mulAssign other.numerator })

/-- The member `operator/=` in the call `a /= a`: `other` is `*this`, so
`other.numerator` is read after `numerator *= other.denominator` has changed
it.  The other three compound assignments read `other` before they write and
give on `a += a`, `a -= a` and `a *= a` what the definitions above give. -/
def Rational.divAssignSelf (fuel : Nat) (self : Rational) : Option Rational :=
  Rational.change_fraction fuel (Rational.result_rational_sign
    { numerator := self.numerator.mulAssign self.denominator,
      denominator := self.denominator.mulAssign
        (self.numerator.mulAssign self.denominator) })

/-- The function `operator<(const Rational&, const Rational&)`. -/
def Rational.lt (first second : Rational) : Bool :=
  (first.numerator.mul second.denominator).lt (first.denominator.mul second.numerator)

/-- The function `operator>`: `second < first`. -/
def Rational.gt (first second : Rational) : Bool := second.lt first

/-- The function `operator<=`: `!(first > second)`. -/
def Rational.le (first second : Rational) : Bool := !first.gt second

/-- The function `operator>=`: `!(first <= second)`. -/
def Rational.ge (first second : Rational) : Bool := !first.le second

/-- The function `operator==`: `!((first < second) || (first > second))`. -/
def Rational.eq (first second : Rational) : Bool :=
  !(first.lt second || first.gt second)

/-- The function `operator!=`: `!(first == second)`. -/
def Rational.ne (first second : Rational) : Bool := !first.eq second

/-! ## Decimal strings

A `std::string` is the list of its characters.  `std::stoi` is modelled on
strings of decimal digits, the only ones the constructor passes to it when
its argument is a decimal numeral; on any other string the model returns
`none`. -/

/-- The value of a string of decimal digits, as `std::stoi` reads it. -/
def digitsVal (s : List Char) : Nat :=
  s.foldl (fun acc c => acc * 10 + (c.toNat - 48)) 0

/-- The function `std::stoi` on a non-empty string of decimal digits. -/
def stoi (s : List Char) : Option Int :=
  if s ≠ [] ∧ s.all Char.isDigit = true then some (digitsVal s) else none

/-- The decimal digits of a natural number, most significant first; the first
argument bounds the number of digits. -/
def natToStringAux : Nat → Nat → List Char
  | 0, _ => []
  | fuel + 1, n =>
    if n < 10 then [Char.ofNat (48 + n)]
    else natToStringAux fuel (n / 10) ++ [Char.ofNat (48 + n % 10)]

/-- The decimal numeral of a natural number. -/
def natToString (n : Nat) : List Char := natToStringAux (n + 1) n

/-- The function `std::to_string(long long)`. -/
def to_string (n : Int) : List Char :=
  if n < 0 then '-' :: natToString n.natAbs else natToString n.toNat

/-- The loop `while (number_end > BASE_LENGTH)` of `BigInteger(const std::string&)`
and the push of the leading chunk after it; the first argument bounds the
number of rounds. -/
def ofStringLoop (number : List Char) : Nat → Nat → Option (List Int)
  | 0, _ => none
  | fuel + 1, number_end =>
    if number_end > BASE_LENGTH then
      match stoi ((number.drop (number_end - BASE_LENGTH)).take BASE_LENGTH) with
      | none => none
      | some d =>
        match ofStringLoop number fuel (number_end - BASE_LENGTH) with
        | none => none
        | some ds => some (d :: ds)
    else
      match stoi (number.take number_end) with
      | none => none
      | some d => some [d]

/-- The constructor `BigInteger(const std::string& str_number)`. -/
def BigInteger.ofString (str_number : List Char) : Option BigInteger :=
  match ofStringLoop (if str_number.head? = some '-' then str_number.drop 1 else str_number)
      ((if str_number.head? = some '-' then str_number.drop 1 else str_number).length + 1)
      (if str_number.head? = some '-' then str_number.drop 1 else str_number).length with
  | none => none
  | some data => some { data_ := data, isPositive := !decide (str_number.head? = some '-') }

/-- The loop of `toString()` over the limbs from `rbegin()`; the flag tells
whether the iterator is at `rbegin()`.  The bound `BASE_LENGTH - length()` of
the padding loop is unsigned: it wraps when the limb prints with more than
`BASE_LENGTH` characters, and the loop over an `unsigned int` does not end. -/
def toStringLoop : List Int → Bool → Option (List Char)
  | [], _ => some []
  | d :: ds, first =>
    if first then
      match toStringLoop ds false with
      | none => none
      | some r => some (to_string d ++ r)
    else if (to_string d).length ≤ BASE_LENGTH then
      match toStringLoop ds false with
      | none => none
      | some r =>
        some (List.replicate (BASE_LENGTH - (to_string d).length) '0' ++ to_string d ++ r)
    else none

/-- The member `toString()`. -/
def BigInteger.toString (a : BigInteger) : Option (List Char) :=
  match toStringLoop a.data_.reverse true with
  | none => none
  | some r => some ((if !a.isPositive then ['-'] else []) ++ r)

/-! ## Denoted values and normal forms -/

/-- The integer a list of limbs denotes, least significant limb first, in
base `BASE`. -/
def limbsVal : List Int → Int
  | [] => 0
  | d :: ds => d + BASE * limbsVal ds

/-- The integer a `BigInteger` denotes. -/
def BigInteger.toInt (a : BigInteger) : Int :=
  if a.isPositive then limbsVal a.data_ else - limbsVal a.data_

/-- Every limb lies in `[0, BASE - 1]`. -/
def InRange (ds : List Int) : Prop := ∀ d ∈ ds, 0 ≤ d ∧ d < BASE

/-- A normalised `BigInteger`: limbs in `[0, 9999]`, at least one limb, no
leading zero limb except in the single limb of zero, and zero is positive. -/
def Normalised (a : BigInteger) : Prop :=
  InRange a.data_ ∧ a.data_ ≠ [] ∧
    (a.data_.getLast? = some 0 → a.data_ = [0] ∧ a.isPositive = true)

instance (ds : List Int) : Decidable (InRange ds) := by
  unfold InRange; infer_instance

instance (a : BigInteger) : Decidable (Normalised a) := by
  unfold Normalised; infer_instance

/-- A limb list without a leading zero limb; the empty list counts. -/
def Lead (ds : List Int) : Prop := ds.getLast? ≠ some 0

/-- The side condition under which the sum of two limb lists has no leading
zero limb: the longer list has none, or one of two lists of equal length. -/
def LeadPair (xs ys : List Int) : Prop :=
  (xs.length < ys.length → Lead ys) ∧ (ys.length < xs.length → Lead xs) ∧
    (xs.length = ys.length → Lead xs ∨ Lead ys)

/-- The normalised number of value `n`. -/
def canon (n : Int) : BigInteger :=
  { data_ := if n = 0 then [0] else ofLongLongLoop n.natAbs (n.natAbs : Int),
    isPositive := decide (0 ≤ n) }

/-- The least `long long`. -/
def LLONG_MIN : Int := -9223372036854775808

/-- The greatest `long long`. -/
def LLONG_MAX : Int := 9223372036854775807

/-- Every character of the string is a decimal digit. -/
def AllDigits (s : List Char) : Prop := ∀ c ∈ s, c.isDigit = true

instance (s : List Char) : Decidable (AllDigits s) := by
  unfold AllDigits; infer_instance

/-- The fraction with the normalised numerator and denominator of the given
values. -/
def Rational.ofInts (n d : Int) : Rational :=
  { numerator := canon n, denominator := canon d }

/-- The fraction `n / d` in lowest terms, as `change_fraction` leaves it. -/
def reduced (n d : Int) : Rational :=
  if n = 0 then Rational.ofInts 0 1
  else Rational.ofInts (n / (Int.gcd n d : Int)) (d / (Int.gcd n d : Int))

/-- A fraction in lowest terms: numerator and denominator are normalised, the
denominator is positive and coprime to the numerator, and zero is `0/1`. -/
def Rational.LowestTerms (r : Rational) : Prop :=
  Normalised r.numerator ∧ Normalised r.denominator ∧ 0 < r.denominator.toInt ∧
    Int.gcd r.numerator.toInt r.denominator.toInt = 1 ∧
    (r.numerator.toInt = 0 → r.denominator.toInt = 1)

/-- The fractions a program builds from sound arguments: a constructor gives
one, from a `long long` other than the least one or from a normalised
`BigInteger`, and the compound assignments `+=`, `-=`, `*=` and `/=` (the last
one with a divisor that is not zero, also in the call `a /= a`) give one from
built ones when they return. -/
inductive Built : Rational → Prop
  | new : Built Rational.new
  | ofLongLong (number : Int) : LLONG_MIN < number → number ≤ LLONG_MAX →
      Built (Rational.ofLongLong number)
  | ofBigInteger (number : BigInteger) : Normalised number →
      Built (Rational.ofBigInteger number)
  | addAssign (fuel : Nat) (a b r : Rational) : Built a → Built b →
      Rational.addAssign fuel a b = some r → Built r
  | subAssign (fuel : Nat) (a b r : Rational) : Built a → Built b →
      Rational.subAssign fuel a b = some r → Built r
  | mulAssign (fuel : Nat) (a b r : Rational) : Built a → Built b →
      Rational.mulAssign fuel a b = some r → Built r
  | divAssign (fuel : Nat) (a b r : Rational) : Built a → Built b →
      b.numerator.toInt ≠ 0 → Rational.divAssign fuel a b = some r → Built r
  | divAssignSelf (fuel : Nat) (a r : Rational) : Built a →
      a.numerator.toInt ≠ 0 → Rational.divAssignSelf fuel a = some r → Built r

end BigArith

namespace CppString

/-! ## The class String of `string.h` -/

/-- The class `String`: the `size_` characters of the buffer `data_` that
stand before the terminating `'\0'`. -/
structure String where
  data_ : List Char
deriving DecidableEq

/-- The member `size_`. -/
def String.size_ (s : String) : Nat := s.data_.length

/-- The member `operator[](int index)`: `data_[index]`; the buffer holds
`'\0'` at index `size_`. -/
def String.at (s : String) (index : Nat) : Char := s.data_.getD index '\x00'

/-- The inner loop of `find`,
`for (int j = i; j < i + size_1; ++j)` with `flag = 0; break;` at the first
`substr_[j - i] != data_[j]`: the value of `flag` after the loop. -/
def findInner (s substr_ : String) (i : Nat) : Nat → Nat → Nat
  | 0, _ => 1
  | fuel + 1, j =>
    if j < i + substr_.size_ then
      if substr_.at (j - i) ≠ s.at j then 0 else findInner s substr_ i fuel (j + 1)
    else 1

/-- The outer loop of `find`, `for (int i = 0; i + size_1 <= size_; ++i)`,
from the index `i` on, and the `return size_;` after it. -/
def findOuter (s substr_ : String) : Nat → Nat → Nat
  | 0, _ => s.size_
  | fuel + 1, i =>
    if i + substr_.size_ ≤ s.size_ then
      if findInner s substr_ i substr_.size_ i = 1 then i
      else findOuter s substr_ fuel (i + 1)
    else s.size_

/-- The member `size_t String::find(const String& substr_) const`.  The outer
loop runs at most `size_ + 1` times and the inner loop at most `size_1`
times.  The `int` variables `size_1`, `i` and `j` are natural numbers: they
stay in `[0, size_]`, and sizes are taken to fit an `int`. -/
def String.find (s substr_ : String) : Nat := findOuter s substr_ (s.size_ + 1) 0

/-- The `t.size()` characters of `s` starting at index `i` are `t`. -/
def Occurs (s t : String) (i : Nat) : Prop :=
  i + t.size_ ≤ s.size_ ∧ (s.data_.drop i).take t.size_ = t.data_

end CppString

namespace SmartPointers

/-! ## Counter arithmetic -/

theorem sizeInc_eq (c : Nat) (h : c + 1 < SIZE_MOD) : sizeInc c = c + 1 := by
  unfold sizeInc; exact Nat.mod_eq_of_lt h

theorem sizeDec_eq (c : Nat) (h0 : 0 < c) (h : c < SIZE_MOD) : sizeDec c = c - 1 := by
  unfold sizeDec SIZE_MOD at *; omega

/-! ## Lists of slots -/

theorem countP_set_add {α : Type} (p : α → Bool) (l : List α) (i : Nat) (x a : α)
    (h : l[i]? = some a) :
    (l.set i x).countP p + (if p a then 1 else 0) = l.countP p + (if p x then 1 else 0) := by
  induction l generalizing i with
  | nil => simp at h
  | cons y l ih =>
    cases i with
    | zero =>
      simp at h
      subst h
      simp [List.countP_cons]
      omega
    | succ i =>
      simp at h
      have := ih i h
      simp [List.countP_cons]
      omega

theorem countP_pos_of_get {α : Type} (p : α → Bool) (l : List α) (i : Nat) (a : α)
    (h : l[i]? = some a) (hp : p a = true) : 0 < l.countP p := by
  rw [List.countP_pos_iff]
  exact ⟨a, List.getElem?_mem h, hp⟩

theorem lt_length_of_get {α : Type} (l : List α) (i : Nat) (a : α) (h : l[i]? = some a) :
    i < l.length := by
  rcases Nat.lt_or_ge i l.length with hl | hl
  · exact hl
  · rw [List.getElem?_eq_none hl] at h; simp at h

theorem Heap.cS_of_get (h : Heap) (b : Nat) (blk : BaseControlBlock)
    (hb : h.blocks[b]? = some blk) : h.cS b = blk.countShared := by
  simp [Heap.cS, Heap.countShared, hb]

theorem Heap.cW_of_get (h : Heap) (b : Nat) (blk : BaseControlBlock)
    (hb : h.blocks[b]? = some blk) : h.cW b = blk.countWeak := by
  simp [Heap.cW, Heap.countWeak, hb]

theorem Heap.cS_of_ge (h : Heap) (b : Nat) (hb : h.blocks.length ≤ b) : h.cS b = 0 := by
  simp [Heap.cS, Heap.countShared, List.getElem?_eq_none hb]

theorem Heap.cW_of_ge (h : Heap) (b : Nat) (hb : h.blocks.length ≤ b) : h.cW b = 0 := by
  simp [Heap.cW, Heap.countWeak, List.getElem?_eq_none hb]

theorem Heap.countShared_eq (h : Heap) (b : Nat) (hb : b < h.blocks.length) :
    h.countShared b = some (h.cS b) := by
  simp [Heap.cS, Heap.countShared, List.getElem?_eq_getElem hb]

theorem Heap.countWeak_eq (h : Heap) (b : Nat) (hb : b < h.blocks.length) :
    h.countWeak b = some (h.cW b) := by
  simp [Heap.cW, Heap.countWeak, List.getElem?_eq_getElem hb]

theorem Heap.cS_set (h : Heap) (b c : Nat) (blk blk1 : BaseControlBlock)
    (hb : h.blocks[b]? = some blk) :
    Heap.cS { h with blocks := h.blocks.set b blk1 } c
      = if c = b then blk1.countShared else h.cS c := by
  have hlt := lt_length_of_get _ _ _ hb
  simp only [Heap.cS, Heap.countShared, List.getElem?_set]
  by_cases hc : c = b
  · subst hc; simp [hlt]
  · have : ¬ b = c := fun h => hc h.symm
    simp [hc, this]

theorem Heap.cW_set (h : Heap) (b c : Nat) (blk blk1 : BaseControlBlock)
    (hb : h.blocks[b]? = some blk) :
    Heap.cW { h with blocks := h.blocks.set b blk1 } c
      = if c = b then blk1.countWeak else h.cW c := by
  have hlt := lt_length_of_get _ _ _ hb
  simp only [Heap.cW, Heap.countWeak, List.getElem?_set]
  by_cases hc : c = b
  · subst hc; simp [hlt]
  · have : ¬ b = c := fun h => hc h.symm
    simp [hc, this]

theorem Heap.incShared_spec (h h1 : Heap) (b : Nat) (e : h.incShared b = some h1) :
    Heap.Changed h h1 b (sizeInc (h.cS b)) (h.cW b) 0 0 := by
  unfold Heap.incShared at e
  split at e
  · simp at e
  · rename_i blk hb
    simp at e
    subst e
    refine ⟨lt_length_of_get _ _ _ hb, by simp, ?_, ?_, ?_, ?_⟩
    · intro c; rw [Heap.cS_set h b c blk _ hb, Heap.cS_of_get h b blk hb]
    · intro c; rw [Heap.cW_set h b c blk _ hb, Heap.cW_of_get h b blk hb]
    · intro c; simp [Heap.useDeleterCalls]
    · intro c; simp [Heap.destroyCalls]

theorem Heap.decShared_spec (h h1 : Heap) (b : Nat) (e : h.decShared b = some h1) :
    Heap.Changed h h1 b (sizeDec (h.cS b)) (h.cW b) 0 0 := by
  unfold Heap.decShared at e
  split at e
  · simp at e
  · rename_i blk hb
    simp at e
    subst e
    refine ⟨lt_length_of_get _ _ _ hb, by simp, ?_, ?_, ?_, ?_⟩
    · intro c; rw [Heap.cS_set h b c blk _ hb, Heap.cS_of_get h b blk hb]
    · intro c; rw [Heap.cW_set h b c blk _ hb, Heap.cW_of_get h b blk hb]
    · intro c; simp [Heap.useDeleterCalls]
    · intro c; simp [Heap.destroyCalls]

theorem Heap.incWeak_spec (h h1 : Heap) (b : Nat) (e : h.incWeak b = some h1) :
    Heap.Changed h h1 b (h.cS b) (sizeInc (h.cW b)) 0 0 := by
  unfold Heap.incWeak at e
  split at e
  · simp at e
  · rename_i blk hb
    simp at e
    subst e
    refine ⟨lt_length_of_get _ _ _ hb, by simp, ?_, ?_, ?_, ?_⟩
    · intro c; rw [Heap.cS_set h b c blk _ hb, Heap.cS_of_get h b blk hb]
    · intro c; rw [Heap.cW_set h b c blk _ hb, Heap.cW_of_get h b blk hb]
    · intro c; simp [Heap.useDeleterCalls]
    · intro c; simp [Heap.destroyCalls]

theorem Heap.decWeak_spec (h h1 : Heap) (b : Nat) (e : h.decWeak b = some h1) :
    Heap.Changed h h1 b (h.cS b) (sizeDec (h.cW b)) 0 0 := by
  unfold Heap.decWeak at e
  split at e
  · simp at e
  · rename_i blk hb
    simp at e
    subst e
    refine ⟨lt_length_of_get _ _ _ hb, by simp, ?_, ?_, ?_, ?_⟩
    · intro c; rw [Heap.cS_set h b c blk _ hb, Heap.cS_of_get h b blk hb]
    · intro c; rw [Heap.cW_set h b c blk _ hb, Heap.cW_of_get h b blk hb]
    · intro c; simp [Heap.useDeleterCalls]
    · intro c; simp [Heap.destroyCalls]

theorem Heap.useDeleter_spec (h h1 : Heap) (b : Nat) (e : h.useDeleter b = some h1) :
    Heap.Changed h h1 b (h.cS b) (h.cW b) 1 0 := by
  unfold Heap.useDeleter at e
  split at e
  · simp at e
  · rename_i blk hb
    simp at e
    subst e
    refine ⟨lt_length_of_get _ _ _ hb, rfl, ?_, ?_, ?_, ?_⟩
    · intro c; simp only [Heap.cS, Heap.countShared]; split <;> simp_all
    · intro c; simp only [Heap.cW, Heap.countWeak]; split <;> simp_all
    · intro c
      simp only [Heap.useDeleterCalls, BaseControlBlock.useDeleter]
      cases blk.derived <;> by_cases hc : c = b <;> simp [hc, List.count_cons]
    · intro c
      simp only [Heap.destroyCalls, BaseControlBlock.useDeleter]
      cases blk.derived <;> simp [List.count_cons]

theorem Heap.destroy_spec (h h1 : Heap) (b : Nat) (e : h.destroy b = some h1) :
    Heap.Changed h h1 b (h.cS b) (h.cW b) 0 1 := by
  unfold Heap.destroy at e
  split at e
  · simp at e
  · rename_i blk hb
    simp at e
    subst e
    refine ⟨lt_length_of_get _ _ _ hb, rfl, ?_, ?_, ?_, ?_⟩
    · intro c; simp only [Heap.cS, Heap.countShared]; split <;> simp_all
    · intro c; simp only [Heap.cW, Heap.countWeak]; split <;> simp_all
    · intro c
      simp only [Heap.useDeleterCalls, BaseControlBlock.destroy]
      cases blk.derived <;> simp [List.count_cons]
    · intro c
      simp only [Heap.destroyCalls, BaseControlBlock.destroy]
      cases blk.derived <;> by_cases hc : c = b <;> simp [hc, List.count_cons]

theorem Heap.Changed.trans {h h1 h2 : Heap} {b s k d f s1 k1 d1 f1 : Nat}
    (x : Heap.Changed h h1 b s k d f) (y : Heap.Changed h1 h2 b s1 k1 d1 f1) :
    Heap.Changed h h2 b s1 k1 (d + d1) (f + f1) := by
  refine ⟨x.lt, y.len.trans x.len, ?_, ?_, ?_, ?_⟩
  · intro c; rw [y.cS, x.cS]; split <;> rfl
  · intro c; rw [y.cW, x.cW]; split <;> rfl
  · intro c; rw [y.del, x.del]; split <;> omega
  · intro c; rw [y.des, x.des]; split <;> omega

theorem Heap.Changed.cS_self {h h1 : Heap} {b s k d f : Nat}
    (x : Heap.Changed h h1 b s k d f) : h1.cS b = s := by
  rw [x.cS]; simp

theorem Heap.Changed.cW_self {h h1 : Heap} {b s k d f : Nat}
    (x : Heap.Changed h h1 b s k d f) : h1.cW b = k := by
  rw [x.cW]; simp

theorem Heap.Changed.lt1 {h h1 : Heap} {b s k d f : Nat}
    (x : Heap.Changed h h1 b s k d f) : b < h1.blocks.length := by
  rw [x.len]; exact x.lt

/-! ## What each handle operation does to the heap -/

theorem SharedPtr.copy_spec (a s : SharedPtr) (h h1 : Heap) (b : Nat) (hd : a.data = some b)
    (e : a.copy h = some (s, h1)) :
    s = { data := a.data, ptr := a.ptr } ∧
    Heap.Changed h h1 b (sizeInc (h.cS b)) (h.cW b) 0 0 := by
  simp only [SharedPtr.copy, hd] at e
  split at e
  · simp at e
  · rename_i h2 hi
    simp at e
    obtain ⟨e1, e2⟩ := e
    subst e2
    exact ⟨by rw [← e1, hd], Heap.incShared_spec _ _ _ hi⟩

theorem SharedPtr.copy_none (a : SharedPtr) (h : Heap) (hd : a.data = none) :
    a.copy h = some ({ data := none, ptr := a.ptr }, h) := by
  simp [SharedPtr.copy, hd]

theorem SharedPtr.fromBlock_spec (p : Ptr) (s : SharedPtr) (h h1 : Heap) (b : Nat)
    (e : SharedPtr.fromBlock p (some b) h = some (s, h1)) :
    s = { data := some b, ptr := p } ∧
    Heap.Changed h h1 b (sizeInc (h.cS b)) (h.cW b) 0 0 := by
  simp only [SharedPtr.fromBlock] at e
  split at e
  · simp at e
  · rename_i h2 hi
    simp at e
    obtain ⟨e1, e2⟩ := e
    subst e2
    exact ⟨e1.symm, Heap.incShared_spec _ _ _ hi⟩

theorem WeakPtr.weak_copy_spec (a s : WeakPtr) (h h1 : Heap) (b : Nat) (hd : a.data = some b)
    (e : a.copy h = some (s, h1)) :
    s = { data := a.data, ptr := a.ptr } ∧
    Heap.Changed h h1 b (h.cS b) (sizeInc (h.cW b)) 0 0 := by
  simp only [WeakPtr.copy, hd] at e
  split at e
  · simp at e
  · rename_i h2 hi
    simp at e
    obtain ⟨e1, e2⟩ := e
    subst e2
    exact ⟨by rw [← e1, hd], Heap.incWeak_spec _ _ _ hi⟩

theorem WeakPtr.weak_copy_none (a : WeakPtr) (h : Heap) (hd : a.data = none) :
    a.copy h = some ({ data := none, ptr := a.ptr }, h) := by
  simp [WeakPtr.copy, hd]

theorem WeakPtr.fromShared_spec (a : SharedPtr) (s : WeakPtr) (h h1 : Heap) (b : Nat)
    (hd : a.data = some b) (e : WeakPtr.fromShared a h = some (s, h1)) :
    s = { data := a.data, ptr := a.ptr } ∧
    Heap.Changed h h1 b (h.cS b) (sizeInc (h.cW b)) 0 0 := by
  simp only [WeakPtr.fromShared, hd] at e
  split at e
  · simp at e
  · rename_i h2 hi
    simp at e
    obtain ⟨e1, e2⟩ := e
    subst e2
    exact ⟨by rw [← e1, hd], Heap.incWeak_spec _ _ _ hi⟩

theorem WeakPtr.fromShared_none (a : SharedPtr) (h : Heap) (hd : a.data = none) :
    WeakPtr.fromShared a h = some ({ data := none, ptr := a.ptr }, h) := by
  simp [WeakPtr.fromShared, hd]

theorem SharedPtr.destructor_spec (a : SharedPtr) (h h1 : Heap) (b : Nat)
    (hd : a.data = some b) (e : a.destructor h = some h1) :
    Heap.Changed h h1 b (sizeDec (h.cS b)) (h.cW b)
      (if sizeDec (h.cS b) = 0 then 1 else 0)
      (if sizeDec (h.cS b) = 0 ∧ h.cW b = 0 then 1 else 0) := by
  simp only [SharedPtr.destructor, hd] at e
  split at e
  · simp at e
  · rename_i h2 hdec
    have c1 := Heap.decShared_spec _ _ _ hdec
    rw [Heap.countShared_eq _ _ c1.lt1, c1.cS_self] at e
    simp only at e
    split at e
    · rename_i hpos
      simp at e
      subst e
      have hne : ¬ sizeDec (h.cS b) = 0 := by omega
      simpa [hne] using c1
    · rename_i hpos
      have hz : sizeDec (h.cS b) = 0 := by omega
      split at e
      · simp at e
      · rename_i h3 hdel
        have c2 := c1.trans (Heap.useDeleter_spec _ _ _ hdel)
        rw [Heap.countWeak_eq _ _ c2.lt1, c2.cW_self, c1.cW_self] at e
        simp only at e
        rw [c1.cS_self, c1.cW_self] at c2
        split at e
        · rename_i hw
          have c3 := c2.trans (Heap.destroy_spec _ _ _ e)
          rw [c2.cS_self, c2.cW_self] at c3
          simpa [hz, hw] using c3
        · rename_i hw
          simp at e
          subst e
          simpa [hz, hw] using c2

theorem WeakPtr.weak_destructor_spec (a : WeakPtr) (h h1 : Heap) (b : Nat)
    (hd : a.data = some b) (e : a.destructor h = some h1) :
    Heap.Changed h h1 b (h.cS b) (sizeDec (h.cW b)) 0
      (if sizeDec (h.cW b) = 0 ∧ h.cS b = 0 then 1 else 0) := by
  simp only [WeakPtr.destructor, hd] at e
  split at e
  · simp at e
  · rename_i h2 hdec
    have c1 := Heap.decWeak_spec _ _ _ hdec
    rw [Heap.countShared_eq _ _ c1.lt1, Heap.countWeak_eq _ _ c1.lt1, c1.cS_self,
      c1.cW_self] at e
    simp only at e
    split at e
    · rename_i hw
      have c3 := c1.trans (Heap.destroy_spec _ _ _ e)
      rw [c1.cS_self, c1.cW_self] at c3
      simpa [hw] using c3
    · rename_i hw
      simp at e
      subst e
      simpa [hw] using c1

theorem WeakPtr.expired_eq (a : WeakPtr) (h : Heap) (b : Nat) (hd : a.data = some b)
    (hb : b < h.blocks.length) : a.expired h = some (h.cS b == 0) := by
  simp [WeakPtr.expired, hd, Heap.countShared_eq h b hb]

theorem WeakPtr.lock_expired (a : WeakPtr) (h : Heap) (b : Nat) (hd : a.data = some b)
    (hb : b < h.blocks.length) (hz : h.cS b = 0) :
    a.lock h = some (SharedPtr.empty, h) := by
  simp [WeakPtr.lock, WeakPtr.expired_eq a h b hd hb, hz]

theorem WeakPtr.lock_spec (a : WeakPtr) (s : SharedPtr) (h h1 : Heap) (b : Nat)
    (hd : a.data = some b) (e : a.lock h = some (s, h1)) :
    (h.cS b = 0 ∧ s = SharedPtr.empty ∧ h1 = h) ∨
    (h.cS b ≠ 0 ∧ s = { data := some b, ptr := a.ptr } ∧
      Heap.Changed h h1 b (sizeInc (h.cS b)) (h.cW b) 0 0) := by
  by_cases hb : b < h.blocks.length
  · by_cases hz : h.cS b = 0
    · rw [WeakPtr.lock_expired a h b hd hb hz] at e
      simp at e
      exact Or.inl ⟨hz, e.1.symm, e.2.symm⟩
    · simp only [WeakPtr.lock, WeakPtr.expired_eq a h b hd hb, hd] at e
      have : (h.cS b == 0) = false := by simpa using hz
      rw [this] at e
      simp only at e
      exact Or.inr ⟨hz, SharedPtr.fromBlock_spec _ _ _ _ _ e⟩
  · simp [WeakPtr.lock, WeakPtr.expired, hd, Heap.countShared,
      List.getElem?_eq_none (Nat.le_of_not_lt hb)] at e

/-! ## The invariant of program states -/

theorem Inv_init : Inv World.init := by
  refine ⟨?_, ?_, ?_, ?_, ?_, ?_⟩ <;>
    simp [World.init, Heap.init, Heap.cS, Heap.cW, Heap.countShared, Heap.countWeak,
      liveShared, liveWeak, Heap.useDeleterCalls, Heap.destroyCalls]

theorem Inv_of_changed (w w1 : World) (b s k d f : Nat) (hI : Inv w)
    (hch : Heap.Changed w.heap w1.heap b s k d f)
    (hs : ∀ c, liveShared w1 c = if c = b then s else liveShared w c)
    (hk : ∀ c, liveWeak w1 c = if c = b then k else liveWeak w c)
    (hd : (if w.heap.cS b = 0 then 1 else 0) + d = if s = 0 then 1 else 0)
    (hf : (if w.heap.cS b = 0 ∧ w.heap.cW b = 0 then 1 else 0) + f
      = if s = 0 ∧ k = 0 then 1 else 0)
    (hn : ∀ x, some x ∈ w1.shared → x.data = none → x.ptr = none)
    (hnW : ∀ x, some x ∈ w1.weak → x.data = none → x.ptr = none) : Inv w1 := by
  refine ⟨?_, ?_, ?_, ?_, hn, hnW⟩
  · intro c; rw [hch.cS, hs, hI.cS]
  · intro c; rw [hch.cW, hk, hI.cW]
  · intro c
    rw [hch.del, hI.del, hch.len, hch.cS]
    by_cases hc : c = b
    · subst hc; simp only [hch.lt, true_and, if_true]; exact hd
    · simp [hc]
  · intro c
    rw [hch.des, hI.des, hch.len, hch.cS, hch.cW]
    by_cases hc : c = b
    · subst hc; simp only [hch.lt, true_and, if_true]; exact hf
    · simp [hc]

theorem Inv_of_same_heap (w w1 : World) (hI : Inv w) (hh : w1.heap = w.heap)
    (hs : ∀ c, liveShared w1 c = liveShared w c)
    (hk : ∀ c, liveWeak w1 c = liveWeak w c)
    (hn : ∀ x, some x ∈ w1.shared → x.data = none → x.ptr = none)
    (hnW : ∀ x, some x ∈ w1.weak → x.data = none → x.ptr = none) : Inv w1 := by
  refine ⟨?_, ?_, ?_, ?_, hn, hnW⟩
  · intro c; rw [hh, hs, hI.cS]
  · intro c; rw [hh, hk, hI.cW]
  · intro c; rw [hh, hI.del]
  · intro c; rw [hh, hI.des]

/-- A freshly allocated block with `countShared == 1`, `countWeak == 0` and
one new `SharedPtr` bound to it keeps the invariant. -/
theorem Inv_of_alloc (w : World) (blk : BaseControlBlock) (ev : List Event) (p : Ptr)
    (hI : Inv w) (h1 : blk.countShared = 1) (h0 : blk.countWeak = 0)
    (hev : ∀ c, ev.count (Event.useDeleter c) = 0 ∧ ev.count (Event.destroy c) = 0) :
    Inv { w with heap := { blocks := w.heap.blocks ++ [blk], log := w.heap.log ++ ev },
                 shared := w.shared ++ [some { data := some w.heap.blocks.length, ptr := p }] }
    := by
  have hS : ∀ c, Heap.cS { blocks := w.heap.blocks ++ [blk], log := w.heap.log ++ ev } c
      = if c = w.heap.blocks.length then 1 else w.heap.cS c := by
    intro c
    simp only [Heap.cS, Heap.countShared]
    rcases Nat.lt_trichotomy c w.heap.blocks.length with hc | hc | hc
    · simp [List.getElem?_append_left hc, Nat.ne_of_lt hc]
    · subst hc; simp [h1]
    · have : ¬ c = w.heap.blocks.length := by omega
      rw [List.getElem?_eq_none (by simp; omega), List.getElem?_eq_none (by omega)]
      simp [this]
  have hW : ∀ c, Heap.cW { blocks := w.heap.blocks ++ [blk], log := w.heap.log ++ ev } c
      = w.heap.cW c := by
    intro c
    simp only [Heap.cW, Heap.countWeak]
    rcases Nat.lt_trichotomy c w.heap.blocks.length with hc | hc | hc
    · simp [List.getElem?_append_left hc]
    · subst hc; simp [h0]
    · rw [List.getElem?_eq_none (by simp; omega), List.getElem?_eq_none (by omega)]
  refine ⟨?_, ?_, ?_, ?_, ?_, ?_⟩
  · intro c
    rw [hS]
    have h2 := hI.cS w.heap.blocks.length
    rw [Heap.cS_of_ge _ _ (Nat.le_refl _)] at h2
    have h3 := hI.cS c
    simp only [liveShared] at h2 h3 ⊢
    simp only [List.countP_append]
    by_cases hc : c = w.heap.blocks.length
    · subst hc; simp [sharedBound, ← h2]
    · have hc2 : ¬ w.heap.blocks.length = c := fun h => hc h.symm
      simp [sharedBound, hc, hc2, h3]
  · intro c
    rw [hW]
    exact hI.cW c
  · intro c
    simp only [Heap.useDeleterCalls] at *
    rw [hS, List.count_append, (hev c).1]
    have := hI.del c
    simp only [Heap.useDeleterCalls] at this
    rw [this]
    simp only [List.length_append, List.length_singleton]
    by_cases hc : c = w.heap.blocks.length
    · subst hc; simp
    · by_cases hl : c < w.heap.blocks.length
      · have : c < w.heap.blocks.length + 1 := by omega
        simp [hc, hl, this]
      · have : ¬ c < w.heap.blocks.length + 1 := by omega
        simp [hc, hl, this]
  · intro c
    simp only [Heap.destroyCalls] at *
    rw [hS, hW, List.count_append, (hev c).2]
    have := hI.des c
    simp only [Heap.destroyCalls] at this
    rw [this]
    simp only [List.length_append, List.length_singleton]
    by_cases hc : c = w.heap.blocks.length
    · subst hc; simp
    · by_cases hl : c < w.heap.blocks.length
      · have : c < w.heap.blocks.length + 1 := by omega
        simp [hc, hl, this]
      · have : ¬ c < w.heap.blocks.length + 1 := by omega
        simp [hc, hl, this]
  · intro x hx hd
    simp only [List.mem_append, List.mem_singleton] at hx
    rcases hx with hx | hx
    · exact hI.nul x hx hd
    · simp at hx; subst hx; simp at hd
  · exact hI.nulW

/-! ## Every statement keeps the invariant -/

theorem World.getShared_some (w : World) (i : Nat) (a : SharedPtr)
    (h : w.getShared i = some a) : w.shared[i]? = some (some a) := by
  unfold World.getShared at h
  cases hx : w.shared[i]? with
  | none => simp [hx] at h
  | some o => cases o with
    | none => simp [hx] at h
    | some x => simp [hx] at h; simp [h]

theorem World.getWeak_some (w : World) (i : Nat) (a : WeakPtr)
    (h : w.getWeak i = some a) : w.weak[i]? = some (some a) := by
  unfold World.getWeak at h
  cases hx : w.weak[i]? with
  | none => simp [hx] at h
  | some o => cases o with
    | none => simp [hx] at h
    | some x => simp [hx] at h; simp [h]

theorem countP_shared_append (l : List (Option SharedPtr)) (s : SharedPtr) (c : Nat) :
    (l ++ [some s]).countP (sharedBound c)
      = l.countP (sharedBound c) + if s.data = some c then 1 else 0 := by
  by_cases h : s.data = some c <;> simp [List.countP_append, sharedBound, h]

theorem countP_weak_append (l : List (Option WeakPtr)) (s : WeakPtr) (c : Nat) :
    (l ++ [some s]).countP (weakBound c)
      = l.countP (weakBound c) + if s.data = some c then 1 else 0 := by
  by_cases h : s.data = some c <;> simp [List.countP_append, weakBound, h]

theorem liveShared_pos (w : World) (i b : Nat) (a : SharedPtr)
    (h : w.shared[i]? = some (some a)) (hd : a.data = some b) : 0 < liveShared w b :=
  countP_pos_of_get _ _ i _ h (by simp [sharedBound, hd])

theorem liveWeak_pos (w : World) (i b : Nat) (a : WeakPtr)
    (h : w.weak[i]? = some (some a)) (hd : a.data = some b) : 0 < liveWeak w b :=
  countP_pos_of_get _ _ i _ h (by simp [weakBound, hd])

theorem liveShared_le (w : World) (b : Nat) : liveShared w b ≤ w.shared.length :=
  List.countP_le_length _

theorem liveWeak_le (w : World) (b : Nat) : liveWeak w b ≤ w.weak.length :=
  List.countP_le_length _

theorem mem_set_cases {α : Type} (l : List α) (i : Nat) (x y : α) (h : y ∈ l.set i x) :
    y = x ∨ y ∈ l := by
  rcases List.mem_or_eq_of_mem_set h with h1 | h1
  · exact Or.inr h1
  · exact Or.inl h1

theorem Inv_sharedCopy (w w1 : World) (i : Nat) (hI : Inv w)
    (hb : w.shared.length + 1 < SIZE_MOD) (e : step (Op.sharedCopy i) w = some w1) :
    Inv w1 := by
  simp only [step] at e
  split at e
  · simp at e
  · rename_i a ha
    have hget := World.getShared_some w i a ha
    split at e
    · simp at e
    · rename_i r hr
      simp at e
      subst e
      cases hd : a.data with
      | none =>
        rw [SharedPtr.copy_none a _ hd] at hr
        simp at hr
        subst hr
        refine Inv_of_same_heap w _ hI rfl ?_ (fun c => rfl) ?_ hI.nulW
        · intro c; simp only [liveShared, countP_shared_append]; simp
        · intro x hx hxd
          simp only [List.mem_append, List.mem_singleton] at hx
          rcases hx with hx | hx
          · exact hI.nul x hx hxd
          · simp at hx; subst hx
            exact hI.nul a (List.getElem?_mem hget) hd
      | some b =>
        obtain ⟨rs, rh⟩ := r
        obtain ⟨e1, e2⟩ := SharedPtr.copy_spec a rs w.heap rh b hd hr
        subst e1
        have hpos := liveShared_pos w i b a hget hd
        have hle := liveShared_le w b
        have hcs := hI.cS b
        have hinc : sizeInc (w.heap.cS b) = w.heap.cS b + 1 := sizeInc_eq _ (by omega)
        rw [hinc] at e2
        refine Inv_of_changed w _ b _ _ 0 0 hI e2 ?_ ?_ ?_ ?_ ?_ hI.nulW
        · intro c
          simp only [liveShared, countP_shared_append, hd]
          by_cases hc : c = b
          · subst hc; simp [hcs, liveShared]
          · have : ¬ b = c := fun h => hc h.symm
            simp [hc, this]
        · intro c; split
          · rename_i hc; subst hc; exact (hI.cW c).symm
          · rfl
        · have : ¬ w.heap.cS b = 0 := by omega
          simp [this]
        · have : ¬ w.heap.cS b = 0 := by omega
          simp [this]
        · intro x hx hxd
          simp only [List.mem_append, List.mem_singleton] at hx
          rcases hx with hx | hx
          · exact hI.nul x hx hxd
          · simp at hx; subst hx; simp [hd] at hxd

theorem Inv_sharedDestroy (w w1 : World) (i : Nat) (hI : Inv w)
    (hb : w.shared.length + 1 < SIZE_MOD) (e : step (Op.sharedDestroy i) w = some w1) :
    Inv w1 := by
  simp only [step] at e
  split at e
  · simp at e
  · rename_i a ha
    have hget := World.getShared_some w i a ha
    split at e
    · simp at e
    · rename_i h1 hr
      simp at e
      subst e
      have hnul : ∀ x, some x ∈ w.shared.set i none → x.data = none → x.ptr = none := by
        intro x hx hxd
        rcases mem_set_cases _ _ _ _ hx with hx | hx
        · simp at hx
        · exact hI.nul x hx hxd
      cases hd : a.data with
      | none =>
        simp [SharedPtr.destructor, hd] at hr
        subst hr
        refine Inv_of_same_heap w _ hI rfl ?_ (fun c => rfl) hnul hI.nulW
        intro c
        have := countP_set_add (sharedBound c) w.shared i none (some a) hget
        simpa [sharedBound, hd, liveShared] using this
      | some b =>
        have e2 := SharedPtr.destructor_spec a w.heap h1 b hd hr
        have hpos := liveShared_pos w i b a hget hd
        have hle := liveShared_le w b
        have hcs := hI.cS b
        have hdec : sizeDec (w.heap.cS b) = w.heap.cS b - 1 := sizeDec_eq _ (by omega) (by omega)
        rw [hdec] at e2
        refine Inv_of_changed w _ b _ _ _ _ hI e2 ?_ ?_ ?_ ?_ hnul hI.nulW
        · intro c
          have := countP_set_add (sharedBound c) w.shared i none (some a) hget
          simp only [liveShared]
          by_cases hc : c = b
          · subst hc
            simp [sharedBound, hd] at this
            simp [liveShared] at hcs
            simp; omega
          · have hc2 : ¬ b = c := fun h => hc h.symm
            simp [sharedBound, hd, hc2] at this
            simp [hc, this]
        · intro c; split
          · rename_i hc; subst hc; exact (hI.cW c).symm
          · rfl
        · have : ¬ w.heap.cS b = 0 := by omega
          simp [this]
        · have : ¬ w.heap.cS b = 0 := by omega
          simp [this]

theorem countP_set_set {α : Type} (p : α → Bool) (l : List α) (i j : Nat) (x y a b : α)
    (hi : l[i]? = some a) (hj : l[j]? = some b) (hx : p x = p b) (hy : p y = p a) :
    ((l.set i x).set j y).countP p = l.countP p := by
  have h1 := countP_set_add p l i x a hi
  have hil := lt_length_of_get _ _ _ hi
  by_cases hij : i = j
  · subst hij
    have e : a = b := by rw [hi] at hj; exact Option.some.inj hj
    subst e
    rw [List.set_set]
    have h2 := countP_set_add p l i y a hi
    rw [hy] at h2
    omega
  · have hj2 : (l.set i x)[j]? = some b := by
      rw [List.getElem?_set_ne hij]; exact hj
    have h2 := countP_set_add p (l.set i x) j y b hj2
    rw [hx, hy] at *
    omega

theorem Inv_sharedEmpty (w w1 : World) (hI : Inv w)
    (e : step Op.sharedEmpty w = some w1) : Inv w1 := by
  simp only [step] at e
  simp at e
  subst e
  refine Inv_of_same_heap w _ hI rfl ?_ (fun c => rfl) ?_ hI.nulW
  · intro c; simp only [liveShared, countP_shared_append]; simp [SharedPtr.empty]
  · intro x hx hxd
    simp only [List.mem_append, List.mem_singleton] at hx
    rcases hx with hx | hx
    · exact hI.nul x hx hxd
    · simp at hx; subst hx; rfl

theorem Inv_weakEmpty (w w1 : World) (hI : Inv w)
    (e : step Op.weakEmpty w = some w1) : Inv w1 := by
  simp only [step] at e
  simp at e
  subst e
  refine Inv_of_same_heap w _ hI rfl (fun c => rfl) ?_ hI.nul ?_
  · intro c; simp only [liveWeak, countP_weak_append]; simp [WeakPtr.empty]
  · intro x hx hxd
    simp only [List.mem_append, List.mem_singleton] at hx
    rcases hx with hx | hx
    · exact hI.nulW x hx hxd
    · simp at hx; subst hx; rfl

theorem Inv_sharedFromRaw (w w1 : World) (p : Ptr) (d alloc : Nat) (hI : Inv w)
    (e : step (Op.sharedFromRaw p d alloc) w = some w1) : Inv w1 := by
  simp only [step] at e
  simp at e
  subst e
  exact Inv_of_alloc w (ControlBlockRegular p d alloc) [Event.allocate alloc w.heap.blocks.length]
    p hI rfl rfl (by intro c; simp)

theorem Inv_sharedAllocate (w w1 : World) (alloc args : Nat) (hI : Inv w)
    (e : step (Op.sharedAllocate alloc args) w = some w1) : Inv w1 := by
  simp only [step] at e
  simp at e
  subst e
  exact Inv_of_alloc w (ControlBlockMakeShared alloc args)
    [Event.allocate alloc w.heap.blocks.length] none hI rfl rfl (by intro c; simp)

theorem Inv_sharedMove (w w1 : World) (i : Nat) (hI : Inv w)
    (e : step (Op.sharedMove i) w = some w1) : Inv w1 := by
  simp only [step] at e
  split at e
  · simp at e
  · rename_i a ha
    have hget := World.getShared_some w i a ha
    simp at e
    subst e
    refine Inv_of_same_heap w _ hI rfl ?_ (fun c => rfl) ?_ hI.nulW
    · intro c
      have := countP_set_add (sharedBound c) w.shared i (some a.move.2) (some a) hget
      simp only [liveShared, countP_shared_append]
      simp only [SharedPtr.move, sharedBound] at this ⊢
      simp at this ⊢
      omega
    · intro x hx hxd
      simp only [List.mem_append, List.mem_singleton] at hx
      rcases hx with hx | hx
      · rcases mem_set_cases _ _ _ _ hx with hx | hx
        · simp [SharedPtr.move] at hx; subst hx; rfl
        · exact hI.nul x hx hxd
      · simp [SharedPtr.move] at hx; subst hx
        exact hI.nul a (List.getElem?_mem hget) hxd

theorem Inv_weakMove (w w1 : World) (i : Nat) (hI : Inv w)
    (e : step (Op.weakMove i) w = some w1) : Inv w1 := by
  simp only [step] at e
  split at e
  · simp at e
  · rename_i a ha
    have hget := World.getWeak_some w i a ha
    simp at e
    subst e
    refine Inv_of_same_heap w _ hI rfl (fun c => rfl) ?_ hI.nul ?_
    · intro c
      have := countP_set_add (weakBound c) w.weak i (some a.move.2) (some a) hget
      simp only [liveWeak, countP_weak_append]
      simp only [WeakPtr.move, weakBound] at this ⊢
      simp at this ⊢
      omega
    · intro x hx hxd
      simp only [List.mem_append, List.mem_singleton] at hx
      rcases hx with hx | hx
      · rcases mem_set_cases _ _ _ _ hx with hx | hx
        · simp [WeakPtr.move] at hx; subst hx; rfl
        · exact hI.nulW x hx hxd
      · simp [WeakPtr.move] at hx; subst hx
        exact hI.nulW a (List.getElem?_mem hget) hxd

theorem Inv_sharedSwap (w w1 : World) (i j : Nat) (hI : Inv w)
    (e : step (Op.sharedSwap i j) w = some w1) : Inv w1 := by
  simp only [step] at e
  split at e
  · rename_i a b ha hb
    have hgi := World.getShared_some w i a ha
    have hgj := World.getShared_some w j b hb
    simp at e
    subst e
    refine Inv_of_same_heap w _ hI rfl ?_ (fun c => rfl) ?_ hI.nulW
    · intro c
      exact countP_set_set (sharedBound c) w.shared i j _ _ (some a) (some b) hgi hgj
        (by simp [SharedPtr.swap, sharedBound]) (by simp [SharedPtr.swap, sharedBound])
    · intro x hx hxd
      rcases mem_set_cases _ _ _ _ hx with hx | hx
      · simp [SharedPtr.swap] at hx; subst hx
        exact hI.nul a (List.getElem?_mem hgi) hxd
      · rcases mem_set_cases _ _ _ _ hx with hx | hx
        · simp [SharedPtr.swap] at hx; subst hx
          exact hI.nul b (List.getElem?_mem hgj) hxd
        · exact hI.nul x hx hxd
  · simp at e

theorem Inv_weakSwap (w w1 : World) (i j : Nat) (hI : Inv w)
    (e : step (Op.weakSwap i j) w = some w1) : Inv w1 := by
  simp only [step] at e
  split at e
  · rename_i a b ha hb
    have hgi := World.getWeak_some w i a ha
    have hgj := World.getWeak_some w j b hb
    simp at e
    subst e
    refine Inv_of_same_heap w _ hI rfl (fun c => rfl) ?_ hI.nul ?_
    · intro c
      exact countP_set_set (weakBound c) w.weak i j _ _ (some a) (some b) hgi hgj
        (by simp [WeakPtr.swap, weakBound]) (by simp [WeakPtr.swap, weakBound])
    · intro x hx hxd
      rcases mem_set_cases _ _ _ _ hx with hx | hx
      · simp [WeakPtr.swap] at hx; subst hx
        exact hI.nulW a (List.getElem?_mem hgi) hxd
      · rcases mem_set_cases _ _ _ _ hx with hx | hx
        · simp [WeakPtr.swap] at hx; subst hx
          exact hI.nulW b (List.getElem?_mem hgj) hxd
        · exact hI.nulW x hx hxd
  · simp at e

theorem Inv_weakFromShared (w w1 : World) (i : Nat) (hI : Inv w)
    (hb : w.weak.length + 1 < SIZE_MOD) (e : step (Op.weakFromShared i) w = some w1) :
    Inv w1 := by
  simp only [step] at e
  split at e
  · simp at e
  · rename_i a ha
    have hget := World.getShared_some w i a ha
    split at e
    · simp at e
    · rename_i r hr
      simp at e
      subst e
      cases hd : a.data with
      | none =>
        rw [WeakPtr.fromShared_none a _ hd] at hr
        simp at hr
        subst hr
        refine Inv_of_same_heap w _ hI rfl (fun c => rfl) ?_ hI.nul ?_
        · intro c; simp only [liveWeak, countP_weak_append]; simp
        · intro x hx hxd
          simp only [List.mem_append, List.mem_singleton] at hx
          rcases hx with hx | hx
          · exact hI.nulW x hx hxd
          · simp at hx; subst hx
            exact hI.nul a (List.getElem?_mem hget) hd
      | some b =>
        obtain ⟨rs, rh⟩ := r
        obtain ⟨e1, e2⟩ := WeakPtr.fromShared_spec a rs w.heap rh b hd hr
        subst e1
        have hpos := liveShared_pos w i b a hget hd
        have hle := liveWeak_le w b
        have hcs := hI.cS b
        have hcw := hI.cW b
        have hinc : sizeInc (w.heap.cW b) = w.heap.cW b + 1 := sizeInc_eq _ (by omega)
        rw [hinc] at e2
        refine Inv_of_changed w _ b _ _ 0 0 hI e2 ?_ ?_ ?_ ?_ hI.nul ?_
        · intro c; split
          · rename_i hc; subst hc; exact (hI.cS c).symm
          · rfl
        · intro c
          simp only [liveWeak, countP_weak_append, hd]
          by_cases hc : c = b
          · subst hc; simp [hcw, liveWeak]
          · have : ¬ b = c := fun h => hc h.symm
            simp [hc, this]
        · simp
        · have : ¬ w.heap.cS b = 0 := by omega
          simp [this]
        · intro x hx hxd
          simp only [List.mem_append, List.mem_singleton] at hx
          rcases hx with hx | hx
          · exact hI.nulW x hx hxd
          · simp at hx; subst hx; simp [hd] at hxd

theorem Inv_weakCopy (w w1 : World) (i : Nat) (hI : Inv w)
    (hb : w.weak.length + 1 < SIZE_MOD) (e : step (Op.weakCopy i) w = some w1) :
    Inv w1 := by
  simp only [step] at e
  split at e
  · simp at e
  · rename_i a ha
    have hget := World.getWeak_some w i a ha
    split at e
    · simp at e
    · rename_i r hr
      simp at e
      subst e
      cases hd : a.data with
      | none =>
        rw [WeakPtr.weak_copy_none a _ hd] at hr
        simp at hr
        subst hr
        refine Inv_of_same_heap w _ hI rfl (fun c => rfl) ?_ hI.nul ?_
        · intro c; simp only [liveWeak, countP_weak_append]; simp
        · intro x hx hxd
          simp only [List.mem_append, List.mem_singleton] at hx
          rcases hx with hx | hx
          · exact hI.nulW x hx hxd
          · simp at hx; subst hx
            exact hI.nulW a (List.getElem?_mem hget) hd
      | some b =>
        obtain ⟨rs, rh⟩ := r
        obtain ⟨e1, e2⟩ := WeakPtr.weak_copy_spec a rs w.heap rh b hd hr
        subst e1
        have hpos := liveWeak_pos w i b a hget hd
        have hle := liveWeak_le w b
        have hcw := hI.cW b
        have hinc : sizeInc (w.heap.cW b) = w.heap.cW b + 1 := sizeInc_eq _ (by omega)
        rw [hinc] at e2
        refine Inv_of_changed w _ b _ _ 0 0 hI e2 ?_ ?_ ?_ ?_ hI.nul ?_
        · intro c; split
          · rename_i hc; subst hc; exact (hI.cS c).symm
          · rfl
        · intro c
          simp only [liveWeak, countP_weak_append, hd]
          by_cases hc : c = b
          · subst hc; simp [hcw, liveWeak]
          · have : ¬ b = c := fun h => hc h.symm
            simp [hc, this]
        · simp
        · have : ¬ w.heap.cW b = 0 := by omega
          simp [this]
        · intro x hx hxd
          simp only [List.mem_append, List.mem_singleton] at hx
          rcases hx with hx | hx
          · exact hI.nulW x hx hxd
          · simp at hx; subst hx; simp [hd] at hxd

theorem Inv_weakDestroy (w w1 : World) (i : Nat) (hI : Inv w)
    (hb : w.weak.length + 1 < SIZE_MOD) (e : step (Op.weakDestroy i) w = some w1) :
    Inv w1 := by
  simp only [step] at e
  split at e
  · simp at e
  · rename_i a ha
    have hget := World.getWeak_some w i a ha
    split at e
    · simp at e
    · rename_i h1 hr
      simp at e
      subst e
      have hnul : ∀ x, some x ∈ w.weak.set i none → x.data = none → x.ptr = none := by
        intro x hx hxd
        rcases mem_set_cases _ _ _ _ hx with hx | hx
        · simp at hx
        · exact hI.nulW x hx hxd
      cases hd : a.data with
      | none =>
        simp [WeakPtr.destructor, hd] at hr
        subst hr
        refine Inv_of_same_heap w _ hI rfl (fun c => rfl) ?_ hI.nul hnul
        intro c
        have := countP_set_add (weakBound c) w.weak i none (some a) hget
        simpa [weakBound, hd, liveWeak] using this
      | some b =>
        have e2 := WeakPtr.weak_destructor_spec a w.heap h1 b hd hr
        have hpos := liveWeak_pos w i b a hget hd
        have hle := liveWeak_le w b
        have hcw := hI.cW b
        have hdec : sizeDec (w.heap.cW b) = w.heap.cW b - 1 := sizeDec_eq _ (by omega) (by omega)
        rw [hdec] at e2
        refine Inv_of_changed w _ b _ _ _ _ hI e2 ?_ ?_ ?_ ?_ hI.nul hnul
        · intro c; split
          · rename_i hc; subst hc; exact (hI.cS c).symm
          · rfl
        · intro c
          have := countP_set_add (weakBound c) w.weak i none (some a) hget
          simp only [liveWeak]
          by_cases hc : c = b
          · subst hc
            simp [weakBound, hd] at this
            simp [liveWeak] at hcw
            simp; omega
          · have hc2 : ¬ b = c := fun h => hc h.symm
            simp [weakBound, hd, hc2] at this
            simp [hc, this]
        · simp
        · have : ¬ w.heap.cW b = 0 := by omega
          by_cases hs : w.heap.cS b = 0 <;> simp [this, hs]

theorem Inv_lock (w w1 : World) (i : Nat) (hI : Inv w)
    (hb : w.shared.length + 1 < SIZE_MOD) (e : step (Op.lock i) w = some w1) :
    Inv w1 := by
  simp only [step] at e
  split at e
  · simp at e
  · rename_i a ha
    have hget := World.getWeak_some w i a ha
    split at e
    · simp at e
    · rename_i r hr
      simp at e
      subst e
      obtain ⟨rs, rh⟩ := r
      cases hd : a.data with
      | none => simp [WeakPtr.lock, WeakPtr.expired, hd] at hr
      | some b =>
        rcases WeakPtr.lock_spec a rs w.heap rh b hd hr with ⟨_, e1, e2⟩ | ⟨hnz, e1, e2⟩
        · subst e1; subst e2
          refine Inv_of_same_heap w _ hI rfl ?_ (fun c => rfl) ?_ hI.nulW
          · intro c; simp only [liveShared, countP_shared_append]; simp [SharedPtr.empty]
          · intro x hx hxd
            simp only [List.mem_append, List.mem_singleton] at hx
            rcases hx with hx | hx
            · exact hI.nul x hx hxd
            · simp at hx; subst hx; rfl
        · subst e1
          have hle := liveShared_le w b
          have hcs := hI.cS b
          have hinc : sizeInc (w.heap.cS b) = w.heap.cS b + 1 := sizeInc_eq _ (by omega)
          rw [hinc] at e2
          refine Inv_of_changed w _ b _ _ 0 0 hI e2 ?_ ?_ ?_ ?_ ?_ hI.nulW
          · intro c
            simp only [liveShared, countP_shared_append]
            by_cases hc : c = b
            · subst hc; simp [hcs, liveShared]
            · have : ¬ b = c := fun h => hc h.symm
              simp [hc, this]
          · intro c; split
            · rename_i hc; subst hc; exact (hI.cW c).symm
            · rfl
          · simp [hnz]
          · simp [hnz]
          · intro x hx hxd
            simp only [List.mem_append, List.mem_singleton] at hx
            rcases hx with hx | hx
            · exact hI.nul x hx hxd
            · simp at hx; subst hx; simp at hxd

theorem step_size (op : Op) (w w1 : World) (e : step op w = some w1) :
    w1.size ≤ w.size + 1 := by
  cases op <;> simp only [step] at e <;>
    (repeat' split at e) <;> simp at e <;> subst e <;>
    simp [World.size] <;> omega

theorem Inv_step (op : Op) (w w1 : World) (hI : Inv w) (hb : w.size + 1 < SIZE_MOD)
    (e : step op w = some w1) : Inv w1 := by
  have h1 : w.shared.length + 1 < SIZE_MOD := by unfold World.size at hb; omega
  have h2 : w.weak.length + 1 < SIZE_MOD := by unfold World.size at hb; omega
  cases op with
  | sharedEmpty => exact Inv_sharedEmpty w w1 hI e
  | sharedFromRaw p d alloc => exact Inv_sharedFromRaw w w1 p d alloc hI e
  | sharedAllocate alloc args => exact Inv_sharedAllocate w w1 alloc args hI e
  | sharedCopy i => exact Inv_sharedCopy w w1 i hI h1 e
  | sharedMove i => exact Inv_sharedMove w w1 i hI e
  | sharedDestroy i => exact Inv_sharedDestroy w w1 i hI h1 e
  | sharedSwap i j => exact Inv_sharedSwap w w1 i j hI e
  | weakEmpty => exact Inv_weakEmpty w w1 hI e
  | weakFromShared i => exact Inv_weakFromShared w w1 i hI h2 e
  | weakCopy i => exact Inv_weakCopy w w1 i hI h2 e
  | weakMove i => exact Inv_weakMove w w1 i hI e
  | weakDestroy i => exact Inv_weakDestroy w w1 i hI h2 e
  | weakSwap i j => exact Inv_weakSwap w w1 i j hI e
  | lock i => exact Inv_lock w w1 i hI h1 e

theorem Inv_run (ops : List Op) (w w1 : World) (hI : Inv w)
    (hb : w.size + ops.length < SIZE_MOD) (e : run ops w = some w1) : Inv w1 := by
  induction ops generalizing w with
  | nil => simp [run] at e; subst e; exact hI
  | cons op ops ih =>
    simp only [run] at e
    cases hs : step op w with
    | none => simp [hs] at e
    | some w2 =>
      simp [hs] at e
      have hsz := step_size op w w2 hs
      simp only [List.length_cons] at hb
      exact ih w2 (Inv_step op w w2 hI (by omega) hs) (by omega) e

/-- Every state a program of fewer than `2^64` statements reaches from the
empty state satisfies the invariant. -/
theorem Inv_reachable (ops : List Op) (w : World) (hb : ops.length < SIZE_MOD)
    (e : run ops World.init = some w) : Inv w :=
  Inv_run ops World.init w Inv_init (by simpa [World.size, World.init] using hb) e

/-! ## What one statement does to the heap -/

theorem step_effect (op : Op) (w w1 : World) (hI : Inv w) (hb : w.size + 1 < SIZE_MOD)
    (e : step op w = some w1) : Effect op w w1 := by
  have hb1 : w.shared.length + 1 < SIZE_MOD := by unfold World.size at hb; omega
  have hb2 : w.weak.length + 1 < SIZE_MOD := by unfold World.size at hb; omega
  cases op with
  | sharedEmpty =>
    simp [step] at e; subst e
    exact Effect.same rfl (Or.inl ⟨by simp, by simp⟩)
  | weakEmpty =>
    simp [step] at e; subst e
    exact Effect.same rfl (Or.inl ⟨by simp, by simp⟩)
  | sharedFromRaw p d alloc =>
    simp [step] at e; subst e
    exact Effect.alloc _ alloc rfl ⟨by simp, by simp⟩
  | sharedAllocate alloc args =>
    simp [step] at e; subst e
    exact Effect.alloc _ alloc rfl ⟨by simp, by simp⟩
  | sharedMove i =>
    simp only [step] at e
    split at e
    · simp at e
    · simp at e; subst e
      exact Effect.same rfl (Or.inl ⟨by simp, by simp⟩)
  | weakMove i =>
    simp only [step] at e
    split at e
    · simp at e
    · simp at e; subst e
      exact Effect.same rfl (Or.inl ⟨by simp, by simp⟩)
  | sharedSwap i j =>
    simp only [step] at e
    split at e
    · simp at e; subst e
      exact Effect.same rfl (Or.inl ⟨by simp, by simp⟩)
    · simp at e
  | weakSwap i j =>
    simp only [step] at e
    split at e
    · simp at e; subst e
      exact Effect.same rfl (Or.inl ⟨by simp, by simp⟩)
    · simp at e
  | sharedCopy i =>
    simp only [step] at e
    split at e
    · simp at e
    · rename_i a ha
      have hget := World.getShared_some w i a ha
      split at e
      · simp at e
      · rename_i r hr
        simp at e; subst e
        cases hd : a.data with
        | none =>
          rw [SharedPtr.copy_none a _ hd] at hr
          simp at hr; subst hr
          exact Effect.same rfl (Or.inl ⟨by simp, by simp⟩)
        | some b =>
          obtain ⟨rs, rh⟩ := r
          obtain ⟨_, e2⟩ := SharedPtr.copy_spec a rs w.heap rh b hd hr
          have hpos := liveShared_pos w i b a hget hd
          have hle := liveShared_le w b
          have hcs := hI.cS b
          rw [sizeInc_eq _ (by omega)] at e2
          exact Effect.strongInc b (by omega) e2 ⟨by simp, by simp⟩
  | weakFromShared i =>
    simp only [step] at e
    split at e
    · simp at e
    · rename_i a ha
      split at e
      · simp at e
      · rename_i r hr
        simp at e; subst e
        cases hd : a.data with
        | none =>
          rw [WeakPtr.fromShared_none a _ hd] at hr
          simp at hr; subst hr
          exact Effect.same rfl (Or.inl ⟨by simp, by simp⟩)
        | some b =>
          obtain ⟨rs, rh⟩ := r
          obtain ⟨_, e2⟩ := WeakPtr.fromShared_spec a rs w.heap rh b hd hr
          have hle := liveWeak_le w b
          have hcw := hI.cW b
          rw [sizeInc_eq _ (by omega)] at e2
          exact Effect.weakInc b e2 ⟨by simp, by simp⟩
  | weakCopy i =>
    simp only [step] at e
    split at e
    · simp at e
    · rename_i a ha
      split at e
      · simp at e
      · rename_i r hr
        simp at e; subst e
        cases hd : a.data with
        | none =>
          rw [WeakPtr.weak_copy_none a _ hd] at hr
          simp at hr; subst hr
          exact Effect.same rfl (Or.inl ⟨by simp, by simp⟩)
        | some b =>
          obtain ⟨rs, rh⟩ := r
          obtain ⟨_, e2⟩ := WeakPtr.weak_copy_spec a rs w.heap rh b hd hr
          have hle := liveWeak_le w b
          have hcw := hI.cW b
          rw [sizeInc_eq _ (by omega)] at e2
          exact Effect.weakInc b e2 ⟨by simp, by simp⟩
  | lock i =>
    simp only [step] at e
    split at e
    · simp at e
    · rename_i a ha
      split at e
      · simp at e
      · rename_i r hr
        simp at e; subst e
        obtain ⟨rs, rh⟩ := r
        cases hd : a.data with
        | none => simp [WeakPtr.lock, WeakPtr.expired, hd] at hr
        | some b =>
          rcases WeakPtr.lock_spec a rs w.heap rh b hd hr with ⟨_, e1, e2⟩ | ⟨hnz, e1, e2⟩
          · subst e2
            exact Effect.same rfl (Or.inl ⟨by simp, by simp⟩)
          · have hle := liveShared_le w b
            have hcs := hI.cS b
            rw [sizeInc_eq _ (by omega)] at e2
            exact Effect.strongInc b (by omega) e2 ⟨by simp, by simp⟩
  | sharedDestroy i =>
    simp only [step] at e
    split at e
    · simp at e
    · rename_i a ha
      have hget := World.getShared_some w i a ha
      split at e
      · simp at e
      · rename_i h1 hr
        simp at e; subst e
        cases hd : a.data with
        | none =>
          simp [SharedPtr.destructor, hd] at hr
          subst hr
          exact Effect.same rfl (Or.inr (Or.inl ⟨i, a, rfl, ha, hd⟩))
        | some b =>
          have e2 := SharedPtr.destructor_spec a w.heap h1 b hd hr
          have hpos := liveShared_pos w i b a hget hd
          have hle := liveShared_le w b
          have hcs := hI.cS b
          rw [sizeDec_eq _ (by omega) (by omega)] at e2
          have h1 : (w.heap.cS b - 1 = 0) = (w.heap.cS b = 1) := by
            apply propext; constructor <;> intro <;> omega
          simp only [h1] at e2
          exact Effect.strongDec i a b rfl ha hd (by omega) e2
  | weakDestroy i =>
    simp only [step] at e
    split at e
    · simp at e
    · rename_i a ha
      have hget := World.getWeak_some w i a ha
      split at e
      · simp at e
      · rename_i h1 hr
        simp at e; subst e
        cases hd : a.data with
        | none =>
          simp [WeakPtr.destructor, hd] at hr
          subst hr
          exact Effect.same rfl (Or.inr (Or.inr ⟨i, a, rfl, ha, hd⟩))
        | some b =>
          have e2 := WeakPtr.weak_destructor_spec a w.heap h1 b hd hr
          have hpos := liveWeak_pos w i b a hget hd
          have hle := liveWeak_le w b
          have hcw := hI.cW b
          rw [sizeDec_eq _ (by omega) (by omega)] at e2
          have h1 : (w.heap.cW b - 1 = 0) = (w.heap.cW b = 1) := by
            apply propext; constructor <;> intro <;> omega
          simp only [h1] at e2
          exact Effect.weakDec i a b rfl ha hd (by omega) e2

theorem takesSharedToZero_of_not_destroy (op : Op) (w : World) (b : Nat)
    (h : ∀ i, op ≠ Op.sharedDestroy i) : takesSharedToZero op w b = false := by
  cases op <;> simp [takesSharedToZero] at h ⊢

theorem isLastDestruction_of_not_destroy (op : Op) (w : World) (b : Nat)
    (h : (∀ i, op ≠ Op.sharedDestroy i) ∧ (∀ i, op ≠ Op.weakDestroy i)) :
    isLastDestruction op w b = false := by
  cases op <;> simp [isLastDestruction] at h ⊢

theorem step_calls (op : Op) (w w1 : World) (hI : Inv w) (hb : w.size + 1 < SIZE_MOD)
    (e : step op w = some w1) (b : Nat) :
    w1.heap.useDeleterCalls b
      = w.heap.useDeleterCalls b + (if takesSharedToZero op w b then 1 else 0) ∧
    w1.heap.destroyCalls b
      = w.heap.destroyCalls b + (if isLastDestruction op w b then 1 else 0) := by
  cases step_effect op w w1 hI hb e with
  | same h hop =>
    rw [h]
    rcases hop with hop | ⟨i, a, hop, ha, hd⟩ | ⟨i, a, hop, ha, hd⟩
    · simp [takesSharedToZero_of_not_destroy op w b hop.1,
        isLastDestruction_of_not_destroy op w b hop]
    · subst hop; simp [takesSharedToZero, isLastDestruction, ha, hd]
    · subst hop; simp [takesSharedToZero, isLastDestruction, ha, hd]
  | alloc blk al h hop =>
    rw [h]
    simp [takesSharedToZero_of_not_destroy op w b hop.1,
      isLastDestruction_of_not_destroy op w b hop, Heap.useDeleterCalls, Heap.destroyCalls]
  | strongInc c hpos h hop =>
    rw [h.del, h.des]
    simp [takesSharedToZero_of_not_destroy op w b hop.1,
      isLastDestruction_of_not_destroy op w b hop]
  | weakInc c h hop =>
    rw [h.del, h.des]
    simp [takesSharedToZero_of_not_destroy op w b hop.1,
      isLastDestruction_of_not_destroy op w b hop]
  | strongDec i a c hop ha hd hpos h =>
    subst hop
    rw [h.del, h.des]
    by_cases hbc : b = c
    · subst hbc
      simp [takesSharedToZero, isLastDestruction, ha, hd, Heap.countShared_eq _ _ h.lt,
        Heap.countWeak_eq _ _ h.lt]
    · have : ¬ c = b := fun x => hbc x.symm
      simp [takesSharedToZero, isLastDestruction, ha, hd, hbc, this]
  | weakDec i a c hop ha hd hpos h =>
    subst hop
    rw [h.del, h.des]
    by_cases hbc : b = c
    · subst hbc
      simp [takesSharedToZero, isLastDestruction, ha, hd, Heap.countShared_eq _ _ h.lt,
        Heap.countWeak_eq _ _ h.lt]
    · have : ¬ c = b := fun x => hbc x.symm
      simp [takesSharedToZero, isLastDestruction, ha, hd, hbc, this]

theorem run_append (ops1 ops2 : List Op) (w w1 w2 : World) (e1 : run ops1 w = some w1)
    (e2 : run ops2 w1 = some w2) : run (ops1 ++ ops2) w = some w2 := by
  induction ops1 generalizing w with
  | nil => simp [run] at e1; subst e1; simpa using e2
  | cons op ops ih =>
    simp only [run, List.cons_append] at e1 ⊢
    cases hs : step op w with
    | none => simp [hs] at e1
    | some w3 =>
      simp [hs] at e1 ⊢
      exact ih w3 e1

theorem run_size (ops : List Op) (w w1 : World) (e : run ops w = some w1) :
    w1.size ≤ w.size + ops.length := by
  induction ops generalizing w with
  | nil => simp [run] at e; subst e; simp
  | cons op ops ih =>
    simp only [run] at e
    cases hs : step op w with
    | none => simp [hs] at e
    | some w2 =>
      simp [hs] at e
      have := step_size op w w2 hs
      have := ih w2 e
      simp only [List.length_cons]
      omega

theorem reachable_size (ops : List Op) (w : World) (e : run ops World.init = some w) :
    w.size ≤ ops.length := by
  have := run_size ops World.init w e
  simpa [World.size, World.init] using this

/-! ## Statements on live, bound handles do not fail -/

theorem Heap.get_of_lt (h : Heap) (b : Nat) (hlt : b < h.blocks.length) :
    ∃ blk, h.blocks[b]? = some blk :=
  ⟨h.blocks[b], List.getElem?_eq_getElem hlt⟩

theorem SharedPtr.copy_defined (a : SharedPtr) (h : Heap)
    (hd : ∀ b, a.data = some b → b < h.blocks.length) : ∃ r, a.copy h = some r := by
  cases hx : a.data with
  | none => exact ⟨_, SharedPtr.copy_none a h hx⟩
  | some b =>
    obtain ⟨blk, hblk⟩ := Heap.get_of_lt h b (hd b hx)
    simp [SharedPtr.copy, hx, Heap.incShared, hblk]

theorem WeakPtr.weak_copy_defined (a : WeakPtr) (h : Heap)
    (hd : ∀ b, a.data = some b → b < h.blocks.length) : ∃ r, a.copy h = some r := by
  cases hx : a.data with
  | none => exact ⟨_, WeakPtr.weak_copy_none a h hx⟩
  | some b =>
    obtain ⟨blk, hblk⟩ := Heap.get_of_lt h b (hd b hx)
    simp [WeakPtr.copy, hx, Heap.incWeak, hblk]

theorem WeakPtr.fromShared_defined (a : SharedPtr) (h : Heap)
    (hd : ∀ b, a.data = some b → b < h.blocks.length) :
    ∃ r, WeakPtr.fromShared a h = some r := by
  cases hx : a.data with
  | none => exact ⟨_, WeakPtr.fromShared_none a h hx⟩
  | some b =>
    obtain ⟨blk, hblk⟩ := Heap.get_of_lt h b (hd b hx)
    simp [WeakPtr.fromShared, hx, Heap.incWeak, hblk]

theorem SharedPtr.destructor_defined (a : SharedPtr) (h : Heap)
    (hd : ∀ b, a.data = some b → b < h.blocks.length) : ∃ h1, a.destructor h = some h1 := by
  cases hx : a.data with
  | none => simp [SharedPtr.destructor, hx]
  | some b =>
    have hlt := hd b hx
    obtain ⟨blk, hblk⟩ := Heap.get_of_lt h b hlt
    simp only [SharedPtr.destructor, hx, Heap.decShared, hblk, Heap.countShared,
      Heap.countWeak, Heap.useDeleter, Heap.destroy]
    simp only [List.getElem?_set, hlt, if_true, Option.map_some']
    split
    · exact ⟨_, rfl⟩
    · split <;> exact ⟨_, rfl⟩

theorem WeakPtr.weak_destructor_defined (a : WeakPtr) (h : Heap)
    (hd : ∀ b, a.data = some b → b < h.blocks.length) : ∃ h1, a.destructor h = some h1 := by
  cases hx : a.data with
  | none => simp [WeakPtr.destructor, hx]
  | some b =>
    have hlt := hd b hx
    obtain ⟨blk, hblk⟩ := Heap.get_of_lt h b hlt
    simp only [WeakPtr.destructor, hx, Heap.decWeak, hblk, Heap.countShared,
      Heap.countWeak, Heap.destroy]
    simp only [List.getElem?_set, hlt, if_true, Option.map_some']
    split <;> exact ⟨_, rfl⟩

theorem WeakPtr.lock_defined (a : WeakPtr) (h : Heap) (b : Nat) (hd : a.data = some b)
    (hlt : b < h.blocks.length) : ∃ r, a.lock h = some r := by
  obtain ⟨blk, hblk⟩ := Heap.get_of_lt h b hlt
  by_cases hz : blk.countShared = 0
  · simp [WeakPtr.lock, WeakPtr.expired, hd, Heap.countShared, hblk, hz]
  · have hf : (blk.countShared == 0) = false := by simpa using hz
    simp [WeakPtr.lock, WeakPtr.expired, hd, Heap.countShared, hblk, hf, SharedPtr.fromBlock,
      Heap.incShared]

theorem Inv.shared_lt {w : World} (hI : Inv w) (i b : Nat) (a : SharedPtr)
    (ha : w.getShared i = some a) (hd : a.data = some b) : b < w.heap.blocks.length := by
  have hpos := liveShared_pos w i b a (World.getShared_some w i a ha) hd
  rcases Nat.lt_or_ge b w.heap.blocks.length with hl | hl
  · exact hl
  · have := Heap.cS_of_ge w.heap b hl
    rw [hI.cS b] at this
    omega

theorem Inv.weak_lt {w : World} (hI : Inv w) (i b : Nat) (a : WeakPtr)
    (ha : w.getWeak i = some a) (hd : a.data = some b) : b < w.heap.blocks.length := by
  have hpos := liveWeak_pos w i b a (World.getWeak_some w i a ha) hd
  rcases Nat.lt_or_ge b w.heap.blocks.length with hl | hl
  · exact hl
  · have := Heap.cW_of_ge w.heap b hl
    rw [hI.cW b] at this
    omega

/-- In a state that satisfies the invariant, a statement whose operands are
live objects is executed, unless it is `lock()` on a `WeakPtr` without a
block. -/
theorem step_defined (op : Op) (w : World) (hI : Inv w) (hen : enabled op w = true) :
    ∃ w1, step op w = some w1 := by
  cases op with
  | sharedEmpty => exact ⟨_, rfl⟩
  | weakEmpty => exact ⟨_, rfl⟩
  | sharedFromRaw p d alloc => exact ⟨_, rfl⟩
  | sharedAllocate alloc args => exact ⟨_, rfl⟩
  | sharedCopy i =>
    simp only [enabled] at hen
    cases ha : w.getShared i with
    | none => simp [ha] at hen
    | some a =>
      obtain ⟨r, hr⟩ := SharedPtr.copy_defined a w.heap (fun b hd => hI.shared_lt i b a ha hd)
      simp [step, ha, hr]
  | sharedMove i =>
    simp only [enabled] at hen
    cases ha : w.getShared i with
    | none => simp [ha] at hen
    | some a => simp [step, ha]
  | sharedDestroy i =>
    simp only [enabled] at hen
    cases ha : w.getShared i with
    | none => simp [ha] at hen
    | some a =>
      obtain ⟨r, hr⟩ :=
        SharedPtr.destructor_defined a w.heap (fun b hd => hI.shared_lt i b a ha hd)
      simp [step, ha, hr]
  | sharedSwap i j =>
    simp only [enabled] at hen
    cases ha : w.getShared i with
    | none => simp [ha] at hen
    | some a =>
      cases hb : w.getShared j with
      | none => simp [ha, hb] at hen
      | some b => simp [step, ha, hb]
  | weakFromShared i =>
    simp only [enabled] at hen
    cases ha : w.getShared i with
    | none => simp [ha] at hen
    | some a =>
      obtain ⟨r, hr⟩ :=
        WeakPtr.fromShared_defined a w.heap (fun b hd => hI.shared_lt i b a ha hd)
      simp [step, ha, hr]
  | weakCopy i =>
    simp only [enabled] at hen
    cases ha : w.getWeak i with
    | none => simp [ha] at hen
    | some a =>
      obtain ⟨r, hr⟩ :=
        WeakPtr.weak_copy_defined a w.heap (fun b hd => hI.weak_lt i b a ha hd)
      simp [step, ha, hr]
  | weakMove i =>
    simp only [enabled] at hen
    cases ha : w.getWeak i with
    | none => simp [ha] at hen
    | some a => simp [step, ha]
  | weakDestroy i =>
    simp only [enabled] at hen
    cases ha : w.getWeak i with
    | none => simp [ha] at hen
    | some a =>
      obtain ⟨r, hr⟩ :=
        WeakPtr.weak_destructor_defined a w.heap (fun b hd => hI.weak_lt i b a ha hd)
      simp [step, ha, hr]
  | weakSwap i j =>
    simp only [enabled] at hen
    cases ha : w.getWeak i with
    | none => simp [ha] at hen
    | some a =>
      cases hb : w.getWeak j with
      | none => simp [ha, hb] at hen
      | some b => simp [step, ha, hb]
  | lock i =>
    simp only [enabled] at hen
    cases ha : w.getWeak i with
    | none => simp [ha] at hen
    | some a =>
      cases hd : a.data with
      | none => simp [ha, hd] at hen
      | some b =>
        obtain ⟨r, hr⟩ := WeakPtr.lock_defined a w.heap b hd (hI.weak_lt i b a ha hd)
        simp [step, ha, hr]

/-! ## The lifecycle of one control block -/

/-- **C1.** In every state a program reaches by declaring, copying, moving and
destroying handles (fewer than `2^64` statements, starting with nothing
declared), the `countShared` of every allocated control block equals the
number of live `SharedPtr` objects bound to that block.  The sequences of
copy constructions, move constructions and destructions applied to one freshly
constructed handle are among these programs. -/
theorem C1_countShared_eq_live_handles (ops : List Op) (w : World) (b : Nat)
    (blk : BaseControlBlock) (hlen : ops.length < SIZE_MOD)
    (hrun : run ops World.init = some w) (hblk : w.heap.blocks[b]? = some blk) :
    blk.countShared = liveShared w b := by
  have hI := Inv_reachable ops w hlen hrun
  rw [← hI.cS b, Heap.cS_of_get _ _ _ hblk]

/-- The claim C1 at the program `progShare`: after a copy, a move and a
destruction one `SharedPtr` is bound to block 0 and `countShared` is 1. -/
theorem C1_countShared_eq_live_handles_witness :
    run progShare World.init = some worldShare ∧
    (1 : Nat) = liveShared worldShare 0 :=
  ⟨by decide,
   C1_countShared_eq_live_handles progShare worldShare 0
     { countShared := 1, countWeak := 1,
       derived := Derived.ControlBlockRegular (some (Loc.raw 7)) 4 3 }
     (by decide) (by decide) (by decide)⟩

/-- Where payloads own no handle objects and `swap` exchanges objects of one
class (`step`): in every reachable state, a block on which `destroy()` has been
called has `countShared == 0` and `countWeak == 0`, and no live `SharedPtr` or
`WeakPtr` is bound to it. -/
theorem released_block_has_zero_counts (ops : List Op) (w : World) (b : Nat)
    (blk : BaseControlBlock) (hlen : ops.length < SIZE_MOD)
    (hrun : run ops World.init = some w) (hblk : w.heap.blocks[b]? = some blk)
    (hcalled : 0 < w.heap.destroyCalls b) :
    blk.countShared = 0 ∧ blk.countWeak = 0 ∧ liveShared w b = 0 ∧ liveWeak w b = 0 := by
  have hI := Inv_reachable ops w hlen hrun
  have h := hI.des b
  rw [Heap.cS_of_get _ _ _ hblk, Heap.cW_of_get _ _ _ hblk] at h
  have hs := hI.cS b
  have hw := hI.cW b
  rw [Heap.cS_of_get _ _ _ hblk] at hs
  rw [Heap.cW_of_get _ _ _ hblk] at hw
  by_cases hc : b < w.heap.blocks.length ∧ blk.countShared = 0 ∧ blk.countWeak = 0
  · exact ⟨hc.2.1, hc.2.2, by rw [← hs]; exact hc.2.1, by rw [← hw]; exact hc.2.2⟩
  · rw [if_neg hc] at h; omega

/-- The program `progRelease`, in which `countShared` reaches zero before
`countWeak`. -/
theorem released_block_has_zero_counts_example :
    run progRelease World.init = some worldRelease ∧
    0 < worldRelease.heap.destroyCalls 0 ∧
    worldRelease.heap.countShared 0 = some 0 ∧ worldRelease.heap.countWeak 0 = some 0 ∧
    liveShared worldRelease 0 = 0 ∧ liveWeak worldRelease 0 = 0 :=
  ⟨by decide, by decide, by decide, by decide,
   (released_block_has_zero_counts progRelease worldRelease 0
     { countShared := 0, countWeak := 0,
       derived := Derived.ControlBlockRegular (some (Loc.raw 7)) 4 3 }
     (by decide) (by decide) (by decide) (by decide)).2.2⟩

/-- Where payloads own no handle objects and `swap` exchanges objects of one
class (`step`): in every reachable state and for every allocated block `b`,
`destroy()` has been called on `b` once if no live `SharedPtr` and no live
`WeakPtr` is bound to `b`, and not at all otherwise; a further statement adds
a call exactly when it is the last destruction (of a `SharedPtr` that takes
`countShared` to 0 and sees `countWeak == 0`, or of a `WeakPtr` that takes
`countWeak` to 0 and sees `countShared == 0`), and after it no live handle is
bound to `b`. -/
theorem destroy_once_without_members (ops : List Op) (w : World) (b : Nat)
    (blk : BaseControlBlock) (hlen : ops.length + 1 < SIZE_MOD)
    (hrun : run ops World.init = some w) (hblk : w.heap.blocks[b]? = some blk) :
    w.heap.destroyCalls b = (if liveShared w b = 0 ∧ liveWeak w b = 0 then 1 else 0) ∧
    (∀ op w1, step op w = some w1 →
      w1.heap.destroyCalls b
        = w.heap.destroyCalls b + (if isLastDestruction op w b then 1 else 0) ∧
      (isLastDestruction op w b = true → liveShared w1 b = 0 ∧ liveWeak w1 b = 0)) := by
  have hI := Inv_reachable ops w (by omega) hrun
  have hsz := reachable_size ops w hrun
  have hlt := lt_length_of_get _ _ _ hblk
  refine ⟨?_, ?_⟩
  · rw [hI.des b, hI.cS b, hI.cW b]; simp [hlt]
  · intro op w1 e
    have hc := (step_calls op w w1 hI (by omega) e b).2
    refine ⟨hc, ?_⟩
    intro ht
    have hI1 := Inv_step op w w1 hI (by omega) e
    have h1 := hI1.des b
    have h0 := hI.des b
    rw [hc, h0, ht] at h1
    rw [← hI1.cS b, ← hI1.cW b]
    by_cases hz : b < w1.heap.blocks.length ∧ w1.heap.cS b = 0 ∧ w1.heap.cW b = 0
    · exact hz.2
    · exfalso
      rw [if_neg hz] at h1
      simp at h1

/-- The program `progWeakFirst`, in which the `WeakPtr` is destroyed before
the `SharedPtr`. -/
theorem destroy_once_without_members_example :
    run progWeakFirst World.init = some worldWeakFirst ∧
    worldWeakFirst.heap.destroyCalls 0
      = (if liveShared worldWeakFirst 0 = 0 ∧ liveWeak worldWeakFirst 0 = 0 then 1 else 0) :=
  ⟨by decide,
   (destroy_once_without_members progWeakFirst worldWeakFirst 0
     { countShared := 0, countWeak := 0, derived := Derived.ControlBlockMakeShared 5 42 }
     (by decide) (by decide) (by decide)).1⟩

/-! ## Single operations -/

/-- **C5.** For a `WeakPtr` bound to a block whose `countShared` is not the
largest `size_t`: `expired()` is `countShared == 0`; if it is false, `lock()`
returns a `SharedPtr` with the same block and the same payload pointer, and
the heap afterwards differs only in that the block has `countShared` one
higher (`countWeak` is as before); if it is true, `lock()` returns the empty
`SharedPtr` (`use_count() == 0`, `get() == nullptr`) and leaves the heap as it
was.  Hence the result of `lock()` has a block iff `expired()` was false. -/
theorem C5_lock_iff_not_expired (a : WeakPtr) (h : Heap) (b : Nat) (blk : BaseControlBlock)
    (hd : a.data = some b) (hblk : h.blocks[b]? = some blk)
    (hbound : blk.countShared + 1 < SIZE_MOD) :
    a.expired h = some (blk.countShared == 0) ∧
    (blk.countShared ≠ 0 →
      a.lock h = some ({ data := a.data, ptr := a.ptr },
        { h with blocks := h.blocks.set b { blk with countShared := blk.countShared + 1 } }) ∧
      Heap.countShared
        { h with blocks := h.blocks.set b { blk with countShared := blk.countShared + 1 } } b
        = some (blk.countShared + 1) ∧
      Heap.countWeak
        { h with blocks := h.blocks.set b { blk with countShared := blk.countShared + 1 } } b
        = some blk.countWeak) ∧
    (blk.countShared = 0 → a.lock h = some (SharedPtr.empty, h)) ∧
    (SharedPtr.empty.use_count h = some 0 ∧ SharedPtr.empty.get = none) ∧
    (∀ s h1, a.lock h = some (s, h1) → (s.data ≠ none ↔ a.expired h = some false)) := by
  have hlt := lt_length_of_get _ _ _ hblk
  have hex : a.expired h = some (blk.countShared == 0) := by
    rw [WeakPtr.expired_eq a h b hd hlt, Heap.cS_of_get _ _ _ hblk]
  have hlock1 : blk.countShared ≠ 0 →
      a.lock h = some ({ data := a.data, ptr := a.ptr },
        { h with blocks := h.blocks.set b { blk with countShared := blk.countShared + 1 } }) := by
    intro hnz
    have hf : (blk.countShared == 0) = false := by simpa using hnz
    simp [WeakPtr.lock, hex, hf, SharedPtr.fromBlock, hd, Heap.incShared, hblk,
      sizeInc_eq _ hbound]
  have hlock0 : blk.countShared = 0 → a.lock h = some (SharedPtr.empty, h) := by
    intro hz
    simp [WeakPtr.lock, hex, hz]
  refine ⟨hex, ?_, hlock0, ⟨rfl, rfl⟩, ?_⟩
  · intro hnz
    refine ⟨hlock1 hnz, ?_, ?_⟩
    · simp [Heap.countShared, hlt]
    · simp [Heap.countWeak, hlt]
  · intro s h1 e
    by_cases hz : blk.countShared = 0
    · rw [hlock0 hz] at e
      simp at e
      rw [hex, ← e.1]
      simp [SharedPtr.empty, hz]
    · rw [hlock1 hz] at e
      simp at e
      rw [hex, ← e.1]
      simp [hd, hz]

/-- The claim C5 at the `WeakPtr` of `worldShare`, which is not expired. -/
theorem C5_lock_iff_not_expired_witness :
    WeakPtr.expired { data := some 0, ptr := some (Loc.raw 7) } worldShare.heap = some false ∧
    WeakPtr.lock { data := some 0, ptr := some (Loc.raw 7) } worldShare.heap
      = some ({ data := some 0, ptr := some (Loc.raw 7) },
          { blocks := [{ countShared := 2, countWeak := 1,
                         derived := Derived.ControlBlockRegular (some (Loc.raw 7)) 4 3 }],
            log := [Event.allocate 4 0] }) :=
  ⟨(C5_lock_iff_not_expired { data := some 0, ptr := some (Loc.raw 7) } worldShare.heap 0
      { countShared := 1, countWeak := 1,
        derived := Derived.ControlBlockRegular (some (Loc.raw 7)) 4 3 }
      (by decide) (by decide) (by decide)).1,
   ((C5_lock_iff_not_expired { data := some 0, ptr := some (Loc.raw 7) } worldShare.heap 0
      { countShared := 1, countWeak := 1,
        derived := Derived.ControlBlockRegular (some (Loc.raw 7)) 4 3 }
      (by decide) (by decide) (by decide)).2.1 (by decide)).1⟩

/-- **C7.** What `allocateShared<T>(alloc, args...)` and `makeShared<T>(args...)`
return: a handle bound to a new `ControlBlockMakeShared` with
`countShared == 1` and `countWeak == 0` that holds the `T` built from `args`
inline, so `use_count()` is 1; but the payload pointer of the handle is
`nullptr`, not the address of that inline `T`, and dereferencing the handle
dereferences a null pointer. -/
theorem C7_makeShared_get_is_null (alloc args : Nat) (h : Heap) :
    (allocateShared alloc args h).2.blocks
      = h.blocks ++ [{ countShared := 1, countWeak := 0,
                       derived := Derived.ControlBlockMakeShared alloc args }] ∧
    (allocateShared alloc args h).1.data = some h.blocks.length ∧
    (allocateShared alloc args h).1.use_count (allocateShared alloc args h).2 = some 1 ∧
    (allocateShared alloc args h).2.countWeak h.blocks.length = some 0 ∧
    (allocateShared alloc args h).2.load (Loc.inlinePayload h.blocks.length) = some args ∧
    (allocateShared alloc args h).1.get = none ∧
    (allocateShared alloc args h).1.get ≠ some (Loc.inlinePayload h.blocks.length) ∧
    (allocateShared alloc args h).1.deref = none ∧
    makeShared args h = allocateShared std_allocator args h := by
  refine ⟨rfl, rfl, ?_, ?_, ?_, rfl, ?_, rfl, rfl⟩
  · simp [allocateShared, SharedPtr.allocateCtor, SharedPtr.use_count, Heap.countShared,
      ControlBlockMakeShared]
  · simp [allocateShared, SharedPtr.allocateCtor, Heap.countWeak, ControlBlockMakeShared]
  · simp [allocateShared, SharedPtr.allocateCtor, Heap.load, ControlBlockMakeShared]
  · simp [allocateShared, SharedPtr.allocateCtor, SharedPtr.get]

/-- **C8.** The constructor `SharedPtr(p, d, alloc)` appends one new
`ControlBlockRegular` with `countShared == 1` and `countWeak == 0` that stores
`p`, `alloc` and `d`, and yields a handle bound to it with `use_count() == 1`
and `get() == p`; `useDeleter()` on that block calls the stored deleter `d` on
`p`; `SharedPtr(p)` and `SharedPtr(p, d)` are the same constructor with
`std::default_delete` and `std::allocator`. -/
theorem C8_fromRaw_creates_regular_block (p : Ptr) (d alloc : Nat) (h : Heap) :
    (SharedPtr.fromRaw p d alloc h).2.blocks
      = h.blocks ++ [{ countShared := 1, countWeak := 0,
                       derived := Derived.ControlBlockRegular p alloc d }] ∧
    (SharedPtr.fromRaw p d alloc h).1.data = some h.blocks.length ∧
    (SharedPtr.fromRaw p d alloc h).1.use_count (SharedPtr.fromRaw p d alloc h).2 = some 1 ∧
    (SharedPtr.fromRaw p d alloc h).2.countWeak h.blocks.length = some 0 ∧
    (SharedPtr.fromRaw p d alloc h).1.get = p ∧
    (SharedPtr.fromRaw p d alloc h).2.useDeleter h.blocks.length
      = some { (SharedPtr.fromRaw p d alloc h).2 with
               log := (SharedPtr.fromRaw p d alloc h).2.log
                 ++ [Event.useDeleter h.blocks.length, Event.del d p] } ∧
    SharedPtr.fromRaw1 p h = SharedPtr.fromRaw p default_delete std_allocator h ∧
    SharedPtr.fromRaw2 p d h = SharedPtr.fromRaw p d std_allocator h := by
  refine ⟨rfl, rfl, ?_, ?_, rfl, ?_, rfl, rfl⟩
  · simp [SharedPtr.fromRaw, SharedPtr.use_count, Heap.countShared, ControlBlockRegular]
  · simp [SharedPtr.fromRaw, Heap.countWeak, ControlBlockRegular]
  · simp [SharedPtr.fromRaw, Heap.useDeleter, ControlBlockRegular,
      BaseControlBlock.useDeleter]

/-- **C9.** Copy construction from a `SharedPtr` `a`.  If `a` has no block,
the copy has none either (`use_count() == 0`) and the heap is as before; the
copy of the empty handle is the empty handle.  If
`a` is bound to block `b`, whose `countShared` is `c` and not the largest
`size_t`, the copy has the block and the payload pointer of `a`, the heap
afterwards differs only in that `countShared` of `b` is `c + 1` (`countWeak`
is as before), both handles report `use_count() == c + 1`, and destroying one
of them then takes the heap back to what it was before the copy, where the
other reports `use_count() == c`. -/
theorem C9_copy_increments_countShared (a : SharedPtr) (h : Heap) :
    (a.data = none →
      a.copy h = some ({ data := none, ptr := a.ptr }, h) ∧
      SharedPtr.use_count { data := none, ptr := a.ptr } h = some 0) ∧
    SharedPtr.empty.copy h = some (SharedPtr.empty, h) ∧
    (∀ b blk, a.data = some b → h.blocks[b]? = some blk →
      blk.countShared + 1 < SIZE_MOD →
      a.copy h = some ({ data := a.data, ptr := a.ptr },
        { h with blocks := h.blocks.set b { blk with countShared := blk.countShared + 1 } }) ∧
      a.use_count
        { h with blocks := h.blocks.set b { blk with countShared := blk.countShared + 1 } }
        = some (blk.countShared + 1) ∧
      SharedPtr.use_count { data := a.data, ptr := a.ptr }
        { h with blocks := h.blocks.set b { blk with countShared := blk.countShared + 1 } }
        = some (blk.countShared + 1) ∧
      Heap.countWeak
        { h with blocks := h.blocks.set b { blk with countShared := blk.countShared + 1 } } b
        = some blk.countWeak ∧
      (1 ≤ blk.countShared →
        a.destructor
          { h with blocks := h.blocks.set b { blk with countShared := blk.countShared + 1 } }
          = some h ∧
        SharedPtr.use_count { data := a.data, ptr := a.ptr } h = some blk.countShared)) := by
  refine ⟨?_, rfl, ?_⟩
  · intro hd
    exact ⟨SharedPtr.copy_none a h hd, rfl⟩
  · intro b blk hd hblk hbound
    have hlt := lt_length_of_get _ _ _ hblk
    refine ⟨?_, ?_, ?_, ?_, ?_⟩
    · simp [SharedPtr.copy, hd, Heap.incShared, hblk, sizeInc_eq _ hbound]
    · simp [SharedPtr.use_count, hd, Heap.countShared, hlt]
    · simp [SharedPtr.use_count, hd, Heap.countShared, hlt]
    · simp [Heap.countWeak, hlt]
    · intro hpos
      have hdec : sizeDec (blk.countShared + 1) = blk.countShared := by
        rw [sizeDec_eq _ (by omega) (by omega)]; rfl
      have hback : h.blocks.set b blk = h.blocks := by
        apply List.ext_getElem?
        intro n
        rw [List.getElem?_set]
        by_cases hn : b = n
        · subst hn; simp [hlt, hblk]
        · simp [hn]
      refine ⟨?_, ?_⟩
      · simp [SharedPtr.destructor, hd, Heap.decShared, hlt, hdec, Heap.countShared, hpos,
          hback]
        intro hz
        have hget : h.blocks[b] = blk := by
          rw [List.getElem?_eq_getElem hlt] at hblk; exact Option.some.inj hblk
        rw [hget] at hz
        omega
      · simp [SharedPtr.use_count, hd, Heap.countShared, hblk]

/-- The claim C9 at a handle with `use_count() == 1`: after the copy both
handles report 2, and after destroying one the other reports 1. -/
theorem C9_copy_increments_countShared_witness :
    SharedPtr.copy { data := some 0, ptr := some (Loc.raw 7) }
        { blocks := [ControlBlockRegular (some (Loc.raw 7)) 3 4], log := [] }
      = some ({ data := some 0, ptr := some (Loc.raw 7) },
          { blocks := [{ countShared := 2, countWeak := 0,
                         derived := Derived.ControlBlockRegular (some (Loc.raw 7)) 4 3 }],
            log := [] }) ∧
    SharedPtr.copy { data := none, ptr := none } Heap.init
      = some ({ data := none, ptr := none }, Heap.init) :=
  ⟨((C9_copy_increments_countShared { data := some 0, ptr := some (Loc.raw 7) }
      { blocks := [ControlBlockRegular (some (Loc.raw 7)) 3 4], log := [] }).2.2 0
      (ControlBlockRegular (some (Loc.raw 7)) 3 4) (by decide) (by decide) (by decide)).1,
   ((C9_copy_increments_countShared { data := none, ptr := none } Heap.init).1
      (by decide)).1⟩

/-- **C10.** Move construction from a `SharedPtr` (respectively `WeakPtr`)
`s`: the new handle has the block and the payload pointer `s` had, `s` is left
with a null block and a null pointer (`use_count() == 0`), and the statement
leaves the heap, hence `countShared` and `countWeak` of every block, as it
was. -/
theorem C10_move_takes_over (w : World) (i : Nat) :
    (∀ s : SharedPtr, s.move = (s, SharedPtr.empty)) ∧
    (∀ v : WeakPtr, v.move = (v, WeakPtr.empty)) ∧
    (∀ h : Heap, SharedPtr.empty.use_count h = some 0 ∧ WeakPtr.empty.use_count h = some 0) ∧
    (∀ s, w.getShared i = some s →
      step (Op.sharedMove i) w
        = some { w with shared := w.shared.set i (some SharedPtr.empty) ++ [some s] }) ∧
    (∀ v, w.getWeak i = some v →
      step (Op.weakMove i) w
        = some { w with weak := w.weak.set i (some WeakPtr.empty) ++ [some v] }) ∧
    (∀ w1, step (Op.sharedMove i) w = some w1 ∨ step (Op.weakMove i) w = some w1 →
      w1.heap = w.heap) := by
  have hs : ∀ s : SharedPtr, s.move = (s, SharedPtr.empty) := fun s => rfl
  have hv : ∀ v : WeakPtr, v.move = (v, WeakPtr.empty) := fun v => rfl
  refine ⟨hs, hv, fun h => ⟨rfl, rfl⟩, ?_, ?_, ?_⟩
  · intro s e; simp [step, e, hs]
  · intro v e; simp [step, e, hv]
  · intro w1 e
    rcases e with e | e
    · simp only [step] at e
      split at e
      · simp at e
      · simp at e; subst e; rfl
    · simp only [step] at e
      split at e
      · simp at e
      · simp at e; subst e; rfl

/-- The claim C10 at the `SharedPtr` number 2 of `worldShare`. -/
theorem C10_move_takes_over_witness :
    step (Op.sharedMove 2) worldShare
      = some { worldShare with
               shared := [none, some SharedPtr.empty, some SharedPtr.empty,
                          some { data := some 0, ptr := some (Loc.raw 7) }] } :=
  (C10_move_takes_over worldShare 2).2.2.2.1 { data := some 0, ptr := some (Loc.raw 7) }
    (by decide)

/-! ## The destructors and the conversion to a weak handle, computed -/

theorem getElem_of_get {α : Type} (l : List α) (i : Nat) (a : α) (h : l[i]? = some a)
    (hlt : i < l.length) : l[i] = a := by
  rw [List.getElem?_eq_getElem hlt] at h; exact Option.some.inj h

/-- The destructor `~SharedPtr()` for a payload that owns no handle object
(`SharedPtr.destructor`).  On a handle without a block it does nothing.  On a
handle bound to block `b` with `countShared` at least 1 it decrements
`countShared` by 1 and (i) if the result is positive changes nothing else (no
`useDeleter()`, no `destroy()`); (ii) if the result is 0 and `countWeak > 0` it
calls `useDeleter()` and not `destroy()`; (iii) if the result is 0 and
`countWeak == 0` it calls `useDeleter()` and then `destroy()`. -/
theorem shared_destructor_cases_without_members (a : SharedPtr) (h : Heap) :
    (a.data = none → a.destructor h = some h) ∧
    (∀ b blk, a.data = some b → h.blocks[b]? = some blk →
      1 ≤ blk.countShared → blk.countShared < SIZE_MOD →
      (1 < blk.countShared →
        a.destructor h = some
          { h with blocks := h.blocks.set b { blk with countShared := blk.countShared - 1 } }) ∧
      (blk.countShared = 1 → 0 < blk.countWeak →
        a.destructor h = some
          { blocks := h.blocks.set b { blk with countShared := 0 },
            log := h.log ++ Event.useDeleter b :: blk.useDeleter b }) ∧
      (blk.countShared = 1 → blk.countWeak = 0 →
        a.destructor h = some
          { blocks := h.blocks.set b { blk with countShared := 0 },
            log := (h.log ++ Event.useDeleter b :: blk.useDeleter b)
              ++ Event.destroy b :: blk.destroy b })) := by
  refine ⟨?_, ?_⟩
  · intro hd; simp [SharedPtr.destructor, hd]
  · intro b blk hd hblk h1 h2
    have hlt := lt_length_of_get _ _ _ hblk
    have hdec : sizeDec blk.countShared = blk.countShared - 1 := sizeDec_eq _ (by omega) h2
    refine ⟨?_, ?_, ?_⟩
    · intro hgt
      have hpos : 0 < blk.countShared - 1 := by omega
      simp [SharedPtr.destructor, hd, Heap.decShared, hblk, hlt, hdec, Heap.countShared, hpos]
    · intro hone hw
      have hz : blk.countShared - 1 = 0 := by omega
      have hwne : ¬ blk.countWeak = 0 := by omega
      simp [SharedPtr.destructor, hd, Heap.decShared, hblk, hlt, hdec, Heap.countShared,
        Heap.countWeak, Heap.useDeleter, hz, hwne, BaseControlBlock.useDeleter]
    · intro hone hw
      have hz : blk.countShared - 1 = 0 := by omega
      simp [SharedPtr.destructor, hd, Heap.decShared, hblk, hlt, hdec, Heap.countShared,
        Heap.countWeak, Heap.useDeleter, Heap.destroy, hz, hw, BaseControlBlock.useDeleter,
        BaseControlBlock.destroy]

/-- The last `SharedPtr` of a block with one `WeakPtr` outside the payload:
`useDeleter()` is called, `destroy()` is not. -/
theorem shared_destructor_cases_without_members_example :
    SharedPtr.destructor { data := some 0, ptr := some (Loc.raw 7) } worldShare.heap
      = some worldExpire.heap :=
  ((shared_destructor_cases_without_members { data := some 0, ptr := some (Loc.raw 7) }
      worldShare.heap).2 0
      { countShared := 1, countWeak := 1,
        derived := Derived.ControlBlockRegular (some (Loc.raw 7)) 4 3 }
      (by decide) (by decide) (by decide) (by decide)).2.1 (by decide) (by decide)

/-- **C12.** The destructor `~WeakPtr()`.  On a handle without a block it does
nothing.  On a handle bound to block `b` with `countWeak` at least 1 it
decrements `countWeak` by 1, leaves `countShared` as it is, never calls
`useDeleter()`, and calls `destroy()` if and only if after the decrement
`countWeak == 0` and `countShared == 0`. -/
theorem C12_weak_destructor_cases (a : WeakPtr) (h : Heap) :
    (a.data = none → a.destructor h = some h) ∧
    (∀ b blk, a.data = some b → h.blocks[b]? = some blk →
      1 ≤ blk.countWeak → blk.countWeak < SIZE_MOD →
      (blk.countWeak - 1 = 0 ∧ blk.countShared = 0 →
        a.destructor h = some
          { blocks := h.blocks.set b { blk with countWeak := blk.countWeak - 1 },
            log := h.log ++ Event.destroy b :: blk.destroy b }) ∧
      (¬ (blk.countWeak - 1 = 0 ∧ blk.countShared = 0) →
        a.destructor h = some
          { h with blocks := h.blocks.set b { blk with countWeak := blk.countWeak - 1 } }) ∧
      (∀ h1, a.destructor h = some h1 →
        h1.countWeak b = some (blk.countWeak - 1) ∧
        h1.countShared b = some blk.countShared ∧
        h1.useDeleterCalls b = h.useDeleterCalls b ∧
        (h1.destroyCalls b = h.destroyCalls b + 1 ↔
          (blk.countWeak - 1 = 0 ∧ blk.countShared = 0)) ∧
        (h1.destroyCalls b = h.destroyCalls b ∨
          h1.destroyCalls b = h.destroyCalls b + 1))) := by
  refine ⟨?_, ?_⟩
  · intro hd; simp [WeakPtr.destructor, hd]
  · intro b blk hd hblk h1 h2
    have hlt := lt_length_of_get _ _ _ hblk
    have hdec : sizeDec blk.countWeak = blk.countWeak - 1 := sizeDec_eq _ (by omega) h2
    refine ⟨?_, ?_, ?_⟩
    · intro hc
      simp [WeakPtr.destructor, hd, Heap.decWeak, hblk, hlt, hdec, Heap.countShared,
        Heap.countWeak, Heap.destroy, hc.1, hc.2, BaseControlBlock.destroy]
    · intro hc
      have hc2 : ¬ (blk.countWeak - 1 = 0 ∧ blk.countShared = 0) := hc
      simp only [WeakPtr.destructor, hd, Heap.decWeak, hblk, Heap.countShared,
        Heap.countWeak]
      simp only [List.getElem?_set, hlt, if_true, Option.map_some', hdec, if_neg hc2]
    · intro hx e
      have sp := WeakPtr.weak_destructor_spec a h hx b hd e
      rw [Heap.cW_of_get _ _ _ hblk, Heap.cS_of_get _ _ _ hblk, hdec] at sp
      refine ⟨?_, ?_, ?_, ?_, ?_⟩
      · rw [Heap.countWeak_eq _ _ sp.lt1, sp.cW_self]
      · rw [Heap.countShared_eq _ _ sp.lt1, sp.cS_self]
      · rw [sp.del]; simp
      · rw [sp.des]; simp
      · rw [sp.des]; simp only [if_true]
        split
        · exact Or.inr rfl
        · exact Or.inl rfl

/-- The claim C12 at the `WeakPtr` of `worldExpire`, the last handle of its
block: `destroy()` is called. -/
theorem C12_weak_destructor_cases_witness :
    WeakPtr.destructor { data := some 0, ptr := some (Loc.raw 7) } worldExpire.heap
      = some worldRelease.heap :=
  ((C12_weak_destructor_cases { data := some 0, ptr := some (Loc.raw 7) }
      worldExpire.heap).2 0
      { countShared := 0, countWeak := 1,
        derived := Derived.ControlBlockRegular (some (Loc.raw 7)) 4 3 }
      (by decide) (by decide) (by decide) (by decide)).1 (by decide)

/-- **C13.** The constructor `WeakPtr(const SharedPtr<U>& s)`.  If `s` has no
block the new handle has none either and the heap is as before.  If `s` is
bound to block `b`, whose `countWeak` is not the largest `size_t`, the new
handle has the block and the payload pointer of `s`, and the heap afterwards
differs only in that `countWeak` of `b` is one higher: `countShared`, hence
`s.use_count()`, is as before. -/
theorem C13_weak_from_shared (s : SharedPtr) (h : Heap) :
    (s.data = none → WeakPtr.fromShared s h = some ({ data := none, ptr := s.ptr }, h)) ∧
    WeakPtr.fromShared SharedPtr.empty h = some (WeakPtr.empty, h) ∧
    (∀ b blk, s.data = some b → h.blocks[b]? = some blk →
      blk.countWeak + 1 < SIZE_MOD →
      WeakPtr.fromShared s h = some ({ data := s.data, ptr := s.ptr },
        { h with blocks := h.blocks.set b { blk with countWeak := blk.countWeak + 1 } }) ∧
      Heap.countWeak
        { h with blocks := h.blocks.set b { blk with countWeak := blk.countWeak + 1 } } b
        = some (blk.countWeak + 1) ∧
      Heap.countShared
        { h with blocks := h.blocks.set b { blk with countWeak := blk.countWeak + 1 } } b
        = some blk.countShared ∧
      s.use_count
        { h with blocks := h.blocks.set b { blk with countWeak := blk.countWeak + 1 } }
        = s.use_count h) := by
  refine ⟨fun hd => WeakPtr.fromShared_none s h hd, rfl, ?_⟩
  intro b blk hd hblk hbound
  have hlt := lt_length_of_get _ _ _ hblk
  refine ⟨?_, ?_, ?_, ?_⟩
  · simp [WeakPtr.fromShared, hd, Heap.incWeak, hblk, sizeInc_eq _ hbound]
  · simp [Heap.countWeak, hlt]
  · simp [Heap.countShared, hlt]
  · simp [SharedPtr.use_count, hd, Heap.countShared, hlt, hblk]

/-- The claim C13 at a handle fresh from `SharedPtr(p, d, alloc)`. -/
theorem C13_weak_from_shared_witness :
    WeakPtr.fromShared { data := some 0, ptr := some (Loc.raw 7) }
        { blocks := [ControlBlockRegular (some (Loc.raw 7)) 3 4], log := [] }
      = some ({ data := some 0, ptr := some (Loc.raw 7) },
          { blocks := [{ countShared := 1, countWeak := 1,
                         derived := Derived.ControlBlockRegular (some (Loc.raw 7)) 4 3 }],
            log := [] }) :=
  ((C13_weak_from_shared { data := some 0, ptr := some (Loc.raw 7) }
      { blocks := [ControlBlockRegular (some (Loc.raw 7)) 3 4], log := [] }).2.2 0
      (ControlBlockRegular (some (Loc.raw 7)) 3 4) (by decide) (by decide) (by decide)).1

/-! ## Assignment and reset: a temporary, a swap, a destruction -/

theorem set_of_get {α : Type} (l : List α) (i : Nat) (a : α) (h : l[i]? = some a) :
    l.set i a = l := by
  apply List.ext_getElem?
  intro n
  rw [List.getElem?_set]
  by_cases hn : i = n
  · subst hn; simp [lt_length_of_get _ _ _ h, h]
  · simp [hn]

theorem World.getShared_of_get (w : World) (i : Nat) (a : SharedPtr)
    (h : w.shared[i]? = some (some a)) : w.getShared i = some a := by
  simp [World.getShared, h]

theorem World.getWeak_of_get (w : World) (i : Nat) (a : WeakPtr)
    (h : w.weak[i]? = some (some a)) : w.getWeak i = some a := by
  simp [World.getWeak, h]

/-- With the temporary `t` declared last: `this->swap(t)` on the object
number `i`, which holds `a`, and then the destruction of the temporary, is the
destructor run on `a`, with `t` left in the object. -/
theorem swap_destroy_shared (w : World) (l : List (Option SharedPtr)) (t a : SharedPtr)
    (i : Nat) (hs : w.shared = l ++ [some t]) (hi : l[i]? = some (some a)) :
    run [Op.sharedSwap i l.length, Op.sharedDestroy l.length] w
      = (a.destructor w.heap).map
          (fun h2 => { heap := h2, shared := l.set i (some t) ++ [none], weak := w.weak }) := by
  have hil := lt_length_of_get _ _ _ hi
  have h1 : w.getShared i = some a := by
    apply World.getShared_of_get
    rw [hs, List.getElem?_append_left hil]; exact hi
  have h2 : w.getShared l.length = some t := by
    apply World.getShared_of_get
    rw [hs]; simp
  have hset : ((w.shared.set i (some (a.swap t).1)).set l.length (some (a.swap t).2))
      = l.set i (some t) ++ [some a] := by
    rw [hs, List.set_append_left _ _ hil, List.set_append_right _ _ (by simp)]
    simp [SharedPtr.swap]
  simp only [run, step, h1, h2, Option.some_bind, hset]
  have h3 : World.getShared
      { heap := w.heap, shared := l.set i (some t) ++ [some a], weak := w.weak } l.length
      = some a := by
    apply World.getShared_of_get
    have : l.length = (l.set i (some t)).length := by simp
    simp only []
    rw [this, List.getElem?_concat_length]
  simp only [h3]
  cases a.destructor w.heap with
  | none => rfl
  | some h4 =>
    simp only [Option.some_bind, Option.bind_some, Option.map_some']
    have : l.length = (l.set i (some t)).length := by simp
    rw [this, List.set_append_right _ _ (Nat.le_refl _)]
    simp

theorem swap_destroy_weak (w : World) (l : List (Option WeakPtr)) (t a : WeakPtr)
    (i : Nat) (hs : w.weak = l ++ [some t]) (hi : l[i]? = some (some a)) :
    run [Op.weakSwap i l.length, Op.weakDestroy l.length] w
      = (a.destructor w.heap).map
          (fun h2 => { heap := h2, shared := w.shared, weak := l.set i (some t) ++ [none] }) := by
  have hil := lt_length_of_get _ _ _ hi
  have h1 : w.getWeak i = some a := by
    apply World.getWeak_of_get
    rw [hs, List.getElem?_append_left hil]; exact hi
  have h2 : w.getWeak l.length = some t := by
    apply World.getWeak_of_get
    rw [hs]; simp
  have hset : ((w.weak.set i (some (a.swap t).1)).set l.length (some (a.swap t).2))
      = l.set i (some t) ++ [some a] := by
    rw [hs, List.set_append_left _ _ hil, List.set_append_right _ _ (by simp)]
    simp [WeakPtr.swap]
  simp only [run, step, h1, h2, Option.some_bind, hset]
  have h3 : World.getWeak
      { heap := w.heap, shared := w.shared, weak := l.set i (some t) ++ [some a] } l.length
      = some a := by
    apply World.getWeak_of_get
    have : l.length = (l.set i (some t)).length := by simp
    simp only []
    rw [this, List.getElem?_concat_length]
  simp only [h3]
  cases a.destructor w.heap with
  | none => rfl
  | some h4 =>
    simp only [Option.some_bind, Option.bind_some, Option.map_some']
    have : l.length = (l.set i (some t)).length := by simp
    rw [this, List.set_append_right _ _ (Nat.le_refl _)]
    simp

theorem SharedPtr.copy_fst (a : SharedPtr) (h : Heap) (r : SharedPtr × Heap)
    (e : a.copy h = some r) : r.1 = a := by
  unfold SharedPtr.copy at e
  simp only at e
  split at e
  · simp at e; rw [← e]
  · split at e
    · simp at e
    · simp at e; rw [← e]

theorem SharedPtr.copy_exact (a : SharedPtr) (h : Heap) (b : Nat) (blk : BaseControlBlock)
    (hd : a.data = some b) (hblk : h.blocks[b]? = some blk)
    (hbound : blk.countShared + 1 < SIZE_MOD) :
    a.copy h = some (a,
      { h with blocks := h.blocks.set b { blk with countShared := blk.countShared + 1 } }) := by
  simp [SharedPtr.copy, hd, Heap.incShared, hblk, sizeInc_eq _ hbound]
  rw [← hd]

theorem SharedPtr.destructor_undo_copy (a : SharedPtr) (h : Heap) (b : Nat)
    (blk : BaseControlBlock) (hd : a.data = some b) (hblk : h.blocks[b]? = some blk)
    (hpos : 1 ≤ blk.countShared) (hbound : blk.countShared + 1 < SIZE_MOD) :
    a.destructor
      { h with blocks := h.blocks.set b { blk with countShared := blk.countShared + 1 } }
      = some h := by
  have hlt := lt_length_of_get _ _ _ hblk
  have hdec : sizeDec (blk.countShared + 1) = blk.countShared := by
    rw [sizeDec_eq _ (by omega) (by omega)]; rfl
  have hback : h.blocks.set b blk = h.blocks := set_of_get _ _ _ hblk
  simp [SharedPtr.destructor, hd, Heap.decShared, hlt, hdec, Heap.countShared, hpos, hback]
  intro hz
  rw [getElem_of_get _ _ _ hblk hlt] at hz
  omega

theorem run_cons (op : Op) (ops : List Op) (w : World) :
    run (op :: ops) w = (step op w).bind (run ops) := rfl

theorem sharedAssignCopy_eq (w : World) (i j : Nat) (a b : SharedPtr)
    (ha : w.getShared i = some a) (hb : w.getShared j = some b) :
    sharedAssignCopy i j w
      = (b.copy w.heap).bind (fun r => (a.destructor r.2).map (fun h2 =>
          ({ heap := h2, shared := w.shared.set i (some b) ++ [none], weak := w.weak }
            : World))) := by
  unfold sharedAssignCopy
  rw [run_cons]
  have hstep : step (Op.sharedCopy j) w = (b.copy w.heap).map (fun r =>
      ({ w with heap := r.2, shared := w.shared ++ [some r.1] } : World)) := by
    simp only [step, hb]
    cases b.copy w.heap <;> rfl
  rw [hstep]
  cases hc : b.copy w.heap with
  | none => rfl
  | some r =>
    simp only [Option.map_some', Option.some_bind]
    have hr := SharedPtr.copy_fst b w.heap r hc
    rw [swap_destroy_shared { w with heap := r.2, shared := w.shared ++ [some r.1] }
      w.shared r.1 a i rfl (World.getShared_some w i a ha), hr]

theorem sharedAssignMove_eq (w : World) (i j : Nat) (a b : SharedPtr)
    (ha : w.getShared i = some a) (hb : w.getShared j = some b) :
    sharedAssignMove i j w
      = ((if i = j then SharedPtr.empty else a).destructor w.heap).map (fun h2 =>
          ({ heap := h2,
             shared := (w.shared.set j (some SharedPtr.empty)).set i (some b) ++ [none],
             weak := w.weak } : World)) := by
  unfold sharedAssignMove
  rw [run_cons]
  have hstep : step (Op.sharedMove j) w
      = some { w with shared := w.shared.set j (some SharedPtr.empty) ++ [some b] } := by
    simp only [step, hb]; rfl
  rw [hstep, Option.some_bind]
  have hgi := World.getShared_some w i a ha
  have hgj := World.getShared_some w j b hb
  have hlen : w.shared.length = (w.shared.set j (some SharedPtr.empty)).length := by simp
  have hi : (w.shared.set j (some SharedPtr.empty))[i]?
      = some (some (if i = j then SharedPtr.empty else a)) := by
    by_cases hij : i = j
    · subst hij; simp [lt_length_of_get _ _ _ hgi]
    · have hji : ¬ j = i := fun x => hij x.symm
      rw [List.getElem?_set_ne hji]; simp [hij, hgi]
  rw [hlen]
  exact swap_destroy_shared
    { w with shared := w.shared.set j (some SharedPtr.empty) ++ [some b] }
    (w.shared.set j (some SharedPtr.empty)) b (if i = j then SharedPtr.empty else a) i rfl hi

theorem sharedReset_eq (w : World) (i : Nat) (a : SharedPtr) (ha : w.getShared i = some a) :
    sharedReset i w
      = (a.destructor w.heap).map (fun h2 =>
          ({ heap := h2, shared := w.shared.set i (some SharedPtr.empty) ++ [none],
             weak := w.weak } : World)) := by
  unfold sharedReset
  rw [run_cons]
  have hstep : step Op.sharedEmpty w
      = some { w with shared := w.shared ++ [some SharedPtr.empty] } := rfl
  rw [hstep, Option.some_bind]
  exact swap_destroy_shared { w with shared := w.shared ++ [some SharedPtr.empty] }
    w.shared SharedPtr.empty a i rfl (World.getShared_some w i a ha)

/-- **C14.** Self-assignment `h = h` of a `SharedPtr`, and `h = std::move(h)`:
for a handle without a block, and for a handle bound to a block with
`countShared` at least 1 (and below the largest `size_t`), the state
afterwards is the state before with the destroyed temporary as one more dead
object: the handle has its block and its payload pointer, and the heap, so
every counter and the trace of `useDeleter()` and `destroy()` calls, is as it
was. -/
theorem C14_self_assignment_is_noop (w : World) (i : Nat) (a : SharedPtr)
    (ha : w.getShared i = some a) :
    (a.data = none → sharedAssignCopy i i w = some { w with shared := w.shared ++ [none] }) ∧
    (∀ b blk, a.data = some b → w.heap.blocks[b]? = some blk → 1 ≤ blk.countShared →
      blk.countShared + 1 < SIZE_MOD →
      sharedAssignCopy i i w = some { w with shared := w.shared ++ [none] }) ∧
    sharedAssignMove i i w = some { w with shared := w.shared ++ [none] } ∧
    World.getShared { w with shared := w.shared ++ [none] } i = some a := by
  have hgi := World.getShared_some w i a ha
  have hil := lt_length_of_get _ _ _ hgi
  have hset : w.shared.set i (some a) = w.shared := set_of_get _ _ _ hgi
  refine ⟨?_, ?_, ?_, ?_⟩
  · intro hd
    rw [sharedAssignCopy_eq w i i a a ha ha, SharedPtr.copy_none a _ hd]
    simp only [Option.some_bind]
    have : a.destructor w.heap = some w.heap := by simp [SharedPtr.destructor, hd]
    rw [this, hset]; rfl
  · intro b blk hd hblk hpos hbound
    rw [sharedAssignCopy_eq w i i a a ha ha, SharedPtr.copy_exact a _ b blk hd hblk hbound]
    simp only [Option.some_bind]
    rw [SharedPtr.destructor_undo_copy a _ b blk hd hblk hpos hbound, hset]; rfl
  · rw [sharedAssignMove_eq w i i a a ha ha]
    simp only [if_true]
    have : SharedPtr.empty.destructor w.heap = some w.heap := rfl
    rw [this, List.set_set, hset]; rfl
  · apply World.getShared_of_get
    simp only []
    rw [List.getElem?_append_left hil]; exact hgi

/-- The claim C14 at the `SharedPtr` number 2 of `worldShare`, the only handle
of its block (`countShared == 1`). -/
theorem C14_self_assignment_is_noop_witness :
    sharedAssignCopy 2 2 worldShare
      = some { worldShare with shared := worldShare.shared ++ [none] } :=
  (C14_self_assignment_is_noop worldShare 2 { data := some 0, ptr := some (Loc.raw 7) }
      (by decide)).2.1 0
    { countShared := 1, countWeak := 1,
      derived := Derived.ControlBlockRegular (some (Loc.raw 7)) 4 3 }
    (by decide) (by decide) (by decide) (by decide)

/-- **C17.** The member `use_count()` of `SharedPtr` and of `WeakPtr` returns
the `countShared` of the block the handle is bound to, and 0 for a handle
without a block: a default-constructed handle, a moved-from handle, a handle
after `reset()`.  It is a function of the handle and the heap alone and
returns nothing but the count, so it changes no counter and no handle
field. -/
theorem C17_use_count_observes_countShared (h : Heap) :
    (∀ (s : SharedPtr) b blk, s.data = some b → h.blocks[b]? = some blk →
      s.use_count h = some blk.countShared) ∧
    (∀ (v : WeakPtr) b blk, v.data = some b → h.blocks[b]? = some blk →
      v.use_count h = some blk.countShared) ∧
    (∀ s : SharedPtr, s.data = none → s.use_count h = some 0) ∧
    (∀ v : WeakPtr, v.data = none → v.use_count h = some 0) ∧
    SharedPtr.empty.use_count h = some 0 ∧ WeakPtr.empty.use_count h = some 0 ∧
    (∀ s : SharedPtr, s.move.2.use_count h = some 0) ∧
    (∀ v : WeakPtr, v.move.2.use_count h = some 0) ∧
    (∀ w i a w1, w.getShared i = some a → sharedReset i w = some w1 →
      ∃ s, w1.getShared i = some s ∧ s.use_count w1.heap = some 0) := by
  refine ⟨?_, ?_, ?_, ?_, rfl, rfl, fun _ => rfl, fun _ => rfl, ?_⟩
  · intro s b blk hd hblk
    simp [SharedPtr.use_count, hd, Heap.countShared, hblk]
  · intro v b blk hd hblk
    simp [WeakPtr.use_count, hd, Heap.countShared, hblk]
  · intro s hd; simp [SharedPtr.use_count, hd]
  · intro v hd; simp [WeakPtr.use_count, hd]
  · intro w i a w1 ha e
    rw [sharedReset_eq w i a ha] at e
    cases hd : a.destructor w.heap with
    | none => rw [hd] at e; simp at e
    | some h2 =>
      rw [hd] at e
      simp only [Option.map_some', Option.some.injEq] at e
      subst e
      refine ⟨SharedPtr.empty, ?_, rfl⟩
      apply World.getShared_of_get
      have hil := lt_length_of_get _ _ _ (World.getShared_some w i a ha)
      simp only []
      rw [List.getElem?_append_left (by simpa using hil)]
      simp [hil]

/-- The claim C17 at the handles of `worldShare`, whose block has
`countShared == 1`. -/
theorem C17_use_count_observes_countShared_witness :
    SharedPtr.use_count { data := some 0, ptr := some (Loc.raw 7) } worldShare.heap = some 1 ∧
    WeakPtr.use_count { data := some 0, ptr := some (Loc.raw 7) } worldShare.heap = some 1 ∧
    SharedPtr.use_count { data := none, ptr := none } worldShare.heap = some 0 :=
  ⟨(C17_use_count_observes_countShared worldShare.heap).1
      { data := some 0, ptr := some (Loc.raw 7) } 0
      { countShared := 1, countWeak := 1,
        derived := Derived.ControlBlockRegular (some (Loc.raw 7)) 4 3 }
      (by decide) (by decide),
   (C17_use_count_observes_countShared worldShare.heap).2.1
      { data := some 0, ptr := some (Loc.raw 7) } 0
      { countShared := 1, countWeak := 1,
        derived := Derived.ControlBlockRegular (some (Loc.raw 7)) 4 3 }
      (by decide) (by decide),
   (C17_use_count_observes_countShared worldShare.heap).2.2.1
      { data := none, ptr := none } (by decide)⟩

/-- **C18.** The member `expired()` reads `data->countShared` whether or not
`data` is null.  On a `WeakPtr` without a block (default-constructed or
moved-from) `expired()` has no result, and so `lock()`, which calls it first,
has none either and does not return the empty `SharedPtr`; the statement
`w.lock()` is not executed.  On a `WeakPtr` bound to an allocated block both
return, and in every reachable state every live `WeakPtr` with a non-null
block is bound to an allocated block. -/
theorem C18_expired_dereferences_null (h : Heap) :
    WeakPtr.empty.expired h = none ∧ WeakPtr.empty.lock h = none ∧
    (∀ v : WeakPtr, v.data = none → v.expired h = none ∧ v.lock h = none) ∧
    (∀ v : WeakPtr, v.move.2.expired h = none ∧ v.move.2.lock h = none) ∧
    (∀ w i v, w.getWeak i = some v → v.data = none → step (Op.lock i) w = none) ∧
    (∀ (v : WeakPtr) b blk, v.data = some b → h.blocks[b]? = some blk →
      v.expired h = some (blk.countShared == 0) ∧ (v.lock h).isSome = true) ∧
    (∀ ops w i v, ops.length < SIZE_MOD → run ops World.init = some w →
      w.getWeak i = some v → v.data ≠ none →
      (v.expired w.heap).isSome = true ∧ (v.lock w.heap).isSome = true ∧
      (step (Op.lock i) w).isSome = true) := by
  have hnull : ∀ v : WeakPtr, v.data = none → v.expired h = none ∧ v.lock h = none := by
    intro v hd
    have : v.expired h = none := by simp [WeakPtr.expired, hd]
    exact ⟨this, by simp [WeakPtr.lock, this]⟩
  refine ⟨(hnull _ rfl).1, (hnull _ rfl).2, hnull, fun v => hnull _ rfl, ?_, ?_, ?_⟩
  · intro w i v hv hd
    simp [step, hv, WeakPtr.lock, WeakPtr.expired, hd]
  · intro v b blk hd hblk
    have hlt := lt_length_of_get _ _ _ hblk
    refine ⟨?_, ?_⟩
    · rw [WeakPtr.expired_eq v h b hd hlt, Heap.cS_of_get _ _ _ hblk]
    · obtain ⟨r, hr⟩ := WeakPtr.lock_defined v h b hd hlt
      rw [hr]; rfl
  · intro ops w i v hlen hrun hv hd
    have hI := Inv_reachable ops w hlen hrun
    cases hb : v.data with
    | none => exact absurd hb hd
    | some b =>
      have hlt := hI.weak_lt i b v hv hb
      obtain ⟨r, hr⟩ := WeakPtr.lock_defined v w.heap b hb hlt
      refine ⟨?_, ?_, ?_⟩
      · rw [WeakPtr.expired_eq v w.heap b hb hlt]; rfl
      · rw [hr]; rfl
      · simp [step, hv, hr]

/-- The claim C18 at the `WeakPtr` of `worldExpire`, which is bound to block
0: `expired()` returns. -/
theorem C18_expired_dereferences_null_witness :
    WeakPtr.expired { data := some 0, ptr := some (Loc.raw 7) } worldExpire.heap = some true ∧
    WeakPtr.expired { data := none, ptr := none } worldExpire.heap = none :=
  ⟨((C18_expired_dereferences_null worldExpire.heap).2.2.2.2.2.1
      { data := some 0, ptr := some (Loc.raw 7) } 0
      { countShared := 0, countWeak := 1,
        derived := Derived.ControlBlockRegular (some (Loc.raw 7)) 4 3 }
      (by decide) (by decide)).1,
   ((C18_expired_dereferences_null worldExpire.heap).2.2.1
      { data := none, ptr := none } (by decide)).1⟩

/-- **C19.** What `allocateShared` and `makeShared` do when the constructor of
the payload throws: the block storage has been allocated, the exception
leaves the function, no `SharedPtr` is returned, and the storage has not been
deallocated: the trace ends with the allocation.  When the constructor
returns `v` the functions are `allocateShared` and `makeShared` for the
payload `v`. -/
theorem C19_block_leaks_when_construct_throws (alloc args : Nat) (h : Heap) :
    allocateSharedThrowing (fun _ => none) alloc args h
      = Outcome.thrown { h with log := h.log ++ [Event.allocate alloc h.blocks.length] } ∧
    makeSharedThrowing (fun _ => none) args h
      = Outcome.thrown
          { h with log := h.log ++ [Event.allocate std_allocator h.blocks.length] } ∧
    Heap.deallocations { h with log := h.log ++ [Event.allocate alloc h.blocks.length] }
        alloc h.blocks.length
      = h.deallocations alloc h.blocks.length ∧
    (∀ v, allocateSharedThrowing (fun _ => some v) alloc args h
      = Outcome.returned (allocateShared alloc v h)) ∧
    (∀ v, makeSharedThrowing (fun _ => some v) args h
      = Outcome.returned (makeShared v h)) := by
  refine ⟨rfl, rfl, ?_, fun v => rfl, fun v => rfl⟩
  simp [Heap.deallocations]

/-! ## The weak count -/

theorem run_single (o : Op) (w : World) : run [o] w = step o w := by
  simp only [run]
  cases step o w <;> rfl

theorem exec_run (s : Stmt) (w : World) : ∃ ops, ops.length ≤ 3 ∧ exec s w = run ops w := by
  cases s with
  | op o => exact ⟨[o], by simp, (run_single o w).symm⟩
  | sharedAssignCopy i j => exact ⟨_, by simp, rfl⟩
  | sharedAssignMove i j => exact ⟨_, by simp, rfl⟩
  | sharedReset i => exact ⟨_, by simp, rfl⟩
  | sharedResetPtr i p =>
    cases p with
    | none => exact ⟨_, by simp, rfl⟩
    | some l => exact ⟨_, by simp, rfl⟩
  | weakAssignShared i j => exact ⟨_, by simp, rfl⟩
  | weakAssignCopy i j => exact ⟨_, by simp, rfl⟩
  | weakAssignMove i j => exact ⟨_, by simp, rfl⟩

/-- A program with assignments and resets reaches only states that the
declarations, destructions and swaps it consists of reach. -/
theorem execAll_run (ss : List Stmt) (w w1 : World) (e : execAll ss w = some w1) :
    ∃ ops, ops.length ≤ 3 * ss.length ∧ run ops w = some w1 := by
  induction ss generalizing w with
  | nil => simp [execAll] at e; subst e; exact ⟨[], by simp, rfl⟩
  | cons s ss ih =>
    simp only [execAll] at e
    cases hs : exec s w with
    | none => simp [hs] at e
    | some w2 =>
      simp [hs] at e
      obtain ⟨ops1, hl1, h1⟩ := exec_run s w
      obtain ⟨ops2, hl2, h2⟩ := ih w2 e
      rw [hs] at h1
      refine ⟨ops1 ++ ops2, ?_, run_append ops1 ops2 w w2 w1 h1.symm h2⟩
      simp only [List.length_append, List.length_cons]
      omega

/-- Where `swap` exchanges objects of one class (`exec`): in every state
reached by a program of declarations, copy and move constructions, copy and
move assignments, assignments from a `SharedPtr`, resets, swaps, `lock()`
calls and destructions of `SharedPtr` and `WeakPtr` objects, the `countWeak`
of every allocated block equals the number of live `WeakPtr` objects bound to
it; so every live `WeakPtr` with a non-null block is bound to an allocated
block with `countWeak >= 1`. -/
theorem countWeak_eq_live_weak_same_class (ss : List Stmt) (w : World)
    (hlen : 3 * ss.length < SIZE_MOD) (hrun : execAll ss World.init = some w) :
    (∀ b blk, w.heap.blocks[b]? = some blk → blk.countWeak = liveWeak w b) ∧
    (∀ i v b, w.getWeak i = some v → v.data = some b →
      ∃ blk, w.heap.blocks[b]? = some blk ∧ 1 ≤ blk.countWeak) := by
  obtain ⟨ops, hl, hr⟩ := execAll_run ss World.init w hrun
  have hI := Inv_reachable ops w (by omega) hr
  refine ⟨?_, ?_⟩
  · intro b blk hblk
    rw [← hI.cW b, Heap.cW_of_get _ _ _ hblk]
  · intro i v b hv hd
    have hlt := hI.weak_lt i b v hv hd
    obtain ⟨blk, hblk⟩ := Heap.get_of_lt w.heap b hlt
    refine ⟨blk, hblk, ?_⟩
    have hpos := liveWeak_pos w i b v (World.getWeak_some w i v hv) hd
    rw [← hI.cW b, Heap.cW_of_get _ _ _ hblk] at hpos
    exact hpos

/-- The program `progWeakAssign`, which assigns to a `WeakPtr` from a
`WeakPtr`, from a `SharedPtr` and by move. -/
theorem countWeak_eq_live_weak_same_class_example :
    execAll progWeakAssign World.init = some worldWeakAssign ∧
    (1 : Nat) = liveWeak worldWeakAssign 0 :=
  ⟨by decide,
   (countWeak_eq_live_weak_same_class progWeakAssign worldWeakAssign (by decide)
     (by decide)).1 0
     { countShared := 1, countWeak := 1,
       derived := Derived.ControlBlockRegular (some (Loc.raw 7)) 4 3 }
     (by decide)⟩

/-! ## Access to the payload -/

/-- **C21** (as amended).  The members `get()` and `operator->()` of `WeakPtr`
return the stored payload pointer, and `operator*()` dereferences it, whatever
the counters of the block are; only `lock()` looks at `countShared`: on a
`WeakPtr` bound to a block with `countShared == 0` it returns the empty
`SharedPtr`, whose `get()` is `nullptr`, and on one with `countShared != 0` a
`SharedPtr` with the stored payload pointer. -/
theorem C21_weak_access_unguarded (v : WeakPtr) (h : Heap) :
    v.get = v.ptr ∧ v.arrow = v.ptr ∧ v.deref = v.ptr ∧
    (∀ b blk, v.data = some b → h.blocks[b]? = some blk → blk.countShared = 0 →
      v.expired h = some true ∧ v.lock h = some (SharedPtr.empty, h) ∧
      SharedPtr.empty.get = none) ∧
    (∀ b blk s h1, v.data = some b → h.blocks[b]? = some blk → blk.countShared ≠ 0 →
      v.lock h = some (s, h1) → s.get = v.ptr) := by
  refine ⟨rfl, rfl, rfl, ?_, ?_⟩
  · intro b blk hd hblk hz
    have hlt := lt_length_of_get _ _ _ hblk
    have hc : h.cS b = 0 := by rw [Heap.cS_of_get _ _ _ hblk]; exact hz
    refine ⟨?_, WeakPtr.lock_expired v h b hd hlt hc, rfl⟩
    rw [WeakPtr.expired_eq v h b hd hlt, hc]; rfl
  · intro b blk s h1 hd hblk hnz e
    have hc : h.cS b ≠ 0 := by rw [Heap.cS_of_get _ _ _ hblk]; exact hnz
    rcases WeakPtr.lock_spec v s h h1 b hd e with ⟨hz, _, _⟩ | ⟨_, hs, _⟩
    · exact absurd hz hc
    · rw [hs]; rfl

/-- The claim C21 as amended, at the expired `WeakPtr` of `worldExpire`. -/
theorem C21_weak_access_unguarded_witness :
    WeakPtr.lock { data := some 0, ptr := some (Loc.raw 7) } worldExpire.heap
      = some (SharedPtr.empty, worldExpire.heap) :=
  ((C21_weak_access_unguarded { data := some 0, ptr := some (Loc.raw 7) }
      worldExpire.heap).2.2.2.1 0
      { countShared := 0, countWeak := 1,
        derived := Derived.ControlBlockRegular (some (Loc.raw 7)) 4 3 }
      (by decide) (by decide) (by decide)).2.1

/-- The claim C21 as stated fails: after `progExpire` the `WeakPtr` number 0
is live and expired (`countShared == 0`, the deleter has run on the payload),
and its `get()`, `operator->()` and `operator*()` still yield the stored
payload pointer. -/
theorem C21_expired_weak_yields_pointer :
    run progExpire World.init = some worldExpire ∧
    worldExpire.getWeak 0 = some { data := some 0, ptr := some (Loc.raw 7) } ∧
    worldExpire.heap.countShared 0 = some 0 ∧
    WeakPtr.expired { data := some 0, ptr := some (Loc.raw 7) } worldExpire.heap = some true ∧
    WeakPtr.get { data := some 0, ptr := some (Loc.raw 7) } = some (Loc.raw 7) ∧
    WeakPtr.arrow { data := some 0, ptr := some (Loc.raw 7) } = some (Loc.raw 7) ∧
    WeakPtr.deref { data := some 0, ptr := some (Loc.raw 7) } = some (Loc.raw 7) := by
  decide

/-- Where `swap` exchanges objects of one class (`exec`): in every state
reached by a program of constructions, copies, moves, assignments, resets,
swaps, `lock()` calls and destructions, a live `SharedPtr` with a null control
block has a null payload pointer: its `get()` and `operator->()` are `nullptr`
and `operator*()` dereferences null.  A live `SharedPtr` with
`use_count() == 0` has a null control block, so its `get()` is `nullptr`
too. -/
theorem null_block_null_pointer_same_class (ss : List Stmt) (w : World)
    (hlen : 3 * ss.length < SIZE_MOD) (hrun : execAll ss World.init = some w) :
    (∀ i s, w.getShared i = some s → s.data = none →
      s.get = none ∧ s.arrow = none ∧ s.deref = none ∧ s.use_count w.heap = some 0) ∧
    (∀ i s, w.getShared i = some s → s.use_count w.heap = some 0 →
      s.data = none ∧ s.get = none) := by
  obtain ⟨ops, hl, hr⟩ := execAll_run ss World.init w hrun
  have hI := Inv_reachable ops w (by omega) hr
  have hnul : ∀ i s, w.getShared i = some s → s.data = none → s.ptr = none := by
    intro i s hs hd
    exact hI.nul s (List.getElem?_mem (World.getShared_some w i s hs)) hd
  refine ⟨?_, ?_⟩
  · intro i s hs hd
    have hp := hnul i s hs hd
    exact ⟨hp, hp, hp, by simp [SharedPtr.use_count, hd]⟩
  · intro i s hs hu
    cases hd : s.data with
    | none => exact ⟨rfl, hnul i s hs hd⟩
    | some b =>
      exfalso
      have hlt := hI.shared_lt i b s hs hd
      have hpos := liveShared_pos w i b s (World.getShared_some w i s hs) hd
      rw [← hI.cS b] at hpos
      simp only [SharedPtr.use_count, hd] at hu
      rw [Heap.countShared_eq _ _ hlt] at hu
      simp at hu
      omega

/-- The program `progNull`: the object number 0 has a null block and a null
pointer, and the object number 1, which holds the handle from
`allocateShared`, has a block and a null pointer all the same. -/
theorem null_block_null_pointer_same_class_example :
    execAll progNull World.init = some worldNull ∧
    (SharedPtr.get { data := none, ptr := none } = none ∧
      SharedPtr.arrow { data := none, ptr := none } = none ∧
      SharedPtr.deref { data := none, ptr := none } = none ∧
      SharedPtr.use_count { data := none, ptr := none } worldNull.heap = some 0) ∧
    worldNull.getShared 1 = some { data := some 0, ptr := none } :=
  ⟨by decide,
   (null_block_null_pointer_same_class progNull worldNull (by decide) (by decide)).1 0
     { data := none, ptr := none } (by decide) (by decide),
   by decide⟩

/-! ## Deleters that use handles: the counters account for the handle objects -/

theorem holdersX_none (st : State) (isShared : Bool) (b : Nat) :
    st.holdersX none isShared b = st.holders isShared b := by
  simp [State.holdersX, objBound]

theorem holders_le_holdersX (st : State) (e : Option Handle) (isShared : Bool) (b : Nat) :
    st.holders isShared b ≤ st.holdersX e isShared b := by
  simp [State.holdersX]

theorem holdersX_shared (st : State) (self : SharedPtr) (isShared : Bool) (b : Nat) :
    st.holdersX (some (Handle.shared self)) isShared b
      = st.holders isShared b + if isShared = true ∧ self.data = some b then 1 else 0 := by
  simp [State.holdersX, objBound, Handle.boundTo]

theorem holdersX_weak (st : State) (self : WeakPtr) (isShared : Bool) (b : Nat) :
    st.holdersX (some (Handle.weak self)) isShared b
      = st.holders isShared b + if isShared = false ∧ self.data = some b then 1 else 0 := by
  simp [State.holdersX, objBound, Handle.boundTo]

/-- A handle object bound to a block is bound to a block that was allocated
and not deallocated. -/
theorem Sound.bound_cell {k : Nat → Int} {N : Nat} {e : Option Handle} {st : State}
    (h : Sound k N e st) (isShared : Bool) (b : Nat) (hb : 0 < st.holdersX e isShared b) :
    ∃ c, st.cells[b]? = some c ∧ c.freed = false := by
  have hlt : b < st.cells.length := by
    by_contra hge
    have := h.un isShared b (by omega)
    omega
  refine ⟨st.cells[b], List.getElem?_eq_getElem hlt, ?_⟩
  by_contra hf
  have hf' : st.cells[b].freed = true := by simpa using hf
  have := h.fr b _ (List.getElem?_eq_getElem hlt) hf'
  cases isShared <;> omega

/-- The invariant says the same of states with the same blocks, objects and
members when no call of `destroy()` was added. -/
theorem Sound.of_calls {k : Nat → Int} {N : Nat} {e : Option Handle} {st : State}
    (h : Sound k N e st) (calls : List Call)
    (hc : ∀ b caller s w l, Call.destroy b caller s w l ∈ calls →
      Call.destroy b caller s w l ∈ st.calls) :
    Sound k N e { st with calls := calls } :=
  { kb := h.kb, tot := h.tot, cS := h.cS, cW := h.cW, fr := h.fr, un := h.un
    des := fun b caller s w l hm => h.des b caller s w l (hc b caller s w l hm)
    mem := h.mem
    code := h.code }

theorem holdersX_congr {st st1 : State} (ho : st1.objects = st.objects)
    (hm : st1.members = st.members) (e : Option Handle) (isShared : Bool) (b : Nat) :
    st1.holdersX e isShared b = st.holdersX e isShared b := by
  simp [State.holdersX, State.holders, ho, hm]

theorem getElem?_set_cell {cells : List Cell} {b b1 : Nat} {c c1 d : Cell}
    (hc : cells[b]? = some c) (h1 : (cells.set b d)[b1]? = some c1) :
    (b1 = b ∧ c1 = d) ∨ (b1 ≠ b ∧ cells[b1]? = some c1) := by
  have hlt : b < cells.length := by
    by_contra hge
    rw [List.getElem?_eq_none (by omega)] at hc
    cases hc
  by_cases hb : b = b1
  · subst hb
    rw [List.getElem?_set_self hlt] at h1
    exact Or.inl ⟨rfl, (Option.some.inj h1).symm⟩
  · rw [List.getElem?_set_ne hb] at h1
    exact Or.inr ⟨fun h => hb h.symm, h1⟩

/-- The statement `--data->countShared` of the destructor of a `SharedPtr`
bound to block `b`. -/
theorem Sound.after_decShared {k : Nat → Int} {N : Nat} {st : State} {self : SharedPtr} {b : Nat}
    (h : Sound k N (some (Handle.shared self)) st) (hd : self.data = some b) :
    ∃ c, st.cells[b]? = some c ∧ c.freed = false ∧
      st.decShared b
        = some { st with
          cells := st.cells.set b { c with countShared := sizeDec c.countShared } } ∧
      Sound k N none { st with
          cells := st.cells.set b { c with countShared := sizeDec c.countShared } } := by
  have hX : ∀ isShared b1, st.holdersX (some (Handle.shared self)) isShared b1
      = st.holders isShared b1 + if isShared = true ∧ b1 = b then 1 else 0 := by
    intro isShared b1
    rw [holdersX_shared, hd]
    by_cases hb : b1 = b
    · subst hb; simp
    · have : ¬ (some b = some b1) := fun h => hb (Option.some.inj h).symm
      simp [hb, this]
  obtain ⟨c, hc, hf⟩ := h.bound_cell true b (by rw [hX]; simp)
  refine ⟨c, hc, hf, ?_, ?_⟩
  · simp [State.decShared, State.write, hc, hf]
  · have hN : ∀ isShared b1,
        ({ st with
          cells := st.cells.set b { c with countShared := sizeDec c.countShared } } : State).holdersX none isShared b1
          = st.holders isShared b1 := by
      intro isShared b1
      rw [holdersX_none]; rfl
    refine { kb := h.kb, tot := ?_, cS := ?_, cW := ?_, fr := ?_, un := ?_, des := h.des,
             mem := h.mem, code := h.code }
    · intro isShared b1
      have := h.tot isShared b1
      rw [hX] at this; rw [hN]; omega
    · intro b1 c1 h1 hf1
      rw [hN]
      rcases getElem?_set_cell hc h1 with ⟨rfl, rfl⟩ | ⟨hne, h2⟩
      · have := h.cS b1 c hc hf
        rw [hX] at this
        simp only [sizeDec, SIZE_MOD]
        simp only [and_self, if_true] at this
        omega
      · have := h.cS b1 c1 h2 hf1
        rw [hX] at this
        simpa [hne] using this
    · intro b1 c1 h1 hf1
      rw [hN]
      rcases getElem?_set_cell hc h1 with ⟨rfl, rfl⟩ | ⟨hne, h2⟩
      · have := h.cW b1 c hc hf
        rw [hX] at this
        simpa using this
      · have := h.cW b1 c1 h2 hf1
        rw [hX] at this
        simpa using this
    · intro b1 c1 h1 hf1
      rcases getElem?_set_cell hc h1 with ⟨rfl, rfl⟩ | ⟨hne, h2⟩
      · simp only at hf1
        rw [hf] at hf1; cases hf1
      · have := h.fr b1 c1 h2 hf1
        rw [hX, hX] at this
        rw [hN, hN]
        simpa [hne] using this
    · intro isShared b1 hb1
      have hlen : st.cells.length ≤ b1 := by simpa using hb1
      have := h.un isShared b1 hlen
      rw [hX] at this; rw [hN]; omega

/-- The statement `--data->countWeak` of the destructor of a `WeakPtr` bound
to block `b`. -/
theorem Sound.after_decWeak {k : Nat → Int} {N : Nat} {st : State} {self : WeakPtr} {b : Nat}
    (h : Sound k N (some (Handle.weak self)) st) (hd : self.data = some b) :
    ∃ c, st.cells[b]? = some c ∧ c.freed = false ∧
      st.decWeak b
        = some { st with
          cells := st.cells.set b { c with countWeak := sizeDec c.countWeak } } ∧
      Sound k N none { st with
          cells := st.cells.set b { c with countWeak := sizeDec c.countWeak } } := by
  have hX : ∀ isShared b1, st.holdersX (some (Handle.weak self)) isShared b1
      = st.holders isShared b1 + if isShared = false ∧ b1 = b then 1 else 0 := by
    intro isShared b1
    rw [holdersX_weak, hd]
    by_cases hb : b1 = b
    · subst hb; simp
    · have : ¬ (some b = some b1) := fun h => hb (Option.some.inj h).symm
      simp [hb, this]
  obtain ⟨c, hc, hf⟩ := h.bound_cell false b (by rw [hX]; simp)
  refine ⟨c, hc, hf, ?_, ?_⟩
  · simp [State.decWeak, State.write, hc, hf]
  · have hN : ∀ isShared b1,
        ({ st with
          cells := st.cells.set b { c with countWeak := sizeDec c.countWeak } } : State).holdersX none isShared b1
          = st.holders isShared b1 := by
      intro isShared b1
      rw [holdersX_none]; rfl
    refine { kb := h.kb, tot := ?_, cS := ?_, cW := ?_, fr := ?_, un := ?_, des := h.des,
             mem := h.mem, code := h.code }
    · intro isShared b1
      have := h.tot isShared b1
      rw [hX] at this; rw [hN]; omega
    · intro b1 c1 h1 hf1
      rw [hN]
      rcases getElem?_set_cell hc h1 with ⟨rfl, rfl⟩ | ⟨hne, h2⟩
      · have := h.cS b1 c hc hf
        rw [hX] at this
        simpa using this
      · have := h.cS b1 c1 h2 hf1
        rw [hX] at this
        simpa using this
    · intro b1 c1 h1 hf1
      rw [hN]
      rcases getElem?_set_cell hc h1 with ⟨rfl, rfl⟩ | ⟨hne, h2⟩
      · have := h.cW b1 c hc hf
        rw [hX] at this
        simp only [sizeDec, SIZE_MOD]
        simp only [and_self, if_true] at this
        omega
      · have := h.cW b1 c1 h2 hf1
        rw [hX] at this
        simpa [hne] using this
    · intro b1 c1 h1 hf1
      rcases getElem?_set_cell hc h1 with ⟨rfl, rfl⟩ | ⟨hne, h2⟩
      · simp only at hf1
        rw [hf] at hf1; cases hf1
      · have := h.fr b1 c1 h2 hf1
        rw [hX, hX] at this
        rw [hN, hN]
        simpa [hne] using this
    · intro isShared b1 hb1
      have hlen : st.cells.length ≤ b1 := by simpa using hb1
      have := h.un isShared b1 hlen
      rw [hX] at this; rw [hN]; omega

theorem popMember_spec : ∀ (ms : List (Nat × Handle)) (b : Nat) (m : Handle)
    (rest : List (Nat × Handle)), popMember ms b = some (m, rest) →
    rest.length + 1 = ms.length ∧
      ∀ isShared b1, ms.countP (memBound isShared b1)
        = rest.countP (memBound isShared b1) + if objBound isShared b1 (some m) then 1 else 0 := by
  intro ms
  induction ms with
  | nil => intro b m rest h; simp [popMember] at h
  | cons x xs ih =>
    intro b m rest h
    rw [popMember] at h
    by_cases hx : x.1 = b
    · rw [if_pos hx] at h
      obtain ⟨rfl, rfl⟩ := Prod.mk.inj (Option.some.inj h)
      refine ⟨rfl, fun isShared b1 => ?_⟩
      rw [List.countP_cons]
      rfl
    · rw [if_neg hx] at h
      cases hp : popMember xs b with
      | none => rw [hp] at h; cases h
      | some r =>
        rw [hp] at h
        obtain ⟨rfl, rfl⟩ := Prod.mk.inj (Option.some.inj h)
        obtain ⟨h1, h2⟩ := ih b r.1 r.2 hp
        refine ⟨by simp only [List.length_cons]; omega, fun isShared b1 => ?_⟩
        rw [List.countP_cons, List.countP_cons, h2]
        omega

/-- A read of a block leaves the invariant in place. -/
theorem Sound.after_read {k : Nat → Int} {N : Nat} {e : Option Handle} {st : State}
    (h : Sound k N e st) {b : Nat} {c : Cell} (hc : st.cells[b]? = some c) :
    ∃ st1, st.read b = some (c, st1) ∧ Sound k N e st1 ∧ st1.cells = st.cells ∧
      st1.objects = st.objects ∧ st1.members = st.members ∧
      (c.freed = false → st1 = st) := by
  refine ⟨{ st with calls := if c.freed then st.calls ++ [Call.useAfterFree b] else st.calls },
    by simp only [State.read, hc], ?_, rfl, rfl, rfl, ?_⟩
  · apply h.of_calls
    intro b1 caller s w l hm
    by_cases hf : c.freed = true
    · simp only [hf, if_true, List.mem_append, List.mem_singleton] at hm
      rcases hm with hm | hm
      · exact hm
      · cases hm
    · simpa [hf] using hm
  · intro hf
    simp [hf]

/-- With both counters at zero no handle object is bound to the block. -/
theorem Sound.live_zero {k : Nat → Int} {N : Nat} {st : State} (h : Sound k N none st)
    (hN : N < 4611686018427387904) {b : Nat} {c : Cell} (hc : st.cells[b]? = some c)
    (hs : c.countShared = 0) (hw : c.countWeak = 0) : st.live b = 0 := by
  have t1 := h.tot true b
  have t2 := h.tot false b
  have kb := h.kb b
  rw [holdersX_none] at t1 t2
  by_cases hf : c.freed = true
  · have := h.fr b c hc hf
    rw [holdersX_none, holdersX_none] at this
    simp only [State.live]; omega
  · have hf' : c.freed = false := by simpa using hf
    have e1 := h.cS b c hc hf'
    have e2 := h.cW b c hc hf'
    rw [holdersX_none] at e1 e2
    rw [hs] at e1; rw [hw] at e2
    simp only [State.live]
    omega

/-- The call `data->destroy()` at `countShared == 0` and `countWeak == 0`. -/
theorem Sound.after_destroy {k : Nat → Int} {N : Nat} {st : State} (h : Sound k N none st)
    (hN : N < 4611686018427387904) {b : Nat} {c : Cell} (hc : st.cells[b]? = some c)
    (hs : c.countShared = 0) (hw : c.countWeak = 0) (caller : Bool) :
    ∃ st1, st.destroy caller b = some st1 ∧ Sound k N none st1 ∧
      st1.cells.length = st.cells.length ∧ st1.objects = st.objects ∧
      st1.members = st.members := by
  have hl := h.live_zero hN hc hs hw
  refine ⟨{ st with
      cells := st.cells.set b { c with freed := true },
      calls := st.calls ++ [Call.destroy b caller c.countShared c.countWeak (st.live b)] },
    by simp only [State.destroy, hc], ?_, by simp, rfl, rfl⟩
  have hH : ∀ isShared b1,
      ({ st with
          cells := st.cells.set b { c with freed := true },
          calls := st.calls ++ [Call.destroy b caller c.countShared c.countWeak (st.live b)] }
        : State).holdersX none isShared b1 = st.holdersX none isShared b1 :=
    fun isShared b1 => holdersX_congr rfl rfl _ _ _
  refine { kb := h.kb, tot := ?_, cS := ?_, cW := ?_, fr := ?_, un := ?_, des := ?_,
           mem := h.mem, code := h.code }
  · intro isShared b1; rw [hH]; exact h.tot isShared b1
  · intro b1 c1 h1 hf1
    rw [hH]
    rcases getElem?_set_cell hc h1 with ⟨rfl, rfl⟩ | ⟨hne, h2⟩
    · cases hf1
    · exact h.cS b1 c1 h2 hf1
  · intro b1 c1 h1 hf1
    rw [hH]
    rcases getElem?_set_cell hc h1 with ⟨rfl, rfl⟩ | ⟨hne, h2⟩
    · cases hf1
    · exact h.cW b1 c1 h2 hf1
  · intro b1 c1 h1 hf1
    rw [hH, hH]
    rcases getElem?_set_cell hc h1 with ⟨rfl, rfl⟩ | ⟨hne, h2⟩
    · simp only [State.live] at hl
      rw [holdersX_none, holdersX_none]
      exact ⟨by omega, by omega, hs, hw⟩
    · exact h.fr b1 c1 h2 hf1
  · intro isShared b1 hb1
    rw [hH]
    exact h.un isShared b1 (by simpa using hb1)
  · intro b1 caller1 s w l hm
    simp only [List.mem_append, List.mem_singleton] at hm
    rcases hm with hm | hm
    · exact h.des b1 caller1 s w l hm
    · cases hm
      exact ⟨hs, hw, hl⟩

/-- The invariant says the same of a state with the same blocks and calls and
the same numbers of handle objects. -/
theorem Sound.same_counts {k : Nat → Int} {N : Nat} {e e1 : Option Handle} {st st1 : State}
    (h : Sound k N e st) (hc : st1.cells = st.cells) (hcalls : st1.calls = st.calls)
    (hm : st1.members.length ≤ N) (hcode : st1.code = st.code)
    (hH : ∀ isShared b, st1.holdersX e1 isShared b = st.holdersX e isShared b) :
    Sound k N e1 st1 :=
  { kb := h.kb
    tot := fun isShared b => by rw [hH]; exact h.tot isShared b
    cS := fun b c h1 hf => by rw [hH]; rw [hc] at h1; exact h.cS b c h1 hf
    cW := fun b c h1 hf => by rw [hH]; rw [hc] at h1; exact h.cW b c h1 hf
    fr := fun b c h1 hf => by rw [hH, hH]; rw [hc] at h1; exact h.fr b c h1 hf
    un := fun isShared b hb => by rw [hH]; rw [hc] at hb; exact h.un isShared b hb
    des := fun b caller s w l hm => by rw [hcalls] at hm; exact h.des b caller s w l hm
    mem := hm
    code := by rw [hcode]; exact h.code }

theorem cell_of_lt {st : State} {b : Nat} (h : b < st.cells.length) :
    ∃ c, st.cells[b]? = some c := ⟨_, List.getElem?_eq_getElem h⟩

theorem lt_of_cell {st : State} {b : Nat} {c : Cell} (h : st.cells[b]? = some c) :
    b < st.cells.length := by
  by_contra hge
  rw [List.getElem?_eq_none (by omega)] at h
  cases h

/-- The destructors keep the invariant, return when the bound on the depth of
calls is three times the number of members of payloads plus three, and end the
lifetime of handle objects only. -/
theorem call_sound {k : Nat → Int} {N : Nat} (hN : N < 4611686018427387904) :
    ∀ (fuel : Nat) (r : Routine) (st : State), Sound k N r.handle st → r.depth st ≤ fuel →
      (∀ b, r = Routine.del b → b < st.cells.length) →
      ∃ st1, call fuel r st = some st1 ∧ Sound k N none st1 ∧
        st1.cells.length = st.cells.length ∧ st1.members.length ≤ st.members.length ∧
        st1.objects = st.objects ∧
        ∀ isShared b, st1.holders isShared b ≤ st.holders isShared b := by
  intro fuel
  induction fuel with
  | zero => intro r st _ hd _; cases r <;> simp [Routine.depth] at hd
  | succ fuel ih =>
    intro r st hs hd hal
    cases r with
    | destructor self =>
      simp only [Routine.handle] at hs
      simp only [Routine.depth] at hd
      cases self with
      | shared self =>
        cases hdata : self.data with
        | none =>
          refine ⟨st, by simp only [call, hdata], ?_, rfl, le_refl _, rfl, fun _ _ => le_refl _⟩
          refine hs.same_counts rfl rfl hs.mem rfl (fun isShared b => ?_)
          rw [holdersX_shared, holdersX_none, hdata]; simp
        | some b =>
          obtain ⟨c, hc, hf, hdec, hs1⟩ := hs.after_decShared hdata
          have hc1 : ({ st with
              cells := st.cells.set b { c with countShared := sizeDec c.countShared } }
              : State).cells[b]? = some { c with countShared := sizeDec c.countShared } := by
            simp only [List.getElem?_set_self (lt_of_cell hc)]
          obtain ⟨st2, hr, hs2, -, -, -, hst2⟩ := hs1.after_read hc1
          have hst2' := hst2 hf
          subst hst2'
          by_cases hpos : sizeDec c.countShared > 0
          · refine ⟨_, by simp only [call, hdata, hdec, hr, hpos, if_true], hs1, by simp,
              le_refl _, rfl, fun _ _ => le_refl _⟩
          · have hzero : sizeDec c.countShared = 0 := by omega
            have hs3 : Sound k N none
                { ({ st with
                    cells := st.cells.set b { c with countShared := sizeDec c.countShared } }
                    : State) with
                  calls := st.calls ++ [Call.useDeleter b] } := by
              apply hs1.of_calls
              intro b1 caller s w l hm
              simp only [List.mem_append, List.mem_singleton] at hm
              rcases hm with hm | hm
              · exact hm
              · cases hm
            obtain ⟨st3, hcall, hs4, hlen, hmem, hobj, hmono⟩ :=
              ih (Routine.del b) _ hs3 (by simp only [Routine.depth]; omega)
                (fun b1 e => by
                  cases e
                  simpa using lt_of_cell hc)
            have hb3 : b < st3.cells.length := by
              rw [hlen]; simpa using lt_of_cell hc
            obtain ⟨c3, hc3⟩ := cell_of_lt hb3
            obtain ⟨st4, hr4, hs5, hcells4, hobj4, hmem4, -⟩ := hs4.after_read hc3
            have hc4 : st4.cells[b]? = some c3 := by rw [hcells4]; exact hc3
            have hmono4 : ∀ isShared b1, st4.holders isShared b1 ≤ st.holders isShared b1 := by
              intro isShared b1
              have := hmono isShared b1
              simp only [State.holders, hobj4, hmem4] at this ⊢
              exact this
            by_cases hw : c3.countWeak = 0
            · have hcs : c3.countShared = 0 := by
                by_cases hf3 : c3.freed = true
                · exact (hs4.fr b c3 hc3 hf3).2.2.1
                · have hf3' : c3.freed = false := by simpa using hf3
                  have e1 : ((0 : Nat) : Int)
                      = ((st.holders true b : Int) - k b) % 18446744073709551616 := by
                    have := hs1.cS b _ hc1 hf
                    rw [holdersX_none] at this
                    simp only [hzero] at this
                    exact this
                  have e2 : (c3.countShared : Int)
                      = ((st3.holders true b : Int) - k b) % 18446744073709551616 := by
                    have := hs4.cS b c3 hc3 hf3'
                    rw [holdersX_none] at this
                    exact this
                  have e3 : ((0 : Nat) : Int)
                      = ((st3.holders false b : Int) + k b) % 18446744073709551616 := by
                    have := hs4.cW b c3 hc3 hf3'
                    rw [holdersX_none, hw] at this
                    exact this
                  have t1 : st.holders true b ≤ N :=
                    le_trans (holders_le_holdersX _ _ _ _) (hs.tot true b)
                  have t3 : st3.holders false b ≤ N :=
                    le_trans (holders_le_holdersX _ _ _ _) (hs4.tot false b)
                  have kb := hs.kb b
                  have m1 : st3.holders true b ≤ st.holders true b := hmono true b
                  clear hs hs1 hs2 hs3 hs4 hs5 ih hmono hmono4 hd hmem
                  omega
              obtain ⟨st5, hd5, hs6, hlen5, hobj5, hmem5⟩ := hs5.after_destroy hN hc4 hcs hw true
              refine ⟨st5, ?_, hs6, ?_, ?_, ?_, ?_⟩
              · simp only [call, hdata, hdec, hr, hpos, if_false, hcall, hr4, hw, if_true, hd5]
              · rw [hlen5, hcells4, hlen]; simp
              · rw [hmem5, hmem4]; exact hmem
              · rw [hobj5, hobj4, hobj]
              · intro isShared b1
                have := hmono4 isShared b1
                simp only [State.holders, hobj5, hmem5] at this ⊢
                exact this
            · refine ⟨st4, ?_, hs5, ?_, ?_, ?_, hmono4⟩
              · simp only [call, hdata, hdec, hr, hpos, if_false, hcall, hr4, hw]
              · rw [hcells4, hlen]; simp
              · rw [hmem4]; exact hmem
              · rw [hobj4, hobj]
      | weak self =>
        cases hdata : self.data with
        | none =>
          refine ⟨st, by simp only [call, hdata], ?_, rfl, le_refl _, rfl, fun _ _ => le_refl _⟩
          refine hs.same_counts rfl rfl hs.mem rfl (fun isShared b => ?_)
          rw [holdersX_weak, holdersX_none, hdata]; simp
        | some b =>
          obtain ⟨c, hc, hf, hdec, hs1⟩ := hs.after_decWeak hdata
          have hc1 : ({ st with
              cells := st.cells.set b { c with countWeak := sizeDec c.countWeak } }
              : State).cells[b]? = some { c with countWeak := sizeDec c.countWeak } := by
            simp only [List.getElem?_set_self (lt_of_cell hc)]
          obtain ⟨st2, hr, hs2, -, -, -, hst2⟩ := hs1.after_read hc1
          have hst2' := hst2 hf
          subst hst2'
          by_cases hz : sizeDec c.countWeak = 0 ∧ c.countShared = 0
          · obtain ⟨st5, hd5, hs6, hlen5, hobj5, hmem5⟩ :=
              hs1.after_destroy hN hc1 hz.2 hz.1 false
            refine ⟨st5, ?_, hs6, ?_, ?_, ?_, ?_⟩
            · simp only [call, hdata, hdec, hr]
              rw [if_pos hz, hd5]
            · rw [hlen5]; simp
            · rw [hmem5]
            · rw [hobj5]
            · intro isShared b1
              simp only [State.holders, hobj5, hmem5]
              exact le_refl _
          · refine ⟨_, by simp only [call, hdata, hdec, hr]; rw [if_neg hz], hs1, by simp,
              le_refl _, rfl, fun _ _ => le_refl _⟩
    | del b =>
      simp only [Routine.handle] at hs
      simp only [Routine.depth] at hd
      obtain ⟨c, hc⟩ := cell_of_lt (hal b rfl)
      have hcode : st.deleterCode c.deleter = [] := by
        simp only [State.deleterCode, hs.code]
        cases c.deleter <;> simp
      obtain ⟨st1, hcall1, hs1, hlen1, hmem1, hobj1, hmono1⟩ :=
        ih (Routine.payload b) st hs (by simp only [Routine.depth]; omega)
          (fun b1 e => by cases e)
      exact ⟨st1, by simp only [call, hc, hcode, runWith, hcall1], hs1, hlen1, hmem1, hobj1,
        hmono1⟩
    | payload b =>
      simp only [Routine.handle] at hs
      simp only [Routine.depth] at hd
      cases hp : popMember st.members b with
      | none =>
        exact ⟨st, by simp only [call, hp], hs, rfl, le_refl _, rfl, fun _ _ => le_refl _⟩
      | some r =>
        obtain ⟨m, ms⟩ := r
        obtain ⟨hlen, hcount⟩ := popMember_spec _ _ _ _ hp
        have hs1 : Sound k N (some m) { st with members := ms } := by
          refine hs.same_counts rfl rfl ?_ rfl (fun isShared b1 => ?_)
          · have := hs.mem
            show ms.length ≤ N
            omega
          · rw [holdersX_none]
            simp only [State.holdersX, State.holders, hcount]
            omega
        obtain ⟨st1, hcall1, hs2, hlen1, hmem1, hobj1, hmono1⟩ :=
          ih (Routine.destructor m) _ hs1
            (by simp only [Routine.depth]; omega) (fun b1 e => by cases e)
        have hmem1' : st1.members.length ≤ ms.length := hmem1
        obtain ⟨st2, hcall2, hs3, hlen2, hmem2, hobj2, hmono2⟩ :=
          ih (Routine.payload b) st1 hs2 (by simp only [Routine.depth]; omega)
            (fun b1 e => by cases e)
        refine ⟨st2, ?_, hs3, ?_, ?_, ?_, ?_⟩
        · simp only [call, hp, hcall1, hcall2]
        · rw [hlen2, hlen1]
        · omega
        · rw [hobj2, hobj1]
        · intro isShared b1
          have h1 := hmono1 isShared b1
          have h2 := hmono2 isShared b1
          have h3 : ({ st with members := ms } : State).holders isShared b1
              ≤ st.holders isShared b1 := by
            simp only [State.holders, hcount]
            omega
          omega

/-! ## Deleters that use handles: the statements of a program -/

theorem Sound.weaken {k : Nat → Int} {N N1 : Nat} {e : Option Handle} {st : State}
    (h : Sound k N e st) (hN : N ≤ N1) : Sound k N1 e st :=
  { kb := fun b => by have := h.kb b; omega
    tot := fun isShared b => le_trans (h.tot isShared b) hN
    cS := h.cS, cW := h.cW, fr := h.fr, un := h.un, des := h.des
    mem := le_trans h.mem hN, code := h.code }

theorem getObject_eq {st : State} {i : Nat} {h : Handle} (hg : st.getObject i = some h) :
    st.objects[i]? = some (some h) := by
  simp only [State.getObject] at hg
  cases ho : st.objects[i]? with
  | none => rw [ho] at hg; cases hg
  | some o =>
    rw [ho] at hg
    have : o = some h := by simpa [Option.join] using hg
    rw [this]

theorem holders_pos_of_object {st : State} {i : Nat} {h : Handle}
    (hg : st.getObject i = some h) (isShared : Bool) (b : Nat)
    (hb : h.boundTo isShared b = true) : 0 < st.holders isShared b := by
  have := countP_pos_of_get (objBound isShared b) st.objects i (some h) (getObject_eq hg) hb
  simp only [State.holders]
  omega

theorem holders_append_object (st : State) (cells : List Cell) (calls : List Call) (h : Handle)
    (isShared : Bool) (b : Nat) :
    ({ cells := cells, objects := st.objects ++ [some h], members := st.members,
       calls := calls, code := st.code } : State).holders isShared b
      = st.holders isShared b + if h.boundTo isShared b then 1 else 0 := by
  simp only [State.holders, List.countP_append, List.countP_cons, List.countP_nil, objBound]
  omega

/-- A declaration of a handle object that is bound to no block. -/
theorem Sound.add_unbound {k : Nat → Int} {N : Nat} {st : State} (h : Sound k N none st)
    (x : Handle) (hx : ∀ isShared b, x.boundTo isShared b = false) :
    Sound k (N + 1) none { st with objects := st.objects ++ [some x] } := by
  refine (h.weaken (Nat.le_succ N)).same_counts rfl rfl (le_trans h.mem (Nat.le_succ N)) rfl
    (fun isShared b => ?_)
  rw [holdersX_none, holdersX_none, holders_append_object, hx]
  simp

/-- A declaration of a handle object bound to block `b`, with the counter of
its class incremented. -/
theorem Sound.add_holder {k : Nat → Int} {N : Nat} {st : State} (h : Sound k N none st)
    (isShared : Bool) {b : Nat} (hpos : 0 < st.live b) (x : Handle)
    (hx : ∀ isShared1 b1, x.boundTo isShared1 b1 = (isShared1 == isShared && b1 == b)) :
    ∃ c, st.cells[b]? = some c ∧ c.freed = false ∧
      Sound k (N + 1) none
        { st with
          cells := st.cells.set b
            (if isShared then { c with countShared := sizeInc c.countShared }
             else { c with countWeak := sizeInc c.countWeak }),
          objects := st.objects ++ [some x] } := by
  obtain ⟨c, hc, hf⟩ : ∃ c, st.cells[b]? = some c ∧ c.freed = false := by
    simp only [State.live] at hpos
    by_cases h1 : 0 < st.holders true b
    · exact h.bound_cell true b (by rw [holdersX_none]; exact h1)
    · exact h.bound_cell false b (by rw [holdersX_none]; omega)
  refine ⟨c, hc, hf, ?_⟩
  have hH : ∀ isShared1 b1,
      ({ st with
          cells := st.cells.set b
            (if isShared then { c with countShared := sizeInc c.countShared }
             else { c with countWeak := sizeInc c.countWeak }),
          objects := st.objects ++ [some x] } : State).holdersX none isShared1 b1
        = st.holdersX none isShared1 b1
          + if isShared1 = isShared ∧ b1 = b then 1 else 0 := by
    intro isShared1 b1
    rw [holdersX_none, holdersX_none, holders_append_object, hx]
    simp
  refine { kb := fun b1 => by have := h.kb b1; omega
           tot := ?_, cS := ?_, cW := ?_, fr := ?_, un := ?_, des := h.des
           mem := le_trans h.mem (Nat.le_succ N), code := h.code }
  · intro isShared1 b1
    rw [hH]
    have := h.tot isShared1 b1
    split <;> omega
  · intro b1 c1 h1 hf1
    rw [hH]
    rcases getElem?_set_cell hc h1 with ⟨rfl, rfl⟩ | ⟨hne, h2⟩
    · have := h.cS b1 c hc hf
      cases isShared
      · simpa using this
      · simp only [if_true, and_self]
        simp only [sizeInc, SIZE_MOD]
        omega
    · have := h.cS b1 c1 h2 hf1
      simpa [hne] using this
  · intro b1 c1 h1 hf1
    rw [hH]
    rcases getElem?_set_cell hc h1 with ⟨rfl, rfl⟩ | ⟨hne, h2⟩
    · have := h.cW b1 c hc hf
      cases isShared
      · simp only [if_true, and_self]
        simp only [sizeInc, SIZE_MOD, Bool.false_eq_true, if_false]
        omega
      · simpa using this
    · have := h.cW b1 c1 h2 hf1
      simpa [hne] using this
  · intro b1 c1 h1 hf1
    rcases getElem?_set_cell hc h1 with ⟨rfl, rfl⟩ | ⟨hne, h2⟩
    · cases isShared
      · simp only [Bool.false_eq_true, if_false] at hf1
        rw [hf] at hf1; cases hf1
      · simp only [if_true] at hf1
        rw [hf] at hf1; cases hf1
    · rw [hH, hH]
      have := h.fr b1 c1 h2 hf1
      simpa [hne] using this
  · intro isShared1 b1 hb1
    rw [hH]
    have hlen : st.cells.length ≤ b1 := by simpa using hb1
    have hne : b1 ≠ b := by have := lt_of_cell hc; omega
    have := h.un isShared1 b1 hlen
    simpa [hne] using this

/-- A declaration `SharedPtr<T> s(p);` or `makeShared<T>(args)`: a new block
with `countShared == 1` and `countWeak == 0`. -/
theorem Sound.after_alloc {k : Nat → Int} {N : Nat} {st : State} (h : Sound k N none st) (p : Ptr)
    (d : Option Nat) :
    Sound (fun b => if b = st.cells.length then 0 else k b) (N + 1) none
      { st with
        cells := st.cells ++ [{ countShared := 1, countWeak := 0, freed := false, deleter := d }],
        objects := st.objects
          ++ [some (Handle.shared { data := some st.cells.length, ptr := p })] } := by
  have hH : ∀ isShared b1,
      ({ st with
          cells := st.cells ++ [{ countShared := 1, countWeak := 0, freed := false, deleter := d }],
          objects := st.objects
            ++ [some (Handle.shared { data := some st.cells.length, ptr := p })] }
        : State).holdersX none isShared b1
        = st.holdersX none isShared b1
          + if isShared = true ∧ b1 = st.cells.length then 1 else 0 := by
    intro isShared b1
    rw [holdersX_none, holdersX_none, holders_append_object]
    by_cases hb : b1 = st.cells.length
    · subst hb; simp [Handle.boundTo]
    · have : ¬ st.cells.length = b1 := fun e => hb e.symm
      simp [Handle.boundTo, hb, this]
  have hcell : ∀ b1 c1,
      (st.cells ++ [({ countShared := 1, countWeak := 0, freed := false, deleter := d } : Cell)])[b1]?
        = some c1 →
      (b1 < st.cells.length ∧ st.cells[b1]? = some c1) ∨
        (b1 = st.cells.length ∧ c1 = { countShared := 1, countWeak := 0, freed := false, deleter := d }) := by
    intro b1 c1 h1
    by_cases hlt : b1 < st.cells.length
    · rw [List.getElem?_append_left hlt] at h1
      exact Or.inl ⟨hlt, h1⟩
    · rw [List.getElem?_append_right (by omega)] at h1
      have hb : b1 = st.cells.length := by
        by_contra hne
        have : b1 - st.cells.length ≠ 0 := by omega
        obtain ⟨n, hn⟩ := Nat.exists_eq_succ_of_ne_zero this
        rw [hn] at h1
        simp at h1
      subst hb
      simp at h1
      exact Or.inr ⟨rfl, h1.symm⟩
  refine { kb := ?_, tot := ?_, cS := ?_, cW := ?_, fr := ?_, un := ?_, des := h.des,
           mem := le_trans h.mem (Nat.le_succ N), code := h.code }
  · intro b1
    have := h.kb b1
    show -((N + 1 : Nat) : Int) ≤ (if b1 = st.cells.length then 0 else k b1) ∧
      (if b1 = st.cells.length then 0 else k b1) ≤ ((N + 1 : Nat) : Int)
    split <;> omega
  · intro isShared b1
    rw [hH]
    have := h.tot isShared b1
    split <;> omega
  · intro b1 c1 h1 hf1
    rw [hH]
    rcases hcell b1 c1 h1 with ⟨hlt, h2⟩ | ⟨rfl, rfl⟩
    · have := h.cS b1 c1 h2 hf1
      have hne : b1 ≠ st.cells.length := by omega
      simpa [hne] using this
    · have := h.un true st.cells.length (le_refl _)
      simp [this]
  · intro b1 c1 h1 hf1
    rw [hH]
    rcases hcell b1 c1 h1 with ⟨hlt, h2⟩ | ⟨rfl, rfl⟩
    · have := h.cW b1 c1 h2 hf1
      have hne : b1 ≠ st.cells.length := by omega
      simpa [hne] using this
    · have := h.un false st.cells.length (le_refl _)
      simp [this]
  · intro b1 c1 h1 hf1
    rw [hH, hH]
    rcases hcell b1 c1 h1 with ⟨hlt, h2⟩ | ⟨rfl, rfl⟩
    · have := h.fr b1 c1 h2 hf1
      have hne : b1 ≠ st.cells.length := by omega
      simpa [hne] using this
    · cases hf1
  · intro isShared b1 hb1
    rw [hH]
    have hlen : st.cells.length + 1 ≤ b1 := by simpa using hb1
    have hne : b1 ≠ st.cells.length := by omega
    have := h.un isShared b1 (by omega)
    simpa [hne] using this

/-- A statement that moves references between handle objects, such as `swap`:
when every block keeps the number of handle objects bound to it, and the
number of `SharedPtr` objects among them changes by one at most, the counters
account for the handle objects as before, with another `k`. -/
theorem Sound.rebind {k : Nat → Int} {N : Nat} {st st1 : State} (h : Sound k N none st)
    (hc : st1.cells = st.cells) (hcalls : st1.calls = st.calls)
    (hm : st1.members = st.members) (hcode : st1.code = st.code)
    (h1 : ∀ b, st1.holders true b + st1.holders false b
      = st.holders true b + st.holders false b)
    (h2 : ∀ b, st1.holders true b ≤ st.holders true b + 1 ∧
      st.holders true b ≤ st1.holders true b + 1) :
    ∃ k1, Sound k1 (N + 1) none st1 := by
  refine ⟨fun b => k b + (st1.holders true b : Int) - (st.holders true b : Int), ?_⟩
  refine { kb := ?_, tot := ?_, cS := ?_, cW := ?_, fr := ?_, un := ?_, des := ?_,
           mem := by rw [hm]; exact le_trans h.mem (Nat.le_succ N)
           code := by rw [hcode]; exact h.code }
  · intro b
    have := h.kb b
    have := h2 b
    show -((N + 1 : Nat) : Int) ≤ k b + (st1.holders true b : Int) - (st.holders true b : Int) ∧
      k b + (st1.holders true b : Int) - (st.holders true b : Int) ≤ ((N + 1 : Nat) : Int)
    omega
  · intro isShared b
    have t1 := h.tot true b
    have t2 := h.tot false b
    have := h1 b
    have := h2 b
    rw [holdersX_none] at t1 t2 ⊢
    cases isShared <;> omega
  · intro b c hcell hf
    rw [hc] at hcell
    have := h.cS b c hcell hf
    rw [holdersX_none] at this ⊢
    rw [this]
    congr 1
    omega
  · intro b c hcell hf
    rw [hc] at hcell
    have := h.cW b c hcell hf
    have := h1 b
    rw [holdersX_none] at *
    rw [‹(c.countWeak : Int) = _›]
    congr 1
    omega
  · intro b c hcell hf
    rw [hc] at hcell
    have := h.fr b c hcell hf
    have := h1 b
    rw [holdersX_none, holdersX_none] at *
    omega
  · intro isShared b hb
    rw [hc] at hb
    have u1 := h.un true b hb
    have u2 := h.un false b hb
    have := h1 b
    rw [holdersX_none] at *
    cases isShared <;> omega
  · intro b caller s w l hm
    rw [hcalls] at hm
    exact h.des b caller s w l hm

theorem assign_self (a : Handle) : a.assign a.data a.ptr = a := by
  cases a <;> rfl

/-- What `swap` does to the numbers of handle objects bound to a block: the
two objects together are bound to it as often as before, and the number of
`SharedPtr` objects among them changes by one at most. -/
theorem swap_counts (a b : Handle) (blk : Nat) :
    ((if (a.assign b.data b.ptr).boundTo true blk then 1 else 0)
        + (if (b.assign a.data a.ptr).boundTo true blk then 1 else 0)
        + ((if (a.assign b.data b.ptr).boundTo false blk then 1 else 0)
          + (if (b.assign a.data a.ptr).boundTo false blk then 1 else 0))
      = (if a.boundTo true blk then 1 else 0) + (if b.boundTo true blk then 1 else 0)
        + ((if a.boundTo false blk then 1 else 0) + (if b.boundTo false blk then 1 else 0))) ∧
    ((if (a.assign b.data b.ptr).boundTo true blk then 1 else 0)
        + (if (b.assign a.data a.ptr).boundTo true blk then 1 else 0)
      ≤ (if a.boundTo true blk then 1 else 0) + (if b.boundTo true blk then 1 else 0) + 1) ∧
    ((if a.boundTo true blk then 1 else 0) + (if b.boundTo true blk then 1 else 0)
      ≤ (if (a.assign b.data b.ptr).boundTo true blk then 1 else 0)
        + (if (b.assign a.data a.ptr).boundTo true blk then 1 else 0) + 1) := by
  cases a with
  | shared s =>
    cases b with
    | shared t =>
      simp only [Handle.assign, Handle.boundTo, Handle.data, Handle.ptr, Bool.true_and,
        Bool.false_and, Bool.not_true, Bool.not_false]
      by_cases h1 : s.data = some blk <;> by_cases h2 : t.data = some blk <;> simp [h1, h2]
    | weak t =>
      simp only [Handle.assign, Handle.boundTo, Handle.data, Handle.ptr, Bool.true_and,
        Bool.false_and, Bool.not_true, Bool.not_false]
      by_cases h1 : s.data = some blk <;> by_cases h2 : t.data = some blk <;> simp [h1, h2]
  | weak s =>
    cases b with
    | shared t =>
      simp only [Handle.assign, Handle.boundTo, Handle.data, Handle.ptr, Bool.true_and,
        Bool.false_and, Bool.not_true, Bool.not_false]
      by_cases h1 : s.data = some blk <;> by_cases h2 : t.data = some blk <;> simp [h1, h2]
    | weak t =>
      simp only [Handle.assign, Handle.boundTo, Handle.data, Handle.ptr, Bool.true_and,
        Bool.false_and, Bool.not_true, Bool.not_false]
      by_cases h1 : s.data = some blk <;> by_cases h2 : t.data = some blk <;> simp [h1, h2]

theorem countP_swap {α : Type} (p : α → Bool) (l : List α) (i j : Nat) (a b x y : α)
    (hi : l[i]? = some a) (hj : l[j]? = some b) (hij : i = j → x = a ∧ y = b) :
    ((l.set i x).set j y).countP p + ((if p a then 1 else 0) + (if p b then 1 else 0))
      = l.countP p + ((if p x then 1 else 0) + (if p y then 1 else 0)) := by
  by_cases e : i = j
  · subst e
    obtain ⟨rfl, rfl⟩ := hij rfl
    rw [List.set_set]
    have h1 := countP_set_add p l i y y hj
    omega
  · have h1 := countP_set_add p l i x a hi
    have hj2 : (l.set i x)[j]? = some b := by
      rw [List.getElem?_set_ne e]; exact hj
    have h2 := countP_set_add p (l.set i x) j y b hj2
    omega

/-- Every statement keeps the invariant, with room for one more object. -/
theorem execInstr_sound {k : Nat → Int} {N : Nat} {st st1 : State}
    (hN : N < 4611686018427387904) (fuel : Nat) (hfuel : 3 * N + 3 ≤ fuel) (ins : Instr)
    (h : Sound k N none st) (he : execInstr fuel ins st = some st1) :
    ∃ k1, Sound k1 (N + 1) none st1 := by
  cases ins with
  | sharedEmpty =>
    simp only [execInstr, execWith] at he
    cases he
    exact ⟨k, h.add_unbound _ (fun _ _ => by simp [Handle.boundTo, SharedPtr.empty])⟩
  | weakEmpty =>
    simp only [execInstr, execWith] at he
    cases he
    exact ⟨k, h.add_unbound _ (fun _ _ => by simp [Handle.boundTo, WeakPtr.empty])⟩
  | sharedFromRaw p d =>
    simp only [execInstr, execWith] at he
    cases he
    exact ⟨_, h.after_alloc p d⟩
  | sharedAllocate =>
    simp only [execInstr, execWith] at he
    cases he
    exact ⟨_, h.after_alloc none none⟩
  | sharedCopy i =>
    simp only [execInstr, execWith] at he
    cases hg : st.getObject i with
    | none => simp only [hg] at he; cases he
    | some a =>
      cases a with
      | weak other => simp only [hg] at he; cases he
      | shared other =>
        simp only [hg] at he
        cases hd : other.data with
        | none =>
          simp only [hd] at he
          cases he
          exact ⟨k, h.add_unbound _ (fun _ _ => by simp [Handle.boundTo])⟩
        | some b =>
          have hpos : 0 < st.live b := by
            have := holders_pos_of_object hg true b
              (by simp [Handle.boundTo, hd])
            simp only [State.live]; omega
          obtain ⟨c, hc, hf, hs⟩ := h.add_holder true hpos
            (Handle.shared { data := some b, ptr := other.ptr })
            (fun isShared1 b1 => by
              cases isShared1 <;> simp [Handle.boundTo, eq_comm])
          simp only [hd, State.incShared, State.write, hc, hf] at he
          cases he
          exact ⟨k, by simpa [hf] using hs⟩
  | weakFromShared i =>
    simp only [execInstr, execWith] at he
    cases hg : st.getObject i with
    | none => simp only [hg] at he; cases he
    | some a =>
      cases a with
      | weak other => simp only [hg] at he; cases he
      | shared other =>
        simp only [hg] at he
        cases hd : other.data with
        | none =>
          simp only [hd] at he
          cases he
          exact ⟨k, h.add_unbound _ (fun _ _ => by simp [Handle.boundTo])⟩
        | some b =>
          have hpos : 0 < st.live b := by
            have := holders_pos_of_object hg true b
              (by simp [Handle.boundTo, hd])
            simp only [State.live]; omega
          obtain ⟨c, hc, hf, hs⟩ := h.add_holder false hpos
            (Handle.weak { data := some b, ptr := other.ptr })
            (fun isShared1 b1 => by
              cases isShared1 <;> simp [Handle.boundTo, eq_comm])
          simp only [hd, State.incWeak, State.write, hc, hf] at he
          cases he
          exact ⟨k, by simpa [hf] using hs⟩
  | weakCopy i =>
    simp only [execInstr, execWith] at he
    cases hg : st.getObject i with
    | none => simp only [hg] at he; cases he
    | some a =>
      cases a with
      | shared other => simp only [hg] at he; cases he
      | weak other =>
        simp only [hg] at he
        cases hd : other.data with
        | none =>
          simp only [hd] at he
          cases he
          exact ⟨k, h.add_unbound _ (fun _ _ => by simp [Handle.boundTo])⟩
        | some b =>
          have hpos : 0 < st.live b := by
            have := holders_pos_of_object hg false b
              (by simp [Handle.boundTo, hd])
            simp only [State.live]; omega
          obtain ⟨c, hc, hf, hs⟩ := h.add_holder false hpos
            (Handle.weak { data := some b, ptr := other.ptr })
            (fun isShared1 b1 => by
              cases isShared1 <;> simp [Handle.boundTo, eq_comm])
          simp only [hd, State.incWeak, State.write, hc, hf] at he
          cases he
          exact ⟨k, by simpa [hf] using hs⟩
  | move i =>
    simp only [execInstr, execWith] at he
    cases hg : st.getObject i with
    | none => simp only [hg] at he; cases he
    | some a =>
      simp only [hg] at he
      cases he
      refine ⟨k, (h.weaken (Nat.le_succ N)).same_counts rfl rfl
        (le_trans h.mem (Nat.le_succ N)) rfl (fun isShared b => ?_)⟩
      rw [holdersX_none, holdersX_none]
      have := countP_set_add (objBound isShared b) st.objects i
        (some (a.assign none none)) (some a) (getObject_eq hg)
      have e0 : objBound isShared b (some (a.assign none none)) = false := by
        cases a <;> simp [objBound, Handle.assign, Handle.boundTo]
      simp only [State.holders, List.countP_append, List.countP_cons, List.countP_nil,
        assign_self]
      rw [e0] at this
      simp only [Bool.false_eq_true, if_false] at this
      omega
  | lock i =>
    simp only [execInstr, execWith] at he
    cases hg : st.getObject i with
    | none => simp only [hg] at he; cases he
    | some a =>
      cases a with
      | shared other => simp only [hg] at he; cases he
      | weak self =>
        simp only [hg] at he
        cases hd : self.data with
        | none => simp only [hd] at he; cases he
        | some b =>
          have hpos : 0 < st.live b := by
            have := holders_pos_of_object hg false b
              (by simp [Handle.boundTo, hd])
            simp only [State.live]; omega
          obtain ⟨c, hc, hf, hs⟩ := h.add_holder true hpos
            (Handle.shared { data := some b, ptr := self.ptr })
            (fun isShared1 b1 => by
              cases isShared1 <;> simp [Handle.boundTo, eq_comm])
          simp only [hd, State.read, hc, hf] at he
          by_cases hz : c.countShared = 0
          · simp only [hz, if_true] at he
            cases he
            exact ⟨k, by
              simpa using h.add_unbound (Handle.shared SharedPtr.empty)
                (fun _ _ => by simp [Handle.boundTo, SharedPtr.empty])⟩
          · simp only [hz, if_false, State.incShared, State.write, hc, hf] at he
            cases he
            exact ⟨k, by simpa [hf] using hs⟩
  | swap i j =>
    simp only [execInstr, execWith] at he
    cases hgi : st.getObject i with
    | none => simp only [hgi] at he; cases he
    | some a =>
      cases hgj : st.getObject j with
      | none => simp only [hgi, hgj] at he; cases he
      | some b =>
        simp only [hgi, hgj] at he
        cases he
        have hij : i = j → (some (a.assign b.data b.ptr) : Option Handle) = some a ∧
            (some (b.assign a.data a.ptr) : Option Handle) = some b := by
          intro e
          subst e
          rw [hgi] at hgj
          cases hgj
          rw [assign_self]
          exact ⟨rfl, rfl⟩
        have hcount : ∀ isShared blk,
            ({ st with
                objects :=
                  (st.objects.set i (some (a.assign b.data b.ptr))).set j
                    (some (b.assign a.data a.ptr)) } : State).holders isShared blk
              + ((if a.boundTo isShared blk then 1 else 0)
                + (if b.boundTo isShared blk then 1 else 0))
            = st.holders isShared blk
              + ((if (a.assign b.data b.ptr).boundTo isShared blk then 1 else 0)
                + (if (b.assign a.data a.ptr).boundTo isShared blk then 1 else 0)) := by
          intro isShared blk
          have := countP_swap (objBound isShared blk) st.objects i j (some a) (some b) _ _
            (getObject_eq hgi) (getObject_eq hgj) hij
          simp only [State.holders]
          simp only [objBound] at this ⊢
          omega
        refine h.rebind rfl rfl rfl rfl (fun blk => ?_) (fun blk => ?_)
        · have c1 := hcount true blk
          have c2 := hcount false blk
          have := (swap_counts a b blk).1
          omega
        · have c1 := hcount true blk
          have := (swap_counts a b blk).2
          omega
  | member i b =>
    simp only [execInstr, execWith] at he
    cases hg : st.getObject i with
    | none => simp only [hg] at he; cases he
    | some a =>
      simp only [hg] at he
      by_cases hb : b < st.cells.length
      · simp only [hb, if_true] at he
        cases he
        refine ⟨k, (h.weaken (Nat.le_succ N)).same_counts rfl rfl
          (by have := h.mem; simp only [List.length_append, List.length_singleton]; omega)
          rfl (fun isShared blk => ?_)⟩
        rw [holdersX_none, holdersX_none]
        have := countP_set_add (objBound isShared blk) st.objects i none (some a)
          (getObject_eq hg)
        simp only [State.holders, List.countP_append, List.countP_cons, List.countP_nil,
          memBound, objBound, Bool.false_eq_true, if_false] at this ⊢
        omega
      · simp only [hb, if_false] at he
        cases he
  | destroy i =>
    simp only [execInstr, execWith] at he
    cases hg : st.getObject i with
    | none => simp only [hg] at he; cases he
    | some a =>
      simp only [hg] at he
      have hs : Sound k N (Routine.destructor a).handle
          { st with objects := st.objects.set i none } := by
        refine h.same_counts rfl rfl h.mem rfl (fun isShared blk => ?_)
        rw [holdersX_none]
        have := countP_set_add (objBound isShared blk) st.objects i none (some a)
          (getObject_eq hg)
        simp only [State.holdersX, State.holders, Routine.handle, objBound,
          Bool.false_eq_true, if_false] at this ⊢
        omega
      obtain ⟨st2, hcall, hs2, -⟩ := call_sound hN fuel _ _ hs
        (by have := h.mem; simp only [Routine.depth]; omega) (fun b e => by cases e)
      rw [hcall] at he
      cases he
      exact ⟨k, hs2.weaken (Nat.le_succ N)⟩

/-! ## Deleters that use handles: the bound on the depth of calls -/

theorem execWith_mono {d d1 : Handle → State → Option State}
    (hd : ∀ h s x, d h s = some x → d1 h s = some x) (ins : Instr) (st x : State)
    (h : execWith d ins st = some x) : execWith d1 ins st = some x := by
  cases ins with
  | destroy i =>
    simp only [execWith] at h ⊢
    cases hg : st.getObject i with
    | none => simp only [hg] at h; cases h
    | some a =>
      simp only [hg] at h ⊢
      exact hd _ _ _ h
  | sharedEmpty => exact h
  | weakEmpty => exact h
  | sharedFromRaw p dl => exact h
  | sharedAllocate => exact h
  | sharedCopy i => exact h
  | weakFromShared i => exact h
  | weakCopy i => exact h
  | move i => exact h
  | lock i => exact h
  | swap i j => exact h
  | member i b => exact h

theorem runWith_mono {d d1 : Handle → State → Option State}
    (hd : ∀ h s x, d h s = some x → d1 h s = some x) :
    ∀ (prog : List Instr) (st x : State), runWith d prog st = some x →
      runWith d1 prog st = some x := by
  intro prog
  induction prog with
  | nil => intro st x h; exact h
  | cons ins rest ih =>
    intro st x h
    simp only [runWith] at h ⊢
    cases he : execWith d ins st with
    | none => simp only [he] at h; cases h
    | some st1 =>
      simp only [he] at h
      rw [execWith_mono hd ins st st1 he]
      exact ih st1 x h

theorem call_shared (fuel : Nat) (self : SharedPtr) (st : State) :
    call (fuel + 1) (Routine.destructor (Handle.shared self)) st
      = match self.data with
        | none => some st
        | some b =>
          match st.decShared b with
          | none => none
          | some st1 =>
            match st1.read b with
            | none => none
            | some (c, st2) =>
              if c.countShared > 0 then some st2
              else
                match call fuel (Routine.del b)
                    { st2 with calls := st2.calls ++ [Call.useDeleter b] } with
                | none => none
                | some st3 =>
                  match st3.read b with
                  | none => none
                  | some (c3, st4) =>
                    if c3.countWeak = 0 then st4.destroy true b else some st4 := by
  rw [call]

theorem call_del (fuel : Nat) (b : Nat) (st : State) :
    call (fuel + 1) (Routine.del b) st
      = match st.cells[b]? with
        | none => none
        | some c =>
          match runWith (fun h s => call fuel (Routine.destructor h) s)
              (st.deleterCode c.deleter) st with
          | none => none
          | some st1 => call fuel (Routine.payload b) st1 := by
  rw [call]

theorem call_payload (fuel : Nat) (b : Nat) (st : State) :
    call (fuel + 1) (Routine.payload b) st
      = match popMember st.members b with
        | none => some st
        | some (m, ms) =>
          match call fuel (Routine.destructor m) { st with members := ms } with
          | none => none
          | some st1 => call fuel (Routine.payload b) st1 := by
  rw [call]

/-- A call that returns with a bound on the depth of calls returns the same
with a larger bound. -/
theorem call_succ : ∀ (fuel : Nat) (r : Routine) (st x : State),
    call fuel r st = some x → call (fuel + 1) r st = some x := by
  intro fuel
  induction fuel with
  | zero => intro r st x h; simp only [call] at h; cases h
  | succ fuel ih =>
    intro r st x h
    cases r with
    | destructor self =>
      cases self with
      | shared self =>
        rw [call_shared] at h ⊢
        cases hd : self.data with
        | none => simp only [hd] at h ⊢; exact h
        | some b =>
          simp only [hd] at h ⊢
          cases h1 : st.decShared b with
          | none => simp only [h1] at h; cases h
          | some st1 =>
            simp only [h1] at h ⊢
            cases h2 : st1.read b with
            | none => simp only [h2] at h; cases h
            | some r2 =>
              obtain ⟨c, st2⟩ := r2
              simp only [h2] at h ⊢
              by_cases hpos : c.countShared > 0
              · simp only [hpos, if_true] at h ⊢; exact h
              · simp only [hpos, if_false] at h ⊢
                cases h3 : call fuel (Routine.del b)
                    { st2 with calls := st2.calls ++ [Call.useDeleter b] } with
                | none => simp only [h3] at h; cases h
                | some st3 =>
                  simp only [h3] at h
                  rw [ih _ _ _ h3]
                  exact h
      | weak self =>
        simp only [call] at h ⊢
        exact h
    | del b =>
      rw [call_del] at h ⊢
      cases hc : st.cells[b]? with
      | none => simp only [hc] at h; cases h
      | some c =>
        simp only [hc] at h ⊢
        cases h1 : runWith (fun h s => call fuel (Routine.destructor h) s)
            (st.deleterCode c.deleter) st with
        | none => simp only [h1] at h; cases h
        | some st1 =>
          simp only [h1] at h
          rw [runWith_mono (fun h s x hx => ih (Routine.destructor h) s x hx) _ _ _ h1]
          exact ih _ _ _ h
    | payload b =>
      rw [call_payload] at h ⊢
      cases hp : popMember st.members b with
      | none => simp only [hp] at h ⊢; exact h
      | some r =>
        obtain ⟨m, ms⟩ := r
        simp only [hp] at h ⊢
        cases h1 : call fuel (Routine.destructor m) { st with members := ms } with
        | none => simp only [h1] at h; cases h
        | some st1 =>
          simp only [h1] at h
          rw [ih _ _ _ h1]
          exact ih _ _ _ h

theorem call_add (fuel n : Nat) (r : Routine) (st x : State)
    (h : call fuel r st = some x) : call (fuel + n) r st = some x := by
  induction n with
  | zero => exact h
  | succ n ih => exact call_succ _ _ _ _ ih

/-- A program that returns with a bound on the depth of calls returns the same
with a larger bound. -/
theorem runInstrs_add (fuel n : Nat) (prog : List Instr) (st x : State)
    (h : runInstrs fuel prog st = some x) : runInstrs (fuel + n) prog st = some x :=
  runWith_mono (fun hd s y hy => call_add fuel n (Routine.destructor hd) s y hy) prog st x h

theorem execInstr_add (fuel n : Nat) (ins : Instr) (st x : State)
    (h : execInstr fuel ins st = some x) : execInstr (fuel + n) ins st = some x :=
  execWith_mono (fun hd s y hy => call_add fuel n (Routine.destructor hd) s y hy) ins st x h

theorem Sound.at_init : Sound (fun _ => 0) 0 none State.init :=
  { kb := fun _ => by simp
    tot := fun _ _ => by simp [State.holdersX, State.holders, State.init, State.start, objBound]
    cS := fun b c h _ => by simp [State.init, State.start] at h
    cW := fun b c h _ => by simp [State.init, State.start] at h
    fr := fun b c h _ => by simp [State.init, State.start] at h
    un := fun _ _ _ => by simp [State.holdersX, State.holders, State.init, State.start, objBound]
    des := fun b caller s w l h => by simp [State.init, State.start] at h
    mem := by simp [State.init, State.start]
    code := rfl }

/-- Every program whose deleters execute no statements of their own keeps the
invariant, with room for one more object per statement. -/
theorem runInstrs_sound (fuel : Nat) :
    ∀ (prog : List Instr) (st st1 : State) (k : Nat → Int) (N : Nat),
    Sound k N none st → N + prog.length ≤ 4611686018427387904 →
    3 * (N + prog.length) + 3 ≤ fuel →
    runInstrs fuel prog st = some st1 → ∃ k1, Sound k1 (N + prog.length) none st1 := by
  intro prog
  induction prog with
  | nil =>
    intro st st1 k N h _ _ hr
    simp only [runInstrs, runWith] at hr
    cases hr
    exact ⟨k, h⟩
  | cons ins rest ih =>
    intro st st1 k N h hN hfuel hr
    simp only [List.length_cons] at hN hfuel
    cases he : execInstr fuel ins st with
    | none =>
      simp only [execInstr] at he
      simp only [runInstrs, runWith, he] at hr
      cases hr
    | some st2 =>
      have hr2 : runInstrs fuel rest st2 = some st1 := by
        simp only [execInstr] at he
        simp only [runInstrs, runWith, he] at hr
        exact hr
      obtain ⟨k1, h1⟩ := execInstr_sound (by omega) fuel (by omega) ins h he
      obtain ⟨k2, h2⟩ := ih st2 st1 k1 (N + 1) h1 (by omega) (by omega) hr2
      refine ⟨k2, ?_⟩
      have e : N + (ins :: rest).length = N + 1 + rest.length := by
        simp only [List.length_cons]; omega
      rw [e]
      exact h2

/-- Where no deleter and no destructor of a payload executes statements of its
own, other than the destruction of the handle objects inside the payload: in
every state a program reaches through the handle operations (declarations,
copies, moves, `lock`, `swap` between objects of any classes, handle objects
inside payloads, destructions), every call of `destroy()` was made at
`countShared == 0` and `countWeak == 0`, with no live `SharedPtr` or `WeakPtr`
object bound to the block; a block whose storage was released has no live
handle object bound to it; and the destructor of every live object returns.
The counters wrap at `2^64`, so programs are taken to have fewer than `2^62`
statements; the bound on the depth of calls is three for every statement and
three more. -/
theorem destroy_at_zero_counts_without_deleter_code (prog : List Instr) (fuel : Nat)
    (st : State) (hlen : prog.length < 4611686018427387904)
    (hfuel : 3 * prog.length + 3 ≤ fuel)
    (hrun : runInstrs fuel prog State.init = some st) :
    (∀ b caller s w l, Call.destroy b caller s w l ∈ st.calls → s = 0 ∧ w = 0 ∧ l = 0) ∧
      (∀ b c, st.cells[b]? = some c → c.freed = true → st.live b = 0) ∧
      (∀ i h, st.getObject i = some h →
        ∃ st1, execInstr fuel (Instr.destroy i) st = some st1 ∧
          ∀ b caller s w l, Call.destroy b caller s w l ∈ st1.calls →
            s = 0 ∧ w = 0 ∧ l = 0) := by
  obtain ⟨k, hs⟩ := runInstrs_sound fuel prog State.init st _ 0 Sound.at_init (by omega)
    (by omega) hrun
  rw [Nat.zero_add] at hs
  refine ⟨hs.des, ?_, ?_⟩
  · intro b c hc hf
    have := hs.fr b c hc hf
    rw [holdersX_none, holdersX_none] at this
    simp only [State.live]
    omega
  · intro i h hg
    have hs1 : Sound k prog.length (Routine.destructor h).handle
        { st with objects := st.objects.set i none } := by
      refine hs.same_counts rfl rfl hs.mem rfl (fun isShared blk => ?_)
      rw [holdersX_none]
      have := countP_set_add (objBound isShared blk) st.objects i none (some h)
        (getObject_eq hg)
      simp only [State.holdersX, State.holders, Routine.handle, objBound,
        Bool.false_eq_true, if_false] at this ⊢
      omega
    obtain ⟨st1, hcall, hs2, -⟩ := call_sound hlen fuel _ _ hs1
      (by have := hs.mem; simp only [Routine.depth]; omega) (fun b e => by cases e)
    exact ⟨st1, by simp only [execInstr, execWith, hg, hcall], hs2.des⟩

/-- The program `progWeakLast`, with two `SharedPtr` objects and a `WeakPtr`
object that is destroyed last. -/
theorem destroy_at_zero_counts_without_deleter_code_example :
    (∀ b caller s w l, Call.destroy b caller s w l ∈ stateWeakLast.calls →
        s = 0 ∧ w = 0 ∧ l = 0) ∧
      (∀ b c, stateWeakLast.cells[b]? = some c → c.freed = true → stateWeakLast.live b = 0) ∧
      (∀ i h, stateWeakLast.getObject i = some h →
        ∃ st1, execInstr 21 (Instr.destroy i) stateWeakLast = some st1 ∧
          ∀ b caller s w l, Call.destroy b caller s w l ∈ st1.calls →
            s = 0 ∧ w = 0 ∧ l = 0) :=
  destroy_at_zero_counts_without_deleter_code progWeakLast 21 stateWeakLast (by decide)
    (by decide) (by decide)

/-- **C3.**  The code evaluated at a deleter that uses handles.  `e` is a
`SharedPtr` that `swap` has bound to the block of `s` in exchange for a
`WeakPtr`, so the block has `countShared == 1` for `s` and `countWeak == 1`.
When `s` is destroyed, `countShared` becomes 0 and `useDeleter()` runs the
deleter, which copies `e` (`countShared == 1` again) and hands the reference of
`e` over to a `WeakPtr` that it destroys (`countWeak == 0`).  `~SharedPtr()`
then tests `countWeak` only and calls `destroy()`: at `countShared == 1`, with
the copy alive and bound to the block.  The result is the same for every bound
on the depth of calls from 3 on. -/
theorem C3_destroy_called_with_live_shared :
    (∀ n, runInstrs (3 + n) progKeepInDeleter (State.start [codeKeepInDeleter])
        = some stateKeepInDeleter) ∧
      stateKeepInDeleter.calls = [Call.useDeleter 0, Call.destroy 0 true 1 0 1] ∧
      stateKeepInDeleter.cells[0]?
        = some { countShared := 1, countWeak := 0, freed := true, deleter := some 0 } ∧
      stateKeepInDeleter.getObject 3
        = some (Handle.shared { data := some 0, ptr := some (Loc.raw 7) }) ∧
      stateKeepInDeleter.live 0 = 1 :=
  ⟨fun n => runInstrs_add 3 n _ _ _ (by decide), by decide, by decide, by decide, by decide⟩

/-- **C4.**  The code evaluated at a payload that holds a `WeakPtr` bound to its
own block, when the last `SharedPtr` is destroyed: `useDeleter()` destroys the
payload, the destructor of the member takes `countWeak` to zero and calls
`destroy()`, and `~SharedPtr()` then reads `countWeak` from the released block
and calls `destroy()` again.  The storage is released twice, for every bound
on the depth of calls from 4 on. -/
theorem C4_self_weak_releases_twice :
    (∀ fuel, runInstrs fuel progSelfWeak State.init = some stateSelfWeak) ∧
      (∀ n, execInstr (4 + n) (Instr.destroy 0) stateSelfWeak = some stateSelfWeakReleased) ∧
      stateSelfWeakReleased.calls
        = [Call.useDeleter 0, Call.destroy 0 false 0 0 0, Call.useAfterFree 0,
           Call.destroy 0 true 0 0 0] ∧
      (stateSelfWeakReleased.destroyCallsOn 0).length = 2 :=
  ⟨fun fuel => by
     have h := runInstrs_add 0 fuel progSelfWeak State.init stateSelfWeak (by decide)
     rwa [Nat.zero_add] at h,
   fun n => execInstr_add 4 n _ _ _ (by decide), by decide, by decide⟩

/-- **C11.**  The code evaluated at the destruction of the only `SharedPtr`
bound to a block with `countWeak == 1`, where the `WeakPtr` is inside the
payload: `countShared` goes from 1 to 0 while `countWeak > 0`, and
`~SharedPtr()` calls `useDeleter()` and then `destroy()`, on the value of
`countWeak` it reads after `useDeleter()` returned; so for every bound on the
depth of calls from 4 on. -/
theorem C11_destroy_called_at_positive_weak_count :
    (stateSelfWeak.getObject 0).map Handle.data = some (some 0) ∧
      stateSelfWeak.cells[0]?
        = some { countShared := 1, countWeak := 1, freed := false, deleter := none } ∧
      (∀ n, call (4 + n)
          (Routine.destructor (Handle.shared { data := some 0, ptr := some (Loc.raw 7) }))
          { stateSelfWeak with objects := [none, none] } = some stateSelfWeakReleased) ∧
      stateSelfWeakReleased.calls
        = [Call.useDeleter 0, Call.destroy 0 false 0 0 0, Call.useAfterFree 0,
           Call.destroy 0 true 0 0 0] :=
  ⟨by decide, by decide, fun n => call_add 4 n _ _ _ (by decide), by decide⟩

/-- **C20.**  The code evaluated at `SharedPtr<T> s(p); WeakPtr<T> w; s.swap(w);`:
the `WeakPtr` object `w` is alive and bound to a block with `countWeak == 0`,
and its destructor takes `countWeak` to `2^64 - 1`. -/
theorem C20_swap_binds_weak_at_zero_count :
    (∀ fuel, runInstrs fuel progSwapIntoWeak State.init = some stateSwapIntoWeak) ∧
      stateSwapIntoWeak.getObject 1
        = some (Handle.weak { data := some 0, ptr := some (Loc.raw 7) }) ∧
      stateSwapIntoWeak.cells[0]?
        = some { countShared := 1, countWeak := 0, freed := false, deleter := none } ∧
      (∀ n, runInstrs (1 + n) (progSwapIntoWeak ++ [Instr.destroy 1]) State.init
        = some stateSwapIntoWeakDestroyed) ∧
      stateSwapIntoWeakDestroyed.cells[0]?
        = some { countShared := 1, countWeak := 18446744073709551615, freed := false,
                 deleter := none } :=
  ⟨fun fuel => by
     have h := runInstrs_add 0 fuel progSwapIntoWeak State.init stateSwapIntoWeak (by decide)
     rwa [Nat.zero_add] at h,
   by decide, by decide, fun n => runInstrs_add 1 n _ _ _ (by decide), by decide⟩

/-- **C22.**  The code evaluated at `SharedPtr<T> s(p); WeakPtr<T> w(s);`, the end
of the lifetime of `s`, and `SharedPtr<T> e; e.swap(w);`: for the `SharedPtr`
object `e`, `use_count()` is `0` and `get()` is `p`, not `nullptr`. -/
theorem C22_swap_gives_zero_use_count_with_pointer :
    (∀ n, runInstrs (3 + n) progSwapExpired State.init = some stateSwapExpired) ∧
      stateSwapExpired.getObject 2
        = some (Handle.shared { data := some 0, ptr := some (Loc.raw 7) }) ∧
      stateSwapExpired.use_count (Handle.shared { data := some 0, ptr := some (Loc.raw 7) })
        = some 0 ∧
      (Handle.shared { data := some 0, ptr := some (Loc.raw 7) }).get = some (Loc.raw 7) :=
  ⟨fun n => runInstrs_add 3 n _ _ _ (by decide), by decide, by decide, by decide⟩

end SmartPointers

namespace BigArith

/-! ## Limb lists and their values -/

theorem BASE_eq : BASE = 10000 := rfl

theorem InRange.empty : InRange [] := by intro d hd; simp at hd

theorem InRange.cons_iff {x : Int} {xs : List Int} :
    InRange (x :: xs) ↔ (0 ≤ x ∧ x < BASE) ∧ InRange xs := by
  simp [InRange]

theorem InRange.append_iff {xs ys : List Int} :
    InRange (xs ++ ys) ↔ InRange xs ∧ InRange ys := by
  simp only [InRange, List.mem_append]
  constructor
  · intro h; exact ⟨fun d hd => h d (Or.inl hd), fun d hd => h d (Or.inr hd)⟩
  · rintro ⟨h1, h2⟩ d (hd | hd)
    · exact h1 d hd
    · exact h2 d hd

theorem InRange.reverse_iff {xs : List Int} : InRange xs.reverse ↔ InRange xs := by
  simp [InRange]

theorem limbsVal_nonneg {ds : List Int} (h : InRange ds) : 0 ≤ limbsVal ds := by
  induction ds with
  | nil => simp [limbsVal]
  | cons d ds ih =>
    rw [InRange.cons_iff] at h
    have := ih h.2
    simp only [limbsVal, BASE_eq] at *
    omega

theorem limbsVal_lt_pow {ds : List Int} (h : InRange ds) : limbsVal ds < BASE ^ ds.length := by
  induction ds with
  | nil => simp [limbsVal]
  | cons d ds ih =>
    rw [InRange.cons_iff] at h
    have := ih h.2
    simp only [limbsVal, List.length_cons, pow_succ, BASE_eq] at *
    omega

theorem limbsVal_append (xs ys : List Int) :
    limbsVal (xs ++ ys) = limbsVal xs + BASE ^ xs.length * limbsVal ys := by
  induction xs with
  | nil => simp [limbsVal]
  | cons x xs ih =>
    rw [List.cons_append]
    simp only [limbsVal, ih, List.length_cons, pow_succ]
    ring

theorem limbsVal_replicate_zero (n : Nat) : limbsVal (List.replicate n 0) = 0 := by
  induction n with
  | zero => rfl
  | succ n ih => simp [List.replicate_succ, limbsVal, ih]

theorem Lead.nil : Lead [] := by simp [Lead]

theorem Lead.tail {x : Int} {xs : List Int} (h : Lead (x :: xs)) : Lead xs := by
  cases xs with
  | nil => exact Lead.nil
  | cons y ys => simpa [Lead, List.getLast?_cons_cons] using h

theorem Lead.cons_of_ne_nil {x : Int} {xs : List Int} (hne : xs ≠ []) (h : Lead xs) :
    Lead (x :: xs) := by
  cases xs with
  | nil => exact absurd rfl hne
  | cons y ys => simpa [Lead, List.getLast?_cons_cons] using h

theorem Lead.single {x : Int} (h : x ≠ 0) : Lead [x] := by simpa [Lead] using h

theorem Lead.head_ne {x : Int} (h : Lead [x]) : x ≠ 0 := by simpa [Lead] using h

theorem limbsVal_pos {ds : List Int} (h : InRange ds) (hl : Lead ds) (hne : ds ≠ []) :
    0 < limbsVal ds := by
  induction ds with
  | nil => exact absurd rfl hne
  | cons d ds ih =>
    rw [InRange.cons_iff] at h
    cases ds with
    | nil =>
      have := Lead.head_ne hl
      simp only [limbsVal, BASE_eq] at *
      omega
    | cons e es =>
      have := ih h.2 hl.tail (by simp)
      simp only [limbsVal, BASE_eq] at *
      omega

theorem limbsVal_ge_pow {ds : List Int} (h : InRange ds) (hl : Lead ds) (hne : ds ≠ []) :
    BASE ^ (ds.length - 1) ≤ limbsVal ds := by
  induction ds with
  | nil => exact absurd rfl hne
  | cons d ds ih =>
    rw [InRange.cons_iff] at h
    cases ds with
    | nil =>
      have := Lead.head_ne hl
      simp only [limbsVal, BASE_eq, List.length_singleton] at *
      omega
    | cons e es =>
      have := ih h.2 hl.tail (by simp)
      simp only [limbsVal, BASE_eq, List.length_cons, Nat.add_sub_cancel, pow_succ] at *
      omega

theorem limbs_unique {xs ys : List Int} (hx : InRange xs) (hy : InRange ys)
    (lx : Lead xs) (ly : Lead ys) (h : limbsVal xs = limbsVal ys) : xs = ys := by
  induction xs generalizing ys with
  | nil =>
    cases ys with
    | nil => rfl
    | cons y ys =>
      have := limbsVal_pos hy ly (by simp)
      simp only [limbsVal] at h this
      omega
  | cons x xs ih =>
    cases ys with
    | nil =>
      have := limbsVal_pos hx lx (by simp)
      simp only [limbsVal] at h this
      omega
    | cons y ys =>
      rw [InRange.cons_iff] at hx hy
      simp only [limbsVal, BASE_eq] at h hx hy
      have h1 : x = y := by omega
      have h2 : limbsVal xs = limbsVal ys := by omega
      rw [h1, ih hx.2 hy.2 lx.tail ly.tail h2]

/-! ## Normalised numbers -/

theorem Normalised.inRange {a : BigInteger} (h : Normalised a) : InRange a.data_ := h.1

theorem Normalised.cases {a : BigInteger} (h : Normalised a) :
    (a.data_ = [0] ∧ a.isPositive = true) ∨ (Lead a.data_ ∧ a.data_ ≠ []) := by
  by_cases h0 : a.data_.getLast? = some 0
  · exact Or.inl (h.2.2 h0)
  · exact Or.inr ⟨h0, h.2.1⟩

theorem Normalised.mag_nonneg {a : BigInteger} (h : Normalised a) : 0 ≤ limbsVal a.data_ :=
  limbsVal_nonneg h.1

theorem Normalised.mag_pos_of_neg {a : BigInteger} (h : Normalised a)
    (hs : a.isPositive = false) : 0 < limbsVal a.data_ := by
  rcases h.cases with ⟨_, hp⟩ | ⟨hl, hne⟩
  · rw [hs] at hp; cases hp
  · exact limbsVal_pos h.1 hl hne

theorem Normalised.of_lead {ds : List Int} {s : Bool} (h : InRange ds) (hl : Lead ds)
    (hne : ds ≠ []) : Normalised { data_ := ds, isPositive := s } :=
  ⟨h, hne, fun h0 => absurd h0 hl⟩

theorem Normalised.zero : Normalised { data_ := [0], isPositive := true } := by decide

theorem Normalised.eq_of_toInt {a b : BigInteger} (ha : Normalised a) (hb : Normalised b)
    (h : a.toInt = b.toInt) : a = b := by
  have hA := ha.mag_nonneg
  have hB := hb.mag_nonneg
  obtain ⟨da, sa⟩ := a
  obtain ⟨db, sb⟩ := b
  simp only [BigInteger.toInt] at h hA hB
  rcases ha.cases with ⟨ha0, hap⟩ | ⟨hal, hane⟩ <;> rcases hb.cases with ⟨hb0, hbp⟩ | ⟨hbl, hbne⟩
  · simp only at ha0 hap hb0 hbp; subst ha0 hap hb0 hbp; rfl
  · simp only at ha0 hap hbl hbne; subst ha0 hap
    have := limbsVal_pos hb.1 hbl hbne
    simp only [limbsVal] at h this
    cases sb <;> simp at h <;> omega
  · simp only at hb0 hbp hal hane; subst hb0 hbp
    have := limbsVal_pos ha.1 hal hane
    simp only [limbsVal] at h this
    cases sa <;> simp at h <;> omega
  · simp only at hal hane hbl hbne
    have h1 := limbsVal_pos ha.1 hal hane
    have h2 := limbsVal_pos hb.1 hbl hbne
    simp only at h1 h2
    cases sa <;> cases sb <;> simp at h
    · have := limbs_unique ha.1 hb.1 hal hbl h
      simp only at this; rw [this]
    · omega
    · omega
    · have := limbs_unique ha.1 hb.1 hal hbl h
      simp only at this; rw [this]

/-! ## The constructor from a machine integer -/

theorem ofLongLongLoop_spec : ∀ (fuel : Nat) (n : Int), 0 < n → n ≤ fuel →
    InRange (ofLongLongLoop fuel n) ∧ Lead (ofLongLongLoop fuel n) ∧
      ofLongLongLoop fuel n ≠ [] ∧ limbsVal (ofLongLongLoop fuel n) = n := by
  intro fuel
  induction fuel with
  | zero => intro n h1 h2; simp at h2; omega
  | succ fuel ih =>
    intro n h1 h2
    have hm : n.tmod BASE = n % 10000 := Int.tmod_eq_emod (le_of_lt h1) (by decide)
    have hd : n.tdiv BASE = n / 10000 := Int.tdiv_eq_ediv (le_of_lt h1) (by decide)
    simp only [ofLongLongLoop, gt_iff_lt, h1, if_true, hm, hd]
    by_cases hq : 0 < n / 10000
    · have hle : n / 10000 ≤ (fuel : Int) := by push_cast at h2; omega
      obtain ⟨i1, i2, i3, i4⟩ := ih (n / 10000) hq hle
      refine ⟨?_, Lead.cons_of_ne_nil i3 i2, by simp, ?_⟩
      · rw [InRange.cons_iff]; exact ⟨by simp only [BASE_eq]; omega, i1⟩
      · simp only [limbsVal, i4, BASE_eq]; omega
    · have hz : n / 10000 = 0 := by omega
      have hnil : ofLongLongLoop fuel (n / 10000) = [] := by
        rw [hz]; cases fuel <;> simp [ofLongLongLoop]
      rw [hnil]
      refine ⟨?_, Lead.single (by omega), by simp, ?_⟩
      · rw [InRange.cons_iff]; exact ⟨by simp only [BASE_eq]; omega, InRange.empty⟩
      · simp only [limbsVal, BASE_eq]; omega

theorem canon_zero : canon 0 = { data_ := [0], isPositive := true } := rfl

theorem canon_spec (n : Int) : Normalised (canon n) ∧ (canon n).toInt = n := by
  by_cases h0 : n = 0
  · subst h0; exact ⟨by decide, by decide⟩
  · have hpos : (0 : Int) < (n.natAbs : Int) := by omega
    obtain ⟨i1, i2, i3, i4⟩ := ofLongLongLoop_spec n.natAbs (n.natAbs : Int) hpos (le_refl _)
    simp only [canon, h0, if_false]
    refine ⟨Normalised.of_lead i1 i2 i3, ?_⟩
    simp only [BigInteger.toInt, i4]
    by_cases hn : 0 ≤ n
    · simp only [hn, decide_True, if_true]; omega
    · simp only [hn, decide_False, Bool.false_eq_true, if_false]; omega

theorem canon_normalised (n : Int) : Normalised (canon n) := (canon_spec n).1

theorem canon_toInt (n : Int) : (canon n).toInt = n := (canon_spec n).2

theorem Normalised.eq_canon {a : BigInteger} (h : Normalised a) : a = canon a.toInt :=
  h.eq_of_toInt (canon_normalised _) (canon_toInt _).symm

theorem canon_isPositive (n : Int) : (canon n).isPositive = decide (0 ≤ n) := rfl

theorem wrapLongLong_eq {x : Int} (h1 : LLONG_MIN ≤ x) (h2 : x ≤ LLONG_MAX) :
    wrapLongLong x = x := by
  simp only [LLONG_MIN, LLONG_MAX] at h1 h2
  simp only [wrapLongLong]
  omega

/-- The constructor from a `long long` other than the least one builds the
normalised number of its value. -/
theorem ofLongLong_eq_canon {n : Int} (h : LLONG_MIN < n) (h2 : n ≤ LLONG_MAX) :
    BigInteger.ofLongLong n = canon n := by
  by_cases h0 : n = 0
  · subst h0; rfl
  · by_cases hneg : n < 0
    · have hw : wrapLongLong (n * -1) = n * -1 :=
        wrapLongLong_eq (by simp only [LLONG_MIN, LLONG_MAX] at *; omega)
          (by simp only [LLONG_MIN, LLONG_MAX] at *; omega)
      have hne : n * -1 ≠ 0 := by omega
      have h1 : (n * -1).toNat = n.natAbs := by omega
      have h3 : n * -1 = (n.natAbs : Int) := by omega
      have h4 : ¬ (0 ≤ n) := by omega
      simp only [BigInteger.ofLongLong, hneg, if_true, hw, hne, if_false, decide_True,
        Bool.not_true, canon, h0, h4, decide_False]
      rw [h1, h3]
    · have h4 : 0 ≤ n := by omega
      obtain ⟨m, rfl⟩ := Int.eq_ofNat_of_zero_le h4
      simp only [BigInteger.ofLongLong, hneg, if_false, h0, decide_False, Bool.not_false,
        canon, h4, decide_True, Int.toNat_ofNat, Int.natAbs_ofNat]

theorem ofLongLong_zero : BigInteger.ofLongLong 0 = canon 0 := rfl

theorem ofLongLong_one : BigInteger.ofLongLong 1 = canon 1 := by decide

theorem ofLongLong_BASE : BigInteger.ofLongLong BASE = canon BASE := by decide

theorem ofLongLong_nonneg {n : Int} (h0 : 0 ≤ n) (h1 : n ≤ 10000) :
    BigInteger.ofLongLong n = canon n :=
  ofLongLong_eq_canon (by simp only [LLONG_MIN]; omega) (by simp only [LLONG_MAX]; omega)

theorem ofLongLong_small_normalised {n : Int} (h0 : 0 ≤ n) (h1 : n ≤ 10000) :
    Normalised (BigInteger.ofLongLong n) := by
  rw [ofLongLong_nonneg h0 h1]; exact canon_normalised n

theorem ofLongLong_small_toInt {n : Int} (h0 : 0 ≤ n) (h1 : n ≤ 10000) :
    (BigInteger.ofLongLong n).toInt = n := by
  rw [ofLongLong_nonneg h0 h1]; exact canon_toInt n

/-! ## Comparison -/

theorem ltLoop_spec : ∀ (xs ys : List Int) (s : Bool), xs.length = ys.length →
    InRange xs → InRange ys →
    ltLoop xs ys s = (if limbsVal xs.reverse = limbsVal ys.reverse then false
      else xor (!s) (decide (limbsVal xs.reverse < limbsVal ys.reverse))) := by
  intro xs
  induction xs with
  | nil =>
    intro ys s hl _ _
    cases ys with
    | nil => simp [ltLoop]
    | cons y ys => simp at hl
  | cons x xs ih =>
    intro ys s hl hx hy
    cases ys with
    | nil => simp at hl
    | cons y ys =>
      rw [InRange.cons_iff] at hx hy
      have hl2 : xs.length = ys.length := by simpa using hl
      have hX := limbsVal_lt_pow (InRange.reverse_iff.mpr hx.2)
      have hY := limbsVal_lt_pow (InRange.reverse_iff.mpr hy.2)
      have hX0 := limbsVal_nonneg (InRange.reverse_iff.mpr hx.2)
      have hY0 := limbsVal_nonneg (InRange.reverse_iff.mpr hy.2)
      simp only [List.length_reverse] at hX hY
      rw [hl2] at hX
      have hP : (0 : Int) < BASE ^ ys.length := pow_pos (by decide) _
      have e := ih ys s hl2 hx.2 hy.2
      clear ih
      simp only [List.reverse_cons, limbsVal_append, List.length_reverse, limbsVal, mul_zero,
        add_zero, hl2]
      generalize BASE ^ ys.length = P at *
      generalize limbsVal xs.reverse = X at *
      generalize limbsVal ys.reverse = Y at *
      by_cases hxy : x = y
      · subst hxy
        simp only [ltLoop, ne_eq, not_true_eq_false, if_false, add_left_inj]
        rw [e]
        simp
      · simp only [ltLoop, ne_eq, hxy, not_false_eq_true, if_true]
        rcases lt_or_gt_of_ne hxy with hlt | hgt
        · have h1 : P * 1 ≤ P * (y - x) :=
            mul_le_mul_of_nonneg_left (by omega) (le_of_lt hP)
          have h2 : X + P * x < Y + P * y := by nlinarith
          simp [hlt, h2, ne_of_lt h2]
        · have h1 : P * 1 ≤ P * (x - y) :=
            mul_le_mul_of_nonneg_left (by omega) (le_of_lt hP)
          have h2 : Y + P * y < X + P * x := by nlinarith
          have h3 : ¬ x < y := by omega
          have h4 : ¬ X + P * x < Y + P * y := by omega
          simp [h3, h4, ne_of_gt h2]

theorem limbsVal_lt_of_length_lt {xs ys : List Int} (hx : InRange xs) (hy : InRange ys)
    (ly : Lead ys) (h : xs.length < ys.length) : limbsVal xs < limbsVal ys := by
  have h1 := limbsVal_lt_pow hx
  have hne : ys ≠ [] := by intro e; rw [e] at h; simp at h
  have h2 := limbsVal_ge_pow hy ly hne
  have h3 : BASE ^ xs.length ≤ BASE ^ (ys.length - 1) :=
    pow_le_pow_right₀ (by decide) (by omega)
  omega

theorem Normalised.lead_of_length {a : BigInteger} (h : Normalised a) (hl : 1 < a.data_.length) :
    Lead a.data_ := by
  rcases h.cases with ⟨h0, _⟩ | ⟨h1, _⟩
  · rw [h0] at hl; simp at hl
  · exact h1

theorem Normalised.length_pos {a : BigInteger} (h : Normalised a) : 0 < a.data_.length :=
  List.length_pos.mpr h.2.1

theorem mag_lt_of_length_lt {a b : BigInteger} (ha : Normalised a) (hb : Normalised b)
    (h : a.data_.length < b.data_.length) : limbsVal a.data_ < limbsVal b.data_ :=
  limbsVal_lt_of_length_lt ha.1 hb.1 (hb.lead_of_length (by have := ha.length_pos; omega)) h

theorem BigInteger.lt_spec {a b : BigInteger} (ha : Normalised a) (hb : Normalised b) :
    a.lt b = decide (a.toInt < b.toInt) := by
  have hA := ha.mag_nonneg
  have hB := hb.mag_nonneg
  cases hsa : a.isPositive <;> cases hsb : b.isPositive
  · -- both negative
    simp only [BigInteger.lt, BigInteger.sign_number, hsa, hsb, ne_eq, not_true_eq_false,
      if_false, BigInteger.size, BigInteger.toInt, Bool.not_false, Bool.true_xor]
    by_cases hl : a.data_.length = b.data_.length
    · simp only [hl, not_true_eq_false, if_false]
      rw [ltLoop_spec _ _ _ (by simpa using hl) (InRange.reverse_iff.mpr ha.1)
        (InRange.reverse_iff.mpr hb.1)]
      simp only [List.reverse_reverse, Bool.not_false, Bool.true_xor]
      by_cases he : limbsVal a.data_ = limbsVal b.data_
      · simp [he]
      · simp only [he, if_false]
        rcases lt_or_gt_of_ne he with h | h
        · have : ¬ (-limbsVal a.data_ < -limbsVal b.data_) := by omega
          simp [h, this]
        · have : ¬ (limbsVal a.data_ < limbsVal b.data_) := by omega
          have h2 : (-limbsVal a.data_ < -limbsVal b.data_) := by omega
          simp [h2, this]
    · simp only [hl, not_false_eq_true, if_true]
      rcases lt_or_gt_of_ne hl with h | h
      · have := mag_lt_of_length_lt ha hb h
        have h2 : ¬ (-limbsVal a.data_ < -limbsVal b.data_) := by omega
        simp [h, h2]
      · have := mag_lt_of_length_lt hb ha h
        have h2 : (-limbsVal a.data_ < -limbsVal b.data_) := by omega
        have h3 : ¬ a.data_.length < b.data_.length := by omega
        simp [h3, h2]
  · -- a negative, b positive
    have := ha.mag_pos_of_neg hsa
    have h2 : -limbsVal a.data_ < limbsVal b.data_ := by omega
    simp [BigInteger.lt, BigInteger.sign_number, hsa, hsb, BigInteger.toInt, h2]
  · have := hb.mag_pos_of_neg hsb
    have h2 : ¬ (limbsVal a.data_ < -limbsVal b.data_) := by omega
    simp only [BigInteger.lt, BigInteger.sign_number, hsa, hsb, BigInteger.toInt]
    simp [h2]
  · simp only [BigInteger.lt, BigInteger.sign_number, hsa, hsb, ne_eq, not_true_eq_false,
      if_false, BigInteger.size, BigInteger.toInt, Bool.not_true, Bool.false_xor, if_true]
    by_cases hl : a.data_.length = b.data_.length
    · simp only [hl, not_true_eq_false, if_false]
      rw [ltLoop_spec _ _ _ (by simpa using hl) (InRange.reverse_iff.mpr ha.1)
        (InRange.reverse_iff.mpr hb.1)]
      simp only [List.reverse_reverse, Bool.not_true, Bool.false_xor]
      by_cases he : limbsVal a.data_ = limbsVal b.data_
      · simp [he]
      · simp [he]
    · simp only [hl, not_false_eq_true, if_true]
      rcases lt_or_gt_of_ne hl with h | h
      · have := mag_lt_of_length_lt ha hb h
        simp [h, this]
      · have := mag_lt_of_length_lt hb ha h
        have h2 : ¬ (limbsVal a.data_ < limbsVal b.data_) := by omega
        have h3 : ¬ a.data_.length < b.data_.length := by omega
        simp [h3, h2]

theorem BigInteger.gt_spec {a b : BigInteger} (ha : Normalised a) (hb : Normalised b) :
    a.gt b = decide (b.toInt < a.toInt) := BigInteger.lt_spec hb ha

theorem BigInteger.le_spec {a b : BigInteger} (ha : Normalised a) (hb : Normalised b) :
    a.le b = decide (a.toInt ≤ b.toInt) := by
  simp only [BigInteger.le, BigInteger.gt_spec ha hb]
  by_cases h : b.toInt < a.toInt
  · have : ¬ a.toInt ≤ b.toInt := by omega
    simp [h, this]
  · have : a.toInt ≤ b.toInt := by omega
    simp [h, this]

theorem BigInteger.ge_spec {a b : BigInteger} (ha : Normalised a) (hb : Normalised b) :
    a.ge b = decide (b.toInt ≤ a.toInt) := by
  simp only [BigInteger.ge, BigInteger.lt_spec ha hb]
  by_cases h : a.toInt < b.toInt
  · have : ¬ b.toInt ≤ a.toInt := by omega
    simp [h, this]
  · have : b.toInt ≤ a.toInt := by omega
    simp [h, this]

theorem BigInteger.eq_spec {a b : BigInteger} (ha : Normalised a) (hb : Normalised b) :
    a.eq b = decide (a.toInt = b.toInt) := by
  simp only [BigInteger.eq, BigInteger.gt_spec ha hb, BigInteger.lt_spec ha hb]
  rcases lt_trichotomy a.toInt b.toInt with h | h | h
  · have h1 : ¬ b.toInt < a.toInt := by omega
    have h2 : ¬ a.toInt = b.toInt := by omega
    simp [h, h1, h2]
  · simp [h]
  · have h1 : ¬ a.toInt < b.toInt := by omega
    have h2 : ¬ a.toInt = b.toInt := by omega
    simp [h, h1, h2]

theorem BigInteger.toBool_spec {a : BigInteger} (ha : Normalised a) :
    a.toBool = decide (a.toInt ≠ 0) := by
  simp only [BigInteger.toBool, BigInteger.ne, BigInteger.eq_spec ha (canon_normalised 0),
    ofLongLong_zero, canon_toInt]
  by_cases h : a.toInt = 0 <;> simp [h]

theorem BigInteger.neg_spec {a : BigInteger} (ha : Normalised a) :
    Normalised a.neg ∧ a.neg.toInt = - a.toInt := by
  by_cases h : a.toInt = 0
  · have : a.toBool = false := by rw [BigInteger.toBool_spec ha]; simp [h]
    simp only [BigInteger.neg, this]
    exact ⟨ha, by simp [h]⟩
  · have hb : a.toBool = true := by rw [BigInteger.toBool_spec ha]; simp [h]
    simp only [BigInteger.neg, hb, if_true]
    rcases ha.cases with ⟨h0, hp⟩ | ⟨hl, hne⟩
    · exfalso; apply h; simp [BigInteger.toInt, h0, limbsVal]
    · refine ⟨Normalised.of_lead ha.1 hl hne, ?_⟩
      cases hs : a.isPositive <;> simp [BigInteger.toInt, hs]

/-! ## The loops of `+=` and `-=` -/

theorem limbsVal_headD_tail (ys : List Int) :
    limbsVal ys = ys.headD 0 + BASE * limbsVal ys.tail := by
  cases ys <;> simp [limbsVal]

theorem InRange.tail_range {ys : List Int} (h : InRange ys) : InRange ys.tail := by
  cases ys with
  | nil => exact h
  | cons y ys => exact (InRange.cons_iff.mp h).2

theorem InRange.headD {ys : List Int} (h : InRange ys) : 0 ≤ ys.headD 0 ∧ ys.headD 0 < BASE := by
  cases ys with
  | nil => simp [BASE_eq]
  | cons y ys => exact (InRange.cons_iff.mp h).1

theorem addLoopTail_spec : ∀ (ys : List Int) (c : Bool), InRange ys →
    InRange (addLoopTail ys c) ∧
      limbsVal (addLoopTail ys c) = limbsVal ys + (if c then 1 else 0) ∧
      (addLoopTail ys c = [] → ys = [] ∧ c = false) ∧
      (Lead ys → Lead (addLoopTail ys c)) := by
  intro ys
  induction ys with
  | nil =>
    intro c _
    cases c
    · simp [addLoopTail, InRange.empty, limbsVal, Lead.nil]
    · simp [addLoopTail, InRange, limbsVal, Lead, BASE_eq]
  | cons y ys ih =>
    intro c h
    rw [InRange.cons_iff] at h
    obtain ⟨hy, hys⟩ := h
    simp only [BASE_eq] at hy
    obtain ⟨i1, i2, i3, i4⟩ := ih (decide (0 + ((if c then 1 else 0) + y) ≥ BASE)) hys
    have hc : (0 : Int) ≤ (if c then 1 else 0) ∧ (if c then (1 : Int) else 0) ≤ 1 := by
      cases c <;> simp
    simp only [addLoopTail]
    generalize (if c then (1 : Int) else 0) = cv at *
    refine ⟨?_, ?_, by simp, ?_⟩
    · rw [InRange.cons_iff]
      refine ⟨?_, i1⟩
      simp only [BASE_eq]
      split <;> omega
    · simp only [BASE_eq] at i2 ⊢
      by_cases hge : 0 + (cv + y) ≥ 10000
      · simp only [hge, if_true, decide_True] at i2 ⊢
        simp only [limbsVal, BASE_eq]; omega
      · simp only [hge, if_false, decide_False, Bool.false_eq_true] at i2 ⊢
        simp only [limbsVal, BASE_eq]; omega
    · intro hl
      by_cases hnil : addLoopTail ys (decide (0 + (cv + y) ≥ BASE)) = []
      · obtain ⟨e1, e2⟩ := i3 hnil
        subst e1
        rw [hnil]
        have hy0 := Lead.head_ne hl
        simp only [BASE_eq, decide_eq_false_iff_not] at e2
        simp only [BASE_eq, e2, if_false]
        exact Lead.single (by omega)
      · exact Lead.cons_of_ne_nil hnil (i4 hl.tail)

theorem addLoopTail_false {ys : List Int} (h : InRange ys) : addLoopTail ys false = ys := by
  induction ys with
  | nil => rfl
  | cons y ys ih =>
    rw [InRange.cons_iff] at h
    have : ¬ (y ≥ BASE) := by have := h.1.2; omega
    simp [addLoopTail, this, ih h.2]

theorem LeadPair.tail_pair {x : Int} {xs ys : List Int} (h : LeadPair (x :: xs) ys) :
    LeadPair xs ys.tail := by
  obtain ⟨h1, h2, h3⟩ := h
  cases ys with
  | nil =>
    refine ⟨fun hl => by simp at hl, fun hl => ?_, fun _ => Or.inr Lead.nil⟩
    exact (h2 (by simp)).tail
  | cons y ys =>
    simp only [List.length_cons, Nat.add_lt_add_iff_right, Nat.add_right_cancel_iff] at h1 h2 h3
    refine ⟨fun hl => (h1 hl).tail, fun hl => (h2 hl).tail, fun hl => ?_⟩
    rcases h3 hl with h | h
    · exact Or.inl h.tail
    · exact Or.inr h.tail

theorem addLoop_spec : ∀ (xs ys : List Int) (c : Bool), InRange xs → InRange ys →
    InRange (addLoop xs ys c) ∧
      limbsVal (addLoop xs ys c) = limbsVal xs + limbsVal ys + (if c then 1 else 0) ∧
      (addLoop xs ys c = [] → xs = [] ∧ ys = [] ∧ c = false) ∧
      (LeadPair xs ys → Lead (addLoop xs ys c)) := by
  intro xs
  induction xs with
  | nil =>
    intro ys c _ hy
    obtain ⟨i1, i2, i3, i4⟩ := addLoopTail_spec ys c hy
    have e : addLoop [] ys c = addLoopTail ys c := rfl
    rw [e]
    refine ⟨i1, by simp only [i2, limbsVal]; omega, fun h => ⟨rfl, i3 h⟩, fun h => i4 ?_⟩
    cases ys with
    | nil => exact Lead.nil
    | cons y ys => exact h.1 (by simp)
  | cons x xs ih =>
    intro ys c hx hy
    rw [InRange.cons_iff] at hx
    obtain ⟨hx, hxs⟩ := hx
    simp only [BASE_eq] at hx
    have hy0 := hy.headD
    simp only [BASE_eq] at hy0
    have hv := limbsVal_headD_tail ys
    obtain ⟨i1, i2, i3, i4⟩ := ih ys.tail
      (decide (x + ((if c then 1 else 0) + ys.headD 0) ≥ BASE)) hxs hy.tail_range
    have hc : (0 : Int) ≤ (if c then 1 else 0) ∧ (if c then (1 : Int) else 0) ≤ 1 := by
      cases c <;> simp
    simp only [addLoop]
    generalize (if c then (1 : Int) else 0) = cv at *
    refine ⟨?_, ?_, by simp, ?_⟩
    · rw [InRange.cons_iff]
      refine ⟨?_, i1⟩
      simp only [BASE_eq]
      split <;> omega
    · simp only [BASE_eq] at i2 hv ⊢
      by_cases hge : x + (cv + ys.headD 0) ≥ 10000
      · simp only [hge, if_true, decide_True] at i2 ⊢
        simp only [limbsVal, BASE_eq]; omega
      · simp only [hge, if_false, decide_False, Bool.false_eq_true] at i2 ⊢
        simp only [limbsVal, BASE_eq]; omega
    · intro hl
      by_cases hnil : addLoop xs ys.tail (decide (x + (cv + ys.headD 0) ≥ BASE)) = []
      · obtain ⟨e1, e2, e3⟩ := i3 hnil
        subst e1
        rw [hnil]
        simp only [BASE_eq, decide_eq_false_iff_not] at e3
        simp only [BASE_eq, e3, if_false]
        apply Lead.single
        cases ys with
        | nil =>
          have := Lead.head_ne (hl.2.1 (by simp))
          simp only [List.headD_nil]; omega
        | cons y ys =>
          simp only [List.tail_cons] at e2
          subst e2
          simp only [List.headD_cons] at hy0 ⊢
          rcases hl.2.2 rfl with h | h
          · have := Lead.head_ne h; omega
          · have := Lead.head_ne h; omega
      · exact Lead.cons_of_ne_nil hnil (i4 hl.tail_pair)

theorem subLoop_spec : ∀ (xs ys : List Int) (c : Bool), InRange xs → InRange ys →
    limbsVal ys + (if c then 1 else 0) ≤ limbsVal xs →
    InRange (subLoop xs ys c) ∧
      limbsVal (subLoop xs ys c) = limbsVal xs - limbsVal ys - (if c then 1 else 0) ∧
      (xs ≠ [] → subLoop xs ys c ≠ []) := by
  intro xs
  induction xs with
  | nil =>
    intro ys c _ hy h
    have := limbsVal_nonneg hy
    have hc : (0 : Int) ≤ (if c then 1 else 0) := by cases c <;> simp
    simp only [limbsVal] at h
    simp only [subLoop, limbsVal]
    exact ⟨InRange.empty, by omega, fun h => absurd rfl h⟩
  | cons x xs ih =>
    intro ys c hx hy h
    have hx1 := InRange.cons_iff.mp hx
    obtain ⟨hx0, hxs⟩ := hx1
    simp only [BASE_eq] at hx0
    have hy0 := hy.headD
    simp only [BASE_eq] at hy0
    have hv := limbsVal_headD_tail ys
    have hY := limbsVal_nonneg hy.tail_range
    have hX := limbsVal_nonneg hxs
    simp only [limbsVal, BASE_eq] at h hv
    by_cases hcond : ys ≠ [] ∨ c = true
    · have hc : (0 : Int) ≤ (if c then 1 else 0) ∧ (if c then (1 : Int) else 0) ≤ 1 := by
        cases c <;> simp
      have key : limbsVal ys.tail +
          (if decide (x - ((if c then 1 else 0) + ys.headD 0) < 0) = true then 1 else 0)
            ≤ limbsVal xs := by
        by_cases hlt : x - ((if c then 1 else 0) + ys.headD 0) < 0
        · simp only [hlt, decide_True, if_true]; omega
        · simp only [hlt, decide_False, Bool.false_eq_true, if_false]; omega
      obtain ⟨i1, i2, _⟩ := ih ys.tail _ hxs hy.tail_range key
      simp only [subLoop, hcond, if_true]
      generalize (if c then (1 : Int) else 0) = cv at *
      refine ⟨?_, ?_, by simp⟩
      · rw [InRange.cons_iff]
        refine ⟨?_, i1⟩
        simp only [BASE_eq]
        split <;> omega
      · by_cases hlt : x - (cv + ys.headD 0) < 0
        · simp only [hlt, if_true, decide_True] at i2 ⊢
          simp only [limbsVal, BASE_eq]; omega
        · simp only [hlt, if_false, decide_False, Bool.false_eq_true] at i2 ⊢
          simp only [limbsVal, BASE_eq]; omega
    · have h1 : ys = [] := by
        by_contra hne; exact hcond (Or.inl hne)
      have h2 : c = false := by
        cases c
        · rfl
        · exact absurd (Or.inr rfl) hcond
      subst h1 h2
      simp only [subLoop, ne_eq, not_true_eq_false, false_or, Bool.false_eq_true, if_false]
      exact ⟨hx, by simp [limbsVal], by simp⟩

/-! ## Removing leading zero limbs -/

theorem stripRev_spec : ∀ (l : List Int),
    limbsVal (stripRev l).reverse = limbsVal l.reverse ∧
      (InRange l → InRange (stripRev l)) ∧ (l ≠ [] → stripRev l ≠ []) ∧
      ((stripRev l).head? = some 0 → stripRev l = [0]) := by
  intro l
  induction l with
  | nil => simp [stripRev, InRange.empty]
  | cons x l ih =>
    cases l with
    | nil =>
      refine ⟨rfl, fun h => h, fun _ => by simp [stripRev], ?_⟩
      intro h
      simp only [stripRev, List.head?_cons, Option.some.injEq] at h
      simp [stripRev, h]
    | cons y r =>
      by_cases hx : x = 0
      · subst hx
        obtain ⟨i1, i2, i3, i4⟩ := ih
        simp only [stripRev, if_true]
        refine ⟨?_, fun h => i2 (InRange.cons_iff.mp h).2, fun _ => i3 (by simp), i4⟩
        rw [i1]
        simp only [List.reverse_cons, limbsVal_append, limbsVal]
        simp
      · simp only [stripRev, hx, if_false]
        refine ⟨trivial, fun h => h, fun _ => by simp, ?_⟩
        intro h
        simp only [List.head?_cons, Option.some.injEq] at h
        exact absurd h hx

theorem strip_spec (ds : List Int) :
    limbsVal (strip ds) = limbsVal ds ∧ (InRange ds → InRange (strip ds)) ∧
      (ds ≠ [] → strip ds ≠ []) ∧ ((strip ds).getLast? = some 0 → strip ds = [0]) := by
  obtain ⟨i1, i2, i3, i4⟩ := stripRev_spec ds.reverse
  simp only [List.reverse_reverse] at i1
  refine ⟨i1, fun h => ?_, fun h => ?_, fun h => ?_⟩
  · exact InRange.reverse_iff.mpr (i2 (InRange.reverse_iff.mpr h))
  · simp only [strip, ne_eq, List.reverse_eq_nil_iff]
    exact i3 (by simpa using h)
  · simp only [strip, List.getLast?_reverse] at h
    simp [strip, i4 h]

theorem strip_normalised {ds : List Int} (h : InRange ds) (hne : ds ≠ []) (s : Bool) :
    Normalised { data_ := strip ds,
                 isPositive := if (strip ds).getLast? = some 0 then true else s } := by
  obtain ⟨_, i2, i3, i4⟩ := strip_spec ds
  refine ⟨i2 h, i3 hne, fun h0 => ?_⟩
  simp only at h0
  exact ⟨i4 h0, by simp [h0]⟩

/-! ## Addition and subtraction -/

theorem Normalised.pos_of_nonneg {a : BigInteger} (h : Normalised a) (h0 : 0 ≤ a.toInt) :
    a.isPositive = true := by
  cases hs : a.isPositive
  · have := h.mag_pos_of_neg hs
    simp only [BigInteger.toInt, hs] at h0
    simp at h0; omega
  · rfl

theorem Normalised.toInt_of_pos {a : BigInteger} (hs : a.isPositive = true) :
    a.toInt = limbsVal a.data_ := by simp [BigInteger.toInt, hs]

theorem Normalised.toInt_of_neg {a : BigInteger} (hs : a.isPositive = false) :
    a.toInt = - limbsVal a.data_ := by simp [BigInteger.toInt, hs]

theorem Normalised.toInt_neg_of_neg {a : BigInteger} (h : Normalised a)
    (hs : a.isPositive = false) : a.toInt < 0 := by
  have := h.mag_pos_of_neg hs
  rw [Normalised.toInt_of_neg hs]; omega

theorem Normalised.setNegative {r : BigInteger} (h : Normalised r) (hpos : 0 < r.toInt) :
    Normalised { r with isPositive := false } ∧
      ({ r with isPositive := false } : BigInteger).toInt = - r.toInt := by
  have hs := h.pos_of_nonneg (le_of_lt hpos)
  rw [Normalised.toInt_of_pos hs] at hpos ⊢
  rcases h.cases with ⟨h0, _⟩ | ⟨hl, hne⟩
  · rw [h0] at hpos; simp [limbsVal] at hpos
  · exact ⟨Normalised.of_lead h.1 hl hne, by simp [BigInteger.toInt]⟩

theorem Normalised.leadPair {a b : BigInteger} (ha : Normalised a) (hb : Normalised b)
    (h : Lead a.data_ ∨ Lead b.data_) : LeadPair a.data_ b.data_ := by
  refine ⟨fun hl => hb.lead_of_length ?_, fun hl => ha.lead_of_length ?_, fun _ => h⟩
  · have := ha.length_pos; omega
  · have := hb.length_pos; omega

theorem add_same {a b : BigInteger} (ha : Normalised a) (hb : Normalised b)
    (hs : a.isPositive = b.isPositive) (f : Nat) :
    ∃ r, BigInteger.addAssign (f + 1) a b = some r ∧ Normalised r ∧
      r.toInt = a.toInt + b.toInt := by
  obtain ⟨i1, i2, i3, i4⟩ := addLoop_spec a.data_ b.data_ false ha.1 hb.1
  refine ⟨{ a with data_ := addLoop a.data_ b.data_ false }, ?_, ?_, ?_⟩
  · simp [BigInteger.addAssign, hs]
  · refine ⟨i1, fun h => ha.2.1 (i3 h).1, fun h0 => ?_⟩
    simp only at h0 ⊢
    rcases ha.cases with ⟨a0, ap⟩ | ⟨al, _⟩
    · rcases hb.cases with ⟨b0, _⟩ | ⟨bl, _⟩
      · refine ⟨?_, ap⟩
        rw [a0, b0]; decide
      · exact absurd h0 (i4 (ha.leadPair hb (Or.inr bl)))
    · exact absurd h0 (i4 (ha.leadPair hb (Or.inl al)))
  · simp only [BigInteger.toInt, i2, ← hs]
    cases a.isPositive <;> simp
    omega

theorem sub_pos_ge {a b : BigInteger} (ha : Normalised a) (hb : Normalised b)
    (hsa : a.isPositive = true) (hsb : b.isPositive = true) (h : b.toInt ≤ a.toInt) (f : Nat) :
    ∃ r, BigInteger.subAssign (f + 1) a b = some r ∧ Normalised r ∧
      r.toInt = a.toInt - b.toInt := by
  have hlt : a.lt b = false := by
    rw [BigInteger.lt_spec ha hb]; simp; exact h
  have h' := h
  rw [Normalised.toInt_of_pos hsa, Normalised.toInt_of_pos hsb] at h' ⊢
  obtain ⟨i1, i2, i3⟩ := subLoop_spec a.data_ b.data_ false ha.1 hb.1 (by simpa using h')
  refine ⟨_, ?_, strip_normalised i1 (i3 ha.2.1) a.isPositive, ?_⟩
  · simp [BigInteger.subAssign, hsb, hlt]
  · have hv := (strip_spec (subLoop a.data_ b.data_ false)).1
    simp only [BigInteger.toInt, hsa]
    split <;> simp [hv, i2]

theorem sub_pos {a b : BigInteger} (ha : Normalised a) (hb : Normalised b)
    (hsa : a.isPositive = true) (hsb : b.isPositive = true) (f : Nat) :
    ∃ r, BigInteger.subAssign (f + 2) a b = some r ∧ Normalised r ∧
      r.toInt = a.toInt - b.toInt := by
  by_cases h : a.toInt < b.toInt
  · have hlt : a.lt b = true := by rw [BigInteger.lt_spec ha hb]; simpa using h
    obtain ⟨r, e, hn, hv⟩ := sub_pos_ge hb ha hsb hsa (le_of_lt h) f
    obtain ⟨n1, n2⟩ := hn.setNegative (by omega)
    refine ⟨{ r with isPositive := false }, ?_, n1, by rw [n2, hv]; omega⟩
    rw [BigInteger.subAssign]
    simp [hsb, hlt, e]
  · exact sub_pos_ge ha hb hsa hsb (by omega) (f + 1)

theorem add_spec {a b : BigInteger} (ha : Normalised a) (hb : Normalised b) (f : Nat) :
    ∃ r, BigInteger.addAssign (f + 3) a b = some r ∧ Normalised r ∧
      r.toInt = a.toInt + b.toInt := by
  by_cases hs : a.isPositive = b.isPositive
  · exact add_same ha hb hs (f + 2)
  · cases hsa : a.isPositive
    · have hsb : b.isPositive = true := by
        cases hb' : b.isPositive
        · rw [hsa, hb'] at hs; exact absurd rfl hs
        · rfl
      obtain ⟨n1, n2⟩ := BigInteger.neg_spec ha
      have hp : a.neg.isPositive = true :=
        n1.pos_of_nonneg (by rw [n2]; have := ha.toInt_neg_of_neg hsa; omega)
      obtain ⟨r, e, hn, hv⟩ := sub_pos hb n1 hsb hp f
      refine ⟨r, ?_, hn, by rw [hv, n2]; omega⟩
      rw [BigInteger.addAssign]
      simp [hsa, hsb, e]
    · have hsb : b.isPositive = false := by
        cases hb' : b.isPositive
        · rfl
        · rw [hsa, hb'] at hs; exact absurd rfl hs
      obtain ⟨n1, n2⟩ := BigInteger.neg_spec hb
      have hp : b.neg.isPositive = true :=
        n1.pos_of_nonneg (by rw [n2]; have := hb.toInt_neg_of_neg hsb; omega)
      obtain ⟨r, e, hn, hv⟩ := sub_pos ha n1 hsa hp f
      refine ⟨r, ?_, hn, by rw [hv, n2]; omega⟩
      rw [BigInteger.addAssign]
      simp [hsa, hsb, e]

theorem sub_spec {a b : BigInteger} (ha : Normalised a) (hb : Normalised b) (f : Nat) :
    ∃ r, BigInteger.subAssign (f + 4) a b = some r ∧ Normalised r ∧
      r.toInt = a.toInt - b.toInt := by
  cases hsb : b.isPositive
  · obtain ⟨n1, n2⟩ := BigInteger.neg_spec hb
    obtain ⟨r, e, hn, hv⟩ := add_spec ha n1 f
    refine ⟨r, ?_, hn, by rw [hv, n2]; omega⟩
    rw [BigInteger.subAssign]
    simp [hsb, e]
  · cases hsa : a.isPositive
    · have hneg := ha.toInt_neg_of_neg hsa
      have hB : 0 ≤ b.toInt := by rw [Normalised.toInt_of_pos hsb]; exact hb.mag_nonneg
      have hlt : a.lt b = true := by
        rw [BigInteger.lt_spec ha hb]; simp; omega
      obtain ⟨n1, n2⟩ := BigInteger.neg_spec ha
      obtain ⟨r, e, hn, hv⟩ := add_same hb n1
        (by rw [hsb, n1.pos_of_nonneg (by rw [n2]; omega)]) (f + 1)
      obtain ⟨m1, m2⟩ := hn.setNegative (by rw [hv, n2]; omega)
      refine ⟨{ r with isPositive := false }, ?_, m1, by rw [m2, hv, n2]; omega⟩
      rw [BigInteger.subAssign]
      simp only [hsb, hlt, Bool.not_true, Bool.false_eq_true, if_false, if_true]
      rw [BigInteger.subAssign]
      simp [hsa, e]
    · exact sub_pos ha hb hsa hsb (f + 2)

/-! ## Multiplication -/

theorem mulRow_spec (d : Int) (hd : 0 ≤ d) : ∀ (rs other : List Int) (carry : Int),
    InRange rs → InRange other → 0 ≤ carry →
    limbsVal rs + carry + d * limbsVal other < BASE ^ rs.length →
    InRange (mulRow d rs other carry) ∧
      limbsVal (mulRow d rs other carry) = limbsVal rs + carry + d * limbsVal other ∧
      (mulRow d rs other carry).length = rs.length := by
  intro rs
  induction rs with
  | nil =>
    intro other carry _ ho hc h
    have h1 : 0 ≤ d * limbsVal other := mul_nonneg hd (limbsVal_nonneg ho)
    simp only [limbsVal, List.length_nil, pow_zero] at h
    simp only [mulRow, limbsVal]
    exact ⟨InRange.empty, by omega, by simp⟩
  | cons r rs ih =>
    intro other carry hr ho hc h
    obtain ⟨hr0, hrs⟩ := InRange.cons_iff.mp hr
    have hR := limbsVal_nonneg hrs
    simp only [BASE_eq] at hr0
    cases other with
    | nil =>
      simp only [limbsVal, List.length_cons, pow_succ, BASE_eq, mul_zero, add_zero] at h ⊢
      by_cases hcond : carry ≠ 0
      · rw [mulRow, if_pos hcond, add_zero]
        have hres : 0 ≤ r + carry := by omega
        rw [Int.tmod_eq_emod hres (by decide), Int.tdiv_eq_ediv hres (by decide)]
        have hpre : limbsVal rs + (r + carry) / 10000 + d * limbsVal [] < BASE ^ rs.length := by
          simp only [BASE_eq, limbsVal, mul_zero, add_zero]; omega
        obtain ⟨i1, i2, i3⟩ := ih [] _ hrs InRange.empty (by omega) hpre
        simp only [limbsVal, mul_zero, add_zero] at i2
        simp only [BASE_eq] at i1 i2 i3 ⊢
        refine ⟨?_, ?_, by simp [i3]⟩
        · rw [InRange.cons_iff]; exact ⟨by simp only [BASE_eq]; omega, i1⟩
        · simp only [limbsVal, i2, BASE_eq]; omega
      · rw [mulRow, if_neg hcond]
        have h2 : carry = 0 := by
          by_contra hne; exact hcond hne
        subst h2
        exact ⟨hr, by simp [limbsVal, BASE_eq], by simp⟩
    | cons o os =>
      obtain ⟨ho0, hos⟩ := InRange.cons_iff.mp ho
      have hT : 0 ≤ d * limbsVal os := mul_nonneg hd (limbsVal_nonneg hos)
      have hO : 0 ≤ d * o := mul_nonneg hd ho0.1
      have hmul : d * limbsVal (o :: os) = d * o + 10000 * (d * limbsVal os) := by
        simp only [limbsVal, BASE_eq]; ring
      rw [mulRow]
      have hres : 0 ≤ r + carry + d * o := by omega
      rw [Int.tmod_eq_emod hres (by decide), Int.tdiv_eq_ediv hres (by decide)]
      rw [hmul] at h ⊢
      simp only [limbsVal, List.length_cons, pow_succ, BASE_eq] at h ⊢
      have hpre : limbsVal rs + (r + carry + d * o) / 10000 + d * limbsVal os
          < BASE ^ rs.length := by
        simp only [BASE_eq]; omega
      obtain ⟨i1, i2, i3⟩ := ih os _ hrs hos (by omega) hpre
      refine ⟨?_, ?_, by simp [i3]⟩
      · rw [InRange.cons_iff]; exact ⟨by simp only [BASE_eq]; omega, i1⟩
      · simp only [i2]; omega

theorem mulLoop_spec (other : List Int) (ho : InRange other) : ∀ (ds result : List Int),
    InRange ds → InRange result →
    limbsVal result + limbsVal ds * limbsVal other < BASE ^ result.length →
    InRange (mulLoop ds other result) ∧
      limbsVal (mulLoop ds other result) = limbsVal result + limbsVal ds * limbsVal other ∧
      (mulLoop ds other result).length = result.length := by
  intro ds
  induction ds with
  | nil =>
    intro result _ hr _
    simp only [mulLoop, limbsVal]
    exact ⟨hr, by simp, by simp⟩
  | cons d ds ih =>
    intro result hds hr h
    obtain ⟨hd0, hds'⟩ := InRange.cons_iff.mp hds
    have hV := limbsVal_nonneg ho
    have hD := limbsVal_nonneg hds'
    have hDV : 0 ≤ limbsVal ds * limbsVal other := mul_nonneg hD hV
    have hdV : 0 ≤ d * limbsVal other := mul_nonneg hd0.1 hV
    have hmul : limbsVal (d :: ds) * limbsVal other
        = d * limbsVal other + 10000 * (limbsVal ds * limbsVal other) := by
      simp only [limbsVal, BASE_eq]; ring
    rw [hmul] at h ⊢
    obtain ⟨i1, i2, i3⟩ := mulRow_spec d hd0.1 result other 0 hr ho (le_refl 0) (by omega)
    simp only [mulLoop]
    cases hrow : mulRow d result other 0 with
    | nil =>
      rw [hrow] at i3
      have hnil : result = [] := List.length_eq_zero.mp i3.symm
      subst hnil
      simp only [limbsVal, List.length_nil, pow_zero] at h ⊢
      exact ⟨InRange.empty, by omega, by simp⟩
    | cons r rs =>
      rw [hrow] at i1 i2 i3
      obtain ⟨hr0, hrs⟩ := InRange.cons_iff.mp i1
      simp only [BASE_eq] at hr0
      simp only [limbsVal, BASE_eq] at i2
      simp only [List.length_cons] at i3
      rw [← i3] at h
      simp only [pow_succ, BASE_eq] at h
      obtain ⟨j1, j2, j3⟩ := ih rs hds' hrs (by simp only [BASE_eq]; omega)
      simp only
      refine ⟨?_, ?_, by simp [j3, i3]⟩
      · rw [InRange.cons_iff]; exact ⟨by simp only [BASE_eq]; omega, j1⟩
      · simp only [limbsVal, j2, BASE_eq]; omega

theorem InRange.replicate_zero (n : Nat) : InRange (List.replicate n 0) := by
  intro d hd
  rw [List.mem_replicate] at hd
  rw [hd.2]; decide

theorem Normalised.mag_eq_zero_iff {a : BigInteger} (_h : Normalised a) :
    a.toInt = 0 ↔ limbsVal a.data_ = 0 := by
  cases hs : a.isPositive <;> simp [BigInteger.toInt, hs]

theorem BigInteger.mulAssign_spec {a b : BigInteger} (ha : Normalised a) (hb : Normalised b) :
    Normalised (a.mulAssign b) ∧ (a.mulAssign b).toInt = a.toInt * b.toInt ∧
      ((a.mulAssign b).isPositive = true ↔
        (a.isPositive = b.isPositive ∨ a.toInt * b.toInt = 0)) := by
  by_cases hz : a.toInt = 0 ∨ b.toInt = 0
  · have hcond : (!a.toBool || !b.toBool) = true := by
      rw [BigInteger.toBool_spec ha, BigInteger.toBool_spec hb]
      rcases hz with h | h <;> simp [h]
    have hprod : a.toInt * b.toInt = 0 := by
      rcases hz with h0 | h0 <;> simp [h0]
    simp only [BigInteger.mulAssign, hcond, if_true, hprod, ofLongLong_zero]
    exact ⟨by decide, by decide, by simp⟩
  · have ha0 : a.toInt ≠ 0 := fun h => hz (Or.inl h)
    have hb0 : b.toInt ≠ 0 := fun h => hz (Or.inr h)
    have hcond : (!a.toBool || !b.toBool) = false := by
      rw [BigInteger.toBool_spec ha, BigInteger.toBool_spec hb]
      simp [ha0, hb0]
    have hA : 0 < limbsVal a.data_ :=
      lt_of_le_of_ne ha.mag_nonneg (fun h => ha0 (ha.mag_eq_zero_iff.mpr h.symm))
    have hB : 0 < limbsVal b.data_ :=
      lt_of_le_of_ne hb.mag_nonneg (fun h => hb0 (hb.mag_eq_zero_iff.mpr h.symm))
    have hlt : limbsVal (List.replicate (a.size + b.size) 0) + limbsVal a.data_ * limbsVal b.data_
        < BASE ^ (List.replicate (a.size + b.size) (0 : Int)).length := by
      rw [limbsVal_replicate_zero, List.length_replicate, pow_add, zero_add]
      exact mul_lt_mul'' (limbsVal_lt_pow ha.1) (limbsVal_lt_pow hb.1) (le_of_lt hA) (le_of_lt hB)
    obtain ⟨i1, i2, i3⟩ := mulLoop_spec b.data_ hb.1 a.data_ _ ha.1
      (InRange.replicate_zero _) hlt
    rw [limbsVal_replicate_zero, zero_add] at i2
    obtain ⟨s1, s2, s3, s4⟩ := strip_spec (mulLoop a.data_ b.data_
      (List.replicate (a.size + b.size) 0))
    have hprod : 0 < limbsVal a.data_ * limbsVal b.data_ := mul_pos hA hB
    have hne : mulLoop a.data_ b.data_ (List.replicate (a.size + b.size) 0) ≠ [] := by
      intro e
      rw [e] at i2
      simp only [limbsVal] at i2
      omega
    have hlead : Lead (strip (mulLoop a.data_ b.data_ (List.replicate (a.size + b.size) 0))) := by
      intro h0
      rw [s4 h0] at s1
      simp only [limbsVal] at s1
      omega
    simp only [BigInteger.mulAssign, hcond, Bool.false_eq_true, if_false,
      BigInteger.sign_number]
    refine ⟨Normalised.of_lead (s2 i1) hlead (s3 hne), ?_, ?_⟩
    · simp only [BigInteger.toInt, s1, i2]
      rcases Bool.eq_false_or_eq_true a.isPositive with hsa | hsa <;>
        rcases Bool.eq_false_or_eq_true b.isPositive with hsb | hsb <;> simp [hsa, hsb]
    · have : a.toInt * b.toInt ≠ 0 := mul_ne_zero ha0 hb0
      simp [this]

theorem BigInteger.mul_spec {a b : BigInteger} (ha : Normalised a) (hb : Normalised b) :
    Normalised (a.mul b) ∧ (a.mul b).toInt = a.toInt * b.toInt :=
  ⟨(BigInteger.mulAssign_spec ha hb).1, (BigInteger.mulAssign_spec ha hb).2.1⟩

/-! ## Division by a positive number -/

theorem bsearch_spec {other x : BigInteger} (ho : Normalised other) (hx : Normalised x) :
    ∀ (fuel : Nat) (left right : Int), 0 ≤ left → left < right → right ≤ 10000 →
      right - left ≤ fuel →
      left * other.toInt ≤ x.toInt → x.toInt < right * other.toInt →
      left ≤ bsearch other x fuel left right ∧ bsearch other x fuel left right < right ∧
        bsearch other x fuel left right * other.toInt ≤ x.toInt ∧
        x.toInt < (bsearch other x fuel left right + 1) * other.toInt := by
  intro fuel
  induction fuel with
  | zero => intro left right _ h1 _ h2 _ _; simp at h2; omega
  | succ fuel ih =>
    intro left right h0 h1 hr h2 h3 h4
    push_cast at h2
    by_cases hlt : left < right - 1
    · have hmid : (right + left).tdiv 2 = (right + left) / 2 :=
        Int.tdiv_eq_ediv (by omega) (by decide)
      have hm0 : 0 ≤ (right + left) / 2 := by omega
      have hm1 : (right + left) / 2 ≤ 10000 := by omega
      have hm := BigInteger.mul_spec (ofLongLong_small_normalised hm0 hm1) ho
      rw [ofLongLong_small_toInt hm0 hm1] at hm
      by_cases htest : (right + left) / 2 * other.toInt ≤ x.toInt
      · have hle : ((BigInteger.ofLongLong ((right + left) / 2)).mul other).le x = true := by
          rw [BigInteger.le_spec hm.1 hx, hm.2]; simpa using htest
        obtain ⟨i1, i2, i3, i4⟩ := ih ((right + left) / 2) right (by omega) (by omega) hr
          (by omega) htest h4
        simp only [bsearch, hlt, if_true, hmid, hle]
        exact ⟨by omega, i2, i3, i4⟩
      · have hle : ((BigInteger.ofLongLong ((right + left) / 2)).mul other).le x = false := by
          rw [BigInteger.le_spec hm.1 hx, hm.2]; simpa using htest
        obtain ⟨i1, i2, i3, i4⟩ := ih left ((right + left) / 2) h0 (by omega) (by omega)
          (by omega) h3 (by omega)
        simp only [bsearch, hlt, if_true, hmid, hle, Bool.false_eq_true, if_false]
        exact ⟨i1, by omega, i3, i4⟩
    · have hr1 : right = left + 1 := by omega
      subst hr1
      simp only [bsearch, hlt, if_false]
      exact ⟨le_refl _, by omega, h3, h4⟩

theorem divLoop_spec {other : BigInteger} (ho : Normalised other) (hpos : 0 < other.toInt)
    (g : Nat) : ∀ (ds : List Int) (result x : BigInteger), InRange ds →
      Normalised result → Normalised x → 0 ≤ result.toInt → 0 ≤ x.toInt →
      x.toInt < other.toInt →
      ∃ r, divLoop (g + 1) other ds result x = some r ∧ Normalised r.1 ∧ Normalised r.2 ∧
        0 ≤ r.1.toInt ∧ 0 ≤ r.2.toInt ∧ r.2.toInt < other.toInt ∧
        r.1.toInt * other.toInt + r.2.toInt =
          (result.toInt * other.toInt + x.toInt) * BASE ^ ds.length + limbsVal ds.reverse := by
  intro ds
  induction ds with
  | nil =>
    intro result x _ hr hx hr0 hx0 hxb
    exact ⟨(result, x), rfl, hr, hx, hr0, hx0, hxb, by simp [limbsVal]⟩
  | cons d ds ih =>
    intro result x hds hr hx hr0 hx0 hxb
    obtain ⟨hd0, hds'⟩ := InRange.cons_iff.mp hds
    simp only [BASE_eq] at hd0
    have hop : other.isPositive = true := ho.pos_of_nonneg (le_of_lt hpos)
    -- x *= BASE
    have hBn : Normalised (BigInteger.ofLongLong BASE) :=
      ofLongLong_small_normalised (by decide) (by decide)
    have hBv : (BigInteger.ofLongLong BASE).toInt = BASE :=
      ofLongLong_small_toInt (by decide) (by decide)
    have hdn : Normalised (BigInteger.ofLongLong d) :=
      ofLongLong_small_normalised hd0.1 (by omega)
    have hdv : (BigInteger.ofLongLong d).toInt = d :=
      ofLongLong_small_toInt hd0.1 (by omega)
    obtain ⟨x1n, x1v, _⟩ := BigInteger.mulAssign_spec hx hBn
    rw [hBv] at x1v
    have x1p : (x.mulAssign (BigInteger.ofLongLong BASE)).isPositive = true :=
      x1n.pos_of_nonneg (by rw [x1v, BASE_eq]; omega)
    -- x += data_[i]
    have dp : (BigInteger.ofLongLong d).isPositive = true :=
      hdn.pos_of_nonneg (by rw [hdv]; exact hd0.1)
    obtain ⟨x2, ex2, x2n, x2v⟩ := add_same x1n hdn (by rw [x1p, dp]) g
    rw [x1v, hdv, BASE_eq] at x2v
    -- result *= BASE
    obtain ⟨r1n, r1v', _⟩ := BigInteger.mulAssign_spec hr hBn
    have r1v : (result.mulAssign (BigInteger.ofLongLong BASE)).toInt = result.toInt * 10000 := by
      rw [r1v', hBv, BASE_eq]
    have r1p : (result.mulAssign (BigInteger.ofLongLong BASE)).isPositive = true :=
      r1n.pos_of_nonneg (by rw [r1v]; omega)
    have hval : limbsVal (d :: ds).reverse = limbsVal ds.reverse + BASE ^ ds.length * d := by
      simp [List.reverse_cons, limbsVal_append, limbsVal]
    by_cases hge : other.toInt ≤ x2.toInt
    · have hge' : x2.ge other = true := by
        rw [BigInteger.ge_spec x2n ho]; simpa using hge
      have hbs := bsearch_spec ho x2n BASE.toNat 0 BASE (le_refl 0) (by decide) (by decide)
        (by decide) (by omega) (by rw [x2v, BASE_eq]; omega)
      obtain ⟨q, hq⟩ : ∃ q, bsearch other x2 BASE.toNat 0 BASE = q := ⟨_, rfl⟩
      rw [hq] at hbs
      obtain ⟨q0, q1, q2, q3⟩ := hbs
      have q1' : q ≤ 10000 := by rw [BASE_eq] at q1; omega
      have hqn : Normalised (BigInteger.ofLongLong q) := ofLongLong_small_normalised q0 q1'
      have hqv : (BigInteger.ofLongLong q).toInt = q := ofLongLong_small_toInt q0 q1'
      have qp : (BigInteger.ofLongLong q).isPositive = true :=
        hqn.pos_of_nonneg (by rw [hqv]; exact q0)
      -- result += left
      obtain ⟨r2, er2, r2n, r2v⟩ := add_same r1n hqn (by rw [r1p, qp]) g
      rw [r1v, hqv] at r2v
      -- x -= left * other
      obtain ⟨pn, pv⟩ := BigInteger.mul_spec hqn ho
      rw [hqv] at pv
      have pp : ((BigInteger.ofLongLong q).mul other).isPositive = true :=
        pn.pos_of_nonneg (by rw [pv]; exact mul_nonneg q0 (le_of_lt hpos))
      have x2p : x2.isPositive = true := x2n.pos_of_nonneg (by omega)
      obtain ⟨x3, ex3, x3n, x3v⟩ := sub_pos_ge x2n pn x2p pp (by rw [pv]; exact q2) g
      rw [pv] at x3v
      obtain ⟨r, er, i1, i2, i3, i4, i5, i6⟩ := ih r2 x3 hds' r2n x3n (by omega)
        (by omega) (by rw [x3v]; linarith)
      refine ⟨r, ?_, i1, i2, i3, i4, i5, ?_⟩
      · rw [divLoop]
        simp only [ex2, hge', if_true, hq, er2, ex3, er]
      · rw [i6, hval, r2v, x3v, x2v, List.length_cons, pow_succ, BASE_eq]
        ring
    · have hge' : x2.ge other = false := by
        rw [BigInteger.ge_spec x2n ho]; simpa using hge
      obtain ⟨r, er, i1, i2, i3, i4, i5, i6⟩ := ih _ x2 hds' r1n x2n (by rw [r1v]; omega)
        (by omega) (by omega)
      refine ⟨r, ?_, i1, i2, i3, i4, i5, ?_⟩
      · rw [divLoop]
        simp only [ex2, hge', Bool.false_eq_true, if_false, er]
      · rw [i6, hval, r1v, x2v, List.length_cons, pow_succ, BASE_eq]
        ring

theorem divAssign_nonneg {a b : BigInteger} (ha : Normalised a) (hb : Normalised b)
    (ha0 : 0 ≤ a.toInt) (hb0 : 0 < b.toInt) (g : Nat) :
    ∃ r, BigInteger.divAssign (g + 2) a b = some r ∧ Normalised r ∧
      r.toInt = a.toInt / b.toInt := by
  have hap := ha.pos_of_nonneg ha0
  have hbp := hb.pos_of_nonneg (le_of_lt hb0)
  by_cases hlt : a.toInt < b.toInt
  · have hlt' : a.lt b = true := by rw [BigInteger.lt_spec ha hb]; simpa using hlt
    refine ⟨BigInteger.ofLongLong 0, ?_, canon_normalised 0, ?_⟩
    · rw [BigInteger.divAssign]
      simp [hap, hbp, hlt']
    · rw [ofLongLong_zero, canon_toInt, Int.ediv_eq_zero_of_lt ha0 hlt]
  · have hlt' : a.lt b = false := by rw [BigInteger.lt_spec ha hb]; simpa using hlt
    obtain ⟨r, er, i1, i2, i3, i4, i5, i6⟩ := divLoop_spec hb hb0 g a.data_.reverse
      { data_ := [0], isPositive := true } BigInteger.new (InRange.reverse_iff.mpr ha.1)
      Normalised.zero Normalised.zero (by decide) (by decide) hb0
    have hz : ({ data_ := [0], isPositive := true } : BigInteger).toInt = 0 := by decide
    have hz' : BigInteger.new.toInt = 0 := by decide
    rw [hz, hz', List.reverse_reverse, ← Normalised.toInt_of_pos hap] at i6
    simp only [zero_mul, add_zero, zero_add] at i6
    refine ⟨r.1, ?_, i1, ?_⟩
    · rw [BigInteger.divAssign]
      simp only [hap, hbp, hlt', Bool.not_true, Bool.false_eq_true, if_false, decide_True]
      have e : ({ BigInteger.new with isPositive := true } : BigInteger)
          = { data_ := [0], isPositive := true } := rfl
      rw [e, er]
    · have h1 : r.2.toInt + b.toInt * r.1.toInt = a.toInt := by rw [← i6]; ring
      have := (Int.ediv_emod_unique hb0).mpr ⟨h1, i4, i5⟩
      exact this.1.symm

theorem divAssign_pos {a b : BigInteger} (ha : Normalised a) (hb : Normalised b)
    (hb0 : 0 < b.toInt) (g : Nat) :
    ∃ r, BigInteger.divAssign (g + 3) a b = some r ∧ Normalised r ∧
      r.toInt = a.toInt.tdiv b.toInt := by
  by_cases ha0 : 0 ≤ a.toInt
  · obtain ⟨r, er, rn, rv⟩ := divAssign_nonneg ha hb ha0 hb0 (g + 1)
    exact ⟨r, er, rn, by rw [rv, Int.tdiv_eq_ediv ha0 (le_of_lt hb0)]⟩
  · have hbp := hb.pos_of_nonneg (le_of_lt hb0)
    have hap : a.isPositive = false := by
      cases hs : a.isPositive
      · rfl
      · rw [Normalised.toInt_of_pos hs] at ha0
        exact absurd ha.mag_nonneg ha0
    obtain ⟨n1, n2⟩ := BigInteger.neg_spec ha
    obtain ⟨r, er, rn, rv⟩ := divAssign_nonneg n1 hb (by rw [n2]; omega) hb0 g
    have hq0 : 0 ≤ r.toInt := by
      rw [rv]; exact Int.ediv_nonneg (by rw [n2]; omega) (le_of_lt hb0)
    have hval : a.toInt.tdiv b.toInt = - r.toInt := by
      rw [rv, ← Int.tdiv_eq_ediv (by rw [n2]; omega) (le_of_lt hb0), n2, Int.neg_tdiv, neg_neg]
    by_cases hr0 : r.toInt = 0
    · have hrb : r.toBool = false := by rw [BigInteger.toBool_spec rn]; simp [hr0]
      refine ⟨r, ?_, rn, by rw [hval, hr0]; rfl⟩
      rw [BigInteger.divAssign]
      simp [hbp, hap, er, hrb]
    · have hrb : r.toBool = true := by rw [BigInteger.toBool_spec rn]; simp [hr0]
      obtain ⟨m1, m2⟩ := rn.setNegative (by omega)
      refine ⟨{ r with isPositive := false }, ?_, m1, by rw [m2, hval]⟩
      rw [BigInteger.divAssign]
      simp [hbp, hap, er, hrb]

theorem modAssign_nonneg {a b : BigInteger} (ha : Normalised a) (hb : Normalised b)
    (ha0 : 0 ≤ a.toInt) (hb0 : 0 < b.toInt) (g : Nat) :
    ∃ r, BigInteger.modAssign (g + 2) a b = some r ∧ Normalised r ∧
      r.toInt = a.toInt % b.toInt := by
  have hap := ha.pos_of_nonneg ha0
  have hbp := hb.pos_of_nonneg (le_of_lt hb0)
  have hb' : ({ b with isPositive := true } : BigInteger) = b := by
    cases b; simp only at hbp; subst hbp; rfl
  obtain ⟨q, eq, qn, qv⟩ := divAssign_nonneg ha hb ha0 hb0 g
  obtain ⟨pn, pv⟩ := BigInteger.mul_spec qn hb
  have hle : a.toInt / b.toInt * b.toInt ≤ a.toInt := Int.ediv_mul_le _ (by omega)
  have hq0 : 0 ≤ a.toInt / b.toInt := Int.ediv_nonneg ha0 (le_of_lt hb0)
  have pp : (q.mul b).isPositive = true :=
    pn.pos_of_nonneg (by rw [pv, qv]; exact mul_nonneg hq0 (le_of_lt hb0))
  obtain ⟨r, er, rn, rv⟩ := sub_pos_ge ha pn hap pp (by rw [pv, qv]; exact hle) (g + 1)
  refine ⟨r, ?_, rn, ?_⟩
  · simp only [BigInteger.modAssign, BigInteger.div, hb', eq, er]
  · rw [rv, pv, qv, Int.emod_def]; ring

/-! ## Decimal digits -/

theorem digit_of_isDigit {c : Char} (h : c.isDigit = true) :
    ∃ k, k < 10 ∧ c = Char.ofNat (48 + k) ∧ c.toNat - 48 = k := by
  simp only [Char.isDigit, Bool.and_eq_true, decide_eq_true_eq] at h
  have h1 : 48 ≤ c.toNat := h.1
  have h2 : c.toNat ≤ 57 := h.2
  refine ⟨c.toNat - 48, by omega, ?_, rfl⟩
  rw [Nat.add_sub_cancel' h1, Char.ofNat_toNat]

theorem digit_ofNat : ∀ k : Fin 10,
    (Char.ofNat (48 + k.val)).isDigit = true ∧ (Char.ofNat (48 + k.val)).toNat - 48 = k.val ∧
      (Char.ofNat (48 + k.val) = '0' → k.val = 0) := by
  decide

theorem digit_ofNat_lt {k : Nat} (h : k < 10) :
    (Char.ofNat (48 + k)).isDigit = true ∧ (Char.ofNat (48 + k)).toNat - 48 = k ∧
      (Char.ofNat (48 + k) = '0' → k = 0) :=
  digit_ofNat ⟨k, h⟩

theorem digit_lt {c : Char} (h : c.isDigit = true) : c.toNat - 48 < 10 := by
  obtain ⟨k, hk, _, e⟩ := digit_of_isDigit h
  omega

theorem digit_ne_zero {c : Char} (h : c.isDigit = true) (h0 : c ≠ '0') : c.toNat - 48 ≠ 0 := by
  obtain ⟨k, hk, e1, e2⟩ := digit_of_isDigit h
  intro hz
  rw [e2] at hz
  subst hz
  exact h0 e1

theorem digit_char {c : Char} (h : c.isDigit = true) : Char.ofNat (48 + (c.toNat - 48)) = c := by
  obtain ⟨k, _, e1, e2⟩ := digit_of_isDigit h
  rw [e2, ← e1]

theorem AllDigits.digits_cons_iff {c : Char} {s : List Char} :
    AllDigits (c :: s) ↔ c.isDigit = true ∧ AllDigits s := by
  simp [AllDigits]

theorem AllDigits.digits_append_iff {s t : List Char} :
    AllDigits (s ++ t) ↔ AllDigits s ∧ AllDigits t := by
  simp only [AllDigits, List.mem_append]
  constructor
  · intro h; exact ⟨fun c hc => h c (Or.inl hc), fun c hc => h c (Or.inr hc)⟩
  · rintro ⟨h1, h2⟩ c (hc | hc)
    · exact h1 c hc
    · exact h2 c hc

theorem AllDigits.take {s : List Char} (h : AllDigits s) (n : Nat) : AllDigits (s.take n) :=
  fun c hc => h c (List.mem_of_mem_take hc)

theorem AllDigits.drop {s : List Char} (h : AllDigits s) (n : Nat) : AllDigits (s.drop n) :=
  fun c hc => h c (List.mem_of_mem_drop hc)

theorem foldl_digits (t : List Char) : ∀ a : Nat,
    t.foldl (fun acc c => acc * 10 + (c.toNat - 48)) a = a * 10 ^ t.length + digitsVal t := by
  induction t with
  | nil => intro a; simp [digitsVal]
  | cons c t ih =>
    intro a
    simp only [digitsVal, List.foldl_cons, List.length_cons]
    rw [ih (a * 10 + (c.toNat - 48)), ih (0 * 10 + (c.toNat - 48))]
    ring

theorem digitsVal_append (s t : List Char) :
    digitsVal (s ++ t) = digitsVal s * 10 ^ t.length + digitsVal t := by
  rw [digitsVal, List.foldl_append, foldl_digits]
  rfl

theorem digitsVal_cons (c : Char) (t : List Char) :
    digitsVal (c :: t) = (c.toNat - 48) * 10 ^ t.length + digitsVal t := by
  rw [digitsVal, List.foldl_cons, foldl_digits]
  simp

theorem digitsVal_lt {s : List Char} (h : AllDigits s) : digitsVal s < 10 ^ s.length := by
  induction s with
  | nil => simp [digitsVal]
  | cons c t ih =>
    rw [AllDigits.digits_cons_iff] at h
    have h1 := digit_lt h.1
    have h2 := ih h.2
    rw [digitsVal_cons, List.length_cons, pow_succ]
    nlinarith

theorem digitsVal_pos {s : List Char} (h : AllDigits s) (hne : s ≠ [])
    (hhead : s.head? ≠ some '0') : 0 < digitsVal s := by
  cases s with
  | nil => exact absurd rfl hne
  | cons c t =>
    rw [AllDigits.digits_cons_iff] at h
    have h1 := digit_ne_zero h.1 (by simpa using hhead)
    rw [digitsVal_cons]
    have : 0 < (c.toNat - 48) * 10 ^ t.length := Nat.mul_pos (by omega) (by positivity)
    omega

/-! ## Printing a number -/

theorem natToStringAux_fuel : ∀ (fuel n fuel' : Nat), n < fuel → n < fuel' →
    natToStringAux fuel n = natToStringAux fuel' n := by
  intro fuel
  induction fuel with
  | zero => intro n _ h; omega
  | succ fuel ih =>
    intro n fuel' h1 h2
    cases fuel' with
    | zero => omega
    | succ fuel' =>
      simp only [natToStringAux]
      by_cases hn : n < 10
      · simp [hn]
      · simp only [hn, if_false]
        rw [ih (n / 10) fuel' (by omega) (by omega)]

theorem natToString_lt {n : Nat} (h : n < 10) : natToString n = [Char.ofNat (48 + n)] := by
  simp [natToString, natToStringAux, h]

theorem natToString_ge {n : Nat} (h : 10 ≤ n) :
    natToString n = natToString (n / 10) ++ [Char.ofNat (48 + n % 10)] := by
  have hn : ¬ n < 10 := by omega
  simp only [natToString, natToStringAux, hn, if_false]
  rw [natToStringAux_fuel n (n / 10) (n / 10 + 1) (by omega) (by omega)]
  rfl

theorem to_string_natCast (n : Nat) : to_string (n : Int) = natToString n := by
  simp [to_string]

theorem natToString_digitsVal : ∀ s : List Char, AllDigits s → s ≠ [] →
    (s.head? = some '0' → s = ['0']) → natToString (digitsVal s) = s := by
  intro s
  induction s using List.reverseRecOn with
  | nil => intro _ h; exact absurd rfl h
  | append_singleton t c ih =>
    intro hd _ hcan
    rw [AllDigits.digits_append_iff, AllDigits.digits_cons_iff] at hd
    obtain ⟨hdt, hdc, _⟩ := hd
    by_cases ht : t = []
    · subst ht
      simp only [List.nil_append]
      rw [digitsVal_cons]
      simp only [List.length_nil, pow_zero, mul_one, digitsVal, List.foldl_nil, add_zero]
      rw [natToString_lt (digit_lt hdc), digit_char hdc]
    · have hhead : (t ++ [c]).head? = t.head? := by
        cases t with
        | nil => exact absurd rfl ht
        | cons x t => rfl
      have hne0 : t.head? ≠ some '0' := by
        intro h0
        have := hcan (by rw [hhead, h0])
        have hl := congrArg List.length this
        simp only [List.length_append, List.length_singleton] at hl
        have : 0 < t.length := List.length_pos.mpr ht
        omega
      have e := ih hdt ht (fun h0 => absurd h0 hne0)
      have hpos := digitsVal_pos hdt ht hne0
      have hk := digit_lt hdc
      rw [digitsVal_append]
      simp only [List.length_singleton, pow_one]
      have hv : digitsVal [c] = c.toNat - 48 := by simp [digitsVal]
      rw [hv, natToString_ge (by omega)]
      have h1 : (digitsVal t * 10 + (c.toNat - 48)) / 10 = digitsVal t := by omega
      have h2 : (digitsVal t * 10 + (c.toNat - 48)) % 10 = c.toNat - 48 := by omega
      rw [h1, h2, e, digit_char hdc]

theorem pad_digitsVal : ∀ s : List Char, AllDigits s → s ≠ [] →
    (natToString (digitsVal s)).length ≤ s.length ∧
      List.replicate (s.length - (natToString (digitsVal s)).length) '0'
        ++ natToString (digitsVal s) = s := by
  intro s
  induction s with
  | nil => intro _ h; exact absurd rfl h
  | cons c t ih =>
    intro hd _
    have hd' := AllDigits.digits_cons_iff.mp hd
    by_cases hc : c = '0'
    · by_cases ht : t = []
      · subst ht hc
        decide
      · subst hc
        obtain ⟨i1, i2⟩ := ih hd'.2 ht
        have hv : digitsVal ('0' :: t) = digitsVal t := by
          rw [digitsVal_cons]; simp
        rw [hv, List.length_cons]
        refine ⟨by omega, ?_⟩
        have : t.length + 1 - (natToString (digitsVal t)).length
            = (t.length - (natToString (digitsVal t)).length) + 1 := by omega
        rw [this, List.replicate_succ, List.cons_append, i2]
    · have e := natToString_digitsVal (c :: t) hd (by simp)
        (fun h0 => absurd (by simpa using h0) hc)
      rw [e]
      simp

/-! ## The constructor from a string and `toString` -/

theorem stoi_digits {s : List Char} (h : AllDigits s) (hne : s ≠ []) :
    stoi s = some (digitsVal s : Int) := by
  have : s.all Char.isDigit = true := by
    rw [List.all_eq_true]; exact h
  simp [stoi, hne, this]

theorem toStringLoop_snoc (d : Int) (hd : (to_string d).length ≤ BASE_LENGTH) :
    ∀ (xs : List Int) (r : List Char), toStringLoop xs false = some r →
      toStringLoop (xs ++ [d]) false
        = some (r ++ (List.replicate (BASE_LENGTH - (to_string d).length) '0' ++ to_string d)) := by
  intro xs
  induction xs with
  | nil =>
    intro r h
    simp only [toStringLoop, Option.some.injEq] at h
    subst h
    simp [toStringLoop, hd]
  | cons x xs ih =>
    intro r h
    simp only [toStringLoop, Bool.false_eq_true, if_false] at h
    by_cases hx : (to_string x).length ≤ BASE_LENGTH
    · simp only [hx, if_true] at h
      cases hr : toStringLoop xs false with
      | none => rw [hr] at h; cases h
      | some r' =>
        rw [hr] at h
        simp only [Option.some.injEq] at h
        subst h
        simp [toStringLoop, hx, ih r' hr]
    · simp only [hx, if_false] at h
      cases h

theorem toStringLoop_snoc_first (d : Int) (hd : (to_string d).length ≤ BASE_LENGTH)
    (xs : List Int) (hne : xs ≠ []) (r : List Char) (h : toStringLoop xs true = some r) :
    toStringLoop (xs ++ [d]) true
      = some (r ++ (List.replicate (BASE_LENGTH - (to_string d).length) '0' ++ to_string d)) := by
  cases xs with
  | nil => exact absurd rfl hne
  | cons x xs =>
    simp only [toStringLoop, if_true] at h
    cases hr : toStringLoop xs false with
    | none => rw [hr] at h; cases h
    | some r' =>
      rw [hr] at h
      simp only [Option.some.injEq] at h
      subst h
      simp [toStringLoop, toStringLoop_snoc d hd xs r' hr]

theorem head?_take {s : List Char} {n : Nat} (h : 1 ≤ n) : (s.take n).head? = s.head? := by
  cases s with
  | nil => simp
  | cons c t =>
    obtain ⟨m, rfl⟩ : ∃ m, n = m + 1 := ⟨n - 1, by omega⟩
    rfl

theorem ofStringLoop_spec (D : List Char) (hD : AllDigits D)
    (hcan : D.head? = some '0' → D = ['0']) :
    ∀ (fuel e : Nat), e < fuel → 1 ≤ e → e ≤ D.length →
      ∃ ds, ofStringLoop D fuel e = some ds ∧ InRange ds ∧ ds ≠ [] ∧
        (D ≠ ['0'] → Lead ds) ∧ limbsVal ds = (digitsVal (D.take e) : Int) ∧
        toStringLoop ds.reverse true = some (D.take e) := by
  intro fuel
  induction fuel with
  | zero => intro e h; omega
  | succ fuel ih =>
    intro e hf he hlen
    have hne : D ≠ [] := by
      intro h0; rw [h0] at hlen; simp at hlen; omega
    by_cases hbig : e > BASE_LENGTH
    · simp only [BASE_LENGTH] at hbig
      have hchunk_len : ((D.drop (e - 4)).take 4).length = 4 := by
        simp only [List.length_take, List.length_drop]; omega
      have hchunk_ne : (D.drop (e - 4)).take 4 ≠ [] := by
        intro h0; rw [h0] at hchunk_len; simp at hchunk_len
      have hchunk_d : AllDigits ((D.drop (e - 4)).take 4) := (hD.drop _).take _
      obtain ⟨ds, e1, i1, i2, i3, i4, i5⟩ := ih (e - 4) (by omega) (by omega) (by omega)
      have hsplit : D.take e = D.take (e - 4) ++ (D.drop (e - 4)).take 4 := by
        have : e = (e - 4) + 4 := by omega
        conv_lhs => rw [this]
        rw [List.take_add]
      have hlt := digitsVal_lt hchunk_d
      rw [hchunk_len] at hlt
      have hD1 : D ≠ ['0'] := by
        intro h0; rw [h0] at hlen; simp at hlen; omega
      obtain ⟨p1, p2⟩ := pad_digitsVal _ hchunk_d hchunk_ne
      rw [hchunk_len] at p1 p2
      refine ⟨(digitsVal ((D.drop (e - 4)).take 4) : Int) :: ds, ?_, ?_, by simp, ?_, ?_, ?_⟩
      · rw [ofStringLoop]
        simp only [BASE_LENGTH, gt_iff_lt, hbig, if_true, stoi_digits hchunk_d hchunk_ne, e1]
      · rw [InRange.cons_iff]
        refine ⟨⟨by positivity, ?_⟩, i1⟩
        rw [BASE_eq]; exact_mod_cast hlt
      · intro _; exact Lead.cons_of_ne_nil i2 (i3 hD1)
      · simp only [limbsVal, i4, hsplit, digitsVal_append, hchunk_len, BASE_eq]
        push_cast; ring
      · rw [List.reverse_cons, hsplit]
        rw [toStringLoop_snoc_first _ (by rw [to_string_natCast]; exact p1) _
          (by simpa using i2) _ i5]
        rw [to_string_natCast]
        simp only [BASE_LENGTH, p2]
    · simp only [BASE_LENGTH, gt_iff_lt, not_lt] at hbig
      have htake_ne : D.take e ≠ [] := by
        intro h0
        have := congrArg List.length h0
        simp only [List.length_take, List.length_nil] at this
        omega
      have htake_d : AllDigits (D.take e) := hD.take _
      have htake_len : (D.take e).length = e := by
        simp only [List.length_take]; omega
      have hlt := digitsVal_lt htake_d
      rw [htake_len] at hlt
      have hpow : (10 : Nat) ^ e ≤ 10 ^ 4 := Nat.pow_le_pow_right (by decide) hbig
      have hcan' : (D.take e).head? = some '0' → D.take e = ['0'] := by
        intro h0
        rw [head?_take he] at h0
        rw [hcan h0]
        obtain ⟨m, rfl⟩ : ∃ m, e = m + 1 := ⟨e - 1, by omega⟩
        simp
      refine ⟨[(digitsVal (D.take e) : Int)], ?_, ?_, by simp, ?_, ?_, ?_⟩
      · rw [ofStringLoop]
        have : ¬ e > BASE_LENGTH := by simp only [BASE_LENGTH]; omega
        simp only [this, if_false, stoi_digits htake_d htake_ne]
      · rw [InRange.cons_iff]
        refine ⟨⟨by positivity, ?_⟩, InRange.empty⟩
        rw [BASE_eq]
        have : digitsVal (D.take e) < 10000 := by omega
        exact_mod_cast this
      · intro hD1
        apply Lead.single
        have hh : (D.take e).head? ≠ some '0' := by
          rw [head?_take he]
          intro h0; exact hD1 (hcan h0)
        have := digitsVal_pos htake_d htake_ne hh
        exact_mod_cast (Nat.pos_iff_ne_zero.mp this)
      · simp [limbsVal]
      · simp only [List.reverse_singleton, toStringLoop, if_true, to_string_natCast,
          natToString_digitsVal _ htake_d htake_ne hcan', List.append_nil]

/-! ## Operations on canonical numbers

Every normalised number is `canon` of its value, so the
operations are determined by what they do on such numbers. -/

theorem canon_lt (x y : Int) :
    (canon x).lt (canon y) = decide (x < y) := by
  rw [BigInteger.lt_spec (canon_normalised x) (canon_normalised y),
    canon_toInt, canon_toInt]

theorem canon_ge (x y : Int) :
    (canon x).ge (canon y) = decide (y ≤ x) := by
  rw [BigInteger.ge_spec (canon_normalised x) (canon_normalised y),
    canon_toInt, canon_toInt]

theorem canon_eq (x y : Int) :
    (canon x).eq (canon y) = decide (x = y) := by
  rw [BigInteger.eq_spec (canon_normalised x) (canon_normalised y),
    canon_toInt, canon_toInt]

theorem canon_toBool (x : Int) : (canon x).toBool = decide (x ≠ 0) := by
  rw [BigInteger.toBool_spec (canon_normalised x), canon_toInt]

theorem canon_neg (x : Int) :
    (canon x).neg = canon (-x) := by
  obtain ⟨h1, h2⟩ := BigInteger.neg_spec (canon_normalised x)
  rw [h1.eq_canon, h2, canon_toInt]

theorem canon_mul (x y : Int) :
    (canon x).mulAssign (canon y)
      = canon (x * y) := by
  obtain ⟨h1, h2, _⟩ := BigInteger.mulAssign_spec (canon_normalised x)
    (canon_normalised y)
  rw [h1.eq_canon, h2, canon_toInt, canon_toInt]

theorem canon_add (x y : Int) (fuel : Nat) (hf : 3 ≤ fuel) :
    BigInteger.addAssign fuel (canon x) (canon y)
      = some (canon (x + y)) := by
  obtain ⟨g, rfl⟩ : ∃ g, fuel = g + 3 := ⟨fuel - 3, by omega⟩
  obtain ⟨r, e, h1, h2⟩ := add_spec (canon_normalised x) (canon_normalised y) g
  rw [e, h1.eq_canon, h2, canon_toInt, canon_toInt]

theorem canon_sub (x y : Int) (fuel : Nat) (hf : 4 ≤ fuel) :
    BigInteger.subAssign fuel (canon x) (canon y)
      = some (canon (x - y)) := by
  obtain ⟨g, rfl⟩ : ∃ g, fuel = g + 4 := ⟨fuel - 4, by omega⟩
  obtain ⟨r, e, h1, h2⟩ := sub_spec (canon_normalised x) (canon_normalised y) g
  rw [e, h1.eq_canon, h2, canon_toInt, canon_toInt]

theorem canon_div (x y : Int) (hy : 0 < y) (fuel : Nat) (hf : 3 ≤ fuel) :
    BigInteger.divAssign fuel (canon x) (canon y)
      = some (canon (x.tdiv y)) := by
  obtain ⟨g, rfl⟩ : ∃ g, fuel = g + 3 := ⟨fuel - 3, by omega⟩
  obtain ⟨r, e, h1, h2⟩ := divAssign_pos (canon_normalised x) (canon_normalised y)
    (by rw [canon_toInt]; exact hy) g
  rw [e, h1.eq_canon, h2, canon_toInt, canon_toInt]

theorem canon_mod (x y : Int) (hx : 0 ≤ x) (hy : 0 < y) (fuel : Nat) (hf : 2 ≤ fuel) :
    BigInteger.mod fuel (canon x) (canon y)
      = some (canon (x % y)) := by
  obtain ⟨g, rfl⟩ : ∃ g, fuel = g + 2 := ⟨fuel - 2, by omega⟩
  obtain ⟨r, e, h1, h2⟩ := modAssign_nonneg (canon_normalised x) (canon_normalised y)
    (by rw [canon_toInt]; exact hx) (by rw [canon_toInt]; exact hy) g
  rw [BigInteger.mod, e, h1.eq_canon, h2, canon_toInt, canon_toInt]

/-! ## The greatest common divisor and the reduction of a fraction -/

theorem gcd_spec : ∀ (fuel m n : Nat), n + 3 ≤ fuel →
    Rational.gcd fuel (canon m) (canon n)
      = some (canon (Nat.gcd m n : Nat)) := by
  intro fuel
  induction fuel with
  | zero => intro m n h; omega
  | succ fuel ih =>
    intro m n h
    rw [Rational.gcd, ofLongLong_zero, canon_eq]
    by_cases hn : n = 0
    · subst hn
      simp
    · have hn' : ¬ ((n : Int) = 0) := by exact_mod_cast hn
      simp only [hn', decide_False, Bool.false_eq_true, if_false]
      rw [canon_mod m n (by positivity) (by omega) fuel (by omega)]
      have hmod : ((m : Int) % (n : Int)) = ((m % n : Nat) : Int) := by push_cast; rfl
      rw [hmod]
      simp only
      have hlt : m % n < n := Nat.mod_lt _ (by omega)
      rw [ih n (m % n) (by omega)]
      rw [Nat.gcd_comm n (m % n), ← Nat.gcd_rec, Nat.gcd_comm]

theorem change_fraction_spec (n d : Int) (hd : 0 < d) (fuel : Nat) (hf : d.toNat + 3 ≤ fuel) :
    Rational.change_fraction fuel (Rational.ofInts n d) = some (reduced n d) := by
  by_cases hn : n = 0
  · subst hn
    simp [Rational.change_fraction, Rational.ofInts, ofLongLong_zero, ofLongLong_one, canon_eq,
      reduced]
  · obtain ⟨dn, rfl⟩ := Int.eq_ofNat_of_zero_le (le_of_lt hd)
    have hg : (0 : Int) < (Int.gcd n dn : Int) := by
      exact_mod_cast Int.gcd_pos_of_ne_zero_left _ hn
    have hgcd : (if (canon n).ge (canon 0) = true
        then Rational.gcd fuel (canon n) (canon dn)
        else Rational.gcd fuel (canon n).neg (canon dn))
        = some (canon (Int.gcd n dn : Int)) := by
      rw [canon_ge]
      by_cases h0 : 0 ≤ n
      · obtain ⟨nn, rfl⟩ := Int.eq_ofNat_of_zero_le h0
        simp only [h0, decide_True, if_true]
        rw [gcd_spec fuel nn dn (by simpa using hf)]
        rfl
      · simp only [h0, decide_False, Bool.false_eq_true, if_false, canon_neg]
        obtain ⟨nn, hnn⟩ := Int.eq_ofNat_of_zero_le (show 0 ≤ -n by omega)
        rw [hnn, gcd_spec fuel nn dn (by simpa using hf)]
        have : Int.gcd n dn = Nat.gcd nn dn := by
          rw [← Int.neg_gcd, hnn]; rfl
        rw [this]
    simp only [Rational.change_fraction, Rational.ofInts, ofLongLong_zero, ofLongLong_one,
      canon_eq, hn, decide_False,
      Bool.false_eq_true, if_false]
    rw [hgcd]
    simp only
    rw [canon_div _ _ hg fuel (by omega), canon_div _ _ hg fuel (by omega)]
    simp only [reduced, Rational.ofInts, hn, if_false]
    rw [Int.tdiv_eq_ediv_of_dvd Int.gcd_dvd_left, Int.tdiv_eq_ediv_of_dvd Int.gcd_dvd_right]

theorem result_rational_sign_spec (n d : Int) :
    Rational.result_rational_sign (Rational.ofInts n d)
      = (if d < 0 then Rational.ofInts (-n) (-d) else Rational.ofInts n d) := by
  simp only [Rational.result_rational_sign, Rational.ofInts, ofLongLong_zero, canon_lt]
  by_cases h : d < 0
  · simp [h, canon_neg]
  · simp [h]

/-! ## A deeper bound on the calls does not change a result -/

theorem addSub_step : ∀ f : Nat,
    (∀ a b r, BigInteger.addAssign f a b = some r → BigInteger.addAssign (f + 1) a b = some r) ∧
      (∀ a b r, BigInteger.subAssign f a b = some r →
        BigInteger.subAssign (f + 1) a b = some r) := by
  intro f
  induction f with
  | zero =>
    constructor
    · intro a b r h; simp [BigInteger.addAssign] at h
    · intro a b r h; simp [BigInteger.subAssign] at h
  | succ f ih =>
    constructor
    · intro a b r h
      rw [BigInteger.addAssign] at h ⊢
      by_cases hs : a.isPositive ≠ b.isPositive
      · rw [if_pos hs] at h ⊢
        by_cases ha : (!a.isPositive) = true
        · simp only [ha, if_true] at h ⊢
          exact ih.2 _ _ _ h
        · simp only [ha, Bool.false_eq_true, if_false] at h ⊢
          exact ih.2 _ _ _ h
      · rw [if_neg hs] at h ⊢
        exact h
    · intro a b r h
      rw [BigInteger.subAssign] at h ⊢
      by_cases hb : (!b.isPositive) = true
      · simp only [hb, if_true] at h ⊢
        exact ih.1 _ _ _ h
      · simp only [hb, Bool.false_eq_true, if_false] at h ⊢
        by_cases hlt : a.lt b = true
        · simp only [hlt, if_true] at h ⊢
          cases hr : BigInteger.subAssign f b a with
          | none => rw [hr] at h; cases h
          | some r' =>
            rw [hr] at h
            rw [ih.2 _ _ _ hr]
            exact h
        · simp only [hlt, Bool.false_eq_true, if_false] at h ⊢
          exact h

theorem addAssign_mono {f f' : Nat} (hf : f ≤ f') {a b r : BigInteger}
    (h : BigInteger.addAssign f a b = some r) : BigInteger.addAssign f' a b = some r := by
  induction hf with
  | refl => exact h
  | step _ ih => exact (addSub_step _).1 _ _ _ ih

theorem subAssign_mono {f f' : Nat} (hf : f ≤ f') {a b r : BigInteger}
    (h : BigInteger.subAssign f a b = some r) : BigInteger.subAssign f' a b = some r := by
  induction hf with
  | refl => exact h
  | step _ ih => exact (addSub_step _).2 _ _ _ ih

theorem divLoop_mono {f f' : Nat} (hf : f ≤ f') (other : BigInteger) :
    ∀ (ds : List Int) (result x : BigInteger) (r : BigInteger × BigInteger),
      divLoop f other ds result x = some r → divLoop f' other ds result x = some r := by
  intro ds
  induction ds with
  | nil => intro result x r h; simpa [divLoop] using h
  | cons d ds ih =>
    intro result x r h
    rw [divLoop] at h ⊢
    cases h1 : BigInteger.addAssign f (x.mulAssign (BigInteger.ofLongLong BASE))
        (BigInteger.ofLongLong d) with
    | none => rw [h1] at h; cases h
    | some x2 =>
      rw [h1] at h
      rw [addAssign_mono hf h1]
      simp only at h ⊢
      by_cases hge : x2.ge other = true
      · simp only [hge, if_true] at h ⊢
        cases h2 : BigInteger.addAssign f (result.mulAssign (BigInteger.ofLongLong BASE))
            (BigInteger.ofLongLong (bsearch other x2 BASE.toNat 0 BASE)) with
        | none => rw [h2] at h; cases h
        | some result2 =>
          rw [h2] at h
          rw [addAssign_mono hf h2]
          simp only at h ⊢
          cases h3 : BigInteger.subAssign f x2
              ((BigInteger.ofLongLong (bsearch other x2 BASE.toNat 0 BASE)).mul other) with
          | none => rw [h3] at h; cases h
          | some x3 =>
            rw [h3] at h
            rw [subAssign_mono hf h3]
            simp only at h ⊢
            exact ih _ _ _ h
      · simp only [hge, Bool.false_eq_true, if_false] at h ⊢
        exact ih _ _ _ h

theorem divAssign_step : ∀ (f : Nat) (a b r : BigInteger),
    BigInteger.divAssign f a b = some r → BigInteger.divAssign (f + 1) a b = some r := by
  intro f
  induction f with
  | zero => intro a b r h; simp [BigInteger.divAssign] at h
  | succ f ih =>
    intro a b r h
    rw [BigInteger.divAssign] at h ⊢
    by_cases hb : (!b.isPositive) = true
    · simp only [hb, if_true] at h ⊢
      cases hr : BigInteger.divAssign f a b.neg with
      | none => rw [hr] at h; cases h
      | some r' =>
        rw [hr] at h
        rw [ih _ _ _ hr]
        exact h
    · simp only [hb, Bool.false_eq_true, if_false] at h ⊢
      by_cases ha : (!a.isPositive) = true
      · simp only [ha, if_true] at h ⊢
        cases hr : BigInteger.divAssign f a.neg b with
        | none => rw [hr] at h; cases h
        | some r' =>
          rw [hr] at h
          rw [ih _ _ _ hr]
          exact h
      · simp only [ha, Bool.false_eq_true, if_false] at h ⊢
        by_cases hlt : a.lt b = true
        · simp only [hlt, if_true] at h ⊢
          exact h
        · simp only [hlt, Bool.false_eq_true, if_false] at h ⊢
          cases hr : divLoop f b a.data_.reverse
              { BigInteger.new with isPositive := decide (a.isPositive = b.isPositive) }
              BigInteger.new with
          | none => rw [hr] at h; cases h
          | some r' =>
            rw [hr] at h
            rw [divLoop_mono (Nat.le_succ f) b _ _ _ _ hr]
            exact h

theorem divAssign_mono {f f' : Nat} (hf : f ≤ f') {a b r : BigInteger}
    (h : BigInteger.divAssign f a b = some r) : BigInteger.divAssign f' a b = some r := by
  induction hf with
  | refl => exact h
  | step _ ih => exact divAssign_step _ _ _ _ ih

theorem mod_mono {f f' : Nat} (hf : f ≤ f') {a b r : BigInteger}
    (h : BigInteger.mod f a b = some r) : BigInteger.mod f' a b = some r := by
  simp only [BigInteger.mod, BigInteger.modAssign, BigInteger.div] at h ⊢
  cases hq : BigInteger.divAssign f a { b with isPositive := true } with
  | none => rw [hq] at h; cases h
  | some q =>
    rw [hq] at h
    rw [divAssign_mono hf hq]
    exact subAssign_mono hf h

theorem gcd_step : ∀ (f : Nat) (a b r : BigInteger),
    Rational.gcd f a b = some r → Rational.gcd (f + 1) a b = some r := by
  intro f
  induction f with
  | zero => intro a b r h; simp [Rational.gcd] at h
  | succ f ih =>
    intro a b r h
    rw [Rational.gcd] at h ⊢
    by_cases h0 : b.eq (BigInteger.ofLongLong 0) = true
    · simp only [h0, if_true] at h ⊢
      exact h
    · simp only [h0, Bool.false_eq_true, if_false] at h ⊢
      cases hm : BigInteger.mod f a b with
      | none => rw [hm] at h; cases h
      | some m =>
        rw [hm] at h
        rw [mod_mono (Nat.le_succ f) hm]
        exact ih _ _ _ h

theorem gcd_mono {f f' : Nat} (hf : f ≤ f') {a b r : BigInteger}
    (h : Rational.gcd f a b = some r) : Rational.gcd f' a b = some r := by
  induction hf with
  | refl => exact h
  | step _ ih => exact gcd_step _ _ _ _ ih

theorem change_fraction_mono {f f' : Nat} (hf : f ≤ f') {a r : Rational}
    (h : Rational.change_fraction f a = some r) : Rational.change_fraction f' a = some r := by
  simp only [Rational.change_fraction] at h ⊢
  by_cases h0 : a.numerator.eq (BigInteger.ofLongLong 0) = true
  · simp only [h0, if_true] at h ⊢
    exact h
  · simp only [h0, Bool.false_eq_true, if_false] at h ⊢
    by_cases hge : a.numerator.ge (BigInteger.ofLongLong 0) = true
    · simp only [hge, if_true] at h ⊢
      cases hg : Rational.gcd f a.numerator a.denominator with
      | none => rw [hg] at h; cases h
      | some m =>
        rw [hg] at h
        rw [gcd_mono hf hg]
        simp only at h ⊢
        cases hn : BigInteger.divAssign f a.numerator m with
        | none => rw [hn] at h; cases h
        | some n =>
          cases hd : BigInteger.divAssign f a.denominator m with
          | none => rw [hn, hd] at h; cases h
          | some d =>
            rw [hn, hd] at h
            rw [divAssign_mono hf hn, divAssign_mono hf hd]
            exact h
    · simp only [hge, Bool.false_eq_true, if_false] at h ⊢
      cases hg : Rational.gcd f a.numerator.neg a.denominator with
      | none => rw [hg] at h; cases h
      | some m =>
        rw [hg] at h
        rw [gcd_mono hf hg]
        simp only at h ⊢
        cases hn : BigInteger.divAssign f a.numerator m with
        | none => rw [hn] at h; cases h
        | some n =>
          cases hd : BigInteger.divAssign f a.denominator m with
          | none => rw [hn, hd] at h; cases h
          | some d =>
            rw [hn, hd] at h
            rw [divAssign_mono hf hn, divAssign_mono hf hd]
            exact h

/-! ## The compound assignments of Rational -/

theorem rat_add_spec (n1 d1 n2 d2 : Int) (h1 : 0 < d1) (h2 : 0 < d2) (fuel : Nat)
    (hf : (d1 * d2).toNat + 3 ≤ fuel) :
    Rational.addAssign fuel (Rational.ofInts n1 d1) (Rational.ofInts n2 d2)
      = some (reduced (n1 * d2 + d1 * n2) (d1 * d2)) := by
  have hd : 0 < d1 * d2 := mul_pos h1 h2
  have hs := result_rational_sign_spec (n1 * d2 + d1 * n2) (d1 * d2)
  rw [if_neg (by omega)] at hs
  simp only [Rational.ofInts] at hs
  simp only [Rational.addAssign, Rational.ofInts, BigInteger.add, BigInteger.mul, canon_mul]
  rw [canon_add _ _ fuel (by omega)]
  simp only
  rw [hs]
  exact change_fraction_spec _ _ hd fuel hf

theorem rat_sub_spec (n1 d1 n2 d2 : Int) (h1 : 0 < d1) (h2 : 0 < d2) (fuel : Nat)
    (hf : (d1 * d2).toNat + 4 ≤ fuel) :
    Rational.subAssign fuel (Rational.ofInts n1 d1) (Rational.ofInts n2 d2)
      = some (reduced (n1 * d2 - d1 * n2) (d1 * d2)) := by
  have hd : 0 < d1 * d2 := mul_pos h1 h2
  have hs := result_rational_sign_spec (n1 * d2 - d1 * n2) (d1 * d2)
  rw [if_neg (by omega)] at hs
  simp only [Rational.ofInts] at hs
  simp only [Rational.subAssign, Rational.ofInts, BigInteger.sub, BigInteger.mul, canon_mul]
  rw [canon_sub _ _ fuel (by omega)]
  simp only
  rw [hs]
  exact change_fraction_spec _ _ hd fuel (by omega)

theorem rat_mul_spec (n1 d1 n2 d2 : Int) (h1 : 0 < d1) (h2 : 0 < d2) (fuel : Nat)
    (hf : (d1 * d2).toNat + 3 ≤ fuel) :
    Rational.mulAssign fuel (Rational.ofInts n1 d1) (Rational.ofInts n2 d2)
      = some (reduced (n1 * n2) (d1 * d2)) := by
  have hd : 0 < d1 * d2 := mul_pos h1 h2
  have hs := result_rational_sign_spec (n1 * n2) (d1 * d2)
  rw [if_neg (by omega)] at hs
  simp only [Rational.ofInts] at hs
  simp only [Rational.mulAssign, Rational.ofInts, canon_mul]
  rw [hs]
  exact change_fraction_spec _ _ hd fuel hf

theorem signed_fraction_spec (n d : Int) (hd : d ≠ 0) (fuel : Nat) (hf : d.natAbs + 3 ≤ fuel) :
    Rational.change_fraction fuel (Rational.result_rational_sign (Rational.ofInts n d))
      = some (if d < 0 then reduced (-n) (-d) else reduced n d) := by
  rw [result_rational_sign_spec]
  by_cases h : d < 0
  · simp only [h, if_true]
    exact change_fraction_spec _ _ (by omega) fuel (by omega)
  · simp only [h, if_false]
    exact change_fraction_spec _ _ (by omega) fuel (by omega)

theorem rat_div_spec (n1 d1 n2 d2 : Int) (h1 : 0 < d1) (h2 : n2 ≠ 0) (fuel : Nat)
    (hf : (d1 * n2).natAbs + 3 ≤ fuel) :
    Rational.divAssign fuel (Rational.ofInts n1 d1) (Rational.ofInts n2 d2)
      = some (if d1 * n2 < 0 then reduced (-(n1 * d2)) (-(d1 * n2))
          else reduced (n1 * d2) (d1 * n2)) := by
  have hd : d1 * n2 ≠ 0 := mul_ne_zero (by omega) h2
  have hs := signed_fraction_spec (n1 * d2) (d1 * n2) hd fuel hf
  simp only [Rational.ofInts] at hs
  simp only [Rational.divAssign, Rational.ofInts, canon_mul]
  exact hs

theorem rat_divSelf_spec (n d : Int) (h1 : 0 < d) (h2 : n ≠ 0) (fuel : Nat)
    (hf : (d * (n * d)).natAbs + 3 ≤ fuel) :
    Rational.divAssignSelf fuel (Rational.ofInts n d)
      = some (if d * (n * d) < 0 then reduced (-(n * d)) (-(d * (n * d)))
          else reduced (n * d) (d * (n * d))) := by
  have hd : d * (n * d) ≠ 0 := mul_ne_zero (by omega) (mul_ne_zero h2 (by omega))
  have hs := signed_fraction_spec (n * d) (d * (n * d)) hd fuel hf
  simp only [Rational.ofInts] at hs
  simp only [Rational.divAssignSelf, Rational.ofInts, canon_mul]
  exact hs

theorem rat_addAssign_mono {f f' : Nat} (hf : f ≤ f') {a b r : Rational}
    (h : Rational.addAssign f a b = some r) : Rational.addAssign f' a b = some r := by
  simp only [Rational.addAssign, BigInteger.add] at h ⊢
  cases hn : BigInteger.addAssign f (a.numerator.mul b.denominator)
      (a.denominator.mul b.numerator) with
  | none => rw [hn] at h; cases h
  | some n =>
    rw [hn] at h
    rw [addAssign_mono hf hn]
    exact change_fraction_mono hf h

theorem rat_subAssign_mono {f f' : Nat} (hf : f ≤ f') {a b r : Rational}
    (h : Rational.subAssign f a b = some r) : Rational.subAssign f' a b = some r := by
  simp only [Rational.subAssign, BigInteger.sub] at h ⊢
  cases hn : BigInteger.subAssign f (a.numerator.mul b.denominator)
      (a.denominator.mul b.numerator) with
  | none => rw [hn] at h; cases h
  | some n =>
    rw [hn] at h
    rw [subAssign_mono hf hn]
    exact change_fraction_mono hf h

/-! ## Fractions in lowest terms -/

theorem lowestTerms_ofInts {n d : Int} (hd : 0 < d) (hg : Int.gcd n d = 1) :
    (Rational.ofInts n d).LowestTerms := by
  refine ⟨canon_normalised n, canon_normalised d, ?_, ?_, ?_⟩
  · simp only [Rational.ofInts, canon_toInt]; exact hd
  · simp only [Rational.ofInts, canon_toInt]; exact hg
  · simp only [Rational.ofInts, canon_toInt]
    intro h0
    subst h0
    rw [Int.gcd_zero_left] at hg
    omega

theorem lowestTerms_reduced (n d : Int) (hd : 0 < d) : (reduced n d).LowestTerms := by
  by_cases hn : n = 0
  · simp only [reduced, hn, if_true]
    exact lowestTerms_ofInts (by decide) (by decide)
  · simp only [reduced, hn, if_false]
    have hg : 0 < Int.gcd n d := Int.gcd_pos_of_ne_zero_left _ hn
    refine lowestTerms_ofInts ?_ (Int.gcd_div_gcd_div_gcd hg)
    have hg' : (0 : Int) ≤ (Int.gcd n d : Int) := by positivity
    exact Int.ediv_pos_of_pos_of_dvd hd hg' Int.gcd_dvd_right

theorem Rational.LowestTerms.eq_ofInts {r : Rational} (h : r.LowestTerms) :
    r = Rational.ofInts r.numerator.toInt r.denominator.toInt := by
  obtain ⟨n, d⟩ := r
  simp only [Rational.ofInts]
  rw [← h.1.eq_canon, ← h.2.1.eq_canon]

theorem built_lowestTerms {r : Rational} (h : Built r) : r.LowestTerms := by
  induction h with
  | new =>
    show (Rational.ofInts 0 1).LowestTerms
    exact lowestTerms_ofInts (by decide) (by decide)
  | ofLongLong number h1 h2 =>
    have e : Rational.ofLongLong number = Rational.ofInts number 1 := by
      simp only [Rational.ofLongLong, Rational.ofInts, ofLongLong_eq_canon h1 h2,
        ofLongLong_one]
    rw [e]
    exact lowestTerms_ofInts (by decide) Int.gcd_one
  | ofBigInteger number hn =>
    refine ⟨hn, canon_normalised 1, ?_, ?_, ?_⟩
    · simp [Rational.ofBigInteger, ofLongLong_one, canon_toInt]
    · simp [Rational.ofBigInteger, ofLongLong_one, canon_toInt]
    · simp [Rational.ofBigInteger, ofLongLong_one, canon_toInt]
  | addAssign fuel a b r _ _ e iha ihb =>
    rw [iha.eq_ofInts, ihb.eq_ofInts] at e
    have e1 := rat_addAssign_mono (Nat.le_max_left fuel
      ((a.denominator.toInt * b.denominator.toInt).toNat + 3)) e
    rw [rat_add_spec _ _ _ _ iha.2.2.1 ihb.2.2.1 _ (Nat.le_max_right _ _)] at e1
    rw [← Option.some.inj e1]
    exact lowestTerms_reduced _ _ (mul_pos iha.2.2.1 ihb.2.2.1)
  | subAssign fuel a b r _ _ e iha ihb =>
    rw [iha.eq_ofInts, ihb.eq_ofInts] at e
    have e1 := rat_subAssign_mono (Nat.le_max_left fuel
      ((a.denominator.toInt * b.denominator.toInt).toNat + 4)) e
    rw [rat_sub_spec _ _ _ _ iha.2.2.1 ihb.2.2.1 _ (Nat.le_max_right _ _)] at e1
    rw [← Option.some.inj e1]
    exact lowestTerms_reduced _ _ (mul_pos iha.2.2.1 ihb.2.2.1)
  | mulAssign fuel a b r _ _ e iha ihb =>
    rw [iha.eq_ofInts, ihb.eq_ofInts] at e
    have e1 := change_fraction_mono (Nat.le_max_left fuel
      ((a.denominator.toInt * b.denominator.toInt).toNat + 3)) e
    rw [show Rational.change_fraction _ _ = Rational.mulAssign _ _ _ from rfl,
      rat_mul_spec _ _ _ _ iha.2.2.1 ihb.2.2.1 _ (Nat.le_max_right _ _)] at e1
    rw [← Option.some.inj e1]
    exact lowestTerms_reduced _ _ (mul_pos iha.2.2.1 ihb.2.2.1)
  | divAssign fuel a b r _ _ hb0 e iha ihb =>
    rw [iha.eq_ofInts, ihb.eq_ofInts] at e
    have e1 := change_fraction_mono (Nat.le_max_left fuel
      ((a.denominator.toInt * b.numerator.toInt).natAbs + 3)) e
    rw [show Rational.change_fraction _ _ = Rational.divAssign _ _ _ from rfl,
      rat_div_spec _ _ _ _ iha.2.2.1 hb0 _ (Nat.le_max_right _ _)] at e1
    rw [← Option.some.inj e1]
    have hd : a.denominator.toInt * b.numerator.toInt ≠ 0 :=
      mul_ne_zero (by have := iha.2.2.1; omega) hb0
    split
    · exact lowestTerms_reduced _ _ (by omega)
    · exact lowestTerms_reduced _ _ (by omega)
  | divAssignSelf fuel a r _ ha0 e iha =>
    rw [iha.eq_ofInts] at e
    have e1 := change_fraction_mono (Nat.le_max_left fuel
      ((a.denominator.toInt * (a.numerator.toInt * a.denominator.toInt)).natAbs + 3)) e
    rw [show Rational.change_fraction _ _ = Rational.divAssignSelf _ _ from rfl,
      rat_divSelf_spec _ _ iha.2.2.1 ha0 _ (Nat.le_max_right _ _)] at e1
    rw [← Option.some.inj e1]
    have hd : a.denominator.toInt * (a.numerator.toInt * a.denominator.toInt) ≠ 0 :=
      mul_ne_zero (by have := iha.2.2.1; omega)
        (mul_ne_zero ha0 (by have := iha.2.2.1; omega))
    split
    · exact lowestTerms_reduced _ _ (by omega)
    · exact lowestTerms_reduced _ _ (by omega)

/-! ## The claims on BigInteger arithmetic and Rational comparison -/

/-- **C23** (on the code).  With a negative divisor `operator/=` marks the quotient
negative whatever the sign of the dividend.  `(-6) / (-2)` is stored as `-3`
where truncated division gives `3`, and `1 / (-2)` is stored as a zero with
the negative sign, which is not normalised. -/
theorem C23_negative_divisor_marks_negative :
    BigInteger.div 4 (BigInteger.ofLongLong (-6)) (BigInteger.ofLongLong (-2))
        = some { data_ := [3], isPositive := false } ∧
      (BigInteger.div 4 (BigInteger.ofLongLong (-6)) (BigInteger.ofLongLong (-2))).map
        BigInteger.toInt = some (-3) ∧
      Int.tdiv (-6) (-2) = 3 ∧
      BigInteger.div 4 (BigInteger.ofLongLong 1) (BigInteger.ofLongLong (-2))
        = some { data_ := [0], isPositive := false } ∧
      ¬ Normalised { data_ := [0], isPositive := false } := by
  decide

/-- **C24** (on the code).  The function `operator>=` of `Rational` is `!(first <= second)`, so it
agrees with `operator>` on all arguments; `1 >= 1` is false although `1 < 1` is
false and `1 == 1` is true. -/
theorem C24_ge_is_strict (a b : Rational) :
    a.ge b = a.gt b ∧
      Rational.ge (Rational.ofLongLong 1) (Rational.ofLongLong 1) = false ∧
      Rational.lt (Rational.ofLongLong 1) (Rational.ofLongLong 1) = false ∧
      Rational.eq (Rational.ofLongLong 1) (Rational.ofLongLong 1) = true := by
  refine ⟨by simp [Rational.ge, Rational.le], by decide, by decide, by decide⟩

/-- **C25.** For normalised `a` and `b` and any call depth of at least four,
`a + b` and `a - b` return, the results are normalised, and they denote the sum
and the difference of the denoted values. -/
theorem C25_add_sub_exact (a b : BigInteger) (fuel : Nat) (ha : Normalised a)
    (hb : Normalised b) (hf : 4 ≤ fuel) :
    (∃ r, BigInteger.add fuel a b = some r ∧ Normalised r ∧ r.toInt = a.toInt + b.toInt) ∧
      (∃ r, BigInteger.sub fuel a b = some r ∧ Normalised r ∧
        r.toInt = a.toInt - b.toInt) := by
  obtain ⟨g, rfl⟩ : ∃ g, fuel = g + 4 := ⟨fuel - 4, by omega⟩
  exact ⟨add_spec ha hb (g + 1), sub_spec ha hb g⟩

/-- The claim C25 at `-99999999 + 1` and `-99999999 - 1`, with call depth four. -/
theorem C25_add_sub_exact_witness :
    (∃ r, BigInteger.add 4 (BigInteger.ofLongLong (-99999999)) (BigInteger.ofLongLong 1)
          = some r ∧ Normalised r ∧
        r.toInt = (BigInteger.ofLongLong (-99999999)).toInt + (BigInteger.ofLongLong 1).toInt) ∧
      (∃ r, BigInteger.sub 4 (BigInteger.ofLongLong (-99999999)) (BigInteger.ofLongLong 1)
          = some r ∧ Normalised r ∧
        r.toInt = (BigInteger.ofLongLong (-99999999)).toInt
          - (BigInteger.ofLongLong 1).toInt) :=
  C25_add_sub_exact (BigInteger.ofLongLong (-99999999)) (BigInteger.ofLongLong 1) 4
    (by decide) (by decide) (by decide)

/-- **C26.**  For normalised `a` and `b` the product `a * b` is normalised and
denotes the product of the denoted values; a zero product is the positive
zero, and otherwise the sign is positive iff the signs of `a` and `b` agree. -/
theorem C26_mul_exact (a b : BigInteger) (ha : Normalised a) (hb : Normalised b) :
    Normalised (a.mul b) ∧ (a.mul b).toInt = a.toInt * b.toInt ∧
      ((a.mul b).isPositive = true ↔
        (a.isPositive = b.isPositive ∨ a.toInt * b.toInt = 0)) ∧
      (a.toInt * b.toInt = 0 → a.mul b = { data_ := [0], isPositive := true }) := by
  obtain ⟨h1, h2, h3⟩ := BigInteger.mulAssign_spec ha hb
  refine ⟨h1, h2, h3, fun h0 => ?_⟩
  have hv : (a.mul b).toInt = ({ data_ := [0], isPositive := true } : BigInteger).toInt := by
    show (a.mulAssign b).toInt = _
    rw [h2, h0]; decide
  exact h1.eq_of_toInt Normalised.zero hv

/-- The claim C26 at `123456789 * (-987654321)`. -/
theorem C26_mul_exact_witness :
    Normalised ((BigInteger.ofLongLong 123456789).mul (BigInteger.ofLongLong (-987654321))) ∧
      ((BigInteger.ofLongLong 123456789).mul (BigInteger.ofLongLong (-987654321))).toInt
        = (BigInteger.ofLongLong 123456789).toInt * (BigInteger.ofLongLong (-987654321)).toInt ∧
      (((BigInteger.ofLongLong 123456789).mul (BigInteger.ofLongLong (-987654321))).isPositive
          = true ↔
        ((BigInteger.ofLongLong 123456789).isPositive
            = (BigInteger.ofLongLong (-987654321)).isPositive ∨
          (BigInteger.ofLongLong 123456789).toInt
            * (BigInteger.ofLongLong (-987654321)).toInt = 0)) ∧
      ((BigInteger.ofLongLong 123456789).toInt * (BigInteger.ofLongLong (-987654321)).toInt = 0 →
        (BigInteger.ofLongLong 123456789).mul (BigInteger.ofLongLong (-987654321))
          = { data_ := [0], isPositive := true }) :=
  C26_mul_exact (BigInteger.ofLongLong 123456789) (BigInteger.ofLongLong (-987654321))
    (by decide) (by decide)

/-- **C27.** For a canonical decimal string, an optional `-` followed by digits `D`
with no leading zero unless `D` is `0`, and not `-0`, the constructor from the
string returns a normalised number that denotes the value of the numeral, and
`toString` gives the string back. -/
theorem C27_decimal_round_trip (negative : Bool) (D : List Char) (hne : D ≠ [])
    (hD : AllDigits D) (hlead : D.head? = some '0' → D = ['0'])
    (hzero : negative = true → D ≠ ['0']) :
    ∃ a, BigInteger.ofString ((if negative then ['-'] else []) ++ D) = some a ∧
      Normalised a ∧ a.toString = some ((if negative then ['-'] else []) ++ D) ∧
      a.toInt = (if negative then -(digitsVal D : Int) else (digitsVal D : Int)) := by
  have hlen : 1 ≤ D.length := List.length_pos.mpr hne
  obtain ⟨ds, e1, i1, i2, i3, i4, i5⟩ := ofStringLoop_spec D hD hlead (D.length + 1) D.length
    (by omega) hlen (le_refl _)
  rw [List.take_length] at i4 i5
  cases negative with
  | false =>
    have hhead : D.head? ≠ some '-' := by
      cases D with
      | nil => exact absurd rfl hne
      | cons c t =>
        have hc := (AllDigits.digits_cons_iff.mp hD).1
        intro h0
        simp only [List.head?_cons, Option.some.injEq] at h0
        subst h0
        exact absurd hc (by decide)
    refine ⟨{ data_ := ds, isPositive := true }, ?_, ?_, ?_, ?_⟩
    · simp [BigInteger.ofString, hhead, e1]
    · refine ⟨i1, i2, fun h0 => ⟨?_, rfl⟩⟩
      by_cases hD0 : D = ['0']
      · subst hD0
        have : ofStringLoop ['0'] 2 1 = some [0] := by decide
        rw [show (['0'] : List Char).length + 1 = 2 from rfl,
          show (['0'] : List Char).length = 1 from rfl, this] at e1
        simp only [Option.some.injEq] at e1
        exact e1.symm
      · exact absurd h0 (i3 hD0)
    · simp [BigInteger.toString, i5]
    · simp [BigInteger.toInt, i4]
  | true =>
    refine ⟨{ data_ := ds, isPositive := false }, ?_, ?_, ?_, ?_⟩
    · simp [BigInteger.ofString, e1]
    · exact Normalised.of_lead i1 (i3 (hzero rfl)) i2
    · simp [BigInteger.toString, i5]
    · simp [BigInteger.toInt, i4]

/-- The claim C27 at the string `-12345678900000042`. -/
theorem C27_decimal_round_trip_witness :
    ∃ a, BigInteger.ofString ((if true then ['-'] else []) ++ "12345678900000042".toList)
        = some a ∧
      Normalised a ∧
      a.toString = some ((if true then ['-'] else []) ++ "12345678900000042".toList) ∧
      a.toInt = (if true then -(digitsVal "12345678900000042".toList : Int)
        else (digitsVal "12345678900000042".toList : Int)) :=
  C27_decimal_round_trip true "12345678900000042".toList (by decide) (by decide) (by decide)
    (by decide)

/-- The claim C28 as stated fails on the code, which takes the argument of a
constructor as it is.  `BigInteger(1) / BigInteger(-2)` is a zero with the
negative sign; the `Rational` built from it is not in lowest terms, it passes
the code's own test for a non-zero number, and `3 /=` it leaves the
denominator `0`.  `BigInteger(LLONG_MIN)` has no limbs, since `number *= -1`
overflows, so `Rational(LLONG_MIN)` is not in lowest terms either. -/
theorem C28_constructor_keeps_its_argument :
    BigInteger.div 4 (BigInteger.ofLongLong 1) (BigInteger.ofLongLong (-2))
        = some { data_ := [0], isPositive := false } ∧
      ¬ (Rational.ofBigInteger { data_ := [0], isPositive := false }).LowestTerms ∧
      (Rational.ofBigInteger { data_ := [0], isPositive := false }).numerator.toBool = true ∧
      Rational.divAssign 10 (Rational.ofLongLong 3)
          (Rational.ofBigInteger { data_ := [0], isPositive := false })
        = some { numerator := { data_ := [1], isPositive := false },
                 denominator := { data_ := [0], isPositive := true } } ∧
      ¬ 0 < ({ data_ := [0], isPositive := true } : BigInteger).toInt ∧
      LLONG_MIN = -2 ^ 63 ∧
      (Rational.ofLongLong LLONG_MIN).numerator = { data_ := [], isPositive := false } ∧
      ¬ (Rational.ofLongLong LLONG_MIN).LowestTerms :=
  ⟨by decide, fun h => absurd h.1 (by decide), by decide, by decide, by decide, by decide,
    by decide, fun h => absurd h.1 (by decide)⟩

/-- **C28** (as amended).  Every fraction built by a constructor from a
`long long` other than `LLONG_MIN` or from a normalised `BigInteger`, and from
such fractions by `+=`, `-=`, `*=` and `/=` with a non-zero divisor, is in
lowest terms: its denominator is positive and coprime to the numerator, and
zero is stored as `0/1`.  On built fractions each of the four assignments
returns, for every sufficient bound on the depth of calls, a fraction in
lowest terms. -/
theorem C28_rational_lowest_terms (a b : Rational) (ha : Built a) (hb : Built b) :
    a.LowestTerms ∧
      ∃ N, ∀ fuel, N ≤ fuel →
        (∃ r, Rational.addAssign fuel a b = some r ∧ r.LowestTerms) ∧
        (∃ r, Rational.subAssign fuel a b = some r ∧ r.LowestTerms) ∧
        (∃ r, Rational.mulAssign fuel a b = some r ∧ r.LowestTerms) ∧
        (b.numerator.toInt ≠ 0 →
          ∃ r, Rational.divAssign fuel a b = some r ∧ r.LowestTerms) ∧
        (a.numerator.toInt ≠ 0 →
          ∃ r, Rational.divAssignSelf fuel a = some r ∧ r.LowestTerms) := by
  have la := built_lowestTerms ha
  have lb := built_lowestTerms hb
  refine ⟨la, (a.denominator.toInt * b.denominator.toInt).toNat + 4
    + (a.denominator.toInt * b.numerator.toInt).natAbs
    + (a.denominator.toInt * (a.numerator.toInt * a.denominator.toInt)).natAbs, ?_⟩
  intro fuel hf
  have hd := mul_pos la.2.2.1 lb.2.2.1
  have hda : a.denominator.toInt ≠ 0 := by have := la.2.2.1; omega
  rw [la.eq_ofInts, lb.eq_ofInts]
  simp only [Rational.ofInts, canon_toInt]
  refine ⟨⟨_, rat_add_spec _ _ _ _ la.2.2.1 lb.2.2.1 fuel (by omega),
      lowestTerms_reduced _ _ hd⟩,
    ⟨_, rat_sub_spec _ _ _ _ la.2.2.1 lb.2.2.1 fuel (by omega), lowestTerms_reduced _ _ hd⟩,
    ⟨_, rat_mul_spec _ _ _ _ la.2.2.1 lb.2.2.1 fuel (by omega), lowestTerms_reduced _ _ hd⟩,
    fun hb0 => ⟨_, rat_div_spec _ _ _ _ la.2.2.1 hb0 fuel (by omega), ?_⟩,
    fun ha0 => ⟨_, rat_divSelf_spec _ _ la.2.2.1 ha0 fuel (by omega), ?_⟩⟩
  · have := mul_ne_zero hda hb0
    split
    · exact lowestTerms_reduced _ _ (by omega)
    · exact lowestTerms_reduced _ _ (by omega)
  · have := mul_ne_zero hda (mul_ne_zero ha0 hda)
    split
    · exact lowestTerms_reduced _ _ (by omega)
    · exact lowestTerms_reduced _ _ (by omega)

/-- The claim C28 as amended, at the fraction `-3/2`, built as `6 /= -4`, and the
operand `3`. -/
theorem C28_rational_lowest_terms_witness :
    ({ numerator := { data_ := [3], isPositive := false },
       denominator := { data_ := [2], isPositive := true } } : Rational).LowestTerms ∧
      ∃ N, ∀ fuel, N ≤ fuel →
        (∃ r, Rational.addAssign fuel
            { numerator := { data_ := [3], isPositive := false },
              denominator := { data_ := [2], isPositive := true } }
            (Rational.ofLongLong 3) = some r ∧ r.LowestTerms) ∧
        (∃ r, Rational.subAssign fuel
            { numerator := { data_ := [3], isPositive := false },
              denominator := { data_ := [2], isPositive := true } }
            (Rational.ofLongLong 3) = some r ∧ r.LowestTerms) ∧
        (∃ r, Rational.mulAssign fuel
            { numerator := { data_ := [3], isPositive := false },
              denominator := { data_ := [2], isPositive := true } }
            (Rational.ofLongLong 3) = some r ∧ r.LowestTerms) ∧
        ((Rational.ofLongLong 3).numerator.toInt ≠ 0 →
          ∃ r, Rational.divAssign fuel
            { numerator := { data_ := [3], isPositive := false },
              denominator := { data_ := [2], isPositive := true } }
            (Rational.ofLongLong 3) = some r ∧ r.LowestTerms) ∧
        (({ numerator := { data_ := [3], isPositive := false },
            denominator := { data_ := [2], isPositive := true } } : Rational).numerator.toInt
            ≠ 0 →
          ∃ r, Rational.divAssignSelf fuel
            { numerator := { data_ := [3], isPositive := false },
              denominator := { data_ := [2], isPositive := true } } = some r ∧
            r.LowestTerms) :=
  C28_rational_lowest_terms _ (Rational.ofLongLong 3)
    (Built.divAssign 8 (Rational.ofLongLong 6) (Rational.ofLongLong (-4)) _
      (Built.ofLongLong 6 (by decide) (by decide))
      (Built.ofLongLong (-4) (by decide) (by decide)) (by decide) (by decide))
    (Built.ofLongLong 3 (by decide) (by decide))

end BigArith

namespace CppString

/-! ## String::find -/

theorem occurs_iff_at (s t : String) (i : Nat) :
    Occurs s t i ↔ i + t.size_ ≤ s.size_ ∧ ∀ k, k < t.size_ → t.at k = s.at (i + k) := by
  unfold Occurs String.size_ String.at
  constructor
  · rintro ⟨hle, he⟩
    refine ⟨hle, ?_⟩
    intro k hk
    have h1 : t.data_[k]? = ((List.drop i s.data_).take t.data_.length)[k]? := by rw [he]
    rw [List.getElem?_take_of_lt hk, List.getElem?_drop] at h1
    simp only [List.getD_eq_getElem?_getD, h1]
  · rintro ⟨hle, he⟩
    refine ⟨hle, ?_⟩
    apply List.ext_getElem?
    intro k
    by_cases hk : k < t.data_.length
    · rw [List.getElem?_take_of_lt hk, List.getElem?_drop]
      have := he k hk
      simp only [List.getD_eq_getElem?_getD] at this
      have h1 : k < t.data_.length := hk
      have h2 : i + k < s.data_.length := by omega
      rw [List.getElem?_eq_getElem h1, List.getElem?_eq_getElem h2] at this ⊢
      simp at this
      rw [this]
    · rw [List.getElem?_eq_none (by simp; omega), List.getElem?_eq_none (by omega)]

theorem findInner_eq_one (s t : String) (i fuel j : Nat) (hf : i + t.size_ ≤ j + fuel) :
    findInner s t i fuel j = 1 ↔ ∀ k, j ≤ k → k < i + t.size_ → t.at (k - i) = s.at k := by
  induction fuel generalizing j with
  | zero =>
    simp only [findInner, true_iff]
    intro k h1 h2; omega
  | succ n ih =>
    simp only [findInner]
    by_cases hj : j < i + t.size_
    · simp only [hj, if_true]
      by_cases hne : t.at (j - i) = s.at j
      · simp only [hne, ne_eq, not_true_eq_false, if_false]
        rw [ih (j + 1) (by omega)]
        constructor
        · intro h k h1 h2
          by_cases hk : k = j
          · subst hk; exact hne
          · exact h k (by omega) h2
        · intro h k h1 h2
          exact h k (by omega) h2
      · simp only [ne_eq, hne, not_false_eq_true, if_true]
        constructor
        · intro h; simp at h
        · intro h; exact absurd (h j (Nat.le_refl _) hj) hne
    · simp only [hj, if_false, true_iff]
      intro k h1 h2; omega

theorem findInner_match (s t : String) (i : Nat) (hle : i + t.size_ ≤ s.size_) :
    findInner s t i t.size_ i = 1 ↔ Occurs s t i := by
  rw [findInner_eq_one s t i t.size_ i (Nat.le_refl _), occurs_iff_at]
  constructor
  · intro h
    refine ⟨hle, ?_⟩
    intro k hk
    have := h (i + k) (by omega) (by omega)
    simpa using this
  · rintro ⟨_, h⟩ k h1 h2
    have := h (k - i) (by omega)
    have e : i + (k - i) = k := by omega
    rw [e] at this
    exact this

theorem findOuter_spec (s t : String) (fuel i : Nat) (hf : s.size_ + 1 ≤ i + fuel) :
    ((∃ k, i ≤ k ∧ Occurs s t k) →
      i ≤ findOuter s t fuel i ∧ Occurs s t (findOuter s t fuel i) ∧
      ∀ k, i ≤ k → k < findOuter s t fuel i → ¬ Occurs s t k) ∧
    ((¬ ∃ k, i ≤ k ∧ Occurs s t k) → findOuter s t fuel i = s.size_) := by
  induction fuel generalizing i with
  | zero =>
    simp only [findOuter]
    refine ⟨?_, fun _ => trivial⟩
    rintro ⟨k, hk, ho⟩
    have := ho.1
    omega
  | succ n ih =>
    simp only [findOuter]
    by_cases hle : i + t.size_ ≤ s.size_
    · simp only [hle, if_true]
      by_cases hm : findInner s t i t.size_ i = 1
      · simp only [hm, if_true]
        have ho := (findInner_match s t i hle).1 hm
        refine ⟨fun _ => ⟨Nat.le_refl _, ho, fun k h1 h2 => by omega⟩, ?_⟩
        intro hno
        exact absurd ⟨i, Nat.le_refl _, ho⟩ hno
      · simp only [hm, if_false]
        have hno : ¬ Occurs s t i := fun ho => hm ((findInner_match s t i hle).2 ho)
        obtain ⟨ih1, ih2⟩ := ih (i + 1) (by omega)
        refine ⟨?_, ?_⟩
        · rintro ⟨k, hk, ho⟩
          have hk1 : i + 1 ≤ k := by
            rcases Nat.eq_or_lt_of_le hk with h | h
            · subst h; exact absurd ho hno
            · exact h
          obtain ⟨a, b, c⟩ := ih1 ⟨k, hk1, ho⟩
          refine ⟨by omega, b, ?_⟩
          intro k2 h1 h2
          rcases Nat.eq_or_lt_of_le h1 with h | h
          · subst h; exact hno
          · exact c k2 h h2
        · intro hnone
          apply ih2
          rintro ⟨k, hk, ho⟩
          exact hnone ⟨k, by omega, ho⟩
    · simp only [hle, if_false]
      refine ⟨?_, fun _ => trivial⟩
      rintro ⟨k, hk, ho⟩
      have := ho.1
      omega

/-- **C29.** The member `String::find`: if `t` occurs in `s`, `s.find(t)` is
the least index at which the `t.size()` characters of `s` are `t` (an index
`i` with `i + t.size() <= s.size()`); if `t` does not occur in `s`, and so
when `t` is longer than `s`, `s.find(t)` is `s.size()`. -/
theorem C29_find_first_occurrence (s t : String) :
    ((∃ i, Occurs s t i) →
      Occurs s t (s.find t) ∧ ∀ k, k < s.find t → ¬ Occurs s t k) ∧
    ((¬ ∃ i, Occurs s t i) → s.find t = s.size_) ∧
    (s.size_ < t.size_ → s.find t = s.size_) := by
  obtain ⟨h1, h2⟩ := findOuter_spec s t (s.size_ + 1) 0 (by omega)
  refine ⟨?_, ?_, ?_⟩
  · rintro ⟨i, hi⟩
    obtain ⟨_, b, c⟩ := h1 ⟨i, Nat.zero_le _, hi⟩
    exact ⟨b, fun k hk => c k (Nat.zero_le _) hk⟩
  · intro hno
    apply h2
    rintro ⟨k, _, ho⟩
    exact hno ⟨k, ho⟩
  · intro hlt
    apply h2
    rintro ⟨k, _, ho⟩
    have := ho.1
    omega

/-- The claim C29 at `"abcabc".find("ca")`, `"abc".find("")` and
`"ab".find("abc")`. -/
theorem C29_find_first_occurrence_witness :
    String.find ⟨['a', 'b', 'c', 'a', 'b', 'c']⟩ ⟨['c', 'a']⟩ = 2 ∧
    Occurs ⟨['a', 'b', 'c', 'a', 'b', 'c']⟩ ⟨['c', 'a']⟩
      (String.find ⟨['a', 'b', 'c', 'a', 'b', 'c']⟩ ⟨['c', 'a']⟩) ∧
    String.find ⟨['a', 'b']⟩ ⟨['a', 'b', 'c']⟩ = String.size_ ⟨['a', 'b']⟩ :=
  ⟨by decide,
   ((C29_find_first_occurrence ⟨['a', 'b', 'c', 'a', 'b', 'c']⟩ ⟨['c', 'a']⟩).1
      ⟨2, by decide, by decide⟩).1,
   (C29_find_first_occurrence ⟨['a', 'b']⟩ ⟨['a', 'b', 'c']⟩).2.2 (by decide)⟩

end CppString
